import Mathlib

/-!
Verification of the geche in-process cache library (Go) against its
natural-language specification.  The Go code is shallowly embedded:

* Go maps become association lists (`lookupK` / `insertK` / `eraseK`),
  matching Go map semantics (lookup, overwrite, delete).
* `time.Time` values become `Int` timestamps; `time.Duration` becomes `Int`;
  `now.Sub(ts) >= ttl` becomes `now - ts ≥ ttl`.  The `now` clock of each
  operation is passed explicitly.
* The zero value of a comparable key type `K` is a distinguished element
  (field `zero` of the cache, as in the source, which caches `zero[K]()`).
  The zero value of `V` is `(default : V)` via `Inhabited`.
* Locks are dropped: each exported operation is a function from state to
  state (the Go code holds the lock for the whole operation body).
-/

namespace Geche

/-! ## Association-list maps (embedding of Go maps) -/

variable {K A V : Type}

/-- Go map read `m[k]`: first binding for `k`, if any. -/
def lookupK [DecidableEq K] : List (K × A) → K → Option A
  | [], _ => none
  | (k', a) :: rest, k => if k' = k then some a else lookupK rest k

/-- Go map write `m[k] = a`: overwrite the binding if present, else add it. -/
def insertK [DecidableEq K] : List (K × A) → K → A → List (K × A)
  | [], k, a => [(k, a)]
  | (k', a') :: rest, k, a =>
      if k' = k then (k, a) :: rest else (k', a') :: insertK rest k a

/-- Go map delete `delete(m, k)`. -/
def eraseK [DecidableEq K] (m : List (K × A)) (k : K) : List (K × A) :=
  m.filter (fun p => p.1 ≠ k)

theorem lookupK_insertK_self [DecidableEq K] (m : List (K × A)) (k : K) (a : A) :
    lookupK (insertK m k a) k = some a := by
  induction m with
  | nil => simp [insertK, lookupK]
  | cons p rest ih =>
    obtain ⟨k', a'⟩ := p
    by_cases h : k' = k <;> simp [insertK, lookupK, h, ih]

theorem lookupK_insertK_ne [DecidableEq K] (m : List (K × A)) (k k' : K) (a : A)
    (h : k' ≠ k) : lookupK (insertK m k a) k' = lookupK m k' := by
  induction m with
  | nil => simp [insertK, lookupK, Ne.symm h]
  | cons p rest ih =>
    obtain ⟨k0, a0⟩ := p
    by_cases h0 : k0 = k
    · subst h0
      simp [insertK, lookupK, Ne.symm h]
    · by_cases h1 : k0 = k'
      · subst h1
        simp [insertK, lookupK, h0]
      · simp [insertK, lookupK, h0, h1, ih]

theorem lookupK_eraseK_self [DecidableEq K] (m : List (K × A)) (k : K) :
    lookupK (eraseK m k) k = none := by
  induction m with
  | nil => simp [eraseK, lookupK]
  | cons p rest ih =>
    obtain ⟨k', a'⟩ := p
    by_cases h : k' = k <;>
      simp_all [eraseK, lookupK, List.filter]

theorem lookupK_eraseK_ne [DecidableEq K] (m : List (K × A)) (k k' : K)
    (h : k' ≠ k) : lookupK (eraseK m k) k' = lookupK m k' := by
  induction m with
  | nil => simp [eraseK, lookupK]
  | cons p rest ih =>
    obtain ⟨k0, a0⟩ := p
    by_cases h0 : k0 = k
    · subst h0
      simp_all [eraseK, lookupK, List.filter, Ne.symm h]
    · by_cases h1 : k0 = k' <;>
        simp_all [eraseK, lookupK, List.filter, h0]

theorem lookupK_eq_none_iff [DecidableEq K] (m : List (K × A)) (k : K) :
    lookupK m k = none ↔ k ∉ m.map Prod.fst := by
  induction m with
  | nil => simp [lookupK]
  | cons p rest ih =>
    obtain ⟨k', a'⟩ := p
    by_cases h : k' = k
    · subst h
      simp [lookupK]
    · simp [lookupK, h, ih, Ne.symm h]

/-! ## TTL engine: `MapTTLCache` (map_ttl.go)

The record and cache state follow the source exactly; `prev`/`next` are
sibling *keys*, the zero value of `K` is the "no neighbour" sentinel. -/

structure ttlRec (K V : Type) where
  prev : K
  next : K
  value : V
  timestamp : Int
deriving DecidableEq, Repr

structure MapTTLCache (K V : Type) where
  data : List (K × ttlRec K V)
  ttl : Int
  tail : K
  head : K
  zero : K
deriving DecidableEq, Repr

variable [DecidableEq K] [Inhabited V]

/-- `NewMapTTLCache`: fresh cache (background sweeper goroutine is modelled by
explicit `cleanup` calls). -/
def MapTTLCache.init (zero : K) (ttl : Int) : MapTTLCache K V :=
  { data := [], ttl := ttl, tail := zero, head := zero, zero := zero }

/-- The Go zero value of `ttlRec[K,V]` (what `c.data[k]` yields on a miss). -/
def zeroRec (c : MapTTLCache K V) : ttlRec K V :=
  { prev := c.zero, next := c.zero, value := default, timestamp := 0 }

/-- `c.data[k]` with Go semantics: zero record on miss. -/
def MapTTLCache.dataD (c : MapTTLCache K V) (k : K) : ttlRec K V :=
  (lookupK c.data k).getD (zeroRec c)

/-- `MapTTLCache.get` (unexported): returns the record's value together with
`ok = false` when the key is absent or the record is outdated
(`now - timestamp ≥ ttl`).  On a miss the value component is the zero value
of `V`, exactly as `v.value` of Go's zero record. -/
def MapTTLCache.get (c : MapTTLCache K V) (now : Int) (key : K) : V × Bool :=
  match lookupK c.data key with
  | none => (default, false)
  | some v =>
      if now - v.timestamp ≥ c.ttl then (v.value, false) else (v.value, true)

/-- `MapTTLCache.Get`: public read.  Result `none` stands for `ErrNotFound`.
The second component is the cache state after the call: the source body only
reads (`RLock`; no writes), so the state is returned unchanged. -/
def MapTTLCache.Get (c : MapTTLCache K V) (now : Int) (key : K) :
    Option V × MapTTLCache K V :=
  let r := c.get now key
  ((if r.2 then some r.1 else none), c)

/-- `MapTTLCache.set` (unexported).  Mirrors map_ttl.go lines 240-289,
including the read/write order of the unlink branch. -/
def MapTTLCache.set (c : MapTTLCache K V) (now : Int) (key : K) (value : V) :
    MapTTLCache K V :=
  -- val := ttlRec{value: value, prev: c.tail, timestamp: ts} (next is zero K)
  let val : ttlRec K V :=
    { prev := c.tail, next := c.zero, value := value, timestamp := now }
  if c.head = c.zero then
    -- empty-list branch
    { c with head := key, tail := key, data := insertK c.data key val }
  else if c.tail = key then
    -- already the tail: update value and timestamp in place
    let rec0 := c.dataD c.tail
    { c with data :=
        insertK c.data c.tail { rec0 with timestamp := now, value := value } }
  else
    -- unlink an existing record (if any), then append at the tail
    let c1 :=
      match lookupK c.data key with
      | some rec =>
        -- next := c.data[rec.next] is read before any write
        let next0 := c.dataD rec.next
        if key = c.head then
          { c with head := rec.next,
                   data := insertK c.data rec.next { next0 with prev := c.zero } }
        else
          let prev0 := c.dataD rec.prev
          let d1 := insertK c.data rec.prev { prev0 with next := rec.next }
          { c with data := insertK d1 rec.next { next0 with prev := rec.prev } }
      | none => c
    let tailval := c1.dataD c1.tail
    let d2 := insertK c1.data c1.tail { tailval with next := key }
    { c1 with data := insertK d2 key val, tail := key }

/-- `MapTTLCache.Set` (public): lock + `set`. -/
def MapTTLCache.Set (c : MapTTLCache K V) (now : Int) (key : K) (value : V) :
    MapTTLCache K V :=
  c.set now key value

/-- `MapTTLCache.SetIfPresent`: returns `(old, true)` and re-sets when `get`
succeeds, otherwise `(old, false)` with no mutation, where `old` is whatever
`get` returned (the stale stored value for an expired key; the zero value of
`V` for an absent one). -/
def MapTTLCache.SetIfPresent (c : MapTTLCache K V) (now : Int) (key : K)
    (value : V) : (V × Bool) × MapTTLCache K V :=
  let r := c.get now key
  if r.2 then ((r.1, true), c.set now key value) else ((r.1, false), c)

/-- `MapTTLCache.SetIfAbsent`: mirror of `SetIfPresent`. -/
def MapTTLCache.SetIfAbsent (c : MapTTLCache K V) (now : Int) (key : K)
    (value : V) : (V × Bool) × MapTTLCache K V :=
  let r := c.get now key
  if r.2 then ((r.1, false), c) else ((r.1, true), c.set now key value)

/-- `MapTTLCache.Del` (map_ttl.go lines 127-159).  The map delete happens
first; the neighbour fix-ups read the post-delete map, as in the source.
`Del` contains no eviction-callback invocation. -/
def MapTTLCache.Del (c : MapTTLCache K V) (key : K) : MapTTLCache K V :=
  match lookupK c.data key with
  | none => c
  | some rec =>
    let d0 := eraseK c.data key
    let h1 := if key = c.head then rec.next else c.head
    let t1 := if key = c.tail then rec.prev else c.tail
    let d1 :=
      if rec.prev ≠ c.zero then
        insertK d0 rec.prev
          { (lookupK d0 rec.prev).getD (zeroRec c) with next := rec.next }
      else d0
    let d2 :=
      if rec.next ≠ c.zero then
        insertK d1 rec.next
          { (lookupK d1 rec.next).getD (zeroRec c) with prev := rec.prev }
      else d1
    { c with data := d2, head := h1, tail := t1 }

/-- `MapTTLCache.Len`: `len(c.data)`. -/
def MapTTLCache.Len (c : MapTTLCache K V) : Nat :=
  c.data.length

/-- Loop of `MapTTLCache.cleanup` (map_ttl.go lines 178-207): walk from
`head`, removing outdated records and recording evicted `(key, value)` pairs
into the `evicted` Go map (modelled as an association list in insertion
order, i.e. the order the walk removes entries).  `fuel` bounds the loop;
each iteration deletes one key, so `c.data.length` steps always suffice. -/
def cleanupLoop (now : Int) :
    Nat → MapTTLCache K V → K → List (K × V) →
      MapTTLCache K V × List (K × V)
  | 0, c, _, evicted => (c, evicted)
  | fuel + 1, c, key, evicted =>
    match lookupK c.data key with
    | none => (c, evicted)
    | some rec =>
      if now - rec.timestamp < c.ttl then (c, evicted)
      else
        let c1 := { c with head := rec.next, data := eraseK c.data key }
        let evicted1 := insertK evicted key rec.value
        if key = c1.tail then ({ c1 with tail := c1.zero }, evicted1)
        else
          let c2 :=
            match lookupK c1.data rec.next with
            | some nxt =>
                { c1 with data :=
                    insertK c1.data rec.next { nxt with prev := c1.zero } }
            | none => c1
          cleanupLoop now fuel c2 rec.next evicted1

/-- `MapTTLCache.cleanup`: the lock-held sweep.  Returns the new state and
the `evicted` map contents (in map-insertion order). -/
def MapTTLCache.cleanup (c : MapTTLCache K V) (now : Int) :
    MapTTLCache K V × List (K × V) :=
  cleanupLoop now (c.data.length + 1) c c.head []

/-- After releasing the lock, `cleanup` ranges over the `evicted` Go map and
invokes the callback per entry.  Go map iteration order is unspecified, so a
callback invocation sequence is admissible iff it is a permutation of the
evicted entries. -/
def CallbackRun (c : MapTTLCache K V) (now : Int) (cb : List (K × V)) : Prop :=
  cb.Perm (c.cleanup now).2

/-- Walk the FIFO list: `for k := c.head; k != c.zero; k = c.data[k].next`,
as the source's own test does, collecting at most `fuel` keys. -/
def MapTTLCache.walk (c : MapTTLCache K V) : Nat → K → List K
  | 0, _ => []
  | fuel + 1, k =>
    if k = c.zero then []
    else
      match lookupK c.data k with
      | none => []
      | some r => k :: c.walk fuel r.next

/-- After `set`, the record stored at `key` carries timestamp `now` and the
new value (all three branches of the source end by writing such a record). -/
theorem lookup_set_self (c : MapTTLCache K V) (now : Int) (key : K) (v : V) :
    ∃ p n, lookupK (c.set now key v).data key =
      some { prev := p, next := n, value := v, timestamp := now } := by
  unfold MapTTLCache.set
  by_cases h1 : c.head = c.zero
  · exact ⟨c.tail, c.zero, by simp [h1, lookupK_insertK_self]⟩
  · by_cases h2 : c.tail = key
    · refine ⟨(c.dataD c.tail).prev, (c.dataD c.tail).next, ?_⟩
      simp [h1, h2, lookupK_insertK_self]
    · exact ⟨c.tail, c.zero, by simp [h1, h2, lookupK_insertK_self]⟩

theorem ttl_set_ttl (c : MapTTLCache K V) (now : Int) (key : K) (v : V) :
    (c.set now key v).ttl = c.ttl := by
  unfold MapTTLCache.set
  by_cases h1 : c.head = c.zero
  · simp [h1]
  · by_cases h2 : c.tail = key
    · simp [h1, h2]
    · simp only [h1, h2, if_false]
      cases hl : lookupK c.data key with
      | none => simp [hl]
      | some rec => by_cases h3 : key = c.head <;> simp [hl, h3]

end Geche

open Geche

/-- Claim C1: for the TTL engine, a key set at time `t0` with TTL `τ` is
`NotFound` on `Get` at any time `t` with `t - t0 ≥ τ`; `Get` of an absent key
is `NotFound`; and `Get` never mutates the cache state (its body only reads,
so the state it leaves behind is the input state). -/
theorem ttl_get_expired_or_absent_notfound
    {K V : Type} [DecidableEq K] [Inhabited V]
    (c : MapTTLCache K V) (t0 t : Int) (k : K) (v : V) :
    (t - t0 ≥ c.ttl → (((c.set t0 k v).Get t k).1 = none)) ∧
    (lookupK c.data k = none → ((c.Get t k).1 = none)) ∧
    ((c.Get t k).2 = c) := by
  refine ⟨fun hexp => ?_, fun habs => ?_, rfl⟩
  · obtain ⟨p, n, hl⟩ := lookup_set_self c t0 k v
    simp [MapTTLCache.Get, MapTTLCache.get, hl, ttl_set_ttl c t0 k v, hexp]
  · simp [MapTTLCache.Get, MapTTLCache.get, habs]

/-- Witness for C1 at a concrete input: zero key 0, TTL 10, set at time 0,
read at time 10 (and read of the absent key 5). -/
theorem ttl_get_expired_or_absent_notfound_witness :
    ((10 : Int) - 0 ≥ (MapTTLCache.init (K := Nat) (V := Nat) 0 10).ttl →
      ((((MapTTLCache.init (K := Nat) (V := Nat) 0 10).set 0 1 42).Get 10 1).1 = none)) ∧
    (lookupK (MapTTLCache.init (K := Nat) (V := Nat) 0 10).data 5 = none →
      (((MapTTLCache.init (K := Nat) (V := Nat) 0 10).Get 10 5).1 = none)) := by
  refine ⟨fun h => ?_, fun h => ?_⟩
  · exact (ttl_get_expired_or_absent_notfound
      (MapTTLCache.init 0 10) 0 10 1 42).1 h
  · exact (ttl_get_expired_or_absent_notfound
      (MapTTLCache.init 0 10) 0 10 5 42).2.1 h

/-- Counterexample to claim C4: `SetIfPresent`/`SetIfAbsent` on an *expired*
key do not return the default value of `V`; they return the stale stored
value (`get` returns `v.value` of the found record even when outdated).
Concrete input: TTL 10, key 1 set to 42 at time 0, operations at time 20. -/
theorem ttl_setifpresent_expired_returns_stale :
    ((((MapTTLCache.init (K := Nat) (V := Nat) 0 10).set 0 1 42).SetIfPresent 20 1 99).1
        = (42, false)) ∧
    ((((MapTTLCache.init (K := Nat) (V := Nat) 0 10).set 0 1 42).SetIfAbsent 20 1 99).1
        = (42, true)) ∧
    (42 : Nat) ≠ default := by
  refine ⟨by decide, by decide, by decide⟩

/-- Claim C4 (amended): `SetIfPresent(k,v)` with `k` present and unexpired
re-sets (fresh `set` at the current time, so the entry survives until the new
timestamp plus TTL) and returns `(previous value, true)`; with `k` absent it
returns `(default, false)` and mutates nothing; with `k` *expired* it returns
`(the stale stored value, false)` and mutates nothing.  `SetIfAbsent` is the
mirror, except that on an expired key it returns the stale stored value
(not the default) together with `true`. -/
theorem ttl_setifpresent_setifabsent_spec
    {K V : Type} [DecidableEq K] [Inhabited V]
    (c : MapTTLCache K V) (now : Int) (k : K) (v : V) :
    (lookupK c.data k = none →
      c.SetIfPresent now k v = ((default, false), c) ∧
      c.SetIfAbsent now k v = ((default, true), c.set now k v)) ∧
    (∀ r, lookupK c.data k = some r → now - r.timestamp ≥ c.ttl →
      c.SetIfPresent now k v = ((r.value, false), c) ∧
      c.SetIfAbsent now k v = ((r.value, true), c.set now k v)) ∧
    (∀ r, lookupK c.data k = some r → now - r.timestamp < c.ttl →
      c.SetIfPresent now k v = ((r.value, true), c.set now k v) ∧
      c.SetIfAbsent now k v = ((r.value, false), c)) ∧
    (∀ t, t - now < c.ttl → (((c.set now k v).Get t k).1 = some v)) := by
  refine ⟨fun habs => ?_, fun r hr hexp => ?_, fun r hr hfresh => ?_,
    fun t ht => ?_⟩
  · constructor <;>
      simp [MapTTLCache.SetIfPresent, MapTTLCache.SetIfAbsent,
        MapTTLCache.get, habs]
  · constructor <;>
      simp [MapTTLCache.SetIfPresent, MapTTLCache.SetIfAbsent,
        MapTTLCache.get, hr, hexp]
  · have hlt : ¬ now - r.timestamp ≥ c.ttl := not_le.mpr hfresh
    constructor <;>
      simp [MapTTLCache.SetIfPresent, MapTTLCache.SetIfAbsent,
        MapTTLCache.get, hr, hlt]
  · obtain ⟨p, n, hl⟩ := lookup_set_self c now k v
    simp [MapTTLCache.Get, MapTTLCache.get, hl, ttl_set_ttl c now k v,
      not_le.mpr ht]

/-- Witness for the amended C4 at a concrete input (TTL 10; key 1 holding 42
set at time 0; operations at time 5, well inside the TTL). -/
theorem ttl_setifpresent_setifabsent_spec_witness :
    (((MapTTLCache.init (K := Nat) (V := Nat) 0 10).set 0 1 42).SetIfPresent 5 1 99
        = ((42, true),
           (((MapTTLCache.init (K := Nat) (V := Nat) 0 10).set 0 1 42).set 5 1 99))) := by
  have h := (ttl_setifpresent_setifabsent_spec
      ((MapTTLCache.init (K := Nat) (V := Nat) 0 10).set 0 1 42) 5 1 99).2.2.1
      { prev := 0, next := 0, value := 42, timestamp := 0 } (by decide) (by decide)
  exact h.1

/-- Claim C10: using the zero value of `K` as a key breaks the FIFO list
bookkeeping.  After `Set(zeroK, v)` on an empty cache, `head` is re-assigned
the zero key, so the empty-list test still fires: a following `Set(k2, v2)`
with nonzero `k2` re-initialises `head`/`tail` to `k2`, leaving the zero-key
record in the map but unreachable: `Len` is 2 while walking `next` from
`head` visits only the single entry `k2`. -/
theorem ttl_zero_key_breaks_list
    {K V : Type} [DecidableEq K] [Inhabited V]
    (zero k2 : K) (ttl t0 t1 : Int) (v v2 : V) (hk : k2 ≠ zero) :
    (((MapTTLCache.init zero ttl).set t0 zero v).set t1 k2 v2).Len = 2 ∧
    ((((MapTTLCache.init zero ttl).set t0 zero v).set t1 k2 v2).walk 2
        (((MapTTLCache.init zero ttl).set t0 zero v).set t1 k2 v2).head = [k2]) ∧
    (lookupK ((((MapTTLCache.init zero ttl).set t0 zero v).set t1 k2 v2)).data
        zero).isSome := by
  have hstep : ((MapTTLCache.init zero ttl).set t0 zero v) =
      { data := [(zero, { prev := zero, next := zero, value := v,
                          timestamp := t0 })],
        ttl := ttl, tail := zero, head := zero, zero := zero } := by
    simp [MapTTLCache.init, MapTTLCache.set, insertK]
  rw [hstep]
  refine ⟨?_, ?_, ?_⟩
  · simp [MapTTLCache.set, MapTTLCache.Len, insertK, hk, Ne.symm hk]
  · simp [MapTTLCache.set, MapTTLCache.walk, insertK, lookupK, hk, Ne.symm hk]
  · simp [MapTTLCache.set, insertK, lookupK, hk, Ne.symm hk]

/-- Witness for C10 at a concrete input (`K = Nat`, zero value 0, second key 1). -/
theorem ttl_zero_key_breaks_list_witness :
    (((MapTTLCache.init (K := Nat) (V := Nat) 0 100).set 0 0 7).set 1 1 8).Len = 2 ∧
    ((((MapTTLCache.init (K := Nat) (V := Nat) 0 100).set 0 0 7).set 1 1 8).walk 2
        (((MapTTLCache.init (K := Nat) (V := Nat) 0 100).set 0 0 7).set 1 1 8).head
      = [1]) ∧
    (lookupK ((((MapTTLCache.init (K := Nat) (V := Nat) 0 100).set 0 0 7).set 1 1 8)).data
        0).isSome :=
  ttl_zero_key_breaks_list 0 1 100 0 1 7 8 (by decide)

namespace Geche

/-! ## Ring engine: `RingBuffer` (ring.go) -/

/-- One slot of the ring (`BufferRec`); field names `key`/`value` stand for
the source's `K`/`V` (which clash with the type parameters in Lean). -/
structure BufferRec (K V : Type) where
  key : K
  value : V
  empty : Bool
deriving DecidableEq, Repr

structure RingBuffer (K V : Type) where
  data : List (BufferRec K V)
  index : List (K × Nat)
  head : Nat
deriving DecidableEq, Repr

variable {K V : Type} [DecidableEq K] [Inhabited K] [Inhabited V]

instance : Inhabited (BufferRec K V) := ⟨⟨default, default, true⟩⟩

/-- `NewRingBuffer(size)`: `size` preallocated slots, all flagged empty. -/
def RingBuffer.init (size : Nat) : RingBuffer K V :=
  { data := List.replicate size { key := default, value := default, empty := true },
    index := [], head := 0 }

/-- `RingBuffer.set` (ring.go lines 50-63): evict the overwritten key from the
index (when the slot is occupied), write the slot, index the new key, advance
the cursor modulo capacity. -/
def RingBuffer.set (c : RingBuffer K V) (key : K) (value : V) : RingBuffer K V :=
  let old := c.data.getD c.head default
  let index1 := if old.empty then c.index else eraseK c.index old.key
  { data := c.data.set c.head { key := key, value := value, empty := false },
    index := insertK index1 key c.head,
    head := (c.head + 1) % c.data.length }

/-- `RingBuffer.Get`: index lookup, then the slot's value.  `none` stands for
`ErrNotFound`. -/
def RingBuffer.Get (c : RingBuffer K V) (key : K) : Option V :=
  match lookupK c.index key with
  | none => none
  | some i => some (c.data.getD i default).value

/-- `RingBuffer.Del`: flag the slot empty and drop the index entry. -/
def RingBuffer.Del (c : RingBuffer K V) (key : K) : RingBuffer K V :=
  match lookupK c.index key with
  | none => c
  | some idx =>
      { c with data := c.data.set idx { c.data.getD idx default with empty := true },
               index := eraseK c.index key }

/-- `RingBuffer.ListAll`: key-value pairs in insertion order, starting at the
slot after the cursor and skipping empty slots. -/
def RingBuffer.ListAll (c : RingBuffer K V) : List (K × V) :=
  (List.range c.data.length).filterMap fun i =>
    let rec0 := c.data.getD ((c.head + i) % c.data.length) default
    if rec0.empty then none else some (rec0.key, rec0.value)

/-- Sequential writes: `setRun c ps` performs `c.set k v` for each pair. -/
def setRun (c : RingBuffer K V) (ps : List (K × V)) : RingBuffer K V :=
  ps.foldl (fun c p => c.set p.1 p.2) c

end Geche

namespace Geche

variable {K V : Type} [DecidableEq K] [Inhabited K] [Inhabited V]

theorem getD_set_self {A : Type} [Inhabited A] (l : List A) (i : Nat) (a : A)
    (h : i < l.length) : (l.set i a).getD i default = a := by
  simp [List.getD, List.getElem?_set_eq_of_lt, h]

theorem getD_set_ne {A : Type} [Inhabited A] (l : List A) (i j : Nat) (a : A)
    (h : i ≠ j) : (l.set i a).getD j default = l.getD j default := by
  simp [List.getD, List.getElem?_set_ne h]

theorem mod_ne_of_sub_lt (j m N : Nat) (h1 : j < m) (h2 : m - j < N) :
    j % N ≠ m % N := by
  intro h
  have hdvd : N ∣ m - j := (Nat.modEq_iff_dvd' (le_of_lt h1)).mp h
  have := Nat.le_of_dvd (by omega) hdvd
  omega

theorem sub_n_mod (m N : Nat) (h : N ≤ m) : (m - N) % N = m % N := by
  conv_rhs => rw [← Nat.sub_add_cancel h]
  rw [Nat.add_mod_right]

theorem mod_succ_mod (m N : Nat) : (m % N + 1) % N = (m + 1) % N := by
  conv_rhs => rw [Nat.add_mod]
  conv_lhs => rw [Nat.add_mod, Nat.mod_mod_of_dvd _ dvd_rfl]

theorem filterMapCongr {A B : Type} (l : List A) (f : A → Option B) (g : A → B)
    (h : ∀ a ∈ l, f a = some (g a)) : l.filterMap f = l.map g := by
  induction l with
  | nil => simp
  | cons x xs ih => simp_all

/-- State invariant of the ring after `m` sequential `set`s of the distinct
keys `keys[0..m)` with values `vals 0, vals 1, ...` into a fresh ring of
capacity `N`. -/
structure RingInv (N : Nat) (keys : List K) (vals : Nat → V) (m : Nat)
    (c : RingBuffer K V) : Prop where
  len : c.data.length = N
  hd : c.head = m % N
  idxIn : ∀ j, j < m → m ≤ j + N →
    lookupK c.index (keys.getD j default) = some (j % N)
  idxOut : ∀ j, j < m → j + N < m →
    lookupK c.index (keys.getD j default) = none
  idxNone : ∀ k, k ∉ keys.take m → lookupK c.index k = none
  slotIn : ∀ j, j < m → m ≤ j + N →
    c.data.getD (j % N) default =
      { key := keys.getD j default, value := vals j, empty := false }
  slotEmpty : ∀ i, i < N → m ≤ i → (c.data.getD i default).empty = true

theorem ringInv_init (N : Nat) (keys : List K) (vals : Nat → V) :
    RingInv N keys vals 0 (RingBuffer.init N) := by
  refine ⟨by simp [RingBuffer.init], by simp [RingBuffer.init],
    fun j hj => by omega, fun j hj => by omega,
    fun k hk => by simp [RingBuffer.init, lookupK],
    fun j hj => by omega, fun i hi _ => ?_⟩
  simp [RingBuffer.init, List.getD, List.getElem?_replicate, hi]


theorem getD_mem_take {A : Type} [Inhabited A] (keys : List A) (i m : Nat)
    (hi : i < m) (hm : m ≤ keys.length) : keys.getD i default ∈ keys.take m := by
  rw [List.getD_eq_getElem _ _ (by omega)]
  have h2 : i < (keys.take m).length := by simp; omega
  have h3 : (keys.take m).get ⟨i, h2⟩ = keys[i] := by
    simp [List.getElem_take]
  rw [← h3]
  exact List.get_mem _ _ _

theorem take_succ_getD {A : Type} [Inhabited A] (keys : List A) (m : Nat)
    (hm : m < keys.length) :
    keys.take (m + 1) = keys.take m ++ [keys.getD m default] := by
  rw [List.take_succ]
  simp [List.getD, List.getElem?_eq_getElem, hm]

theorem ringInv_step (N : Nat) (keys : List K) (vals : Nat → V) (m : Nat)
    (c : RingBuffer K V) (hN : 1 ≤ N) (hm : m < keys.length)
    (hnd : keys.Nodup) (hinv : RingInv N keys vals m c) :
    RingInv N keys vals (m + 1) (c.set (keys.getD m default) (vals m)) := by
  obtain ⟨len, hd, idxIn, idxOut, idxNone, slotIn, slotEmpty⟩ := hinv
  have hmodlt : m % N < N := Nat.mod_lt _ (by omega)
  have hkne : ∀ j i, j < keys.length → i < keys.length → j ≠ i →
      keys.getD j default ≠ keys.getD i default := by
    intro j i hj hi hne h
    rw [List.getD_eq_getElem _ _ hj, List.getD_eq_getElem _ _ hi] at h
    exact hne ((List.Nodup.getElem_inj_iff hnd).mp h)
  have hheadlt : c.head < c.data.length := by
    rw [hd, len]; exact hmodlt
  by_cases hfull : N ≤ m
  · -- capacity reached: the cursor slot holds keys[m-N], which gets evicted
    have hold : c.data.getD c.head default =
        { key := keys.getD (m - N) default, value := vals (m - N),
          empty := false } := by
      rw [hd, ← sub_n_mod m N hfull]
      exact slotIn (m - N) (by omega) (by omega)
    have hset : c.set (keys.getD m default) (vals m) =
        { data := c.data.set c.head
            { key := keys.getD m default, value := vals m, empty := false },
          index := insertK (eraseK c.index (keys.getD (m - N) default))
            (keys.getD m default) c.head,
          head := (c.head + 1) % c.data.length } := by
      rw [RingBuffer.set]
      simp only [hold]
      simp
    rw [hset]
    refine ⟨by simp [len], ?_, ?_, ?_, ?_, ?_, ?_⟩
    · simp only [List.length_set, len, hd]
      rw [mod_succ_mod]
    · intro j hj hwin
      by_cases hjm : j = m
      · subst hjm
        rw [lookupK_insertK_self, hd]
      · rw [lookupK_insertK_ne _ _ _ _ (hkne j m (by omega) hm hjm),
          lookupK_eraseK_ne _ _ _ (hkne j (m - N) (by omega) (by omega) (by omega))]
        exact idxIn j (by omega) (by omega)
    · intro j hj hout
      have hjm : j ≠ m := by omega
      rw [lookupK_insertK_ne _ _ _ _ (hkne j m (by omega) hm hjm)]
      by_cases hjev : j = m - N
      · subst hjev
        exact lookupK_eraseK_self _ _
      · rw [lookupK_eraseK_ne _ _ _ (hkne j (m - N) (by omega) (by omega) hjev)]
        exact idxOut j (by omega) (by omega)
    · intro k hk
      rw [take_succ_getD keys m hm] at hk
      simp only [List.mem_append, List.mem_singleton, not_or] at hk
      rw [lookupK_insertK_ne _ _ _ _ hk.2,
        lookupK_eraseK_ne _ _ _ (by
          intro h
          exact hk.1 (h ▸ getD_mem_take keys (m - N) m (by omega) (by omega)))]
      exact idxNone k hk.1
    · intro j hj hwin
      by_cases hjm : j = m
      · subst hjm
        rw [← hd, getD_set_self _ _ _ hheadlt]
      · have hjlt : j < m := by omega
        have hne : c.head ≠ j % N := by
          rw [hd]
          exact (mod_ne_of_sub_lt j m N hjlt (by omega)).symm
        rw [getD_set_ne _ _ _ _ hne]
        exact slotIn j (by omega) (by omega)
    · intro i hi hge
      omega
  · -- still filling up: the cursor slot is empty, nothing is evicted
    have hmm : m % N = m := Nat.mod_eq_of_lt (by omega)
    have hold : (c.data.getD c.head default).empty = true := by
      rw [hd, hmm]
      exact slotEmpty m (by omega) (le_refl m)
    have hset : c.set (keys.getD m default) (vals m) =
        { data := c.data.set c.head
            { key := keys.getD m default, value := vals m, empty := false },
          index := insertK c.index (keys.getD m default) c.head,
          head := (c.head + 1) % c.data.length } := by
      rw [RingBuffer.set]
      simp only [hold]
      simp
    rw [hset]
    refine ⟨by simp [len], ?_, ?_, ?_, ?_, ?_, ?_⟩
    · simp only [List.length_set, len, hd]
      rw [mod_succ_mod]
    · intro j hj hwin
      by_cases hjm : j = m
      · subst hjm
        rw [lookupK_insertK_self, hd]
      · rw [lookupK_insertK_ne _ _ _ _ (hkne j m (by omega) hm hjm)]
        exact idxIn j (by omega) (by omega)
    · intro j hj hout
      omega
    · intro k hk
      rw [take_succ_getD keys m hm] at hk
      simp only [List.mem_append, List.mem_singleton, not_or] at hk
      rw [lookupK_insertK_ne _ _ _ _ hk.2]
      exact idxNone k hk.1
    · intro j hj hwin
      by_cases hjm : j = m
      · subst hjm
        rw [← hd, getD_set_self _ _ _ hheadlt]
      · have hjlt : j < m := by omega
        have hne : c.head ≠ j % N := by
          rw [hd]
          exact (mod_ne_of_sub_lt j m N hjlt (by omega)).symm
        rw [getD_set_ne _ _ _ _ hne]
        exact slotIn j (by omega) (by omega)
    · intro i hi hge
      have hne : c.head ≠ i := by
        rw [hd, hmm]; omega
      rw [getD_set_ne _ _ _ _ hne]
      exact slotEmpty i hi (by omega)

theorem mod_add_mod_any (m i N : Nat) : (m % N + i) % N = (m + i) % N := by
  conv_rhs => rw [Nat.add_mod]
  conv_lhs => rw [Nat.add_mod, Nat.mod_mod_of_dvd _ dvd_rfl]

theorem ringInv_run (N : Nat) (keys : List K) (vals : Nat → V) (hN : 1 ≤ N)
    (hnd : keys.Nodup) (m : Nat) (hm : m ≤ keys.length) :
    RingInv N keys vals m (setRun (RingBuffer.init N)
      (((List.range keys.length).map
          fun j => (keys.getD j default, vals j)).take m)) := by
  induction m with
  | zero => simpa [setRun] using ringInv_init N keys vals
  | succ m ih =>
    have hmlt : m < keys.length := by omega
    have htake : (((List.range keys.length).map
        fun j => (keys.getD j default, vals j)).take (m + 1)) =
        (((List.range keys.length).map
          fun j => (keys.getD j default, vals j)).take m) ++
          [(keys.getD m default, vals m)] := by
      rw [take_succ_getD _ m (by simpa using hmlt)]
      congr 1
      rw [List.getD_eq_getElem _ _ (by simpa using hmlt)]
      simp
    rw [htake]
    unfold setRun
    rw [List.foldl_append]
    exact ringInv_step N keys vals m _ hN hmlt hnd (ih (by omega))

end Geche

/-- Claim C7: writing `N + k` distinct keys sequentially into a fresh ring of
capacity `N ≥ 1` (with `k ≥ 1`) leaves exactly the last `N` keys retrievable
(`Get` of key `j` with `j ≥ k` returns its value), the first `k` keys return
`NotFound`, and `ListAll` returns the `N` surviving entries oldest-first in
insertion order. -/
theorem ring_overwrite_last_n
    {K V : Type} [DecidableEq K] [Inhabited K] [Inhabited V]
    (N k : Nat) (hN : 1 ≤ N) (hk : 1 ≤ k)
    (keys : List K) (vals : Nat → V) (hlen : keys.length = N + k)
    (hnd : keys.Nodup) (c : RingBuffer K V)
    (hc : c = setRun (RingBuffer.init N)
      ((List.range keys.length).map fun j => (keys.getD j default, vals j))) :
    (∀ j, k ≤ j → j < N + k → c.Get (keys.getD j default) = some (vals j)) ∧
    (∀ j, j < k → c.Get (keys.getD j default) = none) ∧
    c.ListAll = (List.range N).map fun i =>
      (keys.getD (k + i) default, vals (k + i)) := by
  have hrun : c = setRun (RingBuffer.init N)
      (((List.range keys.length).map
        fun j => (keys.getD j default, vals j)).take (N + k)) := by
    have : (((List.range keys.length).map
        fun j => (keys.getD j default, vals j))).length = N + k := by
      simp [hlen]
    rw [List.take_of_length_le (by omega)]
    exact hc
  have hinv : RingInv N keys vals (N + k) c := by
    rw [hrun]
    exact ringInv_run N keys vals hN hnd (N + k) (by omega)
  obtain ⟨len, hd, idxIn, idxOut, idxNone, slotIn, slotEmpty⟩ := hinv
  refine ⟨?_, ?_, ?_⟩
  · intro j hjk hjm
    rw [RingBuffer.Get, idxIn j (by omega) (by omega)]
    show some (c.data.getD (j % N) default).value = some (vals j)
    rw [slotIn j (by omega) (by omega)]
  · intro j hj
    rw [RingBuffer.Get, idxOut j (by omega) (by omega)]
  · rw [RingBuffer.ListAll, len]
    refine filterMapCongr _ _ _ ?_
    intro i hi
    rw [List.mem_range] at hi
    have hidx : (c.head + i) % N = (k + i) % N := by
      rw [hd, mod_add_mod_any]
      have h2 : N + k + i = (k + i) + N := by omega
      rw [h2, Nat.add_mod_right]
    simp only [hidx, slotIn (k + i) (by omega) (by omega)]
    simp

/-- Witness for C7 at the spec's concrete scenario: capacity 10, fifteen
distinct keys 0..14 each mapped to itself; the first five are gone, the last
ten are retrievable, and `ListAll` yields the pairs (5,5)..(14,14) in order. -/
theorem ring_overwrite_last_n_witness :
    (setRun (RingBuffer.init (K := Nat) (V := Nat) 10)
        ((List.range 15).map fun j => ((List.range 15).getD j default, j))).ListAll
      = (List.range 10).map (fun i => (5 + i, 5 + i)) ∧
    (setRun (RingBuffer.init (K := Nat) (V := Nat) 10)
        ((List.range 15).map fun j => ((List.range 15).getD j default, j))).Get 0
      = none ∧
    (setRun (RingBuffer.init (K := Nat) (V := Nat) 10)
        ((List.range 15).map fun j => ((List.range 15).getD j default, j))).Get 14
      = some 14 := by
  have h := ring_overwrite_last_n (K := Nat) (V := Nat) 10 5 (by decide)
    (by decide) (List.range 15) (fun j => j) (by simp) (List.nodup_range 15)
    (setRun (RingBuffer.init 10)
      ((List.range (List.range 15).length).map
        fun j => ((List.range 15).getD j default, j))) rfl
  refine ⟨?_, ?_, ?_⟩
  · have h3 := h.2.2
    simp only [List.length_range] at h3
    rw [h3]
    decide
  · have h2 := h.2.1 0 (by decide)
    simp only [List.length_range] at h2
    simpa using h2
  · have h1 := h.1 14 (by decide) (by decide)
    simp only [List.length_range] at h1
    simpa using h1

namespace Geche

/-! ## Single-flight updater: `Updater` (updater.go)

The wrapper is embedded for a *sequential* execution (a single caller, no
other goroutine): `waitInFlight` finds no in-flight channel, the pool token
is acquired immediately (`poolSize ≥ 1`), the re-check under the mutex finds
no racing claim, and the deferred cleanup closes the channel, removes the
in-flight entry and releases the token — leaving only the inner cache as
persistent state.  The inner cache is the `MapCache` model (a plain map).
The Boolean result records whether `updateFn` was invoked. -/

structure Updater (K V E : Type) where
  cache : List (K × V)
  updateFn : K → Except E V

/-- `Updater.Get` (updater.go lines 76-120), sequential execution: on a cache
miss run `updateFn`; on success populate the inner cache and return the
value; on error return the error verbatim without touching the cache. -/
def Updater.Get [DecidableEq K] (u : Updater K V E) (key : K) :
    Except E V × Updater K V E × Bool :=
  match lookupK u.cache key with
  | some v => (.ok v, u, false)
  | none =>
    match u.updateFn key with
    | .ok v => (.ok v, { u with cache := insertK u.cache key v }, true)
    | .error e => (.error e, u, true)

end Geche

/-- Claim C9: when the inner cache misses on `k` and the loader fails, `Get`
returns the loader's error verbatim (not `NotFound`), the inner cache is left
unchanged, and a subsequent `Get(k)` invokes the loader again (and fails the
same way while the loader keeps failing). -/
theorem updater_error_not_cached {K V E : Type} [DecidableEq K]
    (u : Updater K V E) (k : K) (e : E)
    (hmiss : lookupK u.cache k = none) (herr : u.updateFn k = .error e) :
    u.Get k = (.error e, u, true) ∧
    ((u.Get k).2.1.Get k = (.error e, u, true)) := by
  have h1 : u.Get k = (.error e, u, true) := by
    rw [Updater.Get, hmiss, herr]
  exact ⟨h1, by rw [h1, h1]⟩

/-- Witness for C9 at a concrete input: empty inner cache, loader that always
fails with error 7. -/
theorem updater_error_not_cached_witness :
    (Updater.Get (K := Nat) (V := Nat) (E := Nat)
        { cache := [], updateFn := fun _ => .error 7 } 1)
      = (.error 7, { cache := [], updateFn := fun _ => .error 7 }, true) :=
  (updater_error_not_cached
    { cache := [], updateFn := fun _ => .error 7 } 1 7 rfl rfl).1

namespace Geche

/-! ## TTL engine: FIFO linked-list invariant (claim C2)

The abstract model of the list is an association list `m` of entries in FIFO
order; each entry carries the timestamp and the value of the key's last
effective `set`.  `chainRep data p m q` says the doubly linked chain recorded
in `data` realises `m`, the first entry's `prev` being `p` and the last
entry's `next` being `q`. -/

structure MEntry (V : Type) where
  ts : Int
  val : V
deriving DecidableEq, Repr

variable {K V : Type} [DecidableEq K] [Inhabited V]

/-- First key of `m`, or `q` when `m` is empty. -/
def headKeyD (q : K) : List (K × MEntry V) → K
  | [] => q
  | (k, _) :: _ => k

/-- Last key of `m`, or `p` when `m` is empty. -/
def lastKeyD (p : K) (m : List (K × MEntry V)) : K :=
  (m.map Prod.fst).getLastD p

theorem lastKeyD_nil (p : K) : lastKeyD p ([] : List (K × MEntry V)) = p := rfl

theorem lastKeyD_cons (p k : K) (e : MEntry V) (m : List (K × MEntry V)) :
    lastKeyD p ((k, e) :: m) = lastKeyD k m := by
  show (k :: m.map Prod.fst).getLastD p = (m.map Prod.fst).getLastD k
  rw [List.getLastD_cons]

theorem lastKeyD_concat (p k : K) (e : MEntry V) (m : List (K × MEntry V)) :
    lastKeyD p (m ++ [(k, e)]) = k := by
  simp [lastKeyD, List.getLastD_concat]

theorem headKeyD_append_ne (q : K) (m1 m2 : List (K × MEntry V)) (h : m1 ≠ []) :
    headKeyD q (m1 ++ m2) = headKeyD q m1 := by
  cases m1 with
  | nil => exact absurd rfl h
  | cons p rest => rfl

/-- The linked chain recorded in `data` realises the FIFO model `m`. -/
def chainRep (data : List (K × ttlRec K V)) : K → List (K × MEntry V) → K → Prop
  | _, [], _ => True
  | p, (k, e) :: rest, q =>
      lookupK data k =
        some { prev := p, next := headKeyD q rest, value := e.val,
               timestamp := e.ts } ∧
      chainRep data k rest q

theorem chainRep_congr {data1 data2 : List (K × ttlRec K V)}
    {m : List (K × MEntry V)} :
    ∀ {p q : K}, (∀ k ∈ m.map Prod.fst, lookupK data2 k = lookupK data1 k) →
      chainRep data1 p m q → chainRep data2 p m q := by
  induction m with
  | nil => intro p q _ _; trivial
  | cons kv rest ih =>
    obtain ⟨k, e⟩ := kv
    intro p q hsame h
    refine ⟨?_, ih (fun k' hk' => hsame k' (by simp [hk'])) h.2⟩
    rw [hsame k (by simp)]
    exact h.1

theorem chainRep_append {data : List (K × ttlRec K V)} :
    ∀ (m1 m2 : List (K × MEntry V)) (p q : K),
      chainRep data p (m1 ++ m2) q ↔
        chainRep data p m1 (headKeyD q m2) ∧
        chainRep data (lastKeyD p m1) m2 q := by
  intro m1
  induction m1 with
  | nil =>
    intro m2 p q
    simp [chainRep, lastKeyD_nil]
  | cons kv rest ih =>
    obtain ⟨k, e⟩ := kv
    intro m2 p q
    have hh : headKeyD q (rest ++ m2) =
        headKeyD (headKeyD q m2) rest := by
      cases rest <;> cases m2 <;> rfl
    constructor
    · rintro ⟨h1, h2⟩
      obtain ⟨ha, hb⟩ := (ih m2 k q).mp h2
      exact ⟨⟨by rw [← hh]; exact h1, ha⟩, by rwa [lastKeyD_cons]⟩
    · rintro ⟨⟨h1, h2⟩, h3⟩
      refine ⟨?_, (ih m2 k q).mpr ⟨h2, ?_⟩⟩
      · have hh2 : headKeyD q (List.append rest m2) =
            headKeyD (headKeyD q m2) rest := hh
        rw [hh2]
        exact h1
      · rwa [lastKeyD_cons] at h3

/-- Replace the last entry of a chain: new value/timestamp `el'`, new
terminator `q'`.  This is the shape of both the tail-update branch of `set`
and the "point the old tail at the appended key" step. -/
theorem chainRep_set_last {data : List (K × ttlRec K V)}
    {m0 : List (K × MEntry V)} {p q kl : K} {el : MEntry V}
    (h : chainRep data p (m0 ++ [(kl, el)]) q) (hn : kl ∉ m0.map Prod.fst)
    (el' : MEntry V) (q' : K) :
    chainRep (insertK data kl
        { prev := lastKeyD p m0, next := q', value := el'.val,
          timestamp := el'.ts })
      p (m0 ++ [(kl, el')]) q' := by
  obtain ⟨h1, h2⟩ := (chainRep_append m0 [(kl, el)] p q).mp h
  refine (chainRep_append m0 [(kl, el')] p q').mpr ⟨?_, ?_, trivial⟩
  · refine chainRep_congr (fun k' hk' => ?_) h1
    exact lookupK_insertK_ne _ _ _ _ (fun hkk => hn (hkk ▸ hk'))
  · rw [lookupK_insertK_self]
    rfl

/-- Re-point the `prev` of the first entry of a chain to `p'` (the value and
timestamp of the first entry are kept). -/
theorem chainRep_set_first {data : List (K × ttlRec K V)}
    {rest : List (K × MEntry V)} {p q k1 : K} {e1 : MEntry V}
    (h : chainRep data p ((k1, e1) :: rest) q) (hn : k1 ∉ rest.map Prod.fst)
    (p' : K) :
    chainRep (insertK data k1
        { prev := p', next := headKeyD q rest, value := e1.val,
          timestamp := e1.ts })
      p' ((k1, e1) :: rest) q := by
  obtain ⟨h1, h2⟩ := h
  refine ⟨by rw [lookupK_insertK_self], ?_⟩
  refine chainRep_congr (fun k' hk' => ?_) h2
  exact lookupK_insertK_ne _ _ _ _ (fun hkk => hn (hkk ▸ hk'))

/-- A member of a chained model is stored with exactly the record determined
by its position. -/
theorem chainRep_lookup_of_mem {data : List (K × ttlRec K V)}
    {m : List (K × MEntry V)} {p q k : K} {e : MEntry V}
    (h : chainRep data p m q) (hmem : (k, e) ∈ m) :
    ∃ pre post, m = pre ++ (k, e) :: post ∧
      lookupK data k =
        some { prev := lastKeyD p pre, next := headKeyD q post,
               value := e.val, timestamp := e.ts } := by
  obtain ⟨pre, post, rfl⟩ := List.append_of_mem hmem
  refine ⟨pre, post, rfl, ?_⟩
  obtain ⟨h1, h2⟩ := (chainRep_append pre ((k, e) :: post) p q).mp h
  exact h2.1

theorem insertK_cons_eq {A : Type} [DecidableEq K] (k0 k : K) (a0 a : A)
    (rest : List (K × A)) (h : k0 = k) :
    insertK ((k0, a0) :: rest) k a = (k, a) :: rest := by
  simp [insertK, h]

theorem insertK_cons_ne {A : Type} [DecidableEq K] (k0 k : K) (a0 a : A)
    (rest : List (K × A)) (h : ¬ k0 = k) :
    insertK ((k0, a0) :: rest) k a = (k0, a0) :: insertK rest k a := by
  simp [insertK, h]

theorem mem_keys_insertK {A : Type} [DecidableEq K] (m : List (K × A))
    (k k' : K) (a : A) :
    k' ∈ (insertK m k a).map Prod.fst ↔ k' ∈ m.map Prod.fst ∨ k' = k := by
  induction m with
  | nil => simp [insertK]
  | cons p rest ih =>
    obtain ⟨k0, a0⟩ := p
    by_cases h0 : k0 = k
    · subst h0
      rw [insertK_cons_eq _ _ _ _ _ rfl]
      simp only [List.map_cons, List.mem_cons]
      tauto
    · rw [insertK_cons_ne _ _ _ _ _ h0]
      simp only [List.map_cons, List.mem_cons, ih]
      tauto

theorem insertK_keys_nodup {A : Type} [DecidableEq K] (m : List (K × A))
    (k : K) (a : A) (h : (m.map Prod.fst).Nodup) :
    ((insertK m k a).map Prod.fst).Nodup := by
  induction m with
  | nil => simp [insertK]
  | cons p rest ih =>
    obtain ⟨k0, a0⟩ := p
    simp only [List.map_cons, List.nodup_cons] at h
    by_cases h0 : k0 = k
    · subst h0
      rw [insertK_cons_eq _ _ _ _ _ rfl]
      simp only [List.map_cons, List.nodup_cons]
      exact h
    · rw [insertK_cons_ne _ _ _ _ _ h0]
      simp only [List.map_cons, List.nodup_cons]
      refine ⟨?_, ih h.2⟩
      rw [mem_keys_insertK]
      rintro (h2 | h2)
      · exact h.1 h2
      · exact h0 h2

theorem eraseK_keys_nodup {A : Type} [DecidableEq K] (m : List (K × A))
    (k : K) (h : (m.map Prod.fst).Nodup) :
    ((eraseK m k).map Prod.fst).Nodup := by
  exact h.sublist (List.Sublist.map Prod.fst (List.filter_sublist m))

/-- With first components nodup, `lookupK` finds exactly the member pair. -/
theorem lookupK_eq_some_iff_mem {A : Type} [DecidableEq K]
    {m : List (K × A)} (h : (m.map Prod.fst).Nodup) (k : K) (a : A) :
    lookupK m k = some a ↔ (k, a) ∈ m := by
  induction m with
  | nil => simp [lookupK]
  | cons p rest ih =>
    obtain ⟨k0, a0⟩ := p
    simp only [List.map_cons, List.nodup_cons] at h
    by_cases h0 : k0 = k
    · subst h0
      simp only [lookupK, if_pos rfl, List.mem_cons]
      constructor
      · rintro h2
        exact Or.inl (by simpa using h2.symm)
      · rintro (h2 | h2)
        · simp only [Prod.ext_iff] at h2
          simp [h2.2]
        · exact absurd (List.mem_map_of_mem Prod.fst h2) h.1
    · simp only [lookupK, if_neg h0, List.mem_cons]
      rw [ih h.2]
      constructor
      · exact Or.inr
      · rintro (h2 | h2)
        · exact absurd (congrArg Prod.fst h2).symm h0
        · exact h2

/-- The FIFO model of a `set`: drop any old entry for `k`, append `k` with
the fresh timestamp and value. -/
def modelSet (m : List (K × MEntry V)) (k : K) (now : Int) (v : V) :
    List (K × MEntry V) :=
  m.filter (fun p => p.1 ≠ k) ++ [(k, { ts := now, val := v })]

/-- The FIFO model of a `Del`: drop the entry for `k`. -/
def modelDel (m : List (K × MEntry V)) (k : K) : List (K × MEntry V) :=
  m.filter (fun p => p.1 ≠ k)

/-- Full state invariant of the TTL cache relative to the FIFO model `m`
(entries in order of last effective set, with their timestamps and values);
`t` bounds every stored timestamp. -/
structure TTLInv (c : MapTTLCache K V) (m : List (K × MEntry V)) (t : Int) :
    Prop where
  nodupKeys : (m.map Prod.fst).Nodup
  nzero : c.zero ∉ m.map Prod.fst
  absent : ∀ k, k ∉ m.map Prod.fst → lookupK c.data k = none
  rep : chainRep c.data c.zero m c.zero
  headEq : c.head = headKeyD c.zero m
  tailEq : c.tail = lastKeyD c.zero m
  tsSorted : List.Pairwise (· ≤ ·) (m.map fun p => p.2.ts)
  tsBound : ∀ p ∈ m, p.2.ts ≤ t
  dataNodup : (c.data.map Prod.fst).Nodup

theorem dataD_eq_of_lookup {c : MapTTLCache K V} {k : K} {r : ttlRec K V}
    (h : lookupK c.data k = some r) : c.dataD k = r := by
  simp [MapTTLCache.dataD, h]

theorem map_fst_filter_ne {A : Type} [DecidableEq K] (m : List (K × A)) (k : K) :
    (m.filter (fun p => p.1 ≠ k)).map Prod.fst =
      (m.map Prod.fst).filter (fun k' => k' ≠ k) := by
  induction m with
  | nil => rfl
  | cons p rest ih =>
    obtain ⟨k0, a0⟩ := p
    simp only [ne_eq, decide_not] at ih
    by_cases h : k0 = k <;>
      simp [List.filter_cons, h, ih]

/-- Under nodup keys, filtering `≠ k` out of `pre ++ (k, e) :: post` gives
`pre ++ post`. -/
theorem filter_ne_decomp {pre post : List (K × MEntry V)} {k : K} {e : MEntry V}
    (hnd : (((pre ++ (k, e) :: post).map Prod.fst)).Nodup) :
    (pre ++ (k, e) :: post).filter (fun p => p.1 ≠ k) = pre ++ post := by
  simp only [List.map_append, List.map_cons, List.nodup_append,
    List.nodup_cons] at hnd
  obtain ⟨h1, ⟨h2, h3⟩, h4⟩ := hnd
  rw [List.filter_append]
  congr 1
  · refine List.filter_eq_self.mpr (fun p hp => ?_)
    have hne : p.1 ≠ k :=
      fun hpk => h4 (List.mem_map_of_mem Prod.fst hp) (by simp [hpk])
    simpa using hne
  · have hcons : ((k, e) :: post).filter (fun p => p.1 ≠ k) =
        post.filter (fun p => p.1 ≠ k) := by
      simp
    rw [hcons]
    refine List.filter_eq_self.mpr (fun p hp => ?_)
    have hne : p.1 ≠ k :=
      fun hpk => h2 (hpk ▸ List.mem_map_of_mem Prod.fst hp)
    simpa using hne

theorem headKeyD_mem {m : List (K × MEntry V)} (q : K) (h : m ≠ []) :
    headKeyD q m ∈ m.map Prod.fst := by
  cases m with
  | nil => exact absurd rfl h
  | cons p rest => simp [headKeyD]

theorem headKeyD_concat_indep (q : K) (m0 : List (K × MEntry V))
    (x y : K × MEntry V) (hxy : x.1 = y.1) :
    headKeyD q (m0 ++ [x]) = headKeyD q (m0 ++ [y]) := by
  cases m0 with
  | nil =>
    obtain ⟨a, b⟩ := x
    obtain ⟨a', b'⟩ := y
    simpa [headKeyD] using hxy
  | cons p rest => rfl

theorem mem_modelSet_keys {m : List (K × MEntry V)} {k' : K} (k : K)
    (now : Int) (v : V) (h : k' ∈ m.map Prod.fst) :
    k' ∈ (modelSet m k now v).map Prod.fst := by
  by_cases hk' : k' = k
  · subst hk'
    simp [modelSet]
  · simp only [modelSet, List.map_append, List.mem_append, map_fst_filter_ne]
    exact Or.inl (List.mem_filter.mpr ⟨h, by simpa using hk'⟩)

/-- Model-level facts about `modelSet`: key nodup, zero-freeness, timestamp
sortedness and the fresh bound. -/
theorem modelSet_facts {m : List (K × MEntry V)} {k : K} {now t : Int} {v : V}
    {z : K} (hnd : (m.map Prod.fst).Nodup) (hz : z ∉ m.map Prod.fst)
    (hk : k ≠ z) (hts : List.Pairwise (· ≤ ·) (m.map fun p => p.2.ts))
    (hb : ∀ p ∈ m, p.2.ts ≤ t) (hmono : t ≤ now) :
    ((modelSet m k now v).map Prod.fst).Nodup ∧
    z ∉ (modelSet m k now v).map Prod.fst ∧
    List.Pairwise (· ≤ ·) ((modelSet m k now v).map fun p => p.2.ts) ∧
    (∀ p ∈ modelSet m k now v, p.2.ts ≤ now) := by
  have hsub : List.Sublist (m.filter (fun p => p.1 ≠ k)) m :=
    List.filter_sublist m
  refine ⟨?_, ?_, ?_, ?_⟩
  · simp only [modelSet, List.map_append, map_fst_filter_ne]
    rw [List.nodup_append]
    refine ⟨hnd.sublist (List.filter_sublist _), List.nodup_singleton k, ?_⟩
    intro a ha hb2
    simp only [List.map_cons, List.map_nil, List.mem_singleton] at hb2
    subst hb2
    have := List.mem_filter.mp ha
    simpa using this.2
  · simp only [modelSet, List.map_append, map_fst_filter_ne, List.mem_append,
      not_or]
    refine ⟨fun hmem => hz ((List.mem_filter.mp hmem).1), by simpa using Ne.symm hk⟩
  · simp only [modelSet, List.map_append]
    rw [List.pairwise_append]
    refine ⟨hts.sublist (List.Sublist.map _ hsub), by simp, ?_⟩
    intro a ha b hb2
    simp only [List.map_cons, List.map_nil, List.mem_singleton] at hb2
    subst hb2
    obtain ⟨p, hp, rfl⟩ := List.mem_map.mp ha
    exact le_trans (hb p (hsub.mem hp)) hmono
  · intro p hp
    simp only [modelSet, List.mem_append, List.mem_singleton] at hp
    rcases hp with hp | hp
    · exact le_trans (hb p (hsub.mem hp)) hmono
    · subst hp
      exact le_refl now

/-- `set` on the empty cache (the `c.head == c.zero` branch). -/
theorem inv_set_empty (c : MapTTLCache K V) (t now : Int) (k : K) (v : V)
    (hinv : TTLInv c [] t) (hk : k ≠ c.zero) :
    TTLInv (c.set now k v) (modelSet [] k now v) now := by
  have hhz : c.head = c.zero := hinv.headEq
  have htz : c.tail = c.zero := hinv.tailEq
  have hset : c.set now k v =
      { c with
        head := k
        tail := k
        data := insertK c.data k ⟨c.tail, c.zero, v, now⟩ } := by
    rw [MapTTLCache.set]
    simp [hhz]
  have hmodel : modelSet ([] : List (K × MEntry V)) k now v =
      [(k, { ts := now, val := v })] := rfl
  rw [hset, hmodel]
  refine ⟨by simp, by simpa using Ne.symm hk, ?_, ?_, rfl, rfl, by simp, ?_, ?_⟩
  · intro k' hk'
    simp only [List.map_cons, List.map_nil, List.mem_singleton] at hk'
    rw [lookupK_insertK_ne _ _ _ _ hk']
    exact hinv.absent k' (by simp)
  · refine ⟨?_, trivial⟩
    rw [lookupK_insertK_self, htz]
    rfl
  · intro p hp
    simp only [List.mem_singleton] at hp
    subst hp
    exact le_refl now
  · exact insertK_keys_nodup _ _ _ hinv.dataNodup

/-- `set` on the current tail (pure value/timestamp update branch). -/
theorem inv_set_tail (c : MapTTLCache K V) (m0 : List (K × MEntry V))
    (el : MEntry V) (t now : Int) (k : K) (v : V)
    (hinv : TTLInv c (m0 ++ [(k, el)]) t) (hk : k ≠ c.zero) (hmono : t ≤ now) :
    TTLInv (c.set now k v) (modelSet (m0 ++ [(k, el)]) k now v) now := by
  have hnd := hinv.nodupKeys
  have hkm0 : k ∉ m0.map Prod.fst := by
    simp only [List.map_append, List.map_cons, List.map_nil,
      List.nodup_append, List.nodup_cons] at hnd
    intro hmem
    exact hnd.2.2 hmem (by simp)
  have hhead_ne : c.head ≠ c.zero := by
    rw [hinv.headEq]
    intro h
    exact hinv.nzero (h ▸ headKeyD_mem c.zero (by simp))
  have htl : c.tail = k := by
    rw [hinv.tailEq, lastKeyD_concat]
  obtain ⟨ch1, ch2⟩ :=
    (chainRep_append m0 [(k, el)] c.zero c.zero).mp hinv.rep
  have hlk : lookupK c.data k =
      some ⟨lastKeyD c.zero m0, c.zero, el.val, el.ts⟩ := ch2.1
  have hset : c.set now k v =
      { c with data := insertK c.data k ⟨lastKeyD c.zero m0, c.zero, v, now⟩ } := by
    rw [MapTTLCache.set]
    rw [if_neg hhead_ne, htl, if_pos rfl]
    simp only [dataD_eq_of_lookup hlk]
  have hmodel : modelSet (m0 ++ [(k, el)]) k now v =
      m0 ++ [(k, { ts := now, val := v })] := by
    rw [modelSet, filter_ne_decomp hinv.nodupKeys]
    simp
  obtain ⟨hndM, hzM, htsM, hbM⟩ := modelSet_facts hinv.nodupKeys hinv.nzero
    hk hinv.tsSorted hinv.tsBound hmono (v := v)
  rw [hset, hmodel]
  rw [hmodel] at hndM hzM htsM hbM
  have hkeys_same : (m0 ++ [(k, el)]).map Prod.fst =
      (m0 ++ [(k, ({ ts := now, val := v } : MEntry V))]).map Prod.fst := by
    simp
  refine ⟨hndM, hzM, ?_, ?_, ?_, ?_, htsM, hbM, ?_⟩
  · intro k' hk'
    have hk'k : k' ≠ k := by
      intro h
      exact hk' (h ▸ (by simp : k ∈ (m0 ++ [(k, ({ ts := now, val := v } : MEntry V))]).map Prod.fst))
    rw [lookupK_insertK_ne _ _ _ _ hk'k]
    exact hinv.absent k' (by rw [hkeys_same]; exact hk')
  · exact chainRep_set_last hinv.rep hkm0 { ts := now, val := v } c.zero
  · rw [show ({ c with data := insertK c.data k ⟨lastKeyD c.zero m0, c.zero, v, now⟩ } : MapTTLCache K V).head = c.head from rfl]
    rw [hinv.headEq]
    exact headKeyD_concat_indep c.zero m0 _ _ rfl
  · rw [show ({ c with data := insertK c.data k ⟨lastKeyD c.zero m0, c.zero, v, now⟩ } : MapTTLCache K V).tail = c.tail from rfl]
    rw [htl, lastKeyD_concat]
  · exact insertK_keys_nodup _ _ _ hinv.dataNodup

/-- `set` of a key absent from the cache (append-at-tail branch, non-empty
cache). -/
theorem inv_set_append (c : MapTTLCache K V) (m0 : List (K × MEntry V))
    (kt : K) (et : MEntry V) (t now : Int) (k : K) (v : V)
    (hinv : TTLInv c (m0 ++ [(kt, et)]) t) (hk : k ≠ c.zero) (hmono : t ≤ now)
    (hknot : k ∉ (m0 ++ [(kt, et)]).map Prod.fst) :
    TTLInv (c.set now k v) (modelSet (m0 ++ [(kt, et)]) k now v) now := by
  have hnd := hinv.nodupKeys
  have hktm0 : kt ∉ m0.map Prod.fst := by
    simp only [List.map_append, List.map_cons, List.map_nil,
      List.nodup_append, List.nodup_cons] at hnd
    intro hmem
    exact hnd.2.2 hmem (by simp)
  have hktk : kt ≠ k := by
    intro h
    exact hknot (h ▸ (by simp : kt ∈ (m0 ++ [(kt, et)]).map Prod.fst))
  have hlk : lookupK c.data k = none := hinv.absent k hknot
  have hhead_ne : c.head ≠ c.zero := by
    rw [hinv.headEq]
    intro h
    exact hinv.nzero (h ▸ headKeyD_mem c.zero (by simp))
  have htl : c.tail = kt := by
    rw [hinv.tailEq, lastKeyD_concat]
  obtain ⟨ch1, ch2⟩ :=
    (chainRep_append m0 [(kt, et)] c.zero c.zero).mp hinv.rep
  have hlkkt : lookupK c.data kt =
      some ⟨lastKeyD c.zero m0, c.zero, et.val, et.ts⟩ := ch2.1
  have htlne : ¬ (c.tail = k) := by
    rw [htl]; exact hktk
  have hset : c.set now k v =
      { c with
        tail := k
        data := insertK
          (insertK c.data kt ⟨lastKeyD c.zero m0, k, et.val, et.ts⟩)
          k ⟨kt, c.zero, v, now⟩ } := by
    rw [MapTTLCache.set]
    rw [if_neg hhead_ne, if_neg htlne, hlk]
    simp only []
    rw [htl, dataD_eq_of_lookup hlkkt]
  have hfilter : (m0 ++ [(kt, et)]).filter (fun p => p.1 ≠ k) =
      m0 ++ [(kt, et)] := by
    refine List.filter_eq_self.mpr (fun p hp => ?_)
    have : p.1 ≠ k := by
      intro h
      exact hknot (h ▸ List.mem_map_of_mem Prod.fst hp)
    simpa using this
  have hmodel : modelSet (m0 ++ [(kt, et)]) k now v =
      (m0 ++ [(kt, et)]) ++ [(k, { ts := now, val := v })] := by
    rw [modelSet, hfilter]
  obtain ⟨hndM, hzM, htsM, hbM⟩ := modelSet_facts hinv.nodupKeys hinv.nzero
    hk hinv.tsSorted hinv.tsBound hmono (v := v)
  rw [hset, hmodel]
  rw [hmodel] at hndM hzM htsM hbM
  refine ⟨hndM, hzM, ?_, ?_, ?_, ?_, htsM, hbM, ?_⟩
  · intro k' hk'
    simp only [List.map_append, List.map_cons, List.map_nil, List.mem_append,
      List.mem_singleton, not_or] at hk'
    have hk'2 : k' ∉ (m0 ++ [(kt, et)]).map Prod.fst := by
      simp only [List.map_append, List.map_cons, List.map_nil,
        List.mem_append, List.mem_singleton, not_or]
      exact ⟨hk'.1.1, hk'.1.2⟩
    rw [lookupK_insertK_ne _ _ _ _ hk'.2,
      lookupK_insertK_ne _ _ _ _ hk'.1.2]
    exact hinv.absent k' hk'2
  · refine (chainRep_append _ [(k, { ts := now, val := v })]
      c.zero c.zero).mpr ⟨?_, ?_, trivial⟩
    · refine chainRep_congr (fun k' hk' => ?_)
        (chainRep_set_last hinv.rep hktm0 et k)
      exact lookupK_insertK_ne _ _ _ _ (fun h => hknot (h ▸ hk'))
    · rw [lookupK_insertK_self, lastKeyD_concat]
      rfl
  · rw [show ∀ (d : List (K × ttlRec K V)),
        ({ c with tail := k, data := d } : MapTTLCache K V).head = c.head
        from fun d => rfl]
    rw [hinv.headEq]
    exact (headKeyD_append_ne c.zero _ _ (by simp)).symm
  · rw [lastKeyD_concat]
  · exact insertK_keys_nodup _ _ _
      (insertK_keys_nodup _ _ _ hinv.dataNodup)

theorem lastKeyD_mem {m : List (K × MEntry V)} (p : K) (h : m ≠ []) :
    lastKeyD p m ∈ m.map Prod.fst := by
  rcases List.eq_nil_or_concat m with h1 | ⟨m0, x, rfl⟩
  · exact absurd h1 h
  · obtain ⟨kx, ex⟩ := x
    rw [List.concat_eq_append, lastKeyD_concat]
    simp

/-- `set` of the current head key of a cache with at least two entries
(unlink-head-then-append branch). -/
theorem inv_set_head (c : MapTTLCache K V) (e : MEntry V)
    (kn : K) (en : MEntry V) (post2 : List (K × MEntry V))
    (t now : Int) (k : K) (v : V)
    (hinv : TTLInv c ((k, e) :: (kn, en) :: post2) t) (hk : k ≠ c.zero)
    (hmono : t ≤ now) :
    TTLInv (c.set now k v) (modelSet ((k, e) :: (kn, en) :: post2) k now v)
      now := by
  obtain ⟨post0, xt, hpostdec⟩ :
      ∃ post0 xt, (kn, en) :: post2 = post0 ++ [xt] := by
    rcases List.eq_nil_or_concat ((kn, en) :: post2) with h1 | ⟨m0, x, hx⟩
    · exact absurd h1 (by simp)
    · exact ⟨m0, x, by rw [hx, List.concat_eq_append]⟩
  obtain ⟨kt, et⟩ := xt
  have hndFull := hinv.nodupKeys
  rw [List.map_cons, List.nodup_cons] at hndFull
  have hkpost : k ∉ ((kn, en) :: post2).map Prod.fst := hndFull.1
  have hndTail : (((kn, en) :: post2).map Prod.fst).Nodup := hndFull.2
  have hknpost2 : kn ∉ post2.map Prod.fst := by
    have h2 := hndTail
    rw [List.map_cons, List.nodup_cons] at h2
    exact h2.1
  have hktpost0 : kt ∉ post0.map Prod.fst := by
    have h2 := hndTail
    rw [hpostdec] at h2
    simp only [List.map_append, List.map_cons, List.map_nil,
      List.nodup_append, List.nodup_cons] at h2
    intro hmem
    exact h2.2.2 hmem (by simp)
  have hktmem : kt ∈ ((kn, en) :: post2).map Prod.fst := by
    rw [hpostdec]
    simp
  have hhead : c.head = k := hinv.headEq
  have hhead_ne : c.head ≠ c.zero := by rw [hhead]; exact hk
  have htlkt : c.tail = kt := by
    rw [hinv.tailEq, lastKeyD_cons, show lastKeyD k ((kn, en) :: post2) =
      lastKeyD k (post0 ++ [(kt, et)]) from by rw [hpostdec], lastKeyD_concat]
  have htailne : ¬ (c.tail = k) := by
    rw [htlkt]
    intro h
    exact hkpost (h ▸ hktmem)
  obtain ⟨hlk_k, hchain_post⟩ := hinv.rep
  have hlk_k' : lookupK c.data k =
      some ⟨c.zero, kn, e.val, e.ts⟩ := hlk_k
  have hlk_kn := hchain_post.1
  -- d1: unlink the head, clearing the new head's prev
  have hd1chain : chainRep
      (insertK c.data kn ⟨c.zero, headKeyD c.zero post2, en.val, en.ts⟩)
      c.zero ((kn, en) :: post2) c.zero :=
    chainRep_set_first hchain_post hknpost2 c.zero
  -- record of the tail key in d1
  have hd1chain' : chainRep
      (insertK c.data kn ⟨c.zero, headKeyD c.zero post2, en.val, en.ts⟩)
      c.zero (post0 ++ [(kt, et)]) c.zero := by
    rw [← hpostdec]
    exact hd1chain
  have hlk_d1_kt : lookupK
      (insertK c.data kn ⟨c.zero, headKeyD c.zero post2, en.val, en.ts⟩) kt =
      some ⟨lastKeyD c.zero post0, c.zero, et.val, et.ts⟩ :=
    ((chainRep_append post0 [(kt, et)] c.zero c.zero).mp hd1chain').2.1
  -- d2: point the tail at the appended key
  have hd2chain : chainRep
      (insertK (insertK c.data kn ⟨c.zero, headKeyD c.zero post2, en.val, en.ts⟩)
        kt ⟨lastKeyD c.zero post0, k, et.val, et.ts⟩)
      c.zero (post0 ++ [(kt, et)]) k :=
    chainRep_set_last hd1chain' hktpost0 et k
  have hset : c.set now k v =
      { c with
        head := kn
        tail := k
        data := insertK
          (insertK
            (insertK c.data kn ⟨c.zero, headKeyD c.zero post2, en.val, en.ts⟩)
            kt ⟨lastKeyD c.zero post0, k, et.val, et.ts⟩)
          k ⟨kt, c.zero, v, now⟩ } := by
    rw [MapTTLCache.set]
    rw [if_neg hhead_ne, if_neg htailne, hlk_k']
    simp only []
    rw [if_pos hhead.symm]
    simp only [MapTTLCache.dataD, zeroRec]
    rw [hlk_kn]
    simp only [Option.getD_some]
    rw [htlkt, hlk_d1_kt]
    simp only [Option.getD_some]
  have hmodel : modelSet ((k, e) :: (kn, en) :: post2) k now v =
      ((kn, en) :: post2) ++ [(k, { ts := now, val := v })] := by
    rw [modelSet,
      show ((k, e) :: (kn, en) :: post2) = [] ++ (k, e) :: (kn, en) :: post2
        from rfl,
      filter_ne_decomp hinv.nodupKeys]
    rfl
  obtain ⟨hndM, hzM, htsM, hbM⟩ := modelSet_facts hinv.nodupKeys hinv.nzero
    hk hinv.tsSorted hinv.tsBound hmono (v := v)
  rw [hset, hmodel]
  rw [hmodel] at hndM hzM htsM hbM
  refine ⟨hndM, hzM, ?_, ?_, ?_, ?_, htsM, hbM, ?_⟩
  · intro k' hk'
    simp only [List.map_append, List.map_cons, List.map_nil, List.mem_append,
      List.mem_cons, List.mem_singleton, not_or] at hk'
    obtain ⟨⟨hk'kn, hk'post2⟩, hk'k⟩ := hk'
    have hk'kt : k' ≠ kt := by
      intro h
      rcases List.mem_cons.mp (h ▸ hktmem) with h2 | h2
      · exact hk'kn h2
      · exact hk'post2 h2
    rw [lookupK_insertK_ne _ _ _ _ hk'k.1, lookupK_insertK_ne _ _ _ _ hk'kt,
      lookupK_insertK_ne _ _ _ _ hk'kn]
    refine hinv.absent k' ?_
    simp only [List.map_cons, List.mem_cons, not_or]
    exact ⟨hk'k.1, hk'kn, fun h => hk'post2 (by simpa using h)⟩
  · refine (chainRep_append ((kn, en) :: post2)
      [(k, { ts := now, val := v })] c.zero c.zero).mpr ⟨?_, ?_, trivial⟩
    · refine chainRep_congr (fun k' hk' => ?_)
        (show chainRep _ c.zero ((kn, en) :: post2) k from by
          rw [hpostdec]; exact hd2chain)
      exact lookupK_insertK_ne _ _ _ _ (fun h => hkpost (h ▸ hk'))
    · rw [lookupK_insertK_self,
        show lastKeyD c.zero ((kn, en) :: post2) = kt from by
          rw [hpostdec, lastKeyD_concat]]
      rfl
  · rfl
  · rw [show (((kn, en) :: post2) ++ [(k, ({ ts := now, val := v } : MEntry V))])
        = ((kn, en) :: post2) ++ [(k, ({ ts := now, val := v } : MEntry V))]
        from rfl, lastKeyD_concat]
  · exact insertK_keys_nodup _ _ _ (insertK_keys_nodup _ _ _
      (insertK_keys_nodup _ _ _ hinv.dataNodup))

theorem lastKeyD_append (p : K) (m1 m2 : List (K × MEntry V)) :
    lastKeyD p (m1 ++ m2) = lastKeyD (lastKeyD p m1) m2 := by
  induction m1 generalizing p with
  | nil => rfl
  | cons x rest ih =>
    obtain ⟨kx, ex⟩ := x
    rw [List.cons_append, lastKeyD_cons, lastKeyD_cons, ih]

/-- The useful membership/nodup consequences of a nodup decomposition
`pre ++ (k, e) :: post`. -/
theorem nodup_decomp_facts {pre post : List (K × MEntry V)} {k : K}
    {e : MEntry V}
    (h : ((pre ++ (k, e) :: post).map Prod.fst).Nodup) :
    k ∉ pre.map Prod.fst ∧ k ∉ post.map Prod.fst ∧
    (pre.map Prod.fst).Nodup ∧ (post.map Prod.fst).Nodup ∧
    (∀ a, a ∈ pre.map Prod.fst → a ∉ post.map Prod.fst) := by
  simp only [List.map_append, List.map_cons, List.nodup_append,
    List.nodup_cons] at h
  obtain ⟨h1, ⟨h2, h3⟩, h4⟩ := h
  refine ⟨fun hm => h4 hm (by simp), h2, h1, h3, ?_⟩
  intro a ha hb
  exact h4 ha (by simp [hb])

/-- `set` of a key that sits strictly between head and tail (three-pointer
unlink followed by append). -/
theorem inv_set_middle (c : MapTTLCache K V)
    (pre0 : List (K × MEntry V)) (kp : K) (ep : MEntry V) (e : MEntry V)
    (kn : K) (en : MEntry V) (post2 : List (K × MEntry V))
    (t now : Int) (k : K) (v : V)
    (hinv : TTLInv c
      ((pre0 ++ [(kp, ep)]) ++ (k, e) :: (kn, en) :: post2) t)
    (hk : k ≠ c.zero) (hmono : t ≤ now) :
    TTLInv (c.set now k v)
      (modelSet ((pre0 ++ [(kp, ep)]) ++ (k, e) :: (kn, en) :: post2) k now v)
      now := by
  obtain ⟨post0, xt, hpostdec⟩ :
      ∃ post0 xt, (kn, en) :: post2 = post0 ++ [xt] := by
    rcases List.eq_nil_or_concat ((kn, en) :: post2) with h1 | ⟨m0, x, hx⟩
    · exact absurd h1 (by simp)
    · exact ⟨m0, x, by rw [hx, List.concat_eq_append]⟩
  obtain ⟨kt, et⟩ := xt
  -- nodup bookkeeping
  obtain ⟨hkpre, hkpost, hndPre, hndPost, hdisj⟩ :=
    nodup_decomp_facts hinv.nodupKeys
  have hkp_pre0 : kp ∉ pre0.map Prod.fst :=
    (nodup_decomp_facts hndPre).1
  have hknpost2 : kn ∉ post2.map Prod.fst := by
    have h9 : (([] ++ (kn, en) :: post2).map Prod.fst).Nodup := hndPost
    exact (nodup_decomp_facts h9).2.1
  have hktpost0 : kt ∉ post0.map Prod.fst := by
    have h2 := hndPost
    rw [hpostdec] at h2
    exact (nodup_decomp_facts h2).1
  have hkpmem : kp ∈ (pre0 ++ [(kp, ep)]).map Prod.fst := by simp
  have hknmem : kn ∈ ((kn, en) :: post2).map Prod.fst := by simp
  have hktmem : kt ∈ ((kn, en) :: post2).map Prod.fst := by
    rw [hpostdec]; simp
  have hknpre : kn ∉ (pre0 ++ [(kp, ep)]).map Prod.fst :=
    fun hm => hdisj kn hm hknmem
  have hktpre : kt ∉ (pre0 ++ [(kp, ep)]).map Prod.fst :=
    fun hm => hdisj kt hm hktmem
  have hpreSub : ∀ a, a ∈ (pre0 ++ [(kp, ep)]).map Prod.fst →
      a ∈ ((pre0 ++ [(kp, ep)]) ++ (k, e) :: (kn, en) :: post2).map Prod.fst := by
    intro a ha
    rw [List.map_append]
    exact List.mem_append.mpr (Or.inl ha)
  have hpostSub : ∀ a, a ∈ ((kn, en) :: post2).map Prod.fst →
      a ∈ ((pre0 ++ [(kp, ep)]) ++ (k, e) :: (kn, en) :: post2).map Prod.fst := by
    intro a ha
    rw [List.map_append]
    refine List.mem_append.mpr (Or.inr ?_)
    rw [List.map_cons]
    exact List.mem_cons.mpr (Or.inr ha)
  -- head, tail and branch conditions
  have hhead : c.head = headKeyD c.zero (pre0 ++ [(kp, ep)]) := by
    rw [hinv.headEq, headKeyD_append_ne _ _ _ (by simp)]
  have hheadmem : headKeyD c.zero (pre0 ++ [(kp, ep)]) ∈
      (pre0 ++ [(kp, ep)]).map Prod.fst :=
    headKeyD_mem (m := pre0 ++ [(kp, ep)]) c.zero (by simp)
  have hhead_ne : c.head ≠ c.zero := by
    rw [hhead]
    intro h
    exact hinv.nzero (hpreSub _ (by rw [← h]; exact hheadmem))
  have hkeynothead : ¬ (k = c.head) := by
    rw [hhead]
    intro h
    exact hkpre (by rw [h]; exact hheadmem)
  have htlkt : c.tail = kt := by
    rw [hinv.tailEq, lastKeyD_append, lastKeyD_cons,
      show lastKeyD k ((kn, en) :: post2) = lastKeyD k (post0 ++ [(kt, et)])
        from by rw [hpostdec],
      lastKeyD_concat]
  have htailne : ¬ (c.tail = k) := by
    rw [htlkt]
    intro h
    exact hkpost (h ▸ hktmem)
  -- chain decomposition of the old state
  obtain ⟨hchainPre, hchainRest⟩ :=
    (chainRep_append (pre0 ++ [(kp, ep)]) ((k, e) :: (kn, en) :: post2)
      c.zero c.zero).mp hinv.rep
  have hlkp_pre : lastKeyD c.zero (pre0 ++ [(kp, ep)]) = kp := lastKeyD_concat _ _ _ _
  rw [hlkp_pre] at hchainRest
  obtain ⟨hlk_k, hchainPost⟩ := hchainRest
  have hlk_k' : lookupK c.data k = some ⟨kp, kn, e.val, e.ts⟩ := hlk_k
  have hlk_kn : lookupK c.data kn =
      some ⟨k, headKeyD c.zero post2, en.val, en.ts⟩ := hchainPost.1
  have hchainPre' : chainRep c.data c.zero (pre0 ++ [(kp, ep)]) k := hchainPre
  have hlk_kp : lookupK c.data kp =
      some ⟨lastKeyD c.zero pre0, k, ep.val, ep.ts⟩ :=
    ((chainRep_append pre0 [(kp, ep)] c.zero k).mp hchainPre').2.1
  -- chain surgery following the machine's writes
  have hd1chainPre : chainRep
      (insertK c.data kp ⟨lastKeyD c.zero pre0, kn, ep.val, ep.ts⟩)
      c.zero (pre0 ++ [(kp, ep)]) kn :=
    chainRep_set_last hchainPre' hkp_pre0 ep kn
  have hchainPost_d1 : chainRep
      (insertK c.data kp ⟨lastKeyD c.zero pre0, kn, ep.val, ep.ts⟩)
      k ((kn, en) :: post2) c.zero :=
    chainRep_congr (fun k' hk' => lookupK_insertK_ne _ _ _ _
      (fun h => hdisj kp hkpmem (h ▸ hk'))) hchainPost
  have hd2chainPost : chainRep
      (insertK (insertK c.data kp ⟨lastKeyD c.zero pre0, kn, ep.val, ep.ts⟩)
        kn ⟨kp, headKeyD c.zero post2, en.val, en.ts⟩)
      kp ((kn, en) :: post2) c.zero :=
    chainRep_set_first hchainPost_d1 hknpost2 kp
  have hd2chainPost' : chainRep
      (insertK (insertK c.data kp ⟨lastKeyD c.zero pre0, kn, ep.val, ep.ts⟩)
        kn ⟨kp, headKeyD c.zero post2, en.val, en.ts⟩)
      kp (post0 ++ [(kt, et)]) c.zero := by
    rw [← hpostdec]
    exact hd2chainPost
  have hlk_d2_kt : lookupK
      (insertK (insertK c.data kp ⟨lastKeyD c.zero pre0, kn, ep.val, ep.ts⟩)
        kn ⟨kp, headKeyD c.zero post2, en.val, en.ts⟩) kt =
      some ⟨lastKeyD kp post0, c.zero, et.val, et.ts⟩ :=
    ((chainRep_append post0 [(kt, et)] kp c.zero).mp hd2chainPost').2.1
  have hd3chainPost : chainRep
      (insertK
        (insertK (insertK c.data kp ⟨lastKeyD c.zero pre0, kn, ep.val, ep.ts⟩)
          kn ⟨kp, headKeyD c.zero post2, en.val, en.ts⟩)
        kt ⟨lastKeyD kp post0, k, et.val, et.ts⟩)
      kp (post0 ++ [(kt, et)]) k :=
    chainRep_set_last hd2chainPost' hktpost0 et k
  -- the machine's final state
  have hset : c.set now k v =
      { c with
        tail := k
        data := insertK
          (insertK
            (insertK
              (insertK c.data kp ⟨lastKeyD c.zero pre0, kn, ep.val, ep.ts⟩)
              kn ⟨kp, headKeyD c.zero post2, en.val, en.ts⟩)
            kt ⟨lastKeyD kp post0, k, et.val, et.ts⟩)
          k ⟨kt, c.zero, v, now⟩ } := by
    rw [MapTTLCache.set]
    rw [if_neg hhead_ne, if_neg htailne, hlk_k']
    simp only []
    rw [if_neg hkeynothead]
    simp only [MapTTLCache.dataD, zeroRec]
    rw [hlk_kp, hlk_kn]
    simp only [Option.getD_some]
    rw [htlkt, hlk_d2_kt]
    simp only [Option.getD_some]
  have hmodel : modelSet
      ((pre0 ++ [(kp, ep)]) ++ (k, e) :: (kn, en) :: post2) k now v =
      ((pre0 ++ [(kp, ep)]) ++ (kn, en) :: post2) ++
        [(k, { ts := now, val := v })] := by
    rw [modelSet, filter_ne_decomp hinv.nodupKeys]
  obtain ⟨hndM, hzM, htsM, hbM⟩ := modelSet_facts hinv.nodupKeys hinv.nzero
    hk hinv.tsSorted hinv.tsBound hmono (v := v)
  rw [hset, hmodel]
  rw [hmodel] at hndM hzM htsM hbM
  refine ⟨hndM, hzM, ?_, ?_, ?_, ?_, htsM, hbM, ?_⟩
  · intro k' hk'
    have hk'' : k' ∉ (modelSet
        ((pre0 ++ [(kp, ep)]) ++ (k, e) :: (kn, en) :: post2) k now v).map
          Prod.fst := by
      rw [hmodel]
      exact hk'
    have hk'old : k' ∉
        ((pre0 ++ [(kp, ep)]) ++ (k, e) :: (kn, en) :: post2).map Prod.fst :=
      fun h => hk'' (mem_modelSet_keys _ _ _ h)
    have hk'k : k' ≠ k := fun h => hk'' (by rw [h]; simp [modelSet])
    have hk'kp : k' ≠ kp := fun h => hk'old (by rw [h]; exact hpreSub kp hkpmem)
    have hk'kn : k' ≠ kn := fun h => hk'old (by rw [h]; exact hpostSub kn hknmem)
    have hk'kt : k' ≠ kt := fun h => hk'old (by rw [h]; exact hpostSub kt hktmem)
    rw [lookupK_insertK_ne _ _ _ _ hk'k, lookupK_insertK_ne _ _ _ _ hk'kt,
      lookupK_insertK_ne _ _ _ _ hk'kn, lookupK_insertK_ne _ _ _ _ hk'kp]
    exact hinv.absent k' hk'old
  · refine (chainRep_append ((pre0 ++ [(kp, ep)]) ++ (kn, en) :: post2)
      [(k, { ts := now, val := v })] c.zero c.zero).mpr ⟨?_, ?_, trivial⟩
    · refine (chainRep_append (pre0 ++ [(kp, ep)]) ((kn, en) :: post2)
        c.zero _).mpr ⟨?_, ?_⟩
      · refine chainRep_congr (fun k' hk' => ?_) hd1chainPre
        rw [lookupK_insertK_ne _ _ _ _
            (show k' ≠ k from fun h => hkpre (by rw [← h]; exact hk')),
          lookupK_insertK_ne _ _ _ _
            (show k' ≠ kt from fun h => hktpre (by rw [← h]; exact hk')),
          lookupK_insertK_ne _ _ _ _
            (show k' ≠ kn from fun h => hknpre (by rw [← h]; exact hk'))]
      · rw [hlkp_pre]
        refine chainRep_congr (fun k' hk' =>
          lookupK_insertK_ne _ _ _ _
            (show k' ≠ k from fun h => hkpost (by rw [← h]; exact hk')))
          (show chainRep _ kp ((kn, en) :: post2) k from by
            rw [hpostdec]; exact hd3chainPost)
    · rw [lookupK_insertK_self, lastKeyD_append, hlkp_pre,
        show lastKeyD kp ((kn, en) :: post2) = lastKeyD kp (post0 ++ [(kt, et)])
          from by rw [hpostdec],
        lastKeyD_concat]
      rfl
  · show c.head = _
    rw [headKeyD_append_ne _ _ _ (by simp), headKeyD_append_ne _ _ _ (by simp)]
    exact hhead
  · show k = _
    rw [lastKeyD_concat]
  · exact insertK_keys_nodup _ _ _ (insertK_keys_nodup _ _ _
      (insertK_keys_nodup _ _ _ (insertK_keys_nodup _ _ _ hinv.dataNodup)))

/-- `set` preserves the TTL invariant; the model moves (or inserts) the key
to the FIFO tail with the fresh timestamp. -/
theorem inv_set (c : MapTTLCache K V) (m : List (K × MEntry V)) (t now : Int)
    (k : K) (v : V) (hinv : TTLInv c m t) (hk : k ≠ c.zero) (hmono : t ≤ now) :
    TTLInv (c.set now k v) (modelSet m k now v) now := by
  by_cases hmem : k ∈ m.map Prod.fst
  · obtain ⟨e, hme⟩ : ∃ e, (k, e) ∈ m := by
      obtain ⟨p, hp, hph⟩ := List.mem_map.mp hmem
      refine ⟨p.2, ?_⟩
      rwa [show (k, p.2) = p from by
        obtain ⟨a, b⟩ := p
        simp only at hph
        rw [hph]]
    obtain ⟨pre, post, rfl⟩ := List.append_of_mem hme
    cases post with
    | nil => exact inv_set_tail c pre e t now k v hinv hk hmono
    | cons pnx post2 =>
      obtain ⟨kn, en⟩ := pnx
      cases pre with
      | nil => exact inv_set_head c e kn en post2 t now k v hinv hk hmono
      | cons p0 pre' =>
        obtain ⟨pre0, xp, hpredec⟩ : ∃ pre0 xp, p0 :: pre' = pre0 ++ [xp] := by
          rcases List.eq_nil_or_concat (p0 :: pre') with h1 | ⟨m0, x, hx⟩
          · exact absurd h1 (by simp)
          · exact ⟨m0, x, by rw [hx, List.concat_eq_append]⟩
        obtain ⟨kp, ep⟩ := xp
        rw [hpredec] at hinv ⊢
        exact inv_set_middle c pre0 kp ep e kn en post2 t now k v hinv hk hmono
  · rcases List.eq_nil_or_concat m with rfl | ⟨m0, x, hx⟩
    · exact inv_set_empty c t now k v hinv hk
    · rw [List.concat_eq_append] at hx
      subst hx
      obtain ⟨kt, et⟩ := x
      exact inv_set_append c m0 kt et t now k v hinv hk hmono hmem

theorem lastKeyD_indep {m : List (K × MEntry V)} (p p' : K) (h : m ≠ []) :
    lastKeyD p m = lastKeyD p' m := by
  rcases List.eq_nil_or_concat m with h1 | ⟨m0, x, hx⟩
  · exact absurd h1 h
  · rw [List.concat_eq_append] at hx
    subst hx
    obtain ⟨kx, ex⟩ := x
    rw [lastKeyD_concat, lastKeyD_concat]

/-- Model-level facts preserved by `modelDel`. -/
theorem modelDel_facts {m : List (K × MEntry V)} {k : K} {t : Int} {z : K}
    (hnd : (m.map Prod.fst).Nodup) (hz : z ∉ m.map Prod.fst)
    (hts : List.Pairwise (· ≤ ·) (m.map fun p => p.2.ts))
    (hb : ∀ p ∈ m, p.2.ts ≤ t) :
    ((modelDel m k).map Prod.fst).Nodup ∧
    z ∉ (modelDel m k).map Prod.fst ∧
    List.Pairwise (· ≤ ·) ((modelDel m k).map fun p => p.2.ts) ∧
    (∀ p ∈ modelDel m k, p.2.ts ≤ t) := by
  have hsub : List.Sublist (m.filter (fun p => p.1 ≠ k)) m :=
    List.filter_sublist m
  refine ⟨?_, ?_, ?_, ?_⟩
  · rw [modelDel, map_fst_filter_ne]
    exact hnd.sublist (List.filter_sublist _)
  · rw [modelDel, map_fst_filter_ne]
    intro hmem
    exact hz (List.mem_of_mem_filter hmem)
  · exact hts.sublist (List.Sublist.map _ hsub)
  · exact fun p hp => hb p (hsub.mem hp)

/-- `Del` preserves the TTL invariant; the model drops the key. -/
theorem inv_del (c : MapTTLCache K V) (m : List (K × MEntry V)) (t : Int)
    (k : K) (hinv : TTLInv c m t) (hk : k ≠ c.zero) :
    TTLInv (c.Del k) (modelDel m k) t := by
  obtain ⟨hndD, hzD, htsD, hbD⟩ := modelDel_facts (k := k) hinv.nodupKeys
    hinv.nzero hinv.tsSorted hinv.tsBound
  by_cases hmem : k ∈ m.map Prod.fst
  case neg =>
    have hlk : lookupK c.data k = none := hinv.absent k hmem
    have hdel : c.Del k = c := by
      rw [MapTTLCache.Del, hlk]
    have hmodel : modelDel m k = m := by
      rw [modelDel]
      refine List.filter_eq_self.mpr (fun p hp => ?_)
      have : p.1 ≠ k := fun h => hmem (h ▸ List.mem_map_of_mem Prod.fst hp)
      simpa using this
    rw [hdel, hmodel]
    exact hinv
  case pos =>
    obtain ⟨e, hme⟩ : ∃ e, (k, e) ∈ m := by
      obtain ⟨p, hp, hph⟩ := List.mem_map.mp hmem
      refine ⟨p.2, ?_⟩
      rwa [show (k, p.2) = p from by
        obtain ⟨a, b⟩ := p
        simp only at hph
        rw [hph]]
    obtain ⟨pre, post, rfl⟩ := List.append_of_mem hme
    obtain ⟨hkpre, hkpost, hndPre, hndPost, hdisj⟩ :=
      nodup_decomp_facts hinv.nodupKeys
    obtain ⟨hchainPre, hchainRest⟩ :=
      (chainRep_append pre ((k, e) :: post) c.zero c.zero).mp hinv.rep
    have hchainPre' : chainRep c.data c.zero pre k := hchainPre
    have hlk : lookupK c.data k =
        some ⟨lastKeyD c.zero pre, headKeyD c.zero post, e.val, e.ts⟩ :=
      hchainRest.1
    have hchainPost : chainRep c.data k post c.zero := hchainRest.2
    have hmodel : modelDel (pre ++ (k, e) :: post) k = pre ++ post := by
      rw [modelDel, filter_ne_decomp hinv.nodupKeys]
    rw [hmodel] at hndD hzD htsD hbD
    rw [hmodel]
    cases pre with
    | nil =>
      have hlk0 : lookupK c.data k =
          some ⟨c.zero, headKeyD c.zero post, e.val, e.ts⟩ := hlk
      have hheadk : k = c.head := by
        have h0 := hinv.headEq
        exact h0.symm
      cases post with
      | nil =>
        -- sole entry: the list becomes empty
        have hlka : lookupK c.data k =
            some ⟨c.zero, c.zero, e.val, e.ts⟩ := hlk0
        have hdel : c.Del k =
            { c with data := eraseK c.data k, head := c.zero,
                     tail := c.zero } := by
          rw [MapTTLCache.Del, hlka]
          simp only []
          rw [if_pos hheadk, if_pos (show k = c.tail from hinv.tailEq.symm),
            if_neg (show ¬ ((c.zero : K) ≠ c.zero) from fun h => h rfl),
            if_neg (show ¬ ((c.zero : K) ≠ c.zero) from fun h => h rfl)]
        rw [hdel]
        refine ⟨by simp, by simp, ?_, trivial, rfl, rfl, by simp, by simp, ?_⟩
        · intro k' _
          by_cases hk' : k' = k
          · subst hk'
            exact lookupK_eraseK_self _ _
          · rw [lookupK_eraseK_ne _ _ _ hk']
            exact hinv.absent k' (by simp [hk'])
        · exact eraseK_keys_nodup _ _ hinv.dataNodup
      | cons pnx post2 =>
        obtain ⟨kn, en⟩ := pnx
        -- head delete: the second entry becomes head
        have hknz : kn ≠ c.zero := by
          intro h
          exact hinv.nzero (by simp [← h])
        have hknk : kn ≠ k := by
          intro h
          exact hkpost (by simp [← h])
        have hknpost2 : kn ∉ post2.map Prod.fst := by
          have h9 : (([] ++ (kn, en) :: post2).map Prod.fst).Nodup := hndPost
          exact (nodup_decomp_facts h9).2.1
        have hlk_kn : lookupK c.data kn =
            some ⟨k, headKeyD c.zero post2, en.val, en.ts⟩ := hchainPost.1
        have htailne : ¬ (k = c.tail) := by
          rw [hinv.tailEq]
          intro h
          refine hkpost ?_
          rw [h, show lastKeyD c.zero ([] ++ (k, e) :: (kn, en) :: post2) =
            lastKeyD k ((kn, en) :: post2) from by
              rw [lastKeyD_append]; rfl]
          exact lastKeyD_mem k (by simp)
        have hlkc : lookupK c.data k =
            some ⟨c.zero, kn, e.val, e.ts⟩ := hlk0
        have hdel : c.Del k =
            { c with
              head := kn
              data := insertK (eraseK c.data k) kn
                ⟨c.zero, headKeyD c.zero post2, en.val, en.ts⟩ } := by
          rw [MapTTLCache.Del, hlkc]
          simp only []
          rw [if_pos hheadk, if_neg htailne,
            if_neg (show ¬ ((c.zero : K) ≠ c.zero) from fun h => h rfl),
            if_pos hknz]
          rw [show lookupK (eraseK c.data k) kn = some
              ⟨k, headKeyD c.zero post2, en.val, en.ts⟩ from by
            rw [lookupK_eraseK_ne _ _ _ hknk]; exact hlk_kn]
          simp only [Option.getD_some]
        rw [hdel]
        refine ⟨hndD, hzD, ?_, ?_, rfl, ?_, htsD, hbD, ?_⟩
        · intro k' hk'
          have hk'kn : k' ≠ kn := by
            intro h
            exact hk' (by simp [h])
          rw [lookupK_insertK_ne _ _ _ _ hk'kn]
          by_cases hk'k : k' = k
          · subst hk'k
            exact lookupK_eraseK_self _ _
          · rw [lookupK_eraseK_ne _ _ _ hk'k]
            refine hinv.absent k' ?_
            intro hmem2
            simp only [List.nil_append, List.map_cons, List.mem_cons] at hmem2
            rcases hmem2 with h | h
            · exact hk'k h
            · exact hk' (by simpa using h)
        · have hpostd0 : chainRep (eraseK c.data k) k
              ((kn, en) :: post2) c.zero := by
            refine chainRep_congr (fun k' hk' => ?_) hchainPost
            exact lookupK_eraseK_ne _ _ _
              (fun h => hkpost (by rw [← h]; exact hk'))
          exact chainRep_set_first hpostd0 hknpost2 c.zero
        · rw [hinv.tailEq, show lastKeyD c.zero
              ([] ++ (k, e) :: (kn, en) :: post2) =
              lastKeyD k ((kn, en) :: post2) from by
            rw [lastKeyD_append]; rfl]
          rw [show ([] ++ (kn, en) :: post2 : List (K × MEntry V)) =
            (kn, en) :: post2 from rfl]
          exact lastKeyD_indep _ _ (by simp)
        · exact insertK_keys_nodup _ _ _ (eraseK_keys_nodup _ _ hinv.dataNodup)
    | cons p0 pre' =>
      obtain ⟨pre0, xp, hpredec⟩ : ∃ pre0 xp, p0 :: pre' = pre0 ++ [xp] := by
        rcases List.eq_nil_or_concat (p0 :: pre') with h1 | ⟨m0, x, hx⟩
        · exact absurd h1 (by simp)
        · exact ⟨m0, x, by rw [hx, List.concat_eq_append]⟩
      obtain ⟨kp, ep⟩ := xp
      rw [hpredec] at hchainPre' hlk hkpre hndPre hdisj hndD hzD htsD hbD hinv ⊢
      have hkp_pre0 : kp ∉ pre0.map Prod.fst :=
        (nodup_decomp_facts hndPre).1
      have hkpmem : kp ∈ (pre0 ++ [(kp, ep)]).map Prod.fst := by simp
      have hkpz : kp ≠ c.zero := by
        intro h
        refine hinv.nzero ?_
        rw [List.map_append, ← h]
        exact List.mem_append.mpr (Or.inl hkpmem)
      have hkkp : k ≠ kp := fun h => hkpre (h ▸ hkpmem)
      have hlk' : lookupK c.data k =
          some ⟨kp, headKeyD c.zero post, e.val, e.ts⟩ := by
        rw [hlk, lastKeyD_concat]
      have hknothead : ¬ (k = c.head) := by
        rw [hinv.headEq, headKeyD_append_ne _ _ _ (by simp)]
        intro h
        exact hkpre (h ▸ headKeyD_mem c.zero (by simp))
      have hlk_kp : lookupK c.data kp =
          some ⟨lastKeyD c.zero pre0, k, ep.val, ep.ts⟩ :=
        ((chainRep_append pre0 [(kp, ep)] c.zero k).mp hchainPre').2.1
      have hlk_d0_kp : lookupK (eraseK c.data k) kp =
          some ⟨lastKeyD c.zero pre0, k, ep.val, ep.ts⟩ := by
        rw [lookupK_eraseK_ne _ _ _ (Ne.symm hkkp)]
        exact hlk_kp
      have hd0chainPre : chainRep (eraseK c.data k) c.zero
          (pre0 ++ [(kp, ep)]) k := by
        refine chainRep_congr (fun k' hk' => ?_) hchainPre'
        exact lookupK_eraseK_ne _ _ _
          (fun h => hkpre (by rw [← h]; exact hk'))
      cases post with
      | nil =>
        -- tail delete: the second-to-last entry becomes tail
        have htailk : k = c.tail := by
          rw [hinv.tailEq, lastKeyD_append]
          rfl
        have hlkb : lookupK c.data k =
            some ⟨kp, c.zero, e.val, e.ts⟩ := hlk'
        have hdel : c.Del k =
            { c with
              tail := kp
              data := insertK (eraseK c.data k) kp
                ⟨lastKeyD c.zero pre0, c.zero, ep.val, ep.ts⟩ } := by
          rw [MapTTLCache.Del, hlkb]
          simp only []
          rw [if_neg hknothead, if_pos htailk, if_pos hkpz,
            if_neg (show ¬ ((c.zero : K) ≠ c.zero) from fun h => h rfl)]
          rw [hlk_d0_kp]
          simp only [Option.getD_some]
        rw [hdel]
        refine ⟨by simpa using hndD, by simpa using hzD, ?_, ?_, ?_, ?_,
          by simpa using htsD, by simpa using hbD, ?_⟩
        · intro k' hk'
          simp only [List.append_nil] at hk'
          have hk'kp : k' ≠ kp := fun h => hk' (h ▸ hkpmem)
          rw [lookupK_insertK_ne _ _ _ _ hk'kp]
          by_cases hk'k : k' = k
          · subst hk'k
            exact lookupK_eraseK_self _ _
          · rw [lookupK_eraseK_ne _ _ _ hk'k]
            refine hinv.absent k' ?_
            rw [List.map_append]
            intro hmem2
            rcases List.mem_append.mp hmem2 with h | h
            · exact hk' h
            · simp only [List.map_cons, List.map_nil, List.mem_cons] at h
              rcases h with h | h
              · exact hk'k h
              · simp at h
        · rw [List.append_nil]
          exact chainRep_set_last hd0chainPre hkp_pre0 ep c.zero
        · rw [hinv.headEq,
            headKeyD_append_ne c.zero (pre0 ++ [(kp, ep)]) [(k, e)] (by simp),
            List.append_nil]
        · rw [List.append_nil, lastKeyD_concat]
        · exact insertK_keys_nodup _ _ _ (eraseK_keys_nodup _ _ hinv.dataNodup)
      | cons pnx post2 =>
        obtain ⟨kn, en⟩ := pnx
        -- middle delete: three-pointer unlink
        have hknz : kn ≠ c.zero := by
          intro h
          refine hinv.nzero ?_
          rw [List.map_append, ← h]
          refine List.mem_append.mpr (Or.inr ?_)
          simp
        have hknk : kn ≠ k := by
          intro h
          exact hkpost (by simp [← h])
        have hknkp : kn ≠ kp := by
          intro h
          exact hdisj kn (h ▸ hkpmem) (by simp)
        have hknpost2 : kn ∉ post2.map Prod.fst := by
          have h9 : (([] ++ (kn, en) :: post2).map Prod.fst).Nodup := hndPost
          exact (nodup_decomp_facts h9).2.1
        have hlk_kn : lookupK c.data kn =
            some ⟨k, headKeyD c.zero post2, en.val, en.ts⟩ := hchainPost.1
        have htailne : ¬ (k = c.tail) := by
          rw [hinv.tailEq]
          intro h
          refine hkpost ?_
          rw [h, lastKeyD_append, lastKeyD_cons]
          refine lastKeyD_mem _ (by simp)
        have hlk_d1_kn : lookupK (insertK (eraseK c.data k) kp
            ⟨lastKeyD c.zero pre0, kn, ep.val, ep.ts⟩) kn =
            some ⟨k, headKeyD c.zero post2, en.val, en.ts⟩ := by
          rw [lookupK_insertK_ne _ _ _ _ hknkp,
            lookupK_eraseK_ne _ _ _ hknk]
          exact hlk_kn
        have hlkd : lookupK c.data k =
            some ⟨kp, kn, e.val, e.ts⟩ := hlk'
        have hdel : c.Del k =
            { c with
              data := insertK
                (insertK (eraseK c.data k) kp
                  ⟨lastKeyD c.zero pre0, kn, ep.val, ep.ts⟩)
                kn ⟨kp, headKeyD c.zero post2, en.val, en.ts⟩ } := by
          rw [MapTTLCache.Del, hlkd]
          simp only []
          rw [if_neg hknothead, if_neg htailne, if_pos hkpz, if_pos hknz]
          rw [hlk_d0_kp]
          simp only [Option.getD_some]
          rw [hlk_d1_kn]
          simp only [Option.getD_some]
        rw [hdel]
        refine ⟨hndD, hzD, ?_, ?_, ?_, ?_, htsD, hbD, ?_⟩
        · intro k' hk'
          rw [List.map_append, List.mem_append] at hk'
          simp only [not_or] at hk'
          obtain ⟨hk'pre, hk'post⟩ := hk'
          have hk'kp : k' ≠ kp := fun h => hk'pre (h ▸ hkpmem)
          have hk'kn : k' ≠ kn := fun h => hk'post (by simp [h])
          rw [lookupK_insertK_ne _ _ _ _ hk'kn,
            lookupK_insertK_ne _ _ _ _ hk'kp]
          by_cases hk'k : k' = k
          · subst hk'k
            exact lookupK_eraseK_self _ _
          · rw [lookupK_eraseK_ne _ _ _ hk'k]
            refine hinv.absent k' ?_
            rw [List.map_append, List.mem_append]
            intro hmem2
            rcases hmem2 with h | h
            · exact hk'pre h
            · simp only [List.map_cons, List.mem_cons] at h
              rcases h with h | h
              · exact hk'k h
              · exact hk'post (by simpa using h)
        · refine (chainRep_append (pre0 ++ [(kp, ep)]) ((kn, en) :: post2)
            c.zero c.zero).mpr ⟨?_, ?_⟩
          · refine chainRep_congr (fun k' hk' => ?_)
              (chainRep_set_last hd0chainPre hkp_pre0 ep kn)
            exact lookupK_insertK_ne _ _ _ _
              (show k' ≠ kn from fun h =>
                hdisj kn (by rw [← h]; exact hk') (by simp))
          · rw [lastKeyD_concat]
            have hd1chainPost : chainRep (insertK (eraseK c.data k) kp
                ⟨lastKeyD c.zero pre0, kn, ep.val, ep.ts⟩) k
                ((kn, en) :: post2) c.zero := by
              refine chainRep_congr (fun k' hk' => ?_) hchainPost
              rw [lookupK_insertK_ne _ _ _ _
                (show k' ≠ kp from fun h =>
                  hdisj kp hkpmem (by rw [← h]; exact hk')),
                lookupK_eraseK_ne _ _ _
                  (show k' ≠ k from fun h =>
                    hkpost (by rw [← h]; exact hk'))]
            exact chainRep_set_first hd1chainPost hknpost2 kp
        · rw [hinv.headEq,
            headKeyD_append_ne c.zero (pre0 ++ [(kp, ep)])
              ((k, e) :: (kn, en) :: post2) (by simp),
            headKeyD_append_ne c.zero (pre0 ++ [(kp, ep)])
              ((kn, en) :: post2) (by simp)]
        · have h1 : lastKeyD c.zero
              ((pre0 ++ [(kp, ep)]) ++ (k, e) :: (kn, en) :: post2) =
              lastKeyD kn post2 := by
            rw [lastKeyD_append, lastKeyD_concat, lastKeyD_cons, lastKeyD_cons]
          have h2 : lastKeyD c.zero
              ((pre0 ++ [(kp, ep)]) ++ (kn, en) :: post2) =
              lastKeyD kn post2 := by
            rw [lastKeyD_append, lastKeyD_concat, lastKeyD_cons]
          rw [hinv.tailEq, h1, h2]
        · exact insertK_keys_nodup _ _ _ (insertK_keys_nodup _ _ _
            (eraseK_keys_nodup _ _ hinv.dataNodup))

/-! ## C2: running operation sequences -/

/-- The invariant is monotone in the time bound. -/
theorem TTLInv.mono {c : MapTTLCache K V} {m : List (K × MEntry V)} {t t' : Int}
    (h : TTLInv c m t) (ht : t ≤ t') : TTLInv c m t' :=
  ⟨h.nodupKeys, h.nzero, h.absent, h.rep, h.headEq, h.tailEq, h.tsSorted,
    fun p hp => le_trans (h.tsBound p hp) ht, h.dataNodup⟩

/-- A fresh cache satisfies the invariant with the empty model. -/
theorem inv_init (z : K) (ttl t : Int) :
    TTLInv (MapTTLCache.init z ttl : MapTTLCache K V) [] t :=
  ⟨by simp, by simp, fun _ _ => rfl, trivial, rfl, rfl, by simp, by simp,
    by simp [MapTTLCache.init]⟩

/-- `set` never changes the zero sentinel. -/
theorem ttl_set_zero (c : MapTTLCache K V) (now : Int) (key : K) (v : V) :
    (c.set now key v).zero = c.zero := by
  unfold MapTTLCache.set
  by_cases h1 : c.head = c.zero
  · simp [h1]
  · by_cases h2 : c.tail = key
    · simp [h1, h2]
    · simp only [h1, h2, if_false]
      cases hl : lookupK c.data key with
      | none => simp [hl]
      | some r => by_cases h3 : key = c.head <;> simp [hl, h3]

/-- `Del` never changes the zero sentinel. -/
theorem ttl_del_zero (c : MapTTLCache K V) (key : K) :
    (c.Del key).zero = c.zero := by
  rw [MapTTLCache.Del]
  cases hl : lookupK c.data key with
  | none => rfl
  | some r => rfl

/-- `Del` never changes the TTL. -/
theorem ttl_del_ttl (c : MapTTLCache K V) (key : K) :
    (c.Del key).ttl = c.ttl := by
  rw [MapTTLCache.Del]
  cases hl : lookupK c.data key with
  | none => rfl
  | some r => rfl

/-- One unfolding step of `walk`. -/
theorem walk_succ (c : MapTTLCache K V) (fuel : Nat) (k : K) :
    c.walk (fuel + 1) k =
      if k = c.zero then []
      else
        match lookupK c.data k with
        | none => []
        | some r => k :: c.walk fuel r.next := rfl

/-- Walking the chain from its head lists exactly the model's keys. -/
theorem walk_chain (c : MapTTLCache K V) :
    ∀ (m : List (K × MEntry V)) (p : K),
      c.zero ∉ m.map Prod.fst → chainRep c.data p m c.zero →
      c.walk (m.length + 1) (headKeyD c.zero m) = m.map Prod.fst := by
  intro m
  induction m with
  | nil =>
    intro p _ _
    show c.walk 1 c.zero = []
    rw [walk_succ, if_pos rfl]
  | cons kv rest ih =>
    obtain ⟨k, e⟩ := kv
    intro p hz hrep
    have hkz : k ≠ c.zero := fun h => hz (by simp [← h])
    have hhead : headKeyD c.zero ((k, e) :: rest) = k := rfl
    rw [hhead, List.length_cons]
    have hstep : c.walk (rest.length + 1 + 1) k =
        k :: c.walk (rest.length + 1) (headKeyD c.zero rest) := by
      rw [walk_succ, if_neg hkz, hrep.1]
    rw [hstep, ih k (fun h => hz (by simp [h])) hrep.2]
    rfl

/-- Under the invariant the store and the model have the same size. -/
theorem len_model (c : MapTTLCache K V) {m : List (K × MEntry V)} {t : Int}
    (hinv : TTLInv c m t) : c.data.length = m.length := by
  have hperm : (c.data.map Prod.fst).Perm (m.map Prod.fst) := by
    refine (List.perm_ext_iff_of_nodup hinv.dataNodup hinv.nodupKeys).mpr ?_
    intro k
    constructor
    · intro hk
      by_contra hk2
      have habs := hinv.absent k hk2
      rw [lookupK_eq_none_iff] at habs
      exact habs hk
    · intro hk
      obtain ⟨p, hp, hpk⟩ := List.mem_map.mp hk
      obtain ⟨e, hme⟩ : ∃ e, (k, e) ∈ m := ⟨p.2, by rw [← hpk]; simpa using hp⟩
      obtain ⟨pre, post, hdec, hlk⟩ := chainRep_lookup_of_mem hinv.rep hme
      by_contra hk2
      rw [(lookupK_eq_none_iff c.data k).mpr hk2] at hlk
      exact Option.noConfusion hlk
  have hlen := hperm.length_eq
  simpa using hlen

/-- The first entry of the chain has the zero sentinel as `prev`. -/
theorem chainRep_head_prev {c : MapTTLCache K V} {k : K} {e : MEntry V}
    {rest : List (K × MEntry V)}
    (hrep : chainRep c.data c.zero ((k, e) :: rest) c.zero) :
    (c.dataD k).prev = c.zero := by
  rw [dataD_eq_of_lookup hrep.1]

/-- The last entry of the chain has the zero sentinel as `next`. -/
theorem chainRep_tail_next {c : MapTTLCache K V} {m0 : List (K × MEntry V)}
    {kl : K} {el : MEntry V}
    (hrep : chainRep c.data c.zero (m0 ++ [(kl, el)]) c.zero) :
    (c.dataD kl).next = c.zero := by
  have h := ((chainRep_append m0 [(kl, el)] c.zero c.zero).mp hrep).2.1
  rw [dataD_eq_of_lookup h]
  rfl

/-- Stored timestamps along the model's keys are the model's timestamps. -/
theorem chain_ts_eq {c : MapTTLCache K V} {m : List (K × MEntry V)} {t : Int}
    (hinv : TTLInv c m t) :
    (m.map Prod.fst).map (fun k => (c.dataD k).timestamp) =
      m.map (fun p => p.2.ts) := by
  rw [List.map_map]
  refine List.map_congr_left ?_
  intro p hp
  obtain ⟨pre, post, hdec, hlk⟩ := chainRep_lookup_of_mem hinv.rep
    (show (p.1, p.2) ∈ m from by simpa using hp)
  show (c.dataD p.1).timestamp = p.2.ts
  rw [dataD_eq_of_lookup hlk]

/-- Sentinel neighbours of head and tail under the invariant. -/
theorem inv_sentinels {c : MapTTLCache K V} {m : List (K × MEntry V)} {t : Int}
    (hinv : TTLInv c m t) (hne : m ≠ []) :
    (c.dataD c.head).prev = c.zero ∧ (c.dataD c.tail).next = c.zero := by
  cases m with
  | nil => exact absurd rfl hne
  | cons p rest =>
    obtain ⟨k1, e1⟩ := p
    constructor
    · rw [hinv.headEq]
      show (c.dataD k1).prev = c.zero
      exact chainRep_head_prev hinv.rep
    · rcases List.eq_nil_or_concat ((k1, e1) :: rest) with h | ⟨m0, x, hx⟩
      · simp at h
      · obtain ⟨kl, el⟩ := x
        rw [List.concat_eq_append] at hx
        rw [hinv.tailEq, hx, lastKeyD_concat]
        exact chainRep_tail_next (by rw [← hx]; exact hinv.rep)

/-- One public mutating call of the TTL cache (C2's operation alphabet). -/
inductive TTLOp (K V : Type) where
  | set (now : Int) (k : K) (v : V)
  | del (k : K)
  | setIfPresent (now : Int) (k : K) (v : V)
  | setIfAbsent (now : Int) (k : K) (v : V)

/-- The key an operation addresses. -/
def opKey : TTLOp K V → K
  | .set _ k _ => k
  | .del k => k
  | .setIfPresent _ k _ => k
  | .setIfAbsent _ k _ => k

/-- The clock of an operation (`t` itself for `Del`, which reads no clock). -/
def opNow (t : Int) : TTLOp K V → Int
  | .set now _ _ => now
  | .del _ => t
  | .setIfPresent now _ _ => now
  | .setIfAbsent now _ _ => now

/-- Admissible operation sequences: keys avoid the zero value of `K`, and
clocks are non-decreasing (each call reads `time.Now()`). -/
def validFrom (z : K) : Int → List (TTLOp K V) → Bool
  | _, [] => true
  | t, op :: ops =>
      decide (t ≤ opNow t op) && decide (opKey op ≠ z) &&
        validFrom z (opNow t op) ops

/-- Run one public call (state component of the result). -/
def applyOp (c : MapTTLCache K V) : TTLOp K V → MapTTLCache K V
  | .set now k v => c.Set now k v
  | .del k => c.Del k
  | .setIfPresent now k v => (c.SetIfPresent now k v).2
  | .setIfAbsent now k v => (c.SetIfAbsent now k v).2

/-- Run a sequence of public calls. -/
def applyOps (c : MapTTLCache K V) (ops : List (TTLOp K V)) : MapTTLCache K V :=
  ops.foldl applyOp c

/-- Specification-side step of the FIFO model, mirroring `applyOp`; the
second component is the running clock bound. -/
def modelStep (ttl0 : Int) :
    List (K × MEntry V) × Int → TTLOp K V → List (K × MEntry V) × Int
  | (m, _), .set now k v => (modelSet m k now v, now)
  | (m, t), .del k => (modelDel m k, t)
  | (m, _), .setIfPresent now k v =>
      (match lookupK m k with
       | some e => if now - e.ts ≥ ttl0 then m else modelSet m k now v
       | none => m, now)
  | (m, _), .setIfAbsent now k v =>
      (match lookupK m k with
       | some e => if now - e.ts ≥ ttl0 then modelSet m k now v else m
       | none => modelSet m k now v, now)

/-- Specification-side run of the FIFO model. -/
def modelRun (ttl0 : Int) (m : List (K × MEntry V)) (t : Int)
    (ops : List (TTLOp K V)) : List (K × MEntry V) × Int :=
  ops.foldl (modelStep ttl0) (m, t)

theorem modelStep_snd (ttl0 : Int) (m : List (K × MEntry V)) (t : Int)
    (op : TTLOp K V) : (modelStep ttl0 (m, t) op).2 = opNow t op := by
  cases op <;> rfl

/-- Each operation preserves the invariant with the mirrored model step, and
never changes the zero sentinel or the TTL. -/
theorem inv_applyOp (c : MapTTLCache K V) (m : List (K × MEntry V)) (t : Int)
    (op : TTLOp K V) (hinv : TTLInv c m t) (hk : opKey op ≠ c.zero)
    (hmono : t ≤ opNow t op) :
    TTLInv (applyOp c op) (modelStep c.ttl (m, t) op).1
      (modelStep c.ttl (m, t) op).2 ∧
    (applyOp c op).zero = c.zero ∧ (applyOp c op).ttl = c.ttl := by
  cases op with
  | set now k v =>
    exact ⟨inv_set c m t now k v hinv hk hmono,
      ttl_set_zero c now k v, ttl_set_ttl c now k v⟩
  | del k =>
    exact ⟨inv_del c m t k hinv hk, ttl_del_zero c k, ttl_del_ttl c k⟩
  | setIfPresent now k v =>
    cases hlm : lookupK m k with
    | none =>
      have habs : lookupK c.data k =
          none := hinv.absent k ((lookupK_eq_none_iff m k).mp hlm)
      have hget : c.get now k = (default, false) := by
        rw [MapTTLCache.get, habs]
      have h2 : (c.SetIfPresent now k v).2 = c := by
        rw [MapTTLCache.SetIfPresent]
        simp [hget]
      have hms : modelStep c.ttl (m, t) (TTLOp.setIfPresent now k v) =
          (m, now) := by
        simp [modelStep, hlm]
      rw [hms, show applyOp c (TTLOp.setIfPresent now k v) =
          (c.SetIfPresent now k v).2 from rfl, h2]
      exact ⟨TTLInv.mono hinv hmono, rfl, rfl⟩
    | some e =>
      have hmem : (k, e) ∈ m := (lookupK_eq_some_iff_mem hinv.nodupKeys k e).mp hlm
      obtain ⟨pre, post, hdec, hlk⟩ := chainRep_lookup_of_mem hinv.rep hmem
      by_cases hexp : now - e.ts ≥ c.ttl
      · have hget : c.get now k = (e.val, false) := by
          rw [MapTTLCache.get, hlk]
          show (if now - e.ts ≥ c.ttl then (e.val, false) else (e.val, true)) =
            (e.val, false)
          rw [if_pos hexp]
        have h2 : (c.SetIfPresent now k v).2 = c := by
          rw [MapTTLCache.SetIfPresent]
          simp [hget]
        have hms : modelStep c.ttl (m, t) (TTLOp.setIfPresent now k v) =
            (m, now) := by
          simp [modelStep, hlm, hexp]
        rw [hms, show applyOp c (TTLOp.setIfPresent now k v) =
            (c.SetIfPresent now k v).2 from rfl, h2]
        exact ⟨TTLInv.mono hinv hmono, rfl, rfl⟩
      · have hget : c.get now k = (e.val, true) := by
          rw [MapTTLCache.get, hlk]
          show (if now - e.ts ≥ c.ttl then (e.val, false) else (e.val, true)) =
            (e.val, true)
          rw [if_neg hexp]
        have h2 : (c.SetIfPresent now k v).2 = c.set now k v := by
          rw [MapTTLCache.SetIfPresent]
          simp [hget]
        have hms : modelStep c.ttl (m, t) (TTLOp.setIfPresent now k v) =
            (modelSet m k now v, now) := by
          simp [modelStep, hlm, hexp]
        rw [hms, show applyOp c (TTLOp.setIfPresent now k v) =
            (c.SetIfPresent now k v).2 from rfl, h2]
        exact ⟨inv_set c m t now k v hinv hk hmono,
          ttl_set_zero c now k v, ttl_set_ttl c now k v⟩
  | setIfAbsent now k v =>
    cases hlm : lookupK m k with
    | none =>
      have habs : lookupK c.data k =
          none := hinv.absent k ((lookupK_eq_none_iff m k).mp hlm)
      have hget : c.get now k = (default, false) := by
        rw [MapTTLCache.get, habs]
      have h2 : (c.SetIfAbsent now k v).2 = c.set now k v := by
        rw [MapTTLCache.SetIfAbsent]
        simp [hget]
      have hms : modelStep c.ttl (m, t) (TTLOp.setIfAbsent now k v) =
          (modelSet m k now v, now) := by
        simp [modelStep, hlm]
      rw [hms, show applyOp c (TTLOp.setIfAbsent now k v) =
          (c.SetIfAbsent now k v).2 from rfl, h2]
      exact ⟨inv_set c m t now k v hinv hk hmono,
        ttl_set_zero c now k v, ttl_set_ttl c now k v⟩
    | some e =>
      have hmem : (k, e) ∈ m := (lookupK_eq_some_iff_mem hinv.nodupKeys k e).mp hlm
      obtain ⟨pre, post, hdec, hlk⟩ := chainRep_lookup_of_mem hinv.rep hmem
      by_cases hexp : now - e.ts ≥ c.ttl
      · have hget : c.get now k = (e.val, false) := by
          rw [MapTTLCache.get, hlk]
          show (if now - e.ts ≥ c.ttl then (e.val, false) else (e.val, true)) =
            (e.val, false)
          rw [if_pos hexp]
        have h2 : (c.SetIfAbsent now k v).2 = c.set now k v := by
          rw [MapTTLCache.SetIfAbsent]
          simp [hget]
        have hms : modelStep c.ttl (m, t) (TTLOp.setIfAbsent now k v) =
            (modelSet m k now v, now) := by
          simp [modelStep, hlm, hexp]
        rw [hms, show applyOp c (TTLOp.setIfAbsent now k v) =
            (c.SetIfAbsent now k v).2 from rfl, h2]
        exact ⟨inv_set c m t now k v hinv hk hmono,
          ttl_set_zero c now k v, ttl_set_ttl c now k v⟩
      · have hget : c.get now k = (e.val, true) := by
          rw [MapTTLCache.get, hlk]
          show (if now - e.ts ≥ c.ttl then (e.val, false) else (e.val, true)) =
            (e.val, true)
          rw [if_neg hexp]
        have h2 : (c.SetIfAbsent now k v).2 = c := by
          rw [MapTTLCache.SetIfAbsent]
          simp [hget]
        have hms : modelStep c.ttl (m, t) (TTLOp.setIfAbsent now k v) =
            (m, now) := by
          simp [modelStep, hlm, hexp]
        rw [hms, show applyOp c (TTLOp.setIfAbsent now k v) =
            (c.SetIfAbsent now k v).2 from rfl, h2]
        exact ⟨TTLInv.mono hinv hmono, rfl, rfl⟩

/-- Running an admissible sequence preserves the invariant against the
mirrored model run. -/
theorem inv_run (ops : List (TTLOp K V)) :
    ∀ (c : MapTTLCache K V) (m : List (K × MEntry V)) (t : Int),
      TTLInv c m t → validFrom c.zero t ops = true →
      TTLInv (applyOps c ops) (modelRun c.ttl m t ops).1
        (modelRun c.ttl m t ops).2 ∧
      (applyOps c ops).zero = c.zero ∧ (applyOps c ops).ttl = c.ttl := by
  induction ops with
  | nil =>
    intro c m t hinv _
    exact ⟨hinv, rfl, rfl⟩
  | cons op ops ih =>
    intro c m t hinv hval
    rw [validFrom] at hval
    simp only [Bool.and_eq_true, decide_eq_true_eq] at hval
    obtain ⟨⟨hmono, hkz⟩, hrest⟩ := hval
    obtain ⟨hinv1, hz1, httl1⟩ := inv_applyOp c m t op hinv hkz hmono
    have hrest' : validFrom (applyOp c op).zero (opNow t op) ops = true := by
      rw [hz1]
      exact hrest
    have hinv1' : TTLInv (applyOp c op) (modelStep c.ttl (m, t) op).1
        (opNow t op) := by
      rw [← modelStep_snd c.ttl m t op]
      exact hinv1
    obtain ⟨hinv2, hz2, httl2⟩ := ih (applyOp c op)
      (modelStep c.ttl (m, t) op).1 (opNow t op) hinv1' hrest'
    rw [httl1] at hinv2
    have happ : applyOps c (op :: ops) = applyOps (applyOp c op) ops := rfl
    have hmrun : modelRun c.ttl m t (op :: ops) =
        modelRun c.ttl (modelStep c.ttl (m, t) op).1
          (modelStep c.ttl (m, t) op).2 ops := rfl
    refine ⟨?_, ?_, ?_⟩
    · rw [happ, hmrun, modelStep_snd]
      exact hinv2
    · rw [happ, hz2, hz1]
    · rw [happ, httl2, httl1]

/-- C2: after any finite sequence of `Set`/`Del`/`SetIfPresent`/`SetIfAbsent`
calls whose keys differ from the zero value of `K` (clocks non-decreasing, as
each call reads `time.Now()`), the doubly linked list satisfies: walking
`next` from `head` terminates and visits exactly `Len` entries (so the list
is acyclic), each key appears at most once, timestamps are non-decreasing
along `next`; and if the store is non-empty then `head` is the
least-recently-set key, `tail` the most-recently-set, head's `prev` and
tail's `next` are the zero sentinel. -/
theorem ttl_fifo_list_invariant (z : K) (ttl0 t0 : Int)
    (ops : List (TTLOp K V)) (c : MapTTLCache K V)
    (m : List (K × MEntry V)) (hval : validFrom z t0 ops = true)
    (hc : c = applyOps (MapTTLCache.init z ttl0) ops)
    (hm : m = (modelRun ttl0 [] t0 ops).1) :
    c.walk (c.Len + 1) c.head = m.map Prod.fst ∧
    (c.walk (c.Len + 1) c.head).length = c.Len ∧
    (c.walk (c.Len + 1) c.head).Nodup ∧
    List.Pairwise (· ≤ ·)
      ((c.walk (c.Len + 1) c.head).map fun k2 => (c.dataD k2).timestamp) ∧
    (m ≠ [] →
      c.head = headKeyD z m ∧ c.tail = lastKeyD z m ∧
      (c.dataD c.head).prev = z ∧ (c.dataD c.tail).next = z) := by
  subst hc hm
  obtain ⟨hinvr, hzr, httlr⟩ := inv_run ops (MapTTLCache.init z ttl0) [] t0
    (inv_init z ttl0 t0) hval
  have hinv : TTLInv (applyOps (MapTTLCache.init z ttl0 : MapTTLCache K V) ops)
      (modelRun ttl0 [] t0 ops).1 (modelRun ttl0 [] t0 ops).2 := hinvr
  have hz0 : (applyOps (MapTTLCache.init z ttl0 : MapTTLCache K V) ops).zero =
      z := hzr
  have hLen : (applyOps (MapTTLCache.init z ttl0 : MapTTLCache K V) ops).Len =
      (modelRun ttl0 [] t0 ops).1.length := len_model _ hinv
  have h1 : (applyOps (MapTTLCache.init z ttl0 : MapTTLCache K V) ops).walk
      ((applyOps (MapTTLCache.init z ttl0 : MapTTLCache K V) ops).Len + 1)
      (applyOps (MapTTLCache.init z ttl0 : MapTTLCache K V) ops).head =
      (modelRun ttl0 [] t0 ops).1.map Prod.fst := by
    rw [hLen, hinv.headEq]
    exact walk_chain _ _ _ hinv.nzero hinv.rep
  refine ⟨h1, ?_, ?_, ?_, ?_⟩
  · rw [h1, List.length_map, hLen]
  · rw [h1]
    exact hinv.nodupKeys
  · rw [h1, chain_ts_eq hinv]
    exact hinv.tsSorted
  · intro hne
    obtain ⟨hp, hn⟩ := inv_sentinels hinv hne
    refine ⟨?_, ?_, ?_, ?_⟩
    · rw [hinv.headEq, hz0]
    · rw [hinv.tailEq, hz0]
    · rw [hp, hz0]
    · rw [hn, hz0]

def c2ops : List (TTLOp Nat Nat) :=
  [TTLOp.set 1 1 11, TTLOp.set 2 2 22, TTLOp.setIfAbsent 3 3 33,
   TTLOp.del 2, TTLOp.setIfPresent 4 1 44, TTLOp.setIfAbsent 5 1 55]

def c2cache : MapTTLCache Nat Nat :=
  applyOps (MapTTLCache.init 0 100) c2ops

def c2model : List (Nat × MEntry Nat) :=
  (modelRun 100 [] 0 c2ops).1

theorem ttl_fifo_list_invariant_witness :
    validFrom (0 : Nat) 0 c2ops = true ∧
    (c2cache.walk (c2cache.Len + 1) c2cache.head = c2model.map Prod.fst ∧
     (c2cache.walk (c2cache.Len + 1) c2cache.head).length = c2cache.Len ∧
     (c2cache.walk (c2cache.Len + 1) c2cache.head).Nodup ∧
     List.Pairwise (· ≤ ·)
       ((c2cache.walk (c2cache.Len + 1) c2cache.head).map
         fun k2 => (c2cache.dataD k2).timestamp) ∧
     (c2model ≠ [] →
       c2cache.head = headKeyD 0 c2model ∧ c2cache.tail = lastKeyD 0 c2model ∧
       (c2cache.dataD c2cache.head).prev = 0 ∧
       (c2cache.dataD c2cache.tail).next = 0)) :=
  ⟨by decide,
    ttl_fifo_list_invariant 0 100 0 c2ops c2cache c2model (by decide) rfl rfl⟩

/-! ## C3: the sweeper's eviction callbacks -/

/-- Writing a fresh key into a Go map appends it (in map-insertion order of
the association-list model). -/
theorem insertK_eq_append {A : Type} [DecidableEq K] (m : List (K × A))
    (k : K) (a : A) (h : k ∉ m.map Prod.fst) : insertK m k a = m ++ [(k, a)] := by
  induction m with
  | nil => rfl
  | cons p rest ih =>
    obtain ⟨k0, a0⟩ := p
    have hk0 : ¬ k0 = k := fun hkk => h (by simp [hkk])
    rw [insertK_cons_ne _ _ _ _ _ hk0, ih (fun hm => h (by simp [hm]))]
    rfl

/-- One unfolding step of the cleanup loop. -/
theorem cleanupLoop_succ (now : Int) (fuel : Nat) (c : MapTTLCache K V)
    (key : K) (evicted : List (K × V)) :
    cleanupLoop now (fuel + 1) c key evicted =
      match lookupK c.data key with
      | none => (c, evicted)
      | some rec =>
        if now - rec.timestamp < c.ttl then (c, evicted)
        else
          let c1 := { c with head := rec.next, data := eraseK c.data key }
          let evicted1 := insertK evicted key rec.value
          if key = c1.tail then ({ c1 with tail := c1.zero }, evicted1)
          else
            let c2 :=
              match lookupK c1.data rec.next with
              | some nxt =>
                  { c1 with data :=
                      insertK c1.data rec.next { nxt with prev := c1.zero } }
              | none => c1
            cleanupLoop now fuel c2 rec.next evicted1 := rfl

/-- The cleanup loop, started at the head with enough fuel, evicts exactly
the expired prefix of the FIFO model (in walk = FIFO order) and leaves a
state satisfying the invariant with the remaining suffix. -/
theorem cleanupLoop_spec (now ttl0 : Int) :
    ∀ (m : List (K × MEntry V)) (fuel : Nat) (c : MapTTLCache K V)
      (key : K) (evicted : List (K × V)) (t : Int),
      TTLInv c m t → key = c.head → c.ttl = ttl0 → m.length < fuel →
      (∀ k ∈ m.map Prod.fst, k ∉ evicted.map Prod.fst) →
      (cleanupLoop now fuel c key evicted).2 =
        evicted ++ (m.takeWhile fun p => decide (now - p.2.ts ≥ ttl0)).map
          (fun p => (p.1, p.2.val)) ∧
      TTLInv (cleanupLoop now fuel c key evicted).1
        (m.dropWhile fun p => decide (now - p.2.ts ≥ ttl0)) t := by
  intro m
  induction m with
  | nil =>
    intro fuel c key evicted t hinv hkey httl hfuel hdisj
    cases fuel with
    | zero => exact absurd hfuel (by simp)
    | succ f =>
      rw [hkey, cleanupLoop_succ, hinv.absent c.head (by simp)]
      exact ⟨by simp, hinv⟩
  | cons p1 rest ih =>
    obtain ⟨k1, e1⟩ := p1
    intro fuel c key evicted t hinv hkey httl hfuel hdisj
    cases fuel with
    | zero => exact absurd hfuel (by simp)
    | succ f =>
      have hk1z : k1 ≠ c.zero := fun h => hinv.nzero (by simp [← h])
      have hk1rest : k1 ∉ rest.map Prod.fst :=
        (List.nodup_cons.mp hinv.nodupKeys).1
      have hhead : key = k1 := by
        rw [hkey, hinv.headEq]
        rfl
      have hlk1 : lookupK c.data k1 =
          some { prev := c.zero, next := headKeyD c.zero rest,
                 value := e1.val, timestamp := e1.ts } := hinv.rep.1
      rw [hhead, cleanupLoop_succ, hlk1]
      simp only []
      rw [httl]
      by_cases hfresh : now - e1.ts < ttl0
      · rw [if_pos hfresh]
        have hpneg : ¬ (decide (now - e1.ts ≥ ttl0) = true) := by
          simp only [decide_eq_true_eq]
          exact not_le.mpr hfresh
        refine ⟨?_, ?_⟩
        · simp only [List.takeWhile_cons]
          rw [if_neg hpneg]
          simp
        · simp only [List.dropWhile_cons]
          rw [if_neg hpneg]
          exact hinv
      · rw [if_neg hfresh]
        have hexp : now - e1.ts ≥ ttl0 := not_lt.mp hfresh
        have hppos : decide (now - e1.ts ≥ ttl0) = true := decide_eq_true hexp
        have hins : insertK evicted k1 e1.val = evicted ++ [(k1, e1.val)] :=
          insertK_eq_append evicted k1 e1.val (hdisj k1 (by simp))
        cases rest with
        | nil =>
          have htail : k1 = c.tail := by
            rw [hinv.tailEq]
            rfl
          rw [if_pos htail]
          refine ⟨?_, ?_⟩
          · simp only [List.takeWhile_cons]
            rw [if_pos hppos]
            simp [hins]
          · simp only [List.dropWhile_cons]
            rw [if_pos hppos]
            refine ⟨by simp, by simp, ?_, trivial, rfl, rfl, by simp, by simp, ?_⟩
            · intro k _
              by_cases hkk1 : k = k1
              · subst hkk1
                exact lookupK_eraseK_self _ _
              · show lookupK (eraseK c.data k1) k = none
                rw [lookupK_eraseK_ne _ _ _ hkk1]
                exact hinv.absent k (by simp [hkk1])
            · exact eraseK_keys_nodup _ _ hinv.dataNodup
        | cons p2 rest2 =>
          obtain ⟨k2, e2⟩ := p2
          have htailne : ¬ (k1 = c.tail) := by
            rw [hinv.tailEq, lastKeyD_cons]
            intro h
            exact hk1rest (by rw [h]; exact lastKeyD_mem k1 (by simp))
          rw [if_neg htailne]
          have hchain2 : chainRep c.data k1 ((k2, e2) :: rest2) c.zero :=
            hinv.rep.2
          have hk2ne : k2 ≠ k1 := fun h => hk1rest (by simp [← h])
          have hlk2 : lookupK c.data k2 =
              some { prev := k1, next := headKeyD c.zero rest2,
                     value := e2.val, timestamp := e2.ts } := hchain2.1
          have hlk2' : lookupK (eraseK c.data k1) k2 =
              some { prev := k1, next := headKeyD c.zero rest2,
                     value := e2.val, timestamp := e2.ts } := by
            rw [lookupK_eraseK_ne _ _ _ hk2ne]
            exact hlk2
          rw [show headKeyD c.zero ((k2, e2) :: rest2) = k2 from rfl]
          rw [hlk2']
          simp only []
          have hnd2 : (((k2, e2) :: rest2).map Prod.fst).Nodup :=
            (List.nodup_cons.mp hinv.nodupKeys).2
          have hk2rest2 : k2 ∉ rest2.map Prod.fst :=
            (List.nodup_cons.mp hnd2).1
          have hinv2 : TTLInv
              (⟨insertK (eraseK c.data k1) k2
                  ⟨c.zero, headKeyD c.zero rest2, e2.val, e2.ts⟩,
                ttl0, c.tail, k2, c.zero⟩ : MapTTLCache K V)
              ((k2, e2) :: rest2) t := by
            refine ⟨hnd2, ?_, ?_, ?_, rfl, ?_, ?_, ?_, ?_⟩
            · intro h
              refine hinv.nzero ?_
              simp only [List.map_cons, List.mem_cons] at h ⊢
              exact Or.inr h
            · intro k hk
              show lookupK (insertK (eraseK c.data k1) k2
                ⟨c.zero, headKeyD c.zero rest2, e2.val, e2.ts⟩) k = none
              have hkk2 : k ≠ k2 := fun h => hk (by simp [h])
              rw [lookupK_insertK_ne _ _ _ _ hkk2]
              by_cases hkk1 : k = k1
              · subst hkk1
                exact lookupK_eraseK_self _ _
              · rw [lookupK_eraseK_ne _ _ _ hkk1]
                refine hinv.absent k ?_
                simp only [List.map_cons, List.mem_cons] at hk ⊢
                intro hmem
                rcases hmem with h | h | h
                · exact hkk1 h
                · exact hk (Or.inl h)
                · exact hk (Or.inr h)
            · have hstep1 : chainRep (eraseK c.data k1) k1
                  ((k2, e2) :: rest2) c.zero := by
                refine chainRep_congr (fun k' hk' => ?_) hchain2
                exact lookupK_eraseK_ne _ _ _
                  (fun h => hk1rest (by rw [← h]; exact hk'))
              exact chainRep_set_first hstep1 hk2rest2 c.zero
            · rw [hinv.tailEq, lastKeyD_cons]
              exact lastKeyD_indep k1 c.zero (by simp)
            · exact List.Pairwise.of_cons hinv.tsSorted
            · exact fun p hp => hinv.tsBound p (List.mem_cons_of_mem _ hp)
            · exact insertK_keys_nodup _ _ _
                (eraseK_keys_nodup _ _ hinv.dataNodup)
          have hfuel2 : ((k2, e2) :: rest2).length < f := by
            simp only [List.length_cons] at hfuel ⊢
            omega
          have hdisj2 : ∀ k ∈ ((k2, e2) :: rest2).map Prod.fst,
              k ∉ (insertK evicted k1 e1.val).map Prod.fst := by
            intro k hkmem
            rw [hins, List.map_append]
            intro hmem
            rcases List.mem_append.mp hmem with h | h
            · refine hdisj k ?_ h
              simp only [List.map_cons, List.mem_cons] at hkmem ⊢
              exact Or.inr hkmem
            · simp only [List.map_cons, List.map_nil, List.mem_singleton] at h
              exact hk1rest (by rw [← h]; exact hkmem)
          obtain ⟨hIH1, hIH2⟩ := ih f
            (⟨insertK (eraseK c.data k1) k2
                ⟨c.zero, headKeyD c.zero rest2, e2.val, e2.ts⟩,
              ttl0, c.tail, k2, c.zero⟩ : MapTTLCache K V)
            k2 (insertK evicted k1 e1.val) t hinv2 rfl rfl hfuel2 hdisj2
          refine ⟨?_, ?_⟩
          · rw [hIH1]
            simp only [List.takeWhile_cons]
            rw [if_pos hppos, hins]
            simp
          · simp only [List.dropWhile_cons]
            rw [if_pos hppos]
            rw [List.dropWhile_cons] at hIH2
            exact hIH2

/-- C3 (amended): one cleanup run removes exactly the expired prefix of the
FIFO list, collecting for each removed key exactly one pair (key, stored
value) into the evicted map; an admissible callback sequence is any
permutation of those pairs — Go map iteration order is unspecified, so FIFO
order of the invocations is not guaranteed; the remaining state satisfies
the invariant with the surviving suffix. -/
theorem ttl_cleanup_evicts_expired_entries (c : MapTTLCache K V)
    (m : List (K × MEntry V)) (t now : Int) (cb : List (K × V))
    (hinv : TTLInv c m t) :
    (c.cleanup now).2 =
      (m.takeWhile fun p => decide (now - p.2.ts ≥ c.ttl)).map
        (fun p => (p.1, p.2.val)) ∧
    (CallbackRun c now cb ↔
      cb.Perm ((m.takeWhile fun p => decide (now - p.2.ts ≥ c.ttl)).map
        (fun p => (p.1, p.2.val)))) ∧
    TTLInv (c.cleanup now).1
      (m.dropWhile fun p => decide (now - p.2.ts ≥ c.ttl)) t := by
  have hfuel : m.length < c.data.length + 1 := by
    rw [len_model c hinv]
    omega
  obtain ⟨h1, h2⟩ := cleanupLoop_spec now c.ttl m (c.data.length + 1) c c.head
    [] t hinv rfl rfl hfuel (by simp)
  have hev : (c.cleanup now).2 =
      (m.takeWhile fun p => decide (now - p.2.ts ≥ c.ttl)).map
        (fun p => (p.1, p.2.val)) := by
    rw [MapTTLCache.cleanup, h1]
    simp
  refine ⟨hev, ?_, ?_⟩
  · rw [CallbackRun, hev]
  · exact h2

def c3ops : List (TTLOp Nat Nat) := [TTLOp.set 1 1 11, TTLOp.set 2 2 22]

def c3cache : MapTTLCache Nat Nat := applyOps (MapTTLCache.init 0 100) c3ops

def c3model : List (Nat × MEntry Nat) := (modelRun 100 [] 0 c3ops).1

theorem ttl_cleanup_evicts_expired_entries_witness :
    (c3cache.cleanup 200).2 =
      (c3model.takeWhile fun p => decide ((200 : Int) - p.2.ts ≥ c3cache.ttl)).map
        (fun p => (p.1, p.2.val)) ∧
    (CallbackRun c3cache 200 [(2, 22), (1, 11)] ↔
      List.Perm [(2, 22), (1, 11)]
        ((c3model.takeWhile
            fun p => decide ((200 : Int) - p.2.ts ≥ c3cache.ttl)).map
          (fun p => (p.1, p.2.val)))) ∧
    TTLInv (c3cache.cleanup 200).1
      (c3model.dropWhile fun p => decide ((200 : Int) - p.2.ts ≥ c3cache.ttl))
      (modelRun 100 [] 0 c3ops).2 :=
  ttl_cleanup_evicts_expired_entries c3cache c3model (modelRun 100 [] 0 c3ops).2
    200 [(2, 22), (1, 11)]
    (inv_run c3ops (MapTTLCache.init 0 100) [] 0 (inv_init 0 100 0)
      (by decide)).1

/-- C3: the FIFO-order part of the claim fails.  After inserting keys 1 then
2 and letting both expire, the evicted pairs are collected in FIFO order
`[(1, 11), (2, 22)]`, but the callbacks are fired by ranging over a Go map,
whose iteration order is unspecified: the reversed sequence
`[(2, 22), (1, 11)]` is an admissible callback run yet is not in FIFO
(insertion) order. -/
theorem ttl_cleanup_order_not_fifo :
    (c3cache.cleanup 200).2 = [(1, 11), (2, 22)] ∧
    CallbackRun c3cache 200 [(2, 22), (1, 11)] ∧
    [(2, 22), (1, 11)] ≠ [(1, 11), (2, 22)] := by
  refine ⟨by decide, ?_, by decide⟩
  show List.Perm [(2, 22), (1, 11)] ((c3cache.cleanup 200).2)
  decide

/-! ## Radix trie of the KV wrapper (kv.go)

Keys are byte strings, embedded as `List Nat`.  `trieNode` holds the path
segment `b`, the children sorted by the first byte of their segment, and the
terminal flag.  Go's `b[0]` is embedded as `b.headD 0` (the source only
evaluates it on non-empty segments). -/

/-- `commonPrefixLen` (kv.go): length of the longest common prefix. -/
def commonPrefixLen : List Nat → List Nat → Nat
  | a :: as2, b :: bs => if a = b then commonPrefixLen as2 bs + 1 else 0
  | _, _ => 0

inductive TrieNode : Type where
  | mk (b : List Nat) (children : List TrieNode) (terminal : Bool)

def TrieNode.b : TrieNode → List Nat
  | ⟨b, _, _⟩ => b

def TrieNode.children : TrieNode → List TrieNode
  | ⟨_, cs, _⟩ => cs

def TrieNode.terminal : TrieNode → Bool
  | ⟨_, _, t⟩ => t

/-- The index computed by `sort.Search` in `findChild`: the least index whose
child segment starts with a byte `≥ c` (on the strictly sorted children
lists the trie maintains, the binary search returns exactly this index, per
`sort.Search`'s contract). -/
def childSearch (c : Nat) : List TrieNode → Nat
  | [] => 0
  | t :: rest => if c ≤ t.b.headD 0 then 0 else childSearch c rest + 1

/-- `findChild` (kv.go): index plus whether the child at it starts with `c`. -/
def findChild (c : Nat) (cs : List TrieNode) : Nat × Bool :=
  let idx := childSearch c cs
  match cs[idx]? with
  | some t => (idx, t.b.headD 0 == c)
  | none => (idx, false)

/-- `addChildAt` (kv.go): insert, shifting the tail. -/
def addChildAt (cs : List TrieNode) (child : TrieNode) (idx : Nat) :
    List TrieNode :=
  cs.insertIdx idx child

/-- `addChild` (kv.go): insert in sorted position (replace on collision). -/
def addChild (cs : List TrieNode) (child : TrieNode) : List TrieNode :=
  let r := findChild (child.b.headD 0) cs
  if r.2 then cs.set r.1 child else addChildAt cs child r.1

/-- `KV.insert` (kv.go): loop over the descent, recursion into the matched
child.  The empty-key case marks the node terminal (at the top level this is
the root, as in the source). -/
def TrieNode.insertKey : TrieNode → List Nat → TrieNode
  | ⟨b0, cs, _⟩, [] => ⟨b0, cs, true⟩
  | ⟨b0, cs, term⟩, c :: k' =>
      let key := c :: k'
      let r := findChild c cs
      if r.2 then
        match h : cs[r.1]? with
        | some child =>
            let common := commonPrefixLen child.b key
            if common = child.b.length then
              ⟨b0, cs.set r.1 (child.insertKey (key.drop common)), term⟩
            else
              let restNode : TrieNode :=
                ⟨child.b.drop common, child.children, child.terminal⟩
              let newSuffix := key.drop common
              let base : List TrieNode := addChild [] restNode
              let branch : TrieNode :=
                if newSuffix.isEmpty then ⟨child.b.take common, base, true⟩
                else
                  ⟨child.b.take common, addChild base ⟨newSuffix, [], true⟩,
                    false⟩
              ⟨b0, cs.set r.1 branch, term⟩
        | none => ⟨b0, cs, term⟩
      else
        ⟨b0, addChildAt cs ⟨key, [], true⟩ r.1, term⟩
termination_by n _ => sizeOf n
decreasing_by
  simp_wf
  have hmem := List.getElem?_mem h
  have := List.sizeOf_lt_of_mem hmem
  omega

/-- `KV.delete`'s recursive helper `del` (kv.go): returns the rewritten node
and whether the parent should remove it. -/
def TrieNode.delKey : TrieNode → List Nat → TrieNode × Bool
  | ⟨b0, cs, term⟩, [] =>
      if term then (⟨b0, cs, false⟩, cs.isEmpty) else (⟨b0, cs, term⟩, false)
  | ⟨b0, cs, term⟩, c :: k' =>
      let key := c :: k'
      let r := findChild c cs
      if r.2 then
        match h : cs[r.1]? with
        | some child =>
            let common := commonPrefixLen child.b key
            if common = child.b.length then
              let d := child.delKey (key.drop common)
              if d.2 then
                let cs' := cs.eraseIdx r.1
                (⟨b0, cs', term⟩, !term && cs'.isEmpty)
              else (⟨b0, cs.set r.1 d.1, term⟩, false)
            else (⟨b0, cs, term⟩, false)
        | none => (⟨b0, cs, term⟩, false)
      else (⟨b0, cs, term⟩, false)
termination_by n _ => sizeOf n
decreasing_by
  simp_wf
  have hmem := List.getElem?_mem h
  have := List.sizeOf_lt_of_mem hmem
  omega

mutual
/-- `KV.dfs` (kv.go): in-order traversal fetching each terminal key's value
from the underlying cache; an underlying miss aborts with the error
(`none`). -/
def dfsKV (data : List (List Nat × V)) : TrieNode → List Nat → Option (List V)
  | ⟨_, cs, term⟩, path => do
      let hd ← if term then (lookupK data path).map (fun v => [v])
               else some []
      let tl ← dfsKVL data cs path
      some (hd ++ tl)
def dfsKVL (data : List (List Nat × V)) :
    List TrieNode → List Nat → Option (List V)
  | [], _ => some []
  | child :: rest, path => do
      let r1 ← dfsKV data child (path ++ child.b)
      let r2 ← dfsKVL data rest path
      some (r1 ++ r2)
end

/-- The descent loop of `KV.ListByPrefix` (kv.go); `root` is kept for the
empty-search-key exit, which lists the whole trie. -/
def listLoopKV (data : List (List Nat × V)) (root : TrieNode) :
    TrieNode → List Nat → List Nat → Option (List V)
  | _, [], _ => dfsKV data root []
  | node, c :: sk', path =>
      let sk := c :: sk'
      let r := findChild c node.children
      if r.2 then
        match h : node.children[r.1]? with
        | some child =>
            let common := commonPrefixLen child.b sk
            let path1 := path ++ child.b.take common
            if common < sk.length then
              if common < child.b.length then some []
              else listLoopKV data root child (sk.drop common) path1
            else dfsKV data child (path1 ++ child.b.drop common)
        | none => some []
      else some []
termination_by n _ _ => sizeOf n
decreasing_by
  simp_wf
  have hmem := List.getElem?_mem h
  have := List.sizeOf_lt_of_mem hmem
  have h2 : sizeOf node.children ≤ sizeOf node := by
    cases node
    simp [TrieNode.children]
    omega
  omega

/-- The KV wrapper (kv.go): an underlying cache plus the trie index. -/
structure KVW (V : Type) where
  data : List (List Nat × V)
  trie : TrieNode

def KVW.init : KVW V := ⟨[], ⟨[], [], false⟩⟩

def KVW.Set (kv : KVW V) (k : List Nat) (v : V) : KVW V :=
  ⟨insertK kv.data k v, kv.trie.insertKey k⟩

def KVW.Del (kv : KVW V) (k : List Nat) : KVW V :=
  ⟨eraseK kv.data k, (kv.trie.delKey k).1⟩

def KVW.ListByPrefix (kv : KVW V) (pfx : List Nat) : Option (List V) :=
  listLoopKV kv.data kv.trie kv.trie pfx []

/-! ### Well-formedness and abstraction of the kv.go trie -/

/-- First byte of a node's segment (Go `b[0]`; segments of well-formed
non-root nodes are non-empty). -/
def hb (n : TrieNode) : Nat := n.b.headD 0

/-- Children strictly sorted by first segment byte. -/
def childrenSorted : List TrieNode → Bool
  | [] => true
  | [_] => true
  | x :: y :: rest => decide (hb x < hb y) && childrenSorted (y :: rest)

mutual
/-- Internal well-formedness of a node (usable at the root, whose own
segment is empty): children sorted, each child with a non-empty segment and
itself well-formed. -/
def wfN : TrieNode → Bool
  | ⟨_, cs, _⟩ => childrenSorted cs && wfL cs
def wfL : List TrieNode → Bool
  | [] => true
  | c :: rest => (!c.b.isEmpty) && wfN c && wfL rest
end

mutual
/-- Keys stored in the subtree of a node whose full path is `path`. -/
def entriesT : TrieNode → List Nat → List (List Nat)
  | ⟨_, cs, term⟩, path => (if term then [path] else []) ++ entriesTL cs path
def entriesTL : List TrieNode → List Nat → List (List Nat)
  | [], _ => []
  | child :: rest, path =>
      entriesT child (path ++ child.b) ++ entriesTL rest path
end

theorem entriesT_mk (b : List Nat) (cs : List TrieNode) (t : Bool)
    (P : List Nat) :
    entriesT (⟨b, cs, t⟩ : TrieNode) P =
      (if t then [P] else []) ++ entriesTL cs P := by
  rw [entriesT]

theorem entriesTL_cons (child : TrieNode) (rest : List TrieNode)
    (P : List Nat) :
    entriesTL (child :: rest) P =
      entriesT child (P ++ child.b) ++ entriesTL rest P := by
  rw [entriesTL]

theorem wfN_mk (b : List Nat) (cs : List TrieNode) (t : Bool) :
    wfN (⟨b, cs, t⟩ : TrieNode) = (childrenSorted cs && wfL cs) := by
  rw [wfN]

theorem wfL_cons (c : TrieNode) (rest : List TrieNode) :
    wfL (c :: rest) = ((!c.b.isEmpty) && wfN c && wfL rest) := by
  rw [wfL]

theorem childSearch_le (c : Nat) : ∀ cs : List TrieNode,
    childSearch c cs ≤ cs.length
  | [] => by simp [childSearch]
  | t :: rest => by
      rw [childSearch]
      by_cases h : c ≤ hb t
      · simp [hb] at h
        simp [h]
      · simp [hb] at h
        rw [if_neg (by simpa using not_le.mpr h)]
        simpa using childSearch_le c rest

theorem childrenSorted_iff : ∀ cs : List TrieNode,
    childrenSorted cs = true ↔ List.Pairwise (fun a d => hb a < hb d) cs
  | [] => by simp [childrenSorted]
  | [x] => by simp [childrenSorted]
  | x :: y :: rest => by
      rw [childrenSorted]
      rw [Bool.and_eq_true, decide_eq_true_eq, childrenSorted_iff (y :: rest)]
      constructor
      · rintro ⟨hxy, hp⟩
        refine List.Pairwise.cons ?_ hp
        intro z hz
        rcases List.mem_cons.mp hz with rfl | hz2
        · exact hxy
        · exact lt_trans hxy (List.rel_of_pairwise_cons hp hz2)
      · intro hp
        exact ⟨List.rel_of_pairwise_cons hp (by simp),
          List.Pairwise.sublist (List.sublist_cons_self x (y :: rest)) hp⟩

theorem childSearch_cons_le {c : Nat} {x : TrieNode} (rest : List TrieNode)
    (h : c ≤ hb x) : childSearch c (x :: rest) = 0 := by
  rw [childSearch]
  exact if_pos h

theorem childSearch_cons_gt {c : Nat} {x : TrieNode} (rest : List TrieNode)
    (h : ¬ c ≤ hb x) : childSearch c (x :: rest) = childSearch c rest + 1 := by
  rw [childSearch]
  exact if_neg h

theorem findChild_fst (c : Nat) (cs : List TrieNode) :
    (findChild c cs).1 = childSearch c cs := by
  simp only [findChild]
  cases cs[childSearch c cs]? <;> rfl

theorem findChild_snd (c : Nat) (cs : List TrieNode) :
    (findChild c cs).2 =
      (match cs[childSearch c cs]? with
       | some t => hb t == c
       | none => false) := by
  simp only [findChild]
  cases cs[childSearch c cs]? <;> rfl

theorem findChild_found {c : Nat} {cs : List TrieNode}
    (h : (findChild c cs).2 = true) :
    ∃ t, cs[childSearch c cs]? = some t ∧ hb t = c := by
  rw [findChild_snd] at h
  cases h2 : cs[childSearch c cs]? with
  | none => rw [h2] at h; exact absurd h (by simp)
  | some t =>
      rw [h2] at h
      simp only [beq_iff_eq] at h
      exact ⟨t, rfl, h⟩

theorem findChild_not_found :
    ∀ (cs : List TrieNode) (c : Nat), childrenSorted cs = true →
      (findChild c cs).2 = false → ∀ t ∈ cs, hb t ≠ c
  | [], _, _, _, t, ht => absurd ht (by simp)
  | x :: rest, c, hsort, h, t, ht => by
      have hp := (childrenSorted_iff (x :: rest)).mp hsort
      by_cases hcx : c ≤ hb x
      · have hx : (x :: rest)[childSearch c (x :: rest)]? = some x := by
          rw [childSearch_cons_le rest hcx]
          simp
        rw [findChild_snd, hx] at h
        simp only [beq_eq_false_iff_ne, ne_eq] at h
        rcases List.mem_cons.mp ht with rfl | hmem
        · exact h
        · have hlt : hb x < hb t := List.rel_of_pairwise_cons hp hmem
          omega
      · rcases List.mem_cons.mp ht with rfl | hmem
        · omega
        · have hrec : (findChild c rest).2 = false := by
            rw [findChild_snd] at h ⊢
            rw [childSearch_cons_gt rest hcx] at h
            rw [List.getElem?_cons_succ] at h
            exact h
          exact findChild_not_found rest c
            ((childrenSorted_iff rest).mpr (List.Pairwise.sublist
              (List.sublist_cons_self x rest) hp)) hrec t hmem

theorem entriesTL_append : ∀ (l1 l2 : List TrieNode) (P : List Nat),
    entriesTL (l1 ++ l2) P = entriesTL l1 P ++ entriesTL l2 P
  | [], l2, P => by simp [entriesTL]
  | c :: rest, l2, P => by
      rw [List.cons_append, entriesTL_cons, entriesTL_append rest l2 P,
        entriesTL_cons, List.append_assoc]

theorem wfL_append : ∀ (l1 l2 : List TrieNode),
    wfL (l1 ++ l2) = (wfL l1 && wfL l2)
  | [], l2 => by simp [wfL]
  | c :: rest, l2 => by
      rw [List.cons_append, wfL_cons, wfL_append rest l2, wfL_cons]
      simp [Bool.and_assoc]

theorem getElem?_decomp {A : Type} :
    ∀ (l : List A) (i : Nat) (a : A), l[i]? = some a →
      l = l.take i ++ a :: l.drop (i + 1)
  | [], i, a, h => by simp at h
  | x :: rest, 0, a, h => by
      simp only [List.getElem?_cons_zero, Option.some.injEq] at h
      subst h
      simp
  | x :: rest, i + 1, a, h => by
      have := getElem?_decomp rest i a (by simpa using h)
      simpa using this

theorem set_decomp {A : Type} :
    ∀ (l : List A) (i : Nat) (a x : A), l[i]? = some a →
      l.set i x = l.take i ++ x :: l.drop (i + 1)
  | [], i, a, x, h => by simp at h
  | y :: rest, 0, a, x, h => by simp
  | y :: rest, i + 1, a, x, h => by
      have := set_decomp rest i a x (by simpa using h)
      simpa using this

theorem eraseIdx_decomp {A : Type} :
    ∀ (l : List A) (i : Nat) (a : A), l[i]? = some a →
      l.eraseIdx i = l.take i ++ l.drop (i + 1)
  | [], i, a, h => by simp at h
  | y :: rest, 0, a, h => by simp
  | y :: rest, i + 1, a, h => by
      have := eraseIdx_decomp rest i a (by simpa using h)
      simpa [List.eraseIdx] using this

theorem insertIdx_decomp {A : Type} :
    ∀ (l : List A) (i : Nat) (x : A), i ≤ l.length →
      l.insertIdx i x = l.take i ++ x :: l.drop i
  | l, 0, x, _ => by simp
  | [], i + 1, x, h => by simp at h
  | y :: rest, i + 1, x, h => by
      have := insertIdx_decomp rest i x (by simpa using h)
      rw [List.insertIdx_succ_cons]
      simpa using this

theorem lex_of_ne_pfx : ∀ (P k : List Nat), P <+: k → P ≠ k →
    List.Lex (· < ·) P k
  | [], k, _, hne => by
      cases k with
      | nil => exact absurd rfl hne
      | cons a l => exact List.Lex.nil
  | p :: P', k, hpfx, hne => by
      cases k with
      | nil => simp at hpfx
      | cons a l =>
          obtain ⟨rfl, hpl⟩ := List.cons_prefix_cons.mp hpfx
          exact List.Lex.cons (lex_of_ne_pfx P' l hpl
            (fun h => hne (by rw [h])))

theorem lex_append_lt : ∀ (P : List Nat) {x y : Nat} (s t : List Nat),
    x < y → List.Lex (· < ·) (P ++ x :: s) (P ++ y :: t)
  | [], _, _, s, t, h => List.Lex.rel h
  | p :: P', _, _, s, t, h => List.Lex.cons (lex_append_lt P' s t h)

theorem nonempty_eq_hb_cons {b : List Nat} (h : b.isEmpty = false) :
    b = b.headD 0 :: b.tail := by
  cases b with
  | nil => simp at h
  | cons a l => rfl

mutual
theorem entriesT_pfx : ∀ (n : TrieNode) (P : List Nat),
    ∀ k ∈ entriesT n P, P <+: k
  | ⟨b0, cs, term⟩, P, k, hk => by
      rw [entriesT_mk] at hk
      rcases List.mem_append.mp hk with h | h
      · have : k = P := by
          cases term <;> simpa using h
        rw [this]
      · obtain ⟨c, hc, hkc⟩ := entriesTL_pfx cs P k h
        exact (List.prefix_append P c.b).trans hkc
termination_by n _ _ _ => sizeOf n

theorem entriesTL_pfx : ∀ (cs : List TrieNode) (P : List Nat),
    ∀ k ∈ entriesTL cs P, ∃ c ∈ cs, (P ++ c.b) <+: k
  | [], P, k, hk => by rw [entriesTL] at hk; simp at hk
  | child :: rest, P, k, hk => by
      rw [entriesTL_cons] at hk
      rcases List.mem_append.mp hk with h | h
      · refine ⟨child, by simp, ?_⟩
        exact entriesT_pfx child (P ++ child.b) k h
      · obtain ⟨c, hc, hkc⟩ := entriesTL_pfx rest P k h
        exact ⟨c, by simp [hc], hkc⟩
termination_by cs _ _ _ => sizeOf cs
end

theorem entriesTL_mem : ∀ (cs : List TrieNode) (P k : List Nat),
    k ∈ entriesTL cs P ↔ ∃ c ∈ cs, k ∈ entriesT c (P ++ c.b)
  | [], P, k => by rw [entriesTL]; simp
  | child :: rest, P, k => by
      rw [entriesTL_cons]
      rw [List.mem_append, entriesTL_mem rest P k]
      constructor
      · rintro (h | ⟨c, hc, hkc⟩)
        · exact ⟨child, by simp, h⟩
        · exact ⟨c, by simp [hc], hkc⟩
      · rintro ⟨c, hc, hkc⟩
        rcases List.mem_cons.mp hc with rfl | hc2
        · exact Or.inl hkc
        · exact Or.inr ⟨c, hc2, hkc⟩

theorem wfL_mem : ∀ (cs : List TrieNode) (c : TrieNode), c ∈ cs →
    wfL cs = true → ((!c.b.isEmpty) = true ∧ wfN c = true)
  | [], c, hc, _ => absurd hc (by simp)
  | x :: rest, c, hc, hwf => by
      rw [wfL_cons, Bool.and_eq_true, Bool.and_eq_true] at hwf
      rcases List.mem_cons.mp hc with rfl | hc2
      · exact ⟨hwf.1.1, hwf.1.2⟩
      · exact wfL_mem rest c hc2 hwf.2

mutual
theorem entriesT_sorted : ∀ (n : TrieNode) (P : List Nat), wfN n = true →
    List.Pairwise (List.Lex (· < ·)) (entriesT n P)
  | ⟨b0, cs, term⟩, P, hwf => by
      rw [wfN_mk, Bool.and_eq_true] at hwf
      rw [entriesT_mk]
      rw [List.pairwise_append]
      refine ⟨?_, entriesTL_sorted cs P hwf.1 hwf.2, ?_⟩
      · cases term <;> simp
      · intro k1 hk1 k2 hk2
        have hk1P : k1 = P := by cases term <;> simpa using hk1
        rw [hk1P]
        obtain ⟨c, hc, hkc⟩ := entriesTL_pfx cs P k2 hk2
        have hcb : c.b.isEmpty = false := by
          have := wfL_mem cs c hc hwf.2
          simpa using this.1
        refine lex_of_ne_pfx P k2
          ((List.prefix_append P c.b).trans hkc) ?_
        intro heq
        have hlen := hkc.length_le
        rw [← heq] at hlen
        rw [List.length_append] at hlen
        have hcb0 : c.b.length = 0 := by omega
        rw [List.length_eq_zero] at hcb0
        rw [hcb0] at hcb
        simp at hcb
termination_by n _ _ => sizeOf n

theorem entriesTL_sorted : ∀ (cs : List TrieNode) (P : List Nat),
    childrenSorted cs = true → wfL cs = true →
    List.Pairwise (List.Lex (· < ·)) (entriesTL cs P)
  | [], P, _, _ => by rw [entriesTL]; simp
  | child :: rest, P, hsort, hwfl => by
      rw [wfL_cons, Bool.and_eq_true, Bool.and_eq_true] at hwfl
      obtain ⟨⟨hcb, hcwf⟩, hrest⟩ := hwfl
      have hp := (childrenSorted_iff (child :: rest)).mp hsort
      have hsortrest : childrenSorted rest = true :=
        (childrenSorted_iff rest).mpr
          (List.Pairwise.sublist (List.sublist_cons_self child rest) hp)
      rw [entriesTL_cons, List.pairwise_append]
      refine ⟨entriesT_sorted child (P ++ child.b) hcwf,
        entriesTL_sorted rest P hsortrest hrest, ?_⟩
      intro k1 hk1 k2 hk2
      obtain ⟨c2, hc2, hk2c⟩ := entriesTL_pfx rest P k2 hk2
      have hk1c : (P ++ child.b) <+: k1 :=
        entriesT_pfx child (P ++ child.b) k1 hk1
      have hc2b : c2.b.isEmpty = false := by
        have := wfL_mem rest c2 hc2 hrest
        simpa using this.1
      have hlt : hb child < hb c2 := List.rel_of_pairwise_cons hp hc2
      obtain ⟨r1, hr1⟩ := hk1c
      obtain ⟨r2, hr2⟩ := hk2c
      rw [← hr1, ← hr2]
      have hce : child.b = child.b.headD 0 :: child.b.tail :=
        nonempty_eq_hb_cons (by simpa using hcb)
      have hc2e : c2.b = c2.b.headD 0 :: c2.b.tail :=
        nonempty_eq_hb_cons hc2b
      rw [hce, hc2e, List.append_assoc, List.append_assoc]
      exact lex_append_lt P _ _ hlt
termination_by cs _ _ _ => sizeOf cs
end

theorem cpl_le_left : ∀ (a b : List Nat), commonPrefixLen a b ≤ a.length
  | [], _ => by simp [commonPrefixLen]
  | _ :: _, [] => by simp [commonPrefixLen]
  | x :: a, y :: b => by
      rw [commonPrefixLen]
      by_cases h : x = y
      · rw [if_pos h]
        simpa using cpl_le_left a b
      · rw [if_neg h]
        simp

theorem cpl_le_right : ∀ (a b : List Nat), commonPrefixLen a b ≤ b.length
  | [], _ => by simp [commonPrefixLen]
  | _ :: _, [] => by simp [commonPrefixLen]
  | x :: a, y :: b => by
      rw [commonPrefixLen]
      by_cases h : x = y
      · rw [if_pos h]
        simpa using cpl_le_right a b
      · rw [if_neg h]
        simp

theorem cpl_take_eq : ∀ (a b : List Nat),
    a.take (commonPrefixLen a b) = b.take (commonPrefixLen a b)
  | [], b => by simp [commonPrefixLen]
  | _ :: _, [] => by simp [commonPrefixLen]
  | x :: a, y :: b => by
      rw [commonPrefixLen]
      by_cases h : x = y
      · rw [if_pos h, h]
        simpa using cpl_take_eq a b
      · rw [if_neg h]
        simp

theorem cpl_eq_left_of_pfx : ∀ (a b : List Nat), a <+: b →
    commonPrefixLen a b = a.length
  | [], b, _ => by simp [commonPrefixLen]
  | x :: a, b, h => by
      cases b with
      | nil => simp at h
      | cons y b =>
          obtain ⟨rfl, hab⟩ := List.cons_prefix_cons.mp h
          rw [commonPrefixLen, if_pos rfl]
          simpa using cpl_eq_left_of_pfx a b hab

theorem cpl_pfx_of_eq_left : ∀ (a b : List Nat),
    commonPrefixLen a b = a.length → a <+: b
  | [], b, _ => by simp
  | x :: a, b, h => by
      cases b with
      | nil => simp [commonPrefixLen] at h
      | cons y b =>
          rw [commonPrefixLen] at h
          by_cases hxy : x = y
          · rw [if_pos hxy] at h
            subst hxy
            rw [List.cons_prefix_cons]
            exact ⟨rfl, cpl_pfx_of_eq_left a b (by simpa using h)⟩
          · rw [if_neg hxy] at h
            simp at h

theorem cpl_mismatch : ∀ (a b : List Nat),
    commonPrefixLen a b < a.length → commonPrefixLen a b < b.length →
    (a.drop (commonPrefixLen a b)).headD 0 ≠
      (b.drop (commonPrefixLen a b)).headD 0
  | [], b, h, _ => by simp at h
  | _ :: _, [], _, h => by simp at h
  | x :: a, y :: b, ha, hb2 => by
      rw [commonPrefixLen] at ha hb2 ⊢
      by_cases h : x = y
      · rw [if_pos h] at ha hb2 ⊢
        simpa using cpl_mismatch a b (by simpa using ha) (by simpa using hb2)
      · rw [if_neg h] at ha hb2 ⊢
        simpa using h

theorem cpl_cons_eq (c : Nat) (tb k : List Nat) :
    commonPrefixLen (c :: tb) (c :: k) = commonPrefixLen tb k + 1 := by
  rw [commonPrefixLen, if_pos rfl]

/-- Replacing an element with one of the same first byte preserves the
strict sorting of children. -/
theorem pairwise_hb_replace {l1 l2 : List TrieNode} {x y : TrieNode}
    (h : List.Pairwise (fun a d => hb a < hb d) (l1 ++ x :: l2))
    (hxy : hb y = hb x) :
    List.Pairwise (fun a d => hb a < hb d) (l1 ++ y :: l2) := by
  rw [List.pairwise_append] at h ⊢
  obtain ⟨h1, h2, h3⟩ := h
  rw [List.pairwise_cons] at h2 ⊢
  refine ⟨h1, ⟨fun z hz => ?_, h2.2⟩, fun a ha d hd => ?_⟩
  · rw [hxy]
    exact h2.1 z hz
  · rcases List.mem_cons.mp hd with rfl | hd2
    · rw [hxy]
      exact h3 a ha x (by simp)
    · exact h3 a ha d (by simp [hd2])

theorem childSearch_split : ∀ (cs : List TrieNode) (c : Nat),
    childrenSorted cs = true → (∀ t ∈ cs, hb t ≠ c) →
    (∀ u ∈ cs.take (childSearch c cs), hb u < c) ∧
    (∀ v ∈ cs.drop (childSearch c cs), c < hb v)
  | [], c, _, _ => by simp
  | x :: rest, c, hsort, hne => by
      have hp := (childrenSorted_iff (x :: rest)).mp hsort
      by_cases hcx : c ≤ hb x
      · rw [childSearch_cons_le rest hcx]
        refine ⟨by simp, ?_⟩
        intro v hv
        simp only [List.drop_zero] at hv
        rcases List.mem_cons.mp hv with rfl | hv2
        · exact lt_of_le_of_ne hcx (fun h => hne v (by simp) h.symm)
        · have hxv := List.rel_of_pairwise_cons hp hv2
          have hxc : c ≤ hb x := hcx
          omega
      · rw [childSearch_cons_gt rest hcx]
        have hrec := childSearch_split rest c
          ((childrenSorted_iff rest).mpr
            (List.Pairwise.sublist (List.sublist_cons_self x rest) hp))
          (fun t ht => hne t (by simp [ht]))
        refine ⟨?_, ?_⟩
        · intro u hu
          rw [List.take_succ_cons] at hu
          rcases List.mem_cons.mp hu with rfl | hu2
          · omega
          · exact hrec.1 u hu2
        · intro v hv
          rw [List.drop_succ_cons] at hv
          exact hrec.2 v hv

theorem addChild_nil (x : TrieNode) : addChild [] x = [x] := by
  simp [addChild, addChildAt, findChild, childSearch]

theorem set_decomp' {A : Type} (l : List A) (i : Nat) (a x : A)
    (h : l[i]? = some a) :
    ∃ T D, l = T ++ a :: D ∧ l.set i x = T ++ x :: D ∧
      l.eraseIdx i = T ++ D ∧ T = l.take i ∧ D = l.drop (i + 1) :=
  ⟨l.take i, l.drop (i + 1), getElem?_decomp l i a h, set_decomp l i a x h,
    eraseIdx_decomp l i a h, rfl, rfl⟩

theorem insertIdx_decomp' {A : Type} (l : List A) (i : Nat) (x : A)
    (h : i ≤ l.length) :
    ∃ T D, l = T ++ D ∧ l.insertIdx i x = T ++ x :: D ∧
      T = l.take i ∧ D = l.drop i :=
  ⟨l.take i, l.drop i, (List.take_append_drop i l).symm,
    insertIdx_decomp l i x h, rfl, rfl⟩

theorem sorted_insert_TD {T D : List TrieNode} {x : TrieNode}
    (hsortTD : childrenSorted (T ++ D) = true)
    (hT : ∀ u ∈ T, hb u < hb x) (hD : ∀ v ∈ D, hb x < hb v) :
    childrenSorted (T ++ x :: D) = true := by
  rw [childrenSorted_iff] at hsortTD ⊢
  rw [List.pairwise_append] at hsortTD ⊢
  obtain ⟨h1, h2, h3⟩ := hsortTD
  refine ⟨h1, ?_, ?_⟩
  · rw [List.pairwise_cons]
    exact ⟨hD, h2⟩
  · intro a ha d hd
    rcases List.mem_cons.mp hd with rfl | hd2
    · exact hT a ha
    · exact h3 a ha d hd2

theorem wfL_insert_TD {T D : List TrieNode} {x : TrieNode}
    (h : wfL (T ++ D) = true) (hx1 : (!x.b.isEmpty) = true)
    (hx2 : wfN x = true) : wfL (T ++ x :: D) = true := by
  rw [wfL_append, Bool.and_eq_true] at h
  rw [wfL_append, Bool.and_eq_true]
  refine ⟨h.1, ?_⟩
  rw [wfL_cons]
  simp [hx1, hx2, h.2]

theorem addChild_spec (cs : List TrieNode) (x : TrieNode)
    (hsort : childrenSorted cs = true) (hne : ∀ t ∈ cs, hb t ≠ hb x) :
    ∃ T D, cs = T ++ D ∧ addChild cs x = T ++ x :: D ∧
      (∀ u ∈ T, hb u < hb x) ∧ (∀ v ∈ D, hb x < hb v) := by
  have hr2 : (findChild (x.b.headD 0) cs).2 = false := by
    cases h2 : (findChild (x.b.headD 0) cs).2 with
    | false => rfl
    | true =>
        obtain ⟨t, ht, hthb⟩ := findChild_found h2
        exact absurd hthb (hne t (List.getElem?_mem ht))
  have hac : addChild cs x = addChildAt cs x (findChild (x.b.headD 0) cs).1 := by
    rw [addChild]
    exact if_neg (fun hcon => by rw [hr2] at hcon; exact Bool.noConfusion hcon)
  rw [hac, findChild_fst, addChildAt]
  obtain ⟨T, D, hTD, hins, hTeq, hDeq⟩ :=
    insertIdx_decomp' cs (childSearch (x.b.headD 0) cs) x
      (childSearch_le (x.b.headD 0) cs)
  have hsplit := childSearch_split cs (x.b.headD 0) hsort hne
  refine ⟨T, D, hTD, hins, ?_, ?_⟩
  · intro u hu
    exact hsplit.1 u (by rw [← hTeq]; exact hu)
  · intro v hv
    exact hsplit.2 v (by rw [← hDeq]; exact hv)

@[simp] theorem TrieNode.b_mk (b : List Nat) (cs : List TrieNode) (t : Bool) :
    (⟨b, cs, t⟩ : TrieNode).b = b := rfl

@[simp] theorem TrieNode.children_mk (b : List Nat) (cs : List TrieNode)
    (t : Bool) : (⟨b, cs, t⟩ : TrieNode).children = cs := rfl

@[simp] theorem TrieNode.terminal_mk (b : List Nat) (cs : List TrieNode)
    (t : Bool) : (⟨b, cs, t⟩ : TrieNode).terminal = t := rfl

/-- Replacing the child at `idx` by a node with the same first byte, whose
subtree adds exactly the key `P ++ s`, does the same at the node level. -/
theorem node_replace_spec (b0 : List Nat) (cs : List TrieNode) (term : Bool)
    (idx : Nat) (child x : TrieNode) (P s : List Nat)
    (hsome : cs[idx]? = some child)
    (hsort : childrenSorted cs = true) (hwfl : wfL cs = true)
    (hxwf : wfN x = true) (hxb : (!x.b.isEmpty) = true)
    (hxhb : hb x = hb child)
    (hxe : ∀ k, k ∈ entriesT x (P ++ x.b) ↔
      k = P ++ s ∨ k ∈ entriesT child (P ++ child.b)) :
    wfN (⟨b0, cs.set idx x, term⟩ : TrieNode) = true ∧
    (∀ k, k ∈ entriesT (⟨b0, cs.set idx x, term⟩ : TrieNode) P ↔
      k = P ++ s ∨ k ∈ entriesT (⟨b0, cs, term⟩ : TrieNode) P) := by
  obtain ⟨T, D, hTD, hset, _, _, _⟩ := set_decomp' cs idx child x hsome
  rw [hset]
  constructor
  · rw [wfN_mk, Bool.and_eq_true]
    constructor
    · refine (childrenSorted_iff _).mpr
        (pairwise_hb_replace ?_ hxhb)
      rw [← hTD]
      exact (childrenSorted_iff cs).mp hsort
    · have hw : wfL (T ++ child :: D) = true := by rw [← hTD]; exact hwfl
      rw [wfL_append, Bool.and_eq_true] at hw
      rw [wfL_cons, Bool.and_eq_true, Bool.and_eq_true] at hw
      rw [wfL_append, Bool.and_eq_true]
      refine ⟨hw.1, ?_⟩
      rw [wfL_cons]
      simp [hxb, hxwf, hw.2.2]
  · intro k
    rw [entriesT_mk, entriesT_mk, entriesTL_append, entriesTL_cons]
    conv_rhs => rw [hTD]
    rw [entriesTL_append, entriesTL_cons]
    simp only [List.mem_append, hxe k]
    tauto

/-- `insert` (kv.go) keeps the trie well-formed, keeps the node's own
segment, and adds exactly the key `P ++ s` to the stored key set. -/
theorem insertKey_spec : ∀ (n : TrieNode) (s P : List Nat), wfN n = true →
    wfN (n.insertKey s) = true ∧ (n.insertKey s).b = n.b ∧
    (∀ k, k ∈ entriesT (n.insertKey s) P ↔ k = P ++ s ∨ k ∈ entriesT n P)
  | ⟨b0, cs, term⟩, [], P, hwf => by
      have he : (⟨b0, cs, term⟩ : TrieNode).insertKey [] = ⟨b0, cs, true⟩ := by
        rw [TrieNode.insertKey]
      rw [he]
      refine ⟨?_, rfl, ?_⟩
      · rw [wfN_mk] at hwf ⊢
        exact hwf
      · intro k
        rw [entriesT_mk, entriesT_mk]
        cases term <;> simp
  | ⟨b0, cs, term⟩, c :: k', P, hwf => by
      rw [wfN_mk, Bool.and_eq_true] at hwf
      obtain ⟨hsort, hwfl⟩ := hwf
      by_cases hfound : (findChild c cs).2 = true
      case neg =>
        have he : (⟨b0, cs, term⟩ : TrieNode).insertKey (c :: k') =
            ⟨b0, addChildAt cs ⟨c :: k', [], true⟩ (findChild c cs).1,
              term⟩ := by
          rw [TrieNode.insertKey]
          simp only []
          rw [if_neg (by simp [hfound])]
        rw [he, addChildAt, findChild_fst]
        obtain ⟨T, D, hTD, hins, hTeq, hDeq⟩ :=
          insertIdx_decomp' cs (childSearch c cs) ⟨c :: k', [], true⟩
            (childSearch_le c cs)
        have hne : ∀ t ∈ cs, hb t ≠ c :=
          findChild_not_found cs c hsort (by simpa using hfound)
        have hsplit := childSearch_split cs c hsort hne
        rw [hins]
        refine ⟨?_, rfl, ?_⟩
        · rw [wfN_mk, Bool.and_eq_true]
          constructor
          · refine sorted_insert_TD (by rw [← hTD]; exact hsort) ?_ ?_
            · intro u hu
              exact hsplit.1 u (by rw [← hTeq]; exact hu)
            · intro v hv
              exact hsplit.2 v (by rw [← hDeq]; exact hv)
          · refine wfL_insert_TD (by rw [← hTD]; exact hwfl) (by simp) ?_
            rw [wfN_mk]
            simp [childrenSorted, wfL]
        · intro k
          rw [entriesT_mk, entriesT_mk, entriesTL_append, entriesTL_cons]
          have hleaf : entriesT (⟨c :: k', [], true⟩ : TrieNode)
              (P ++ (⟨c :: k', [], true⟩ : TrieNode).b) =
              [P ++ (c :: k')] := by
            rw [entriesT_mk, entriesTL]
            rfl
          rw [hleaf]
          conv_rhs => rw [hTD]
          rw [entriesTL_append]
          simp only [List.mem_append, List.mem_singleton]
          tauto
      case pos =>
        obtain ⟨child, hsome, hhb⟩ := findChild_found hfound
        have hmemc := List.getElem?_mem hsome
        obtain ⟨hcbne, hcwf⟩ := wfL_mem cs child hmemc hwfl
        obtain ⟨cb, cc, ct⟩ := child
        simp only [TrieNode.b_mk] at hcbne
        by_cases hcl : commonPrefixLen cb (c :: k') = cb.length
        · have he : (⟨b0, cs, term⟩ : TrieNode).insertKey (c :: k') =
              ⟨b0, cs.set (childSearch c cs)
                ((⟨cb, cc, ct⟩ : TrieNode).insertKey
                  ((c :: k').drop (commonPrefixLen cb (c :: k')))), term⟩ := by
            rw [TrieNode.insertKey]
            simp only []
            rw [if_pos hfound]
            split
            next child2 heq =>
              rw [findChild_fst, hsome] at heq
              obtain rfl : child2 = (⟨cb, cc, ct⟩ : TrieNode) := by
                injection heq with h2
                exact h2.symm
              rw [if_pos (by simpa using hcl), findChild_fst]
              simp only [TrieNode.b_mk]
            next heq =>
              rw [findChild_fst, hsome] at heq
              exact Option.noConfusion heq
          rw [he]
          obtain ⟨hwf', hb', hmem'⟩ :=
            insertKey_spec (⟨cb, cc, ct⟩ : TrieNode)
              ((c :: k').drop (commonPrefixLen cb (c :: k'))) (P ++ cb) hcwf
          have hpfx : cb <+: (c :: k') := cpl_pfx_of_eq_left cb (c :: k') hcl
          obtain ⟨t0, ht0⟩ := hpfx
          have hdrop : (c :: k').drop (commonPrefixLen cb (c :: k')) = t0 := by
            rw [hcl, ← ht0]
            simp
          have hxe : ∀ k, k ∈ entriesT ((⟨cb, cc, ct⟩ : TrieNode).insertKey
              ((c :: k').drop (commonPrefixLen cb (c :: k'))))
              (P ++ ((⟨cb, cc, ct⟩ : TrieNode).insertKey
                ((c :: k').drop (commonPrefixLen cb (c :: k')))).b) ↔
              k = P ++ (c :: k') ∨
              k ∈ entriesT (⟨cb, cc, ct⟩ : TrieNode)
                (P ++ (⟨cb, cc, ct⟩ : TrieNode).b) := by
            intro k
            rw [hb']
            simp only [TrieNode.b_mk]
            rw [hmem' k, hdrop]
            rw [show P ++ cb ++ t0 = P ++ (c :: k') from by
              rw [List.append_assoc, ht0]]
          obtain ⟨hwfnew, hmemnew⟩ := node_replace_spec b0 cs term
            (childSearch c cs) ⟨cb, cc, ct⟩ _ P (c :: k') hsome hsort hwfl
            hwf' (by rw [hb']; simpa using hcbne)
            (by simp only [hb]; rw [hb']) hxe
          exact ⟨hwfnew, rfl, hmemnew⟩
        · have hltb : commonPrefixLen cb (c :: k') < cb.length :=
            lt_of_le_of_ne (cpl_le_left cb (c :: k')) hcl
          have hhb' : cb.headD 0 = c := hhb
          have hce : cb = c :: cb.tail := by
            rw [← hhb']
            exact nonempty_eq_hb_cons (by simpa using hcbne)
          have hmpos : 0 < commonPrefixLen cb (c :: k') := by
            rw [hce, cpl_cons_eq]
            omega
          have htake : cb.take (commonPrefixLen cb (c :: k')) =
              (c :: k').take (commonPrefixLen cb (c :: k')) :=
            cpl_take_eq cb (c :: k')
          have htakehb : (cb.take (commonPrefixLen cb (c :: k'))).headD 0 =
              c := by
            obtain ⟨m', hm'⟩ : ∃ m',
                commonPrefixLen cb (c :: k') = m' + 1 :=
              ⟨commonPrefixLen cb (c :: k') - 1, by omega⟩
            rw [hm']
            conv_lhs => rw [hce]
            rw [List.take_succ_cons]
            rfl
          have htakene : cb.take (commonPrefixLen cb (c :: k')) ≠ [] := by
            obtain ⟨m', hm'⟩ : ∃ m',
                commonPrefixLen cb (c :: k') = m' + 1 :=
              ⟨commonPrefixLen cb (c :: k') - 1, by omega⟩
            rw [hm']
            conv_lhs => rw [hce]
            rw [List.take_succ_cons]
            simp
          have hdropne : cb.drop (commonPrefixLen cb (c :: k')) ≠ [] := by
            intro h0
            have hlen := congrArg List.length h0
            rw [List.length_drop] at hlen
            simp at hlen
            omega
          have hkeysplit : P ++ cb.take (commonPrefixLen cb (c :: k')) ++
              (c :: k').drop (commonPrefixLen cb (c :: k')) =
              P ++ (c :: k') := by
            rw [htake, List.append_assoc, List.take_append_drop]
          have hrest_entries : ∀ X,
              entriesT (⟨cb.drop (commonPrefixLen cb (c :: k')), cc, ct⟩ :
                TrieNode) X = entriesT (⟨cb, cc, ct⟩ : TrieNode) X := by
            intro X
            rw [entriesT_mk, entriesT_mk]
          have hwfrest : wfN (⟨cb.drop (commonPrefixLen cb (c :: k')),
              cc, ct⟩ : TrieNode) = true := by
            rw [wfN_mk]
            rw [wfN_mk] at hcwf
            simpa using hcwf
          by_cases hns : ((c :: k').drop
              (commonPrefixLen cb (c :: k'))).isEmpty = true
          · have he : (⟨b0, cs, term⟩ : TrieNode).insertKey (c :: k') =
                ⟨b0, cs.set (childSearch c cs)
                  ⟨cb.take (commonPrefixLen cb (c :: k')),
                    [⟨cb.drop (commonPrefixLen cb (c :: k')), cc, ct⟩],
                    true⟩, term⟩ := by
              rw [TrieNode.insertKey]
              simp only []
              rw [if_pos hfound]
              split
              next child2 heq =>
                rw [findChild_fst, hsome] at heq
                obtain rfl : child2 = (⟨cb, cc, ct⟩ : TrieNode) := by
                  injection heq with h2
                  exact h2.symm
                rw [if_neg (by simpa using hcl), findChild_fst]
                simp only [TrieNode.b_mk, TrieNode.children_mk,
                  TrieNode.terminal_mk]
                rw [if_pos hns, addChild_nil]
              next heq =>
                rw [findChild_fst, hsome] at heq
                exact Option.noConfusion heq
            rw [he]
            have hdropnil : (c :: k').drop
                (commonPrefixLen cb (c :: k')) = [] := by
              simpa using hns
            have hPs : P ++ cb.take (commonPrefixLen cb (c :: k')) =
                P ++ (c :: k') := by
              rw [← hkeysplit, hdropnil, List.append_nil]
            have hxe : ∀ k, k ∈ entriesT
                (⟨cb.take (commonPrefixLen cb (c :: k')),
                  [⟨cb.drop (commonPrefixLen cb (c :: k')), cc, ct⟩],
                  true⟩ : TrieNode)
                (P ++ (⟨cb.take (commonPrefixLen cb (c :: k')),
                  [⟨cb.drop (commonPrefixLen cb (c :: k')), cc, ct⟩],
                  true⟩ : TrieNode).b) ↔
                k = P ++ (c :: k') ∨
                k ∈ entriesT (⟨cb, cc, ct⟩ : TrieNode)
                  (P ++ (⟨cb, cc, ct⟩ : TrieNode).b) := by
              intro k
              simp only [TrieNode.b_mk]
              rw [entriesT_mk, entriesTL_cons, entriesTL]
              simp only [TrieNode.b_mk]
              rw [List.append_assoc, List.take_append_drop, hrest_entries,
                hPs]
              simp only [if_true, List.append_nil, List.mem_append,
                List.mem_singleton]
            obtain ⟨hwfnew, hmemnew⟩ := node_replace_spec b0 cs term
              (childSearch c cs) ⟨cb, cc, ct⟩ _ P (c :: k') hsome hsort hwfl
              (by
                rw [wfN_mk]
                rw [Bool.and_eq_true]
                refine ⟨rfl, ?_⟩
                rw [wfL_cons, wfL]
                simp [hwfrest, hdropne])
              (by simpa using htakene)
              (by simp only [hb, TrieNode.b_mk]; rw [htakehb, hhb'])
              hxe
            exact ⟨hwfnew, rfl, hmemnew⟩
          · have hlt2 : commonPrefixLen cb (c :: k') < (c :: k').length := by
              by_contra h2
              have hle := cpl_le_right cb (c :: k')
              have heq2 : commonPrefixLen cb (c :: k') =
                  (c :: k').length := by omega
              have hdrop0 : ((c :: k').drop
                  (commonPrefixLen cb (c :: k'))) = [] := by
                rw [heq2]
                simp
              rw [hdrop0] at hns
              simp at hns
            have hmm := cpl_mismatch cb (c :: k') hltb hlt2
            have hsorted1 : childrenSorted
                [(⟨cb.drop (commonPrefixLen cb (c :: k')), cc, ct⟩ :
                  TrieNode)] = true := rfl
            have hnehb : ∀ t ∈ [(⟨cb.drop (commonPrefixLen cb (c :: k')),
                cc, ct⟩ : TrieNode)], hb t ≠
                hb (⟨(c :: k').drop (commonPrefixLen cb (c :: k')), [],
                  true⟩ : TrieNode) := by
              intro t ht
              rcases List.mem_singleton.mp ht with rfl
              simpa [hb] using hmm
            obtain ⟨T2, D2, hTD2, hadd, hT2lt, hD2gt⟩ := addChild_spec _ _
              hsorted1 hnehb
            have he : (⟨b0, cs, term⟩ : TrieNode).insertKey (c :: k') =
                ⟨b0, cs.set (childSearch c cs)
                  ⟨cb.take (commonPrefixLen cb (c :: k')),
                    T2 ++ (⟨(c :: k').drop (commonPrefixLen cb (c :: k')),
                      [], true⟩ : TrieNode) :: D2,
                    false⟩, term⟩ := by
              rw [TrieNode.insertKey]
              simp only []
              rw [if_pos hfound]
              split
              next child2 heq =>
                rw [findChild_fst, hsome] at heq
                obtain rfl : child2 = (⟨cb, cc, ct⟩ : TrieNode) := by
                  injection heq with h2
                  exact h2.symm
                rw [if_neg (by simpa using hcl), findChild_fst]
                simp only [TrieNode.b_mk, TrieNode.children_mk,
                  TrieNode.terminal_mk]
                rw [if_neg (by simp [hns]), addChild_nil, hadd]
              next heq =>
                rw [findChild_fst, hsome] at heq
                exact Option.noConfusion heq
            rw [he]
            have hxe : ∀ k, k ∈ entriesT
                (⟨cb.take (commonPrefixLen cb (c :: k')),
                  T2 ++ (⟨(c :: k').drop (commonPrefixLen cb (c :: k')),
                    [], true⟩ : TrieNode) :: D2, false⟩ : TrieNode)
                (P ++ (⟨cb.take (commonPrefixLen cb (c :: k')),
                  T2 ++ (⟨(c :: k').drop (commonPrefixLen cb (c :: k')),
                    [], true⟩ : TrieNode) :: D2, false⟩ : TrieNode).b) ↔
                k = P ++ (c :: k') ∨
                k ∈ entriesT (⟨cb, cc, ct⟩ : TrieNode)
                  (P ++ (⟨cb, cc, ct⟩ : TrieNode).b) := by
              intro k
              simp only [TrieNode.b_mk]
              rw [entriesT_mk, entriesTL_append, entriesTL_cons]
              have hnew : entriesT (⟨(c :: k').drop
                  (commonPrefixLen cb (c :: k')), [], true⟩ : TrieNode)
                  (P ++ cb.take (commonPrefixLen cb (c :: k')) ++
                    (⟨(c :: k').drop (commonPrefixLen cb (c :: k')), [],
                      true⟩ : TrieNode).b) = [P ++ (c :: k')] := by
                rw [entriesT_mk, entriesTL]
                simp only [TrieNode.b_mk, hkeysplit]
                rfl
              rw [hnew]
              have hrest2 : entriesTL (T2 ++ D2)
                  (P ++ cb.take (commonPrefixLen cb (c :: k'))) =
                  entriesT (⟨cb, cc, ct⟩ : TrieNode) (P ++ cb) := by
                rw [← hTD2, entriesTL_cons, entriesTL]
                simp only [TrieNode.b_mk, List.append_nil]
                rw [List.append_assoc, List.take_append_drop, hrest_entries]
              have hEchild : entriesT (⟨cb, cc, ct⟩ : TrieNode) (P ++ cb) =
                  entriesTL T2 (P ++ cb.take (commonPrefixLen cb (c :: k')))
                    ++ entriesTL D2
                      (P ++ cb.take (commonPrefixLen cb (c :: k'))) := by
                rw [← hrest2, entriesTL_append]
              rw [hEchild, if_neg (Bool.false_ne_true)]
              simp only [List.mem_append, List.mem_singleton,
                List.not_mem_nil, false_or]
              tauto
            obtain ⟨hwfnew, hmemnew⟩ := node_replace_spec b0 cs term
              (childSearch c cs) ⟨cb, cc, ct⟩ _ P (c :: k') hsome hsort hwfl
              (by
                rw [wfN_mk]
                rw [Bool.and_eq_true]
                constructor
                · refine sorted_insert_TD (by rw [← hTD2]; exact hsorted1)
                    hT2lt hD2gt
                · refine wfL_insert_TD (by
                      rw [← hTD2, wfL_cons, wfL]
                      simp [hwfrest, hdropne]) ?_ ?_
                  · simp only [TrieNode.b_mk]
                    have : (c :: k').drop
                        (commonPrefixLen cb (c :: k')) ≠ [] := by
                      intro h0
                      rw [h0] at hns
                      simp at hns
                    simpa using this
                  · rw [wfN_mk]
                    simp [childrenSorted, wfL])
              (by simpa using htakene)
              (by simp only [hb, TrieNode.b_mk]; rw [htakehb, hhb'])
              hxe
            exact ⟨hwfnew, rfl, hmemnew⟩
termination_by n _ _ _ => sizeOf n
decreasing_by
  simp_wf
  have h1 := List.sizeOf_lt_of_mem (List.getElem?_mem hsome)
  simp only [TrieNode.mk.sizeOf_spec] at h1 ⊢
  omega

theorem sorted_hb_unique : ∀ (cs : List TrieNode),
    childrenSorted cs = true → ∀ c1 ∈ cs, ∀ c2 ∈ cs, hb c1 = hb c2 → c1 = c2
  | [], _, c1, h1, _, _, _ => absurd h1 (by simp)
  | x :: rest, hsort, c1, h1, c2, h2, hhb12 => by
      have hp := (childrenSorted_iff (x :: rest)).mp hsort
      have hsr : childrenSorted rest = true :=
        (childrenSorted_iff rest).mpr
          (List.Pairwise.sublist (List.sublist_cons_self x rest) hp)
      rcases List.mem_cons.mp h1 with rfl | h1'
      · rcases List.mem_cons.mp h2 with rfl | h2'
        · rfl
        · have := List.rel_of_pairwise_cons hp h2'
          omega
      · rcases List.mem_cons.mp h2 with rfl | h2'
        · have := List.rel_of_pairwise_cons hp h1'
          omega
        · exact sorted_hb_unique rest hsr c1 h1' c2 h2' hhb12

/-- Keys from different first-byte territories differ. -/
theorem append_head_ne {P a b ra rb : List Nat} (ha : a ≠ []) (hb2 : b ≠ [])
    (hne : a.headD 0 ≠ b.headD 0) : P ++ a ++ ra ≠ P ++ b ++ rb := by
  intro h
  rw [List.append_assoc, List.append_assoc] at h
  have h2 := List.append_cancel_left h
  cases a with
  | nil => exact ha rfl
  | cons a0 a' =>
      cases b with
      | nil => exact hb2 rfl
      | cons b0 b' =>
          simp only [List.cons_append, List.cons.injEq] at h2
          exact hne (by simpa using h2.1)

/-- A key of the subtree of a node whose path extends `P` by a non-empty
segment is never `P` itself. -/
theorem entriesTL_key_ne_base {cs : List TrieNode} {P k : List Nat}
    (hwfl : wfL cs = true) (hk : k ∈ entriesTL cs P) : k ≠ P := by
  obtain ⟨c, hc, hkc⟩ := entriesTL_pfx cs P k hk
  have hcb : (!c.b.isEmpty) = true := (wfL_mem cs c hc hwfl).1
  intro heq
  have hlen := hkc.length_le
  rw [heq, List.length_append] at hlen
  have : c.b.length = 0 := by omega
  rw [List.length_eq_zero] at this
  rw [this] at hcb
  simp at hcb

/-- If no child owns the first byte of `s`, or the owning child's segment is
not a prefix of `s`, then `P ++ s` is not stored in the node's subtree. -/
theorem key_not_in_unrouted {b0 : List Nat} {cs : List TrieNode}
    {term : Bool} {P : List Nat} {c : Nat} {k' : List Nat}
    (hsort : childrenSorted cs = true) (hwfl : wfL cs = true)
    (hroute : ∀ child ∈ cs, hb child = c → ¬ child.b <+: (c :: k')) :
    P ++ (c :: k') ∉ entriesT (⟨b0, cs, term⟩ : TrieNode) P := by
  intro hmem
  rw [entriesT_mk, List.mem_append] at hmem
  rcases hmem with h | h
  · have : P ++ (c :: k') = P := by cases term <;> simpa using h
    have := congrArg List.length this
    simp at this
  · obtain ⟨child, hc, hkc⟩ := (entriesTL_mem cs P _).mp h
    have hpfx2 : (P ++ child.b) <+: (P ++ (c :: k')) :=
      entriesT_pfx child (P ++ child.b) _ hkc
    have hpfx3 : child.b <+: (c :: k') :=
      (List.prefix_append_right_inj P).mp hpfx2
    have hcb : (!child.b.isEmpty) = true := (wfL_mem cs child hc hwfl).1
    have hhbc : hb child = c := by
      cases hcbeq : child.b with
      | nil =>
          rw [hcbeq] at hcb
          simp at hcb
      | cons h0 t0 =>
          rw [hcbeq] at hpfx3
          obtain ⟨rfl, _⟩ := List.cons_prefix_cons.mp hpfx3
          rw [hb, hcbeq]
          rfl
    exact hroute child hc hhbc hpfx3

/-- A child whose extended path is a prefix of `P ++ (c :: k')` owns the
byte `c`. -/
theorem routed_key_hb {c' : TrieNode} {P : List Nat} {c : Nat} {k' : List Nat}
    (hcb : (!c'.b.isEmpty) = true)
    (hpfx : (P ++ c'.b) <+: (P ++ (c :: k'))) : hb c' = c := by
  have hpfx3 : c'.b <+: (c :: k') := (List.prefix_append_right_inj P).mp hpfx
  cases hcbeq : c'.b with
  | nil =>
      rw [hcbeq] at hcb
      simp at hcb
  | cons h0 t0 =>
      rw [hcbeq] at hpfx3
      obtain ⟨rfl, _⟩ := List.cons_prefix_cons.mp hpfx3
      rw [hb, hcbeq]
      rfl

/-- Replacing the child at `idx` by a same-first-byte node whose subtree
drops exactly the key `P ++ (c :: k')` does the same at the node level. -/
theorem node_replace_del_spec (b0 : List Nat) (cs : List TrieNode)
    (term : Bool) (idx : Nat) (child x : TrieNode) (P : List Nat)
    (c : Nat) (k' : List Nat)
    (hsome : cs[idx]? = some child)
    (hsort : childrenSorted cs = true) (hwfl : wfL cs = true)
    (hxwf : wfN x = true) (hxb : (!x.b.isEmpty) = true)
    (hxhb : hb x = hb child) (hchb : hb child = c)
    (hxe : ∀ k, k ∈ entriesT x (P ++ x.b) ↔
      k ∈ entriesT child (P ++ child.b) ∧ k ≠ P ++ (c :: k')) :
    wfN (⟨b0, cs.set idx x, term⟩ : TrieNode) = true ∧
    (∀ k, k ∈ entriesT (⟨b0, cs.set idx x, term⟩ : TrieNode) P ↔
      k ∈ entriesT (⟨b0, cs, term⟩ : TrieNode) P ∧ k ≠ P ++ (c :: k')) := by
  obtain ⟨T, D, hTD, hset, _, _, _⟩ := set_decomp' cs idx child x hsome
  have hp : List.Pairwise (fun a d => hb a < hb d) (T ++ child :: D) := by
    rw [← hTD]
    exact (childrenSorted_iff cs).mp hsort
  have hwTD : wfL (T ++ child :: D) = true := by
    rw [← hTD]
    exact hwfl
  rw [List.pairwise_append] at hp
  obtain ⟨hpT, hpCD, hcross⟩ := hp
  rw [wfL_append, Bool.and_eq_true] at hwTD
  obtain ⟨hwT, hwCD⟩ := hwTD
  rw [wfL_cons, Bool.and_eq_true, Bool.and_eq_true] at hwCD
  have hother : ∀ c', c' ∈ T ∨ c' ∈ D → hb c' ≠ c := by
    intro c' hc' heq
    rcases hc' with hc' | hc'
    · have := hcross c' hc' child (by simp)
      omega
    · have := List.rel_of_pairwise_cons hpCD hc'
      omega
  have hwfother : ∀ c', c' ∈ T ∨ c' ∈ D → (!c'.b.isEmpty) = true := by
    intro c' hc'
    rcases hc' with hc' | hc'
    · exact (wfL_mem T c' hc' hwT).1
    · exact (wfL_mem D c' hc' hwCD.2).1
  have hotherkey : ∀ (S : List TrieNode), (∀ c', c' ∈ S → c' ∈ T ∨ c' ∈ D) →
      wfL S = true → ∀ k ∈ entriesTL S P, k ≠ P ++ (c :: k') := by
    intro S hS hwS k hk heq
    obtain ⟨c', hc', hkc'⟩ := entriesTL_pfx S P k hk
    rw [heq] at hkc'
    exact hother c' (hS c' hc')
      (routed_key_hb (hwfother c' (hS c' hc')) hkc')
  rw [hset]
  refine ⟨?_, ?_⟩
  · rw [wfN_mk, Bool.and_eq_true]
    constructor
    · refine (childrenSorted_iff _).mpr
        (pairwise_hb_replace ?_ hxhb)
      rw [← hTD]
      exact (childrenSorted_iff cs).mp hsort
    · rw [wfL_append, Bool.and_eq_true]
      refine ⟨hwT, ?_⟩
      rw [wfL_cons]
      simp [hxb, hxwf, hwCD.2]
  · intro k
    rw [entriesT_mk, entriesT_mk, entriesTL_append, entriesTL_cons]
    conv_rhs => rw [hTD]
    rw [entriesTL_append, entriesTL_cons]
    simp only [List.mem_append]
    have hxek := hxe k
    have hPne : k ∈ (if term then [P] else ([] : List (List Nat))) →
        k ≠ P ++ (c :: k') := by
      intro hk heq
      have hkP : k = P := by cases term <;> simpa using hk
      rw [hkP] at heq
      have := congrArg List.length heq
      simp at this
    have hTne' : k ∈ entriesTL T P → k ≠ P ++ (c :: k') :=
      fun hk => hotherkey T (fun c' hc' => Or.inl hc') hwT k hk
    have hDne' : k ∈ entriesTL D P → k ≠ P ++ (c :: k') :=
      fun hk => hotherkey D (fun c' hc' => Or.inr hc') hwCD.2 k hk
    constructor
    · rintro (h | h | h | h)
      · exact ⟨Or.inl h, hPne h⟩
      · exact ⟨Or.inr (Or.inl h), hTne' h⟩
      · obtain ⟨h1, h2⟩ := hxek.mp h
        exact ⟨Or.inr (Or.inr (Or.inl h1)), h2⟩
      · exact ⟨Or.inr (Or.inr (Or.inr h)), hDne' h⟩
    · rintro ⟨h | h | h | h, hne⟩
      · exact Or.inl h
      · exact Or.inr (Or.inl h)
      · exact Or.inr (Or.inr (Or.inl (hxek.mpr ⟨h, hne⟩)))
      · exact Or.inr (Or.inr (Or.inr h))

/-- Removing the child at `idx`, whose whole subtree was the single key
`P ++ (c :: k')`, drops exactly that key at the node level. -/
theorem node_erase_del_spec (b0 : List Nat) (cs : List TrieNode)
    (term : Bool) (idx : Nat) (child : TrieNode) (P : List Nat)
    (c : Nat) (k' : List Nat)
    (hsome : cs[idx]? = some child)
    (hsort : childrenSorted cs = true) (hwfl : wfL cs = true)
    (hchb : hb child = c)
    (hsub : ∀ k ∈ entriesT child (P ++ child.b), k = P ++ (c :: k')) :
    wfN (⟨b0, cs.eraseIdx idx, term⟩ : TrieNode) = true ∧
    (∀ k, k ∈ entriesT (⟨b0, cs.eraseIdx idx, term⟩ : TrieNode) P ↔
      k ∈ entriesT (⟨b0, cs, term⟩ : TrieNode) P ∧ k ≠ P ++ (c :: k')) := by
  obtain ⟨T, D, hTD, _, herase, _, _⟩ := set_decomp' cs idx child child hsome
  have hp : List.Pairwise (fun a d => hb a < hb d) (T ++ child :: D) := by
    rw [← hTD]
    exact (childrenSorted_iff cs).mp hsort
  have hwTD : wfL (T ++ child :: D) = true := by
    rw [← hTD]
    exact hwfl
  rw [List.pairwise_append] at hp
  obtain ⟨hpT, hpCD, hcross⟩ := hp
  rw [wfL_append, Bool.and_eq_true] at hwTD
  obtain ⟨hwT, hwCD⟩ := hwTD
  rw [wfL_cons, Bool.and_eq_true, Bool.and_eq_true] at hwCD
  have hother : ∀ c', c' ∈ T ∨ c' ∈ D → hb c' ≠ c := by
    intro c' hc' heq
    rcases hc' with hc' | hc'
    · have := hcross c' hc' child (by simp)
      omega
    · have := List.rel_of_pairwise_cons hpCD hc'
      omega
  have hwfother : ∀ c', c' ∈ T ∨ c' ∈ D → (!c'.b.isEmpty) = true := by
    intro c' hc'
    rcases hc' with hc' | hc'
    · exact (wfL_mem T c' hc' hwT).1
    · exact (wfL_mem D c' hc' hwCD.2).1
  have hotherkey : ∀ (S : List TrieNode), (∀ c', c' ∈ S → c' ∈ T ∨ c' ∈ D) →
      wfL S = true → ∀ k ∈ entriesTL S P, k ≠ P ++ (c :: k') := by
    intro S hS hwS k hk heq
    obtain ⟨c', hc', hkc'⟩ := entriesTL_pfx S P k hk
    rw [heq] at hkc'
    exact hother c' (hS c' hc')
      (routed_key_hb (hwfother c' (hS c' hc')) hkc')
  rw [herase]
  refine ⟨?_, ?_⟩
  · rw [wfN_mk, Bool.and_eq_true]
    constructor
    · have hpfull : List.Pairwise (fun a d => hb a < hb d)
          (T ++ child :: D) := by
        rw [← hTD]
        exact (childrenSorted_iff cs).mp hsort
      exact (childrenSorted_iff _).mpr
        (List.Pairwise.sublist (List.Sublist.append (List.Sublist.refl T)
          (List.sublist_cons_self child D)) hpfull)
    · rw [wfL_append, Bool.and_eq_true]
      exact ⟨hwT, hwCD.2⟩
  · intro k
    rw [entriesT_mk, entriesT_mk, entriesTL_append]
    conv_rhs => rw [hTD]
    rw [entriesTL_append, entriesTL_cons]
    simp only [List.mem_append]
    have hPne : k ∈ (if term then [P] else ([] : List (List Nat))) →
        k ≠ P ++ (c :: k') := by
      intro hk heq
      have hkP : k = P := by cases term <;> simpa using hk
      rw [hkP] at heq
      have := congrArg List.length heq
      simp at this
    have hTne' : k ∈ entriesTL T P → k ≠ P ++ (c :: k') :=
      fun hk => hotherkey T (fun c' hc' => Or.inl hc') hwT k hk
    have hDne' : k ∈ entriesTL D P → k ≠ P ++ (c :: k') :=
      fun hk => hotherkey D (fun c' hc' => Or.inr hc') hwCD.2 k hk
    constructor
    · rintro (h | h | h)
      · exact ⟨Or.inl h, hPne h⟩
      · exact ⟨Or.inr (Or.inl h), hTne' h⟩
      · exact ⟨Or.inr (Or.inr (Or.inr h)), hDne' h⟩
    · rintro ⟨h | h | h | h, hne⟩
      · exact Or.inl h
      · exact Or.inr (Or.inl h)
      · exact absurd (hsub k h) hne
      · exact Or.inr (Or.inr h)

/-- `delete`'s recursive helper (kv.go) keeps the trie well-formed, keeps
the node segment, removes exactly the key `P ++ s`, and requests removal by
the parent only when its remaining subtree stores nothing. -/
theorem delKey_spec : ∀ (n : TrieNode) (s P : List Nat), wfN n = true →
    wfN (n.delKey s).1 = true ∧ (n.delKey s).1.b = n.b ∧
    ((n.delKey s).2 = true → entriesT (n.delKey s).1 P = []) ∧
    (∀ k, k ∈ entriesT (n.delKey s).1 P ↔
      k ∈ entriesT n P ∧ k ≠ P ++ s)
  | ⟨b0, cs, term⟩, [], P, hwf => by
      rw [wfN_mk, Bool.and_eq_true] at hwf
      obtain ⟨hsort, hwfl⟩ := hwf
      cases term with
      | true =>
        have he : (⟨b0, cs, true⟩ : TrieNode).delKey [] =
            (⟨b0, cs, false⟩, cs.isEmpty) := by
          rw [TrieNode.delKey]
          rfl
        rw [he]
        refine ⟨?_, rfl, ?_, ?_⟩
        · rw [wfN_mk]
          simp [hsort, hwfl]
        · intro h2
          have hnil : cs = [] := by simpa using h2
          subst hnil
          rw [entriesT_mk, entriesTL]
          simp
        · intro k
          rw [entriesT_mk, entriesT_mk]
          simp only [List.append_nil, List.mem_append]
          constructor
          · intro hk
            have hk' : k ∈ entriesTL cs P := by
              rcases hk with h | h
              · simp at h
              · exact h
            exact ⟨Or.inr hk', entriesTL_key_ne_base hwfl hk'⟩
          · rintro ⟨h | h, hne⟩
            · have : k = P := by simpa using h
              exact absurd this hne
            · exact Or.inr h
      | false =>
        have he : (⟨b0, cs, false⟩ : TrieNode).delKey [] =
            (⟨b0, cs, false⟩, false) := by
          rw [TrieNode.delKey]
          rfl
        rw [he]
        refine ⟨by rw [wfN_mk]; simp [hsort, hwfl], rfl, by simp, ?_⟩
        intro k
        simp only [List.append_nil]
        constructor
        · intro hk
          refine ⟨hk, ?_⟩
          rw [entriesT_mk] at hk
          have hk' : k ∈ entriesTL cs P := by
            rcases List.mem_append.mp hk with h | h
            · simp at h
            · exact h
          exact entriesTL_key_ne_base hwfl hk'
        · exact fun h => h.1
  | ⟨b0, cs, term⟩, c :: k', P, hwf => by
      rw [wfN_mk, Bool.and_eq_true] at hwf
      obtain ⟨hsort, hwfl⟩ := hwf
      by_cases hfound : (findChild c cs).2 = true
      case neg =>
        have he : (⟨b0, cs, term⟩ : TrieNode).delKey (c :: k') =
            (⟨b0, cs, term⟩, false) := by
          rw [TrieNode.delKey]
          simp only []
          rw [if_neg (by simp [hfound])]
        rw [he]
        have hnotin : P ++ (c :: k') ∉
            entriesT (⟨b0, cs, term⟩ : TrieNode) P := by
          refine key_not_in_unrouted hsort hwfl ?_
          intro child hc hchb _
          exact (findChild_not_found cs c hsort
            (by simpa using hfound) child hc) hchb
        refine ⟨by rw [wfN_mk]; simp [hsort, hwfl], rfl, by simp, ?_⟩
        intro k
        constructor
        · intro hk
          exact ⟨hk, fun heq => hnotin (heq ▸ hk)⟩
        · exact fun h => h.1
      case pos =>
        obtain ⟨child, hsome, hhb⟩ := findChild_found hfound
        have hmemc := List.getElem?_mem hsome
        obtain ⟨hcbne, hcwf⟩ := wfL_mem cs child hmemc hwfl
        obtain ⟨cb, cc, ct⟩ := child
        simp only [TrieNode.b_mk] at hcbne
        have hhb' : cb.headD 0 = c := hhb
        by_cases hcl : commonPrefixLen cb (c :: k') = cb.length
        · -- segment fully matched: recurse
          have hpfx : cb <+: (c :: k') := cpl_pfx_of_eq_left cb (c :: k') hcl
          obtain ⟨t0, ht0⟩ := hpfx
          have hdrop : (c :: k').drop (commonPrefixLen cb (c :: k')) = t0 := by
            rw [hcl, ← ht0]
            simp
          have hkey : P ++ cb ++ t0 = P ++ (c :: k') := by
            rw [List.append_assoc, ht0]
          obtain ⟨hwf', hb', hempty', hmem'⟩ :=
            delKey_spec (⟨cb, cc, ct⟩ : TrieNode)
              ((c :: k').drop (commonPrefixLen cb (c :: k'))) (P ++ cb) hcwf
          by_cases hrm : ((⟨cb, cc, ct⟩ : TrieNode).delKey
              ((c :: k').drop (commonPrefixLen cb (c :: k')))).2 = true
          · -- the child is pruned
            have he : (⟨b0, cs, term⟩ : TrieNode).delKey (c :: k') =
                (⟨b0, cs.eraseIdx (childSearch c cs), term⟩,
                  !term && (cs.eraseIdx (childSearch c cs)).isEmpty) := by
              rw [TrieNode.delKey]
              simp only []
              rw [if_pos hfound]
              split
              next child2 heq =>
                rw [findChild_fst, hsome] at heq
                obtain rfl : child2 = (⟨cb, cc, ct⟩ : TrieNode) := by
                  injection heq with h2
                  exact h2.symm
                rw [if_pos (by simpa using hcl)]
                simp only [TrieNode.b_mk]
                rw [if_pos hrm, findChild_fst]
              next heq =>
                rw [findChild_fst, hsome] at heq
                exact Option.noConfusion heq
            rw [he]
            have hsub : ∀ k ∈ entriesT (⟨cb, cc, ct⟩ : TrieNode)
                (P ++ (⟨cb, cc, ct⟩ : TrieNode).b), k = P ++ (c :: k') := by
              intro k hk
              by_contra hne
              have : k ∈ entriesT ((⟨cb, cc, ct⟩ : TrieNode).delKey
                  ((c :: k').drop (commonPrefixLen cb (c :: k')))).1
                  (P ++ cb) := by
                rw [hmem' k, hdrop, hkey]
                exact ⟨by simpa using hk, hne⟩
              rw [hempty' hrm] at this
              simp at this
            obtain ⟨hwfnew, hmemnew⟩ := node_erase_del_spec b0 cs term
              (childSearch c cs) ⟨cb, cc, ct⟩ P c k' hsome hsort hwfl
              hhb hsub
            refine ⟨hwfnew, rfl, ?_, hmemnew⟩
            intro h2
            rw [Bool.and_eq_true] at h2
            have hterm : term = false := by
              cases term
              · rfl
              · simp at h2
            have hnil : cs.eraseIdx (childSearch c cs) = [] := by
              simpa using h2.2
            rw [hterm, hnil, entriesT_mk, entriesTL]
            simp
          · -- the child stays
            have he : (⟨b0, cs, term⟩ : TrieNode).delKey (c :: k') =
                (⟨b0, cs.set (childSearch c cs)
                  ((⟨cb, cc, ct⟩ : TrieNode).delKey
                    ((c :: k').drop (commonPrefixLen cb (c :: k')))).1,
                  term⟩, false) := by
              rw [TrieNode.delKey]
              simp only []
              rw [if_pos hfound]
              split
              next child2 heq =>
                rw [findChild_fst, hsome] at heq
                obtain rfl : child2 = (⟨cb, cc, ct⟩ : TrieNode) := by
                  injection heq with h2
                  exact h2.symm
                rw [if_pos (by simpa using hcl)]
                simp only [TrieNode.b_mk]
                rw [if_neg (by simp [hrm]), findChild_fst]
              next heq =>
                rw [findChild_fst, hsome] at heq
                exact Option.noConfusion heq
            rw [he]
            have hxe : ∀ k, k ∈ entriesT
                (((⟨cb, cc, ct⟩ : TrieNode).delKey
                  ((c :: k').drop (commonPrefixLen cb (c :: k')))).1)
                (P ++ (((⟨cb, cc, ct⟩ : TrieNode).delKey
                  ((c :: k').drop (commonPrefixLen cb (c :: k')))).1).b) ↔
                k ∈ entriesT (⟨cb, cc, ct⟩ : TrieNode)
                  (P ++ (⟨cb, cc, ct⟩ : TrieNode).b) ∧
                k ≠ P ++ (c :: k') := by
              intro k
              rw [hb']
              simp only [TrieNode.b_mk]
              rw [hmem' k, hdrop, hkey]
            obtain ⟨hwfnew, hmemnew⟩ := node_replace_del_spec b0 cs term
              (childSearch c cs) ⟨cb, cc, ct⟩ _ P c k' hsome hsort hwfl
              hwf' (by rw [hb']; simpa using hcbne)
              (by simp only [hb]; rw [hb']) hhb hxe
            exact ⟨hwfnew, rfl, by simp, hmemnew⟩
        · -- segment mismatch: nothing stored under this key
          have he : (⟨b0, cs, term⟩ : TrieNode).delKey (c :: k') =
              (⟨b0, cs, term⟩, false) := by
            rw [TrieNode.delKey]
            simp only []
            rw [if_pos hfound]
            split
            next child2 heq =>
              rw [findChild_fst, hsome] at heq
              obtain rfl : child2 = (⟨cb, cc, ct⟩ : TrieNode) := by
                injection heq with h2
                exact h2.symm
              rw [if_neg (by simpa using hcl)]
            all_goals
              first
              | rfl
              | (rename_i heq2
                 rw [findChild_fst, hsome] at heq2
                 exact Option.noConfusion heq2)
          rw [he]
          have hnotin : P ++ (c :: k') ∉
              entriesT (⟨b0, cs, term⟩ : TrieNode) P := by
            refine key_not_in_unrouted hsort hwfl ?_
            intro child2 hc2 hchb2 hpfx2
            have heq2 : child2 = (⟨cb, cc, ct⟩ : TrieNode) :=
              sorted_hb_unique cs hsort child2 hc2 ⟨cb, cc, ct⟩ hmemc
                (by rw [hchb2, hhb])
            subst heq2
            simp only [TrieNode.b_mk] at hpfx2
            exact hcl (cpl_eq_left_of_pfx cb (c :: k') hpfx2)
          refine ⟨by rw [wfN_mk]; simp [hsort, hwfl], rfl, by simp, ?_⟩
          intro k
          constructor
          · intro hk
            exact ⟨hk, fun heq => hnotin (heq ▸ hk)⟩
          · exact fun h => h.1
termination_by n _ _ _ => sizeOf n
decreasing_by
  simp_wf
  have h1 := List.sizeOf_lt_of_mem (List.getElem?_mem hsome)
  simp only [TrieNode.mk.sizeOf_spec] at h1 ⊢
  omega

theorem cpl_comm : ∀ (a b : List Nat),
    commonPrefixLen a b = commonPrefixLen b a
  | [], b => by cases b <;> simp [commonPrefixLen]
  | a :: as2, [] => by simp [commonPrefixLen]
  | x :: a, y :: b => by
      rw [commonPrefixLen, commonPrefixLen]
      by_cases h : x = y
      · rw [if_pos h, if_pos h.symm, cpl_comm a b]
      · rw [if_neg h, if_neg (fun h2 => h h2.symm)]

mutual
/-- Under coherence with the underlying cache, `dfs` (kv.go) returns the
values of the subtree's keys in order. -/
theorem dfsKV_entries : ∀ (n : TrieNode) (P : List Nat)
    (data : List (List Nat × V)) (g : List Nat → V),
    (∀ k ∈ entriesT n P, lookupK data k = some (g k)) →
    dfsKV data n P = some ((entriesT n P).map g)
  | ⟨b0, cs, true⟩, P, data, g, hcoh => by
      have htl := dfsKVL_entries cs P data g
        (fun k hk => hcoh k (by rw [entriesT_mk]; exact List.mem_append_right _ hk))
      have hP : lookupK data P = some (g P) :=
        hcoh P (by rw [entriesT_mk]; simp)
      rw [dfsKV, hP, htl, entriesT_mk]
      simp
  | ⟨b0, cs, false⟩, P, data, g, hcoh => by
      have htl := dfsKVL_entries cs P data g
        (fun k hk => hcoh k (by rw [entriesT_mk]; exact List.mem_append_right _ hk))
      rw [dfsKV, htl, entriesT_mk]
      simp
termination_by n _ _ _ _ => sizeOf n

theorem dfsKVL_entries : ∀ (cs : List TrieNode) (P : List Nat)
    (data : List (List Nat × V)) (g : List Nat → V),
    (∀ k ∈ entriesTL cs P, lookupK data k = some (g k)) →
    dfsKVL data cs P = some ((entriesTL cs P).map g)
  | [], P, data, g, _ => by
      rw [dfsKVL, entriesTL]
      simp
  | child :: rest, P, data, g, hcoh => by
      have h1 := dfsKV_entries child (P ++ child.b) data g
        (fun k hk => hcoh k (by rw [entriesTL_cons]; exact List.mem_append_left _ hk))
      have h2 := dfsKVL_entries rest P data g
        (fun k hk => hcoh k (by rw [entriesTL_cons]; exact List.mem_append_right _ hk))
      rw [dfsKVL, h1, h2, entriesTL_cons]
      simp
termination_by cs _ _ _ _ => sizeOf cs
end

theorem routed_key_hb2 {c' : TrieNode} {P sk2 : List Nat} {c : Nat}
    {k : List Nat} (hcb : (!c'.b.isEmpty) = true)
    (h1 : (P ++ c'.b) <+: k) (h2 : (P ++ (c :: sk2)) <+: k) : hb c' = c := by
  rcases List.prefix_or_prefix_of_prefix h1 h2 with h | h
  · exact routed_key_hb hcb h
  · have h3 : (c :: sk2) <+: c'.b := (List.prefix_append_right_inj P).mp h
    cases hcbeq : c'.b with
    | nil =>
        rw [hcbeq] at hcb
        simp at hcb
    | cons h0 t0 =>
        rw [hcbeq] at h3
        obtain ⟨heq0, _⟩ := List.cons_prefix_cons.mp h3
        rw [hb, hcbeq]
        simpa using heq0.symm

/-- Keys with prefix `P ++ (c :: sk2)` live only in the subtree of the child
owning the byte `c`. -/
theorem entries_filter_route {b0 : List Nat} {cs : List TrieNode}
    {term : Bool} (P : List Nat) {c : Nat} (sk2 : List Nat)
    {child : TrieNode}
    (hsort : childrenSorted cs = true) (hwfl : wfL cs = true)
    (hsome : cs[childSearch c cs]? = some child) (hchb : hb child = c) :
    (entriesT (⟨b0, cs, term⟩ : TrieNode) P).filter
      (fun k => decide ((P ++ (c :: sk2)) <+: k)) =
    (entriesT child (P ++ child.b)).filter
      (fun k => decide ((P ++ (c :: sk2)) <+: k)) := by
  obtain ⟨T, D, hTD, _, _, _, _⟩ := set_decomp' cs _ child child hsome
  have hp : List.Pairwise (fun a d => hb a < hb d) (T ++ child :: D) := by
    rw [← hTD]
    exact (childrenSorted_iff cs).mp hsort
  have hwTD : wfL (T ++ child :: D) = true := by
    rw [← hTD]
    exact hwfl
  rw [List.pairwise_append] at hp
  obtain ⟨hpT, hpCD, hcross⟩ := hp
  rw [wfL_append, Bool.and_eq_true] at hwTD
  obtain ⟨hwT, hwCD⟩ := hwTD
  rw [wfL_cons, Bool.and_eq_true, Bool.and_eq_true] at hwCD
  have hother : ∀ c', c' ∈ T ∨ c' ∈ D → hb c' ≠ c := by
    intro c' hc' heq
    rcases hc' with hc' | hc'
    · have := hcross c' hc' child (by simp)
      omega
    · have := List.rel_of_pairwise_cons hpCD hc'
      omega
  have hwfother : ∀ c', c' ∈ T ∨ c' ∈ D → (!c'.b.isEmpty) = true := by
    intro c' hc'
    rcases hc' with hc' | hc'
    · exact (wfL_mem T c' hc' hwT).1
    · exact (wfL_mem D c' hc' hwCD.2).1
  have hflt : ∀ (S : List TrieNode), (∀ c', c' ∈ S → c' ∈ T ∨ c' ∈ D) →
      wfL S = true → (entriesTL S P).filter
        (fun k => decide ((P ++ (c :: sk2)) <+: k)) = [] := by
    intro S hS hwS
    refine List.filter_eq_nil_iff.mpr ?_
    intro k hk hpred
    simp only [decide_eq_true_eq] at hpred
    obtain ⟨c', hc', hkc'⟩ := entriesTL_pfx S P k hk
    exact hother c' (hS c' hc')
      (routed_key_hb2 (hwfother c' (hS c' hc')) hkc' hpred)
  rw [entriesT_mk]
  conv_lhs => rw [hTD]
  rw [entriesTL_append, entriesTL_cons, List.filter_append,
    List.filter_append, List.filter_append]
  have h1 : (if term then [P] else ([] : List (List Nat))).filter
      (fun k => decide ((P ++ (c :: sk2)) <+: k)) = [] := by
    refine List.filter_eq_nil_iff.mpr ?_
    intro k hk hpred
    simp only [decide_eq_true_eq] at hpred
    have hkP : k = P := by cases term <;> simpa using hk
    rw [hkP] at hpred
    have := hpred.length_le
    simp at this
  rw [h1, hflt T (fun c' hc' => Or.inl hc') hwT,
    hflt D (fun c' hc' => Or.inr hc') hwCD.2]
  simp

/-- The descent loop of `ListByPrefix` (kv.go) returns exactly the values of
the keys extending `P ++ (c :: sk')`, in stored (ascending) order. -/
theorem listLoopKV_spec : ∀ (node : TrieNode) (c : Nat) (sk' P : List Nat)
    (data : List (List Nat × V)) (root : TrieNode) (g : List Nat → V),
    wfN node = true →
    (∀ k ∈ entriesT node P, lookupK data k = some (g k)) →
    listLoopKV data root node (c :: sk') P =
      some (((entriesT node P).filter
        (fun k => decide ((P ++ (c :: sk')) <+: k))).map g)
  | ⟨b0, cs, term⟩, c, sk', P, data, root, g, hwf, hcoh => by
      rw [wfN_mk, Bool.and_eq_true] at hwf
      obtain ⟨hsort, hwfl⟩ := hwf
      by_cases hfound : (findChild c cs).2 = true
      case neg =>
        have he : listLoopKV data root (⟨b0, cs, term⟩ : TrieNode)
            (c :: sk') P = some [] := by
          rw [listLoopKV]
          simp only [TrieNode.children_mk]
          rw [if_neg (by simp [hfound])]
        rw [he]
        have hfne := findChild_not_found cs c hsort (by simpa using hfound)
        have hflt : (entriesT (⟨b0, cs, term⟩ : TrieNode) P).filter
            (fun k => decide ((P ++ (c :: sk')) <+: k)) = [] := by
          refine List.filter_eq_nil_iff.mpr ?_
          intro k hk hpred
          simp only [decide_eq_true_eq] at hpred
          rw [entriesT_mk, List.mem_append] at hk
          rcases hk with h | h
          · have hkP : k = P := by cases term <;> simpa using h
            rw [hkP] at hpred
            have := hpred.length_le
            simp at this
          · obtain ⟨c', hc', hkc'⟩ := entriesTL_pfx cs P k h
            have hcb' : (!c'.b.isEmpty) = true := (wfL_mem cs c' hc' hwfl).1
            exact hfne c' hc' (routed_key_hb2 hcb' hkc' hpred)
        rw [hflt]
        rfl
      case pos =>
        obtain ⟨child, hsome, hhb⟩ := findChild_found hfound
        have hmemc := List.getElem?_mem hsome
        obtain ⟨hcbne, hcwf⟩ := wfL_mem cs child hmemc hwfl
        obtain ⟨cb, cc, ct⟩ := child
        simp only [TrieNode.b_mk] at hcbne
        have hroute : (entriesT (⟨b0, cs, term⟩ : TrieNode) P).filter
              (fun k0 => decide ((P ++ (c :: sk')) <+: k0)) =
            (entriesT (⟨cb, cc, ct⟩ : TrieNode) (P ++ cb)).filter
              (fun k0 => decide ((P ++ (c :: sk')) <+: k0)) :=
          entries_filter_route P sk' hsort hwfl hsome hhb
        have hcsub : ∀ k ∈ entriesT (⟨cb, cc, ct⟩ : TrieNode) (P ++ cb),
            lookupK data k = some (g k) := by
          intro k hk
          refine hcoh k ?_
          rw [entriesT_mk, List.mem_append, entriesTL_mem]
          exact Or.inr ⟨⟨cb, cc, ct⟩, hmemc, by simpa using hk⟩
        by_cases hlt : commonPrefixLen cb (c :: sk') < (c :: sk').length
        · by_cases hlt2 : commonPrefixLen cb (c :: sk') < cb.length
          · -- divergence inside the child's segment
            have he : listLoopKV data root (⟨b0, cs, term⟩ : TrieNode)
                (c :: sk') P = some [] := by
              rw [listLoopKV]
              simp only [TrieNode.children_mk]
              rw [if_pos hfound]
              split
              next child2 heq =>
                rw [findChild_fst, hsome] at heq
                obtain rfl : child2 = (⟨cb, cc, ct⟩ : TrieNode) := by
                  injection heq with h2
                  exact h2.symm
                simp only [TrieNode.b_mk]
                rw [if_pos hlt, if_pos hlt2]
              all_goals rfl
            rw [he, hroute]
            have hflt : (entriesT (⟨cb, cc, ct⟩ : TrieNode) (P ++ cb)).filter
                (fun k => decide ((P ++ (c :: sk')) <+: k)) = [] := by
              refine List.filter_eq_nil_iff.mpr ?_
              intro k hk hpred
              simp only [decide_eq_true_eq] at hpred
              have hkc : (P ++ cb) <+: k :=
                entriesT_pfx (⟨cb, cc, ct⟩ : TrieNode) (P ++ cb) k
                  (by simpa using hk)
              rcases List.prefix_or_prefix_of_prefix hkc hpred with h | h
              · have h2 : cb <+: (c :: sk') :=
                  (List.prefix_append_right_inj P).mp h
                have := cpl_eq_left_of_pfx cb (c :: sk') h2
                omega
              · have h2 : (c :: sk') <+: cb :=
                  (List.prefix_append_right_inj P).mp h
                have h3 := cpl_eq_left_of_pfx (c :: sk') cb h2
                rw [cpl_comm] at h3
                omega
            rw [hflt]
            rfl
          · -- the whole child segment is consumed: descend
            have hclen : commonPrefixLen cb (c :: sk') = cb.length := by
              have := cpl_le_left cb (c :: sk')
              omega
            have hpfx : cb <+: (c :: sk') :=
              cpl_pfx_of_eq_left cb (c :: sk') hclen
            obtain ⟨t0, ht0⟩ := hpfx
            have hdrop : (c :: sk').drop (commonPrefixLen cb (c :: sk')) =
                t0 := by
              rw [hclen, ← ht0]
              simp
            have ht0ne : t0 ≠ [] := by
              intro h0
              rw [h0, List.append_nil] at ht0
              have hlen : cb.length = (c :: sk').length := by rw [ht0]
              omega
            obtain ⟨c2v, t0v, rfl⟩ : ∃ c2v t0v, t0 = c2v :: t0v := by
              cases t0 with
              | nil => exact absurd rfl ht0ne
              | cons a l => exact ⟨a, l, rfl⟩
            have he : listLoopKV data root (⟨b0, cs, term⟩ : TrieNode)
                (c :: sk') P = listLoopKV data root (⟨cb, cc, ct⟩ : TrieNode)
                  (c2v :: t0v) (P ++ cb.take (commonPrefixLen cb (c :: sk')))
                := by
              rw [listLoopKV]
              simp only [TrieNode.children_mk]
              rw [if_pos hfound]
              split
              next child2 heq =>
                rw [findChild_fst, hsome] at heq
                obtain rfl : child2 = (⟨cb, cc, ct⟩ : TrieNode) := by
                  injection heq with h2
                  exact h2.symm
                simp only [TrieNode.b_mk]
                rw [if_pos hlt, if_neg (by omega), hdrop]
              next heq =>
                rw [findChild_fst, hsome] at heq
                exact Option.noConfusion heq
            rw [he]
            have htake : cb.take (commonPrefixLen cb (c :: sk')) = cb := by
              rw [hclen]
              simp
            rw [htake]
            have hIH := listLoopKV_spec (⟨cb, cc, ct⟩ : TrieNode) c2v t0v
              (P ++ cb) data root g hcwf hcsub
            rw [hIH, hroute]
            have hkey : P ++ cb ++ (c2v :: t0v) = P ++ (c :: sk') := by
              rw [List.append_assoc, ht0]
            rw [hkey]
        · -- the search key is consumed: list the whole child subtree
          have hclen : commonPrefixLen cb (c :: sk') = (c :: sk').length := by
            have := cpl_le_right cb (c :: sk')
            omega
          have hpfx : (c :: sk') <+: cb := by
            refine cpl_pfx_of_eq_left (c :: sk') cb ?_
            rw [cpl_comm]
            exact hclen
          have he : listLoopKV data root (⟨b0, cs, term⟩ : TrieNode)
              (c :: sk') P = dfsKV data (⟨cb, cc, ct⟩ : TrieNode)
                (P ++ cb.take (commonPrefixLen cb (c :: sk')) ++
                  cb.drop (commonPrefixLen cb (c :: sk'))) := by
            rw [listLoopKV]
            simp only [TrieNode.children_mk]
            rw [if_pos hfound]
            split
            next child2 heq =>
              rw [findChild_fst, hsome] at heq
              obtain rfl : child2 = (⟨cb, cc, ct⟩ : TrieNode) := by
                injection heq with h2
                exact h2.symm
              simp only [TrieNode.b_mk]
              rw [if_neg hlt]
            next heq =>
              rw [findChild_fst, hsome] at heq
              exact Option.noConfusion heq
          rw [he]
          rw [show P ++ cb.take (commonPrefixLen cb (c :: sk')) ++
              cb.drop (commonPrefixLen cb (c :: sk')) = P ++ cb from by
            rw [List.append_assoc, List.take_append_drop]]
          rw [dfsKV_entries (⟨cb, cc, ct⟩ : TrieNode) (P ++ cb) data g hcsub]
          rw [hroute]
          have hall : (entriesT (⟨cb, cc, ct⟩ : TrieNode) (P ++ cb)).filter
              (fun k => decide ((P ++ (c :: sk')) <+: k)) =
              entriesT (⟨cb, cc, ct⟩ : TrieNode) (P ++ cb) := by
            refine List.filter_eq_self.mpr ?_
            intro k hk
            simp only [decide_eq_true_eq]
            have hkc : (P ++ cb) <+: k :=
              entriesT_pfx (⟨cb, cc, ct⟩ : TrieNode) (P ++ cb) k hk
            refine List.IsPrefix.trans ?_ hkc
            exact (List.prefix_append_right_inj P).mpr hpfx
          rw [hall]
termination_by n _ _ _ _ _ _ _ _ => sizeOf n
decreasing_by
  simp_wf
  have h1 := List.sizeOf_lt_of_mem (List.getElem?_mem hsome)
  simp only [TrieNode.mk.sizeOf_spec] at h1 ⊢
  omega

/-- `KV.ListByPrefix` (kv.go) as a whole: with a well-formed trie coherent
with the underlying cache, it lists the values of exactly the keys extending
`pfx`, in trie (ascending) order. -/
theorem KVW_ListByPrefix_entries (kv : KVW V) (pfx : List Nat)
    (g : List Nat → V) (hwf : wfN kv.trie = true)
    (hcoh : ∀ k ∈ entriesT kv.trie [], lookupK kv.data k = some (g k)) :
    kv.ListByPrefix pfx =
      some (((entriesT kv.trie []).filter
        (fun k => decide (pfx <+: k))).map g) := by
  cases pfx with
  | nil =>
      rw [KVW.ListByPrefix, listLoopKV]
      rw [dfsKV_entries kv.trie [] kv.data g hcoh]
      have hall : (entriesT kv.trie []).filter
          (fun k => decide (([] : List Nat) <+: k)) = entriesT kv.trie [] := by
        refine List.filter_eq_self.mpr ?_
        intro k _
        simp only [decide_eq_true_eq]
        exact List.nil_prefix
      rw [hall]
  | cons c sk' =>
      rw [KVW.ListByPrefix]
      rw [listLoopKV_spec kv.trie c sk' [] kv.data kv.trie g hwf
        (by simpa using hcoh)]
      simp

/-- Operations on the KV wrapper. -/
inductive KVOp (V : Type) where
  | set (k : List Nat) (v : V)
  | del (k : List Nat)

def applyKVOp (kv : KVW V) : KVOp V → KVW V
  | .set k v => kv.Set k v
  | .del k => kv.Del k

def applyKVOps (kv : KVW V) (ops : List (KVOp V)) : KVW V :=
  ops.foldl applyKVOp kv

/-- Coherence invariant of the KV wrapper: the trie is well formed and its
key set is exactly the key set of the underlying cache. -/
def KVInv (kv : KVW V) : Prop :=
  wfN kv.trie = true ∧
  ∀ k, k ∈ entriesT kv.trie [] ↔ (lookupK kv.data k).isSome = true

theorem KVInv_init : KVInv (KVW.init (V := V)) := by
  constructor
  · rfl
  · intro k
    rw [KVW.init]
    simp only [entriesT_mk]
    constructor
    · intro h
      rw [entriesTL] at h
      simp at h
    · intro h
      simp [lookupK] at h

theorem KVInv_set (kv : KVW V) (k : List Nat) (v : V) (h : KVInv kv) :
    KVInv (kv.Set k v) := by
  obtain ⟨hwf, hiff⟩ := h
  obtain ⟨hwf2, _, hent⟩ := insertKey_spec kv.trie k [] hwf
  have htrie : (kv.Set k v).trie = kv.trie.insertKey k := rfl
  have hdata : (kv.Set k v).data = insertK kv.data k v := rfl
  refine ⟨by rw [htrie]; exact hwf2, ?_⟩
  intro k0
  rw [htrie, hdata, hent k0]
  by_cases hk : k0 = k
  · rw [hk, lookupK_insertK_self]
    simp
  · rw [lookupK_insertK_ne kv.data k k0 v hk]
    rw [← hiff k0]
    simp [hk]

theorem KVInv_del (kv : KVW V) (k : List Nat) (h : KVInv kv) :
    KVInv (kv.Del k) := by
  obtain ⟨hwf, hiff⟩ := h
  obtain ⟨hwf2, _, _, hent⟩ := delKey_spec kv.trie k [] hwf
  have htrie : (kv.Del k).trie = (kv.trie.delKey k).1 := rfl
  have hdata : (kv.Del k).data = eraseK kv.data k := rfl
  refine ⟨by rw [htrie]; exact hwf2, ?_⟩
  intro k0
  rw [htrie, hdata, hent k0]
  by_cases hk : k0 = k
  · rw [hk, lookupK_eraseK_self]
    simp
  · rw [lookupK_eraseK_ne kv.data k k0 hk]
    rw [← hiff k0]
    simp [hk]

theorem KVInv_run : ∀ (ops : List (KVOp V)) (kv : KVW V), KVInv kv →
    KVInv (applyKVOps kv ops)
  | [], kv, h => h
  | op :: rest, kv, h => by
      rw [show applyKVOps kv (op :: rest) =
        applyKVOps (applyKVOp kv op) rest from rfl]
      refine KVInv_run rest _ ?_
      cases op with
      | set k v => exact KVInv_set kv k v h
      | del k => exact KVInv_del kv k h

/-! ## The KV engine: `KVCache` (kv_cache.go)

An arena-based radix trie: nodes hold child nodes by value and terminal
nodes refer to the value arena (`values` plus a `freelist` of reusable
slots) through `valueIndex`.  Go's zero value of `V` is embedded as a
`zero` parameter. -/

/-- `trieCacheNode` (kv_cache.go). -/
inductive TrieCNode where
  | mk (b : List Nat) (terminal : Bool) (children : List TrieCNode)
      (valueIndex : Nat)

def TrieCNode.b : TrieCNode → List Nat
  | ⟨b0, _, _, _⟩ => b0

def TrieCNode.terminal : TrieCNode → Bool
  | ⟨_, t, _, _⟩ => t

def TrieCNode.children : TrieCNode → List TrieCNode
  | ⟨_, _, cs, _⟩ => cs

def TrieCNode.valueIndex : TrieCNode → Nat
  | ⟨_, _, _, vi⟩ => vi

@[simp] theorem TrieCNode.bC_mk (b0 : List Nat) (t : Bool)
    (cs : List TrieCNode) (vi : Nat) :
    (⟨b0, t, cs, vi⟩ : TrieCNode).b = b0 := rfl

@[simp] theorem TrieCNode.terminalC_mk (b0 : List Nat) (t : Bool)
    (cs : List TrieCNode) (vi : Nat) :
    (⟨b0, t, cs, vi⟩ : TrieCNode).terminal = t := rfl

@[simp] theorem TrieCNode.childrenC_mk (b0 : List Nat) (t : Bool)
    (cs : List TrieCNode) (vi : Nat) :
    (⟨b0, t, cs, vi⟩ : TrieCNode).children = cs := rfl

@[simp] theorem TrieCNode.valueIndexC_mk (b0 : List Nat) (t : Bool)
    (cs : List TrieCNode) (vi : Nat) :
    (⟨b0, t, cs, vi⟩ : TrieCNode).valueIndex = vi := rfl

mutual
/-- Erase the arena indices: a `trieCacheNode` seen as a `trieNode`. -/
def TrieCNode.toTrie : TrieCNode → TrieNode
  | ⟨b0, t, cs, _⟩ => ⟨b0, toTrieL cs, t⟩
def toTrieL : List TrieCNode → List TrieNode
  | [] => []
  | c :: rest => c.toTrie :: toTrieL rest
end

theorem toTrie_mk (b0 : List Nat) (t : Bool) (cs : List TrieCNode)
    (vi : Nat) :
    (⟨b0, t, cs, vi⟩ : TrieCNode).toTrie = ⟨b0, toTrieL cs, t⟩ := by
  rw [TrieCNode.toTrie]

theorem toTrieL_eq_map : ∀ (cs : List TrieCNode),
    toTrieL cs = cs.map TrieCNode.toTrie
  | [] => by rw [toTrieL]; rfl
  | c :: rest => by rw [toTrieL, toTrieL_eq_map rest]; rfl

theorem toTrie_b (n : TrieCNode) : n.toTrie.b = n.b := by
  cases n
  rw [toTrie_mk]
  rfl

theorem toTrie_terminal (n : TrieCNode) : n.toTrie.terminal = n.terminal := by
  cases n
  rw [toTrie_mk]
  rfl

theorem toTrie_children (n : TrieCNode) :
    n.toTrie.children = toTrieL n.children := by
  cases n
  rw [toTrie_mk]
  rfl

/-- `sort.Search` over the children of a `trieCacheNode` (kv_cache.go
`findChild`). -/
def childSearchC (c : Nat) : List TrieCNode → Nat
  | [] => 0
  | t :: rest => if c ≤ t.b.headD 0 then 0 else childSearchC c rest + 1

/-- `trieCacheNode.findChild` (kv_cache.go). -/
def findChildC (c : Nat) (cs : List TrieCNode) : Nat × Bool :=
  let idx := childSearchC c cs
  match cs[idx]? with
  | some t => (idx, t.b.headD 0 == c)
  | none => (idx, false)

/-- `trieCacheNode.addChildAt` (kv_cache.go). -/
def addChildAtC (cs : List TrieCNode) (child : TrieCNode) (idx : Nat) :
    List TrieCNode :=
  cs.insertIdx idx child

/-- `trieCacheNode.addChild` (kv_cache.go). -/
def addChildC (cs : List TrieCNode) (child : TrieCNode) : List TrieCNode :=
  let r := findChildC (child.b.headD 0) cs
  if r.2 then cs.set r.1 child else addChildAtC cs child r.1

/-- `KVCache.addValue` (kv_cache.go): reuse the last freelist slot, else
append; returns the index used and the new arena state. -/
def addValue (value : V) (vals : List V) (fl : List Nat) :
    Nat × List V × List Nat :=
  match fl.getLast? with
  | some idx => (idx, vals.set idx value, fl.dropLast)
  | none => (vals.length, vals ++ [value], fl)

/-- `KVCache.insert` (kv_cache.go), loop turned into recursion on the
matched child.  The empty-key case updates the current node in place
(overwrite if already terminal, else allocate a slot). -/
def insertC : TrieCNode → List Nat → V → List V → List Nat →
    TrieCNode × List V × List Nat
  | ⟨b0, term, cs, vi⟩, [], value, vals, fl =>
      if term then (⟨b0, term, cs, vi⟩, vals.set vi value, fl)
      else
        let rv := addValue value vals fl
        (⟨b0, true, cs, rv.1⟩, rv.2.1, rv.2.2)
  | ⟨b0, term, cs, vi⟩, c :: k', value, vals, fl =>
      let key := c :: k'
      let r := findChildC c cs
      if r.2 then
        match h : cs[r.1]? with
        | some child =>
            let common := commonPrefixLen child.b key
            if common = child.b.length then
              let res := insertC child (key.drop common) value vals fl
              (⟨b0, term, cs.set r.1 res.1, vi⟩, res.2.1, res.2.2)
            else
              let origSuffix := child.b.drop common
              let newSuffix := key.drop common
              let restNode : TrieCNode :=
                ⟨origSuffix, child.terminal, child.children, child.valueIndex⟩
              let base : List TrieCNode := addChildC [] restNode
              let rv := addValue value vals fl
              if newSuffix.isEmpty then
                (⟨b0, term,
                  cs.set r.1 ⟨child.b.take common, true, base, rv.1⟩, vi⟩,
                  rv.2.1, rv.2.2)
              else
                (⟨b0, term,
                  cs.set r.1 ⟨child.b.take common, false,
                    addChildC base ⟨newSuffix, true, [], rv.1⟩,
                    child.valueIndex⟩, vi⟩,
                  rv.2.1, rv.2.2)
        | none => (⟨b0, term, cs, vi⟩, vals, fl)
      else
        let rv := addValue value vals fl
        (⟨b0, term, addChildAtC cs ⟨key, true, [], rv.1⟩ r.1, vi⟩,
          rv.2.1, rv.2.2)
termination_by n _ _ _ _ => sizeOf n
decreasing_by
  simp_wf
  have hmem := List.getElem?_mem h
  have := List.sizeOf_lt_of_mem hmem
  omega

/-- Result of `KVCache.delete`'s recursive rendering: the rewritten node,
whether a value was deleted, whether the cleanup phase is still walking up,
and the arena state. -/
structure DelCRes (V : Type) where
  node : TrieCNode
  deleted : Bool
  cont : Bool
  values : List V
  freelist : List Nat

/-- `KVCache.delete` (kv_cache.go): phase 1 navigates (full child-segment
match required at each step), unmarks the terminal target and frees its
value slot; phase 2 walks back up removing childless non-terminal nodes and
merging single-child non-terminal nodes until a stable node stops it.  The
walk-back is rendered by the `cont` flag: each caller applies its cleanup
step to the child the recursion returned, as the source's loop does to each
recorded path entry, innermost first; the root itself is never cleaned. -/
def delC (zero : V) : TrieCNode → List Nat → List V → List Nat → DelCRes V
  | ⟨b0, term, cs, vi⟩, [], vals, fl =>
      if term then
        ⟨⟨b0, false, cs, vi⟩, true, true, vals.set vi zero, fl ++ [vi]⟩
      else ⟨⟨b0, term, cs, vi⟩, false, false, vals, fl⟩
  | ⟨b0, term, cs, vi⟩, c :: k', vals, fl =>
      let key := c :: k'
      let r := findChildC c cs
      if r.2 then
        match h : cs[r.1]? with
        | some child =>
            let common := commonPrefixLen child.b key
            if common = child.b.length then
              let res := delC zero child (key.drop common) vals fl
              if res.deleted then
                let child' := res.node
                let cs1 := cs.set r.1 child'
                if res.cont then
                  if child'.children.isEmpty && !child'.terminal then
                    ⟨⟨b0, term, cs1.eraseIdx r.1, vi⟩, true, true,
                      res.values, res.freelist⟩
                  else if child'.children.length == 1 && !child'.terminal
                  then
                    let c0 := child'.children.headD ⟨[], false, [], 0⟩
                    ⟨⟨b0, term,
                      cs1.set r.1 ⟨child'.b ++ c0.b, c0.terminal,
                        c0.children, c0.valueIndex⟩, vi⟩, true, true,
                      res.values, res.freelist⟩
                  else ⟨⟨b0, term, cs1, vi⟩, true, false,
                    res.values, res.freelist⟩
                else ⟨⟨b0, term, cs1, vi⟩, true, false,
                  res.values, res.freelist⟩
              else ⟨⟨b0, term, cs, vi⟩, false, false, vals, fl⟩
            else ⟨⟨b0, term, cs, vi⟩, false, false, vals, fl⟩
        | none => ⟨⟨b0, term, cs, vi⟩, false, false, vals, fl⟩
      else ⟨⟨b0, term, cs, vi⟩, false, false, vals, fl⟩
termination_by n _ _ => sizeOf n
decreasing_by
  simp_wf
  have hmem := List.getElem?_mem h
  have := List.sizeOf_lt_of_mem hmem
  omega

/-- Total size of a list of arena trie nodes, bounding the stack measure of
the iterative DFS. -/
theorem sizeOfL_bound : ∀ (cs : List TrieCNode), (cs.map sizeOf).sum < sizeOf cs
  | [] => by simp
  | c :: rest => by
      simp only [List.map_cons, List.sum_cons, List.cons.sizeOf_spec]
      have := sizeOfL_bound rest
      omega

/-- The stack loop of `KVCache.dfs` (kv_cache.go): entries carry the length
of the path buffer at push time; popping truncates the buffer back and
appends the node's segment.  Children are pushed so that the leftmost is
processed first. -/
def dfsCStack (vals : List V) (zero : V) :
    List (TrieCNode × Nat) → List Nat → List V → List V
  | [], _, res => res
  | (node, plen) :: stack, path, res =>
      let path1 := path.take plen ++ node.b
      let res1 :=
        if node.terminal then res ++ [vals.getD node.valueIndex zero]
        else res
      dfsCStack vals zero
        (node.children.map (fun ch => (ch, path1.length)) ++ stack) path1 res1
termination_by stack _ _ => (stack.map (fun e => sizeOf e.1)).sum
decreasing_by
  simp only [List.map_append, List.sum_append, List.map_map, List.map_cons,
    List.sum_cons]
  have h1 : ∀ (m : Nat), (node.children.map
      ((fun e : TrieCNode × Nat => sizeOf e.1) ∘
        (fun ch => (ch, m)))).sum = (node.children.map sizeOf).sum :=
    fun m => rfl
  rw [h1]
  have h2 : (node.children.map sizeOf).sum < sizeOf node := by
    cases node with
    | mk b t cs vi =>
        have := sizeOfL_bound cs
        simp only [TrieCNode.childrenC_mk, TrieCNode.mk.sizeOf_spec]
        omega
  omega

/-- `KVCache.dfs` (kv_cache.go). -/
def dfsC (vals : List V) (zero : V) (n : TrieCNode) (currentPath : List Nat) :
    List V :=
  let res := if n.terminal then [vals.getD n.valueIndex zero] else []
  if n.children.isEmpty then res
  else
    dfsCStack vals zero
      (n.children.map (fun ch => (ch, currentPath.length))) currentPath res

/-- The descent loop of `KVCache.ListByPrefix` (kv_cache.go); `root` is kept
for the empty-search-key exit. -/
def listLoopC (vals : List V) (zero : V) (root : TrieCNode) :
    TrieCNode → List Nat → List Nat → List V
  | _, [], _ => dfsC vals zero root []
  | node, c :: sk', path =>
      let sk := c :: sk'
      let r := findChildC c node.children
      if r.2 then
        match h : node.children[r.1]? with
        | some child =>
            let common := commonPrefixLen child.b sk
            let path1 := path ++ child.b.take common
            if common < sk.length then
              if common < child.b.length then []
              else listLoopC vals zero root child (sk.drop common) path1
            else dfsC vals zero child (path1 ++ child.b.drop common)
        | none => []
      else []
termination_by n _ _ => sizeOf n
decreasing_by
  simp_wf
  have hmem := List.getElem?_mem h
  have := List.sizeOf_lt_of_mem hmem
  have h2 : sizeOf node.children ≤ sizeOf node := by
    cases node
    simp [TrieCNode.children]
    omega
  omega

/-- The KV engine's state: the value arena, the freelist and the trie. -/
structure KVC (V : Type) where
  values : List V
  freelist : List Nat
  trie : TrieCNode

def KVC.init : KVC V := ⟨[], [], ⟨[], false, [], 0⟩⟩

def KVC.Set (kvc : KVC V) (k : List Nat) (v : V) : KVC V :=
  let r := insertC kvc.trie k v kvc.values kvc.freelist
  ⟨r.2.1, r.2.2, r.1⟩

def KVC.Del (kvc : KVC V) (k : List Nat) : KVC V :=
  let r := delC (default : V) kvc.trie k kvc.values kvc.freelist
  ⟨r.values, r.freelist, r.node⟩

def KVC.ListByPrefix (kvc : KVC V) (pfx : List Nat) : List V :=
  listLoopC kvc.values (default : V) kvc.trie kvc.trie pfx []

/-! ### Erasure of the arena trie to the kv.go trie

`toTrie` forgets `valueIndex`.  The navigation helpers of kv_cache.go
compute exactly as their kv.go counterparts through this erasure, which
lets the kv.go trie theory be reused for the arena trie. -/

theorem childSearchC_toTrie : ∀ (c : Nat) (cs : List TrieCNode),
    childSearchC c cs = childSearch c (toTrieL cs)
  | c, [] => by rw [childSearchC, toTrieL, childSearch]
  | c, t :: rest => by
      rw [childSearchC, toTrieL, childSearch, toTrie_b,
        childSearchC_toTrie c rest]

theorem toTrieL_getElem (cs : List TrieCNode) (i : Nat) :
    (toTrieL cs)[i]? = (cs[i]?).map TrieCNode.toTrie := by
  rw [toTrieL_eq_map, List.getElem?_map]

theorem findChildC_fst (c : Nat) (cs : List TrieCNode) :
    (findChildC c cs).1 = childSearchC c cs := by
  simp only [findChildC]
  cases cs[childSearchC c cs]? <;> rfl

theorem findChildC_snd (c : Nat) (cs : List TrieCNode) :
    (findChildC c cs).2 = (findChild c (toTrieL cs)).2 := by
  rw [findChild_snd]
  simp only [findChildC]
  rw [← childSearchC_toTrie, toTrieL_getElem]
  cases cs[childSearchC c cs]? with
  | none => rfl
  | some t =>
      show (t.b.headD 0 == c) = (hb t.toTrie == c)
      rw [hb, toTrie_b]

theorem toTrieL_set : ∀ (cs : List TrieCNode) (i : Nat) (x : TrieCNode),
    toTrieL (cs.set i x) = (toTrieL cs).set i x.toTrie := by
  intro cs i x
  rw [toTrieL_eq_map, toTrieL_eq_map, List.map_set]

theorem map_insertIdx_fn {A B : Type} (f : A → B) :
    ∀ (l : List A) (i : Nat) (x : A),
    (l.insertIdx i x).map f = (l.map f).insertIdx i (f x)
  | l, 0, x => by simp
  | [], i + 1, x => by simp
  | a :: l, i + 1, x => by
      rw [List.insertIdx_succ_cons, List.map_cons, List.map_cons,
        List.insertIdx_succ_cons, map_insertIdx_fn f l i x]

theorem map_eraseIdx_fn {A B : Type} (f : A → B) :
    ∀ (l : List A) (i : Nat), (l.eraseIdx i).map f = (l.map f).eraseIdx i
  | [], _ => by simp
  | a :: l, 0 => by simp [List.eraseIdx]
  | a :: l, i + 1 => by
      rw [List.eraseIdx_cons_succ, List.map_cons, List.map_cons,
        List.eraseIdx_cons_succ, map_eraseIdx_fn f l i]

theorem toTrieL_insertIdx : ∀ (cs : List TrieCNode) (i : Nat) (x : TrieCNode),
    toTrieL (cs.insertIdx i x) = (toTrieL cs).insertIdx i x.toTrie := by
  intro cs i x
  rw [toTrieL_eq_map, toTrieL_eq_map, map_insertIdx_fn]

theorem toTrieL_eraseIdx : ∀ (cs : List TrieCNode) (i : Nat),
    toTrieL (cs.eraseIdx i) = (toTrieL cs).eraseIdx i := by
  intro cs i
  rw [toTrieL_eq_map, toTrieL_eq_map, map_eraseIdx_fn]

theorem addChildAtC_toTrie (cs : List TrieCNode) (x : TrieCNode) (i : Nat) :
    toTrieL (addChildAtC cs x i) = addChildAt (toTrieL cs) x.toTrie i := by
  rw [addChildAtC, addChildAt, toTrieL_insertIdx]

theorem addChildC_toTrie (cs : List TrieCNode) (x : TrieCNode) :
    toTrieL (addChildC cs x) = addChild (toTrieL cs) x.toTrie := by
  rw [addChildC, addChild]
  rw [show x.toTrie.b = x.b from toTrie_b x]
  rw [show (findChild (x.b.headD 0) (toTrieL cs)).2 =
    (findChildC (x.b.headD 0) cs).2 from (findChildC_snd _ cs).symm]
  cases hr : (findChildC (x.b.headD 0) cs).2 with
  | true =>
      simp only [if_pos]
      rw [toTrieL_set]
      rw [findChildC_fst, findChild_fst, childSearchC_toTrie]
  | false =>
      simp only [Bool.false_eq_true, if_neg, not_false_iff]
      rw [addChildAtC_toTrie]
      rw [findChildC_fst, findChild_fst, childSearchC_toTrie]

theorem findChildC_found {c : Nat} {cs : List TrieCNode}
    (h : (findChildC c cs).2 = true) :
    ∃ t, cs[childSearchC c cs]? = some t ∧ t.b.headD 0 = c := by
  simp only [findChildC] at h
  cases h2 : cs[childSearchC c cs]? with
  | none => rw [h2] at h; exact absurd h (by simp)
  | some t =>
      rw [h2] at h
      simp only [beq_iff_eq] at h
      exact ⟨t, rfl, h⟩

/-- `KVCache.insert` builds, through the erasure, exactly the tree that
`KV.insert` builds: the arena engine's index updates agree with the wrapper
trie's. -/
theorem insertC_toTrie : ∀ (n : TrieCNode) (key : List Nat) (v : V)
    (vals : List V) (fl : List Nat),
    (insertC n key v vals fl).1.toTrie = n.toTrie.insertKey key
  | ⟨b0, term, cs, vi⟩, [], v, vals, fl => by
      rw [toTrie_mk, TrieNode.insertKey]
      cases term with
      | true =>
          have he : (insertC (⟨b0, true, cs, vi⟩ : TrieCNode) [] v vals
              fl).1 = ⟨b0, true, cs, vi⟩ := by
            rw [insertC]
            rfl
          rw [he, toTrie_mk]
      | false =>
          have he : (insertC (⟨b0, false, cs, vi⟩ : TrieCNode) [] v vals
              fl).1 = ⟨b0, true, cs, (addValue v vals fl).1⟩ := by
            rw [insertC]
            rfl
          rw [he, toTrie_mk]
  | ⟨b0, term, cs, vi⟩, c :: k', v, vals, fl => by
      rw [toTrie_mk, TrieNode.insertKey]
      simp only [TrieNode.children_mk]
      rw [show findChild c (toTrieL cs) =
        ((findChild c (toTrieL cs)).1, (findChild c (toTrieL cs)).2) from
        rfl]
      rw [findChild_fst, ← childSearchC_toTrie, ← findChildC_snd]
      by_cases hfound : (findChildC c cs).2 = true
      case neg =>
        rw [if_neg (by simpa using hfound)]
        have he : (insertC (⟨b0, term, cs, vi⟩ : TrieCNode) (c :: k') v vals
            fl).1 = ⟨b0, term,
              addChildAtC cs ⟨c :: k', true, [], (addValue v vals fl).1⟩
                (findChildC c cs).1, vi⟩ := by
          rw [insertC]
          simp only []
          rw [if_neg (by simp [hfound])]
        rw [he, toTrie_mk, addChildAtC_toTrie, findChildC_fst]
        rw [show (⟨c :: k', true, [], (addValue v vals fl).1⟩ :
          TrieCNode).toTrie = ⟨c :: k', [], true⟩ from by
            rw [toTrie_mk, toTrieL]]
      case pos =>
        rw [if_pos (by simpa using hfound)]
        obtain ⟨child, hsome, hhb⟩ := findChildC_found hfound
        have hsome2 : (toTrieL cs)[childSearchC c cs]? =
            some child.toTrie := by
          rw [toTrieL_getElem, hsome]
          rfl
        split
        next child2 heq =>
          rw [hsome2] at heq
          obtain rfl : child2 = child.toTrie := by
            injection heq with h2
            exact h2.symm
          rw [show child.toTrie.b = child.b from toTrie_b child]
          by_cases hcl : commonPrefixLen child.b (c :: k') = child.b.length
          · rw [if_pos hcl]
            have he : (insertC (⟨b0, term, cs, vi⟩ : TrieCNode) (c :: k') v
                vals fl).1 = ⟨b0, term, cs.set (findChildC c cs).1
                  (insertC child ((c :: k').drop
                    (commonPrefixLen child.b (c :: k'))) v vals fl).1,
                  vi⟩ := by
              rw [insertC]
              simp only []
              rw [if_pos hfound, findChildC_fst, hsome]
              simp only []
              rw [if_pos hcl]
            rw [he, toTrie_mk, toTrieL_set, findChildC_fst]
            rw [insertC_toTrie child ((c :: k').drop
              (commonPrefixLen child.b (c :: k'))) v vals fl]
          · rw [if_neg hcl]
            rw [show child.toTrie.children = toTrieL child.children from
              toTrie_children child]
            rw [show child.toTrie.terminal = child.terminal from
              toTrie_terminal child]
            by_cases hemp : ((c :: k').drop
                (commonPrefixLen child.b (c :: k'))).isEmpty = true
            · have he : (insertC (⟨b0, term, cs, vi⟩ : TrieCNode) (c :: k')
                  v vals fl).1 = ⟨b0, term, cs.set (findChildC c cs).1
                    ⟨child.b.take (commonPrefixLen child.b (c :: k')), true,
                      addChildC [] ⟨child.b.drop
                        (commonPrefixLen child.b (c :: k')), child.terminal,
                        child.children, child.valueIndex⟩,
                      (addValue v vals fl).1⟩, vi⟩ := by
                rw [insertC]
                simp only []
                rw [if_pos hfound, findChildC_fst, hsome]
                simp only []
                rw [if_neg hcl, if_pos hemp]
              rw [he, toTrie_mk, toTrieL_set, findChildC_fst, toTrie_mk]
              rw [if_pos hemp, addChildC_toTrie, toTrie_mk, toTrieL]
            · have he : (insertC (⟨b0, term, cs, vi⟩ : TrieCNode) (c :: k')
                  v vals fl).1 = ⟨b0, term, cs.set (findChildC c cs).1
                    ⟨child.b.take (commonPrefixLen child.b (c :: k')), false,
                      addChildC (addChildC [] ⟨child.b.drop
                          (commonPrefixLen child.b (c :: k')),
                          child.terminal, child.children, child.valueIndex⟩)
                        ⟨(c :: k').drop (commonPrefixLen child.b (c :: k')),
                          true, [], (addValue v vals fl).1⟩,
                      child.valueIndex⟩, vi⟩ := by
                rw [insertC]
                simp only []
                rw [if_pos hfound, findChildC_fst, hsome]
                simp only []
                rw [if_neg hcl, if_neg hemp]
              rw [he, toTrie_mk, toTrieL_set, findChildC_fst, toTrie_mk]
              rw [if_neg hemp, addChildC_toTrie, addChildC_toTrie, toTrie_mk,
                toTrieL, toTrie_mk, toTrieL]
        next heq =>
          rw [hsome2] at heq
          exact Option.noConfusion heq
termination_by n _ _ _ _ => sizeOf n
decreasing_by
  simp_wf
  have hmem := List.getElem?_mem hsome
  have := List.sizeOf_lt_of_mem hmem
  omega

/-! ### Entries of the arena trie: keys, values and live slots -/

mutual
/-- Key/value pairs stored in the subtree of an arena node whose own path is
`P`: the terminal flag contributes `(P, values[valueIndex])`. -/
def entVT (vals : List V) (zero : V) :
    TrieCNode → List Nat → List (List Nat × V)
  | ⟨_, t, cs, vi⟩, P =>
      (if t then [(P, vals.getD vi zero)] else []) ++ entVTL vals zero cs P
def entVTL (vals : List V) (zero : V) :
    List TrieCNode → List Nat → List (List Nat × V)
  | [], _ => []
  | c :: rest, P =>
      entVT vals zero c (P ++ c.b) ++ entVTL vals zero rest P
end

mutual
/-- Arena slots referenced by the terminal nodes of a subtree, in trie
order. -/
def idxT : TrieCNode → List Nat
  | ⟨_, t, cs, vi⟩ => (if t then [vi] else []) ++ idxTL cs
def idxTL : List TrieCNode → List Nat
  | [] => []
  | c :: rest => idxT c ++ idxTL rest
end

theorem entVT_mk (vals : List V) (zero : V) (b0 : List Nat) (t : Bool)
    (cs : List TrieCNode) (vi : Nat) (P : List Nat) :
    entVT vals zero (⟨b0, t, cs, vi⟩ : TrieCNode) P =
      (if t then [(P, vals.getD vi zero)] else []) ++
        entVTL vals zero cs P := by
  rw [entVT]

theorem entVTL_cons (vals : List V) (zero : V) (c : TrieCNode)
    (rest : List TrieCNode) (P : List Nat) :
    entVTL vals zero (c :: rest) P =
      entVT vals zero c (P ++ c.b) ++ entVTL vals zero rest P := by
  rw [entVTL]

theorem idxT_mk (b0 : List Nat) (t : Bool) (cs : List TrieCNode) (vi : Nat) :
    idxT (⟨b0, t, cs, vi⟩ : TrieCNode) = (if t then [vi] else []) ++ idxTL cs
    := by
  rw [idxT]

theorem idxTL_cons (c : TrieCNode) (rest : List TrieCNode) :
    idxTL (c :: rest) = idxT c ++ idxTL rest := by
  rw [idxTL]

mutual
/-- The keys of the arena entries are the kv.go entries of the erased
trie. -/
theorem entVT_fst (vals : List V) (zero : V) :
    ∀ (n : TrieCNode) (P : List Nat),
    (entVT vals zero n P).map Prod.fst = entriesT n.toTrie P
  | ⟨b0, t, cs, vi⟩, P => by
      rw [entVT_mk, toTrie_mk, entriesT_mk, List.map_append,
        entVTL_fst vals zero cs P]
      cases t <;> simp
theorem entVTL_fst (vals : List V) (zero : V) :
    ∀ (cs : List TrieCNode) (P : List Nat),
    (entVTL vals zero cs P).map Prod.fst = entriesTL (toTrieL cs) P
  | [], P => by
      rw [entVTL, toTrieL, entriesTL]
      rfl
  | c :: rest, P => by
      rw [entVTL_cons, toTrieL, entriesTL_cons, List.map_append,
        entVT_fst vals zero c (P ++ c.b), entVTL_fst vals zero rest P,
        toTrie_b]
end

theorem getD_set_nez {A : Type} (l : List A) (i j : Nat) (a z : A)
    (h : i ≠ j) : (l.set i a).getD j z = l.getD j z := by
  simp [List.getD, List.getElem?_set_ne h]

theorem getD_set_selfz {A : Type} (l : List A) (i : Nat) (a z : A)
    (h : i < l.length) : (l.set i a).getD i z = a := by
  simp [List.getD, List.getElem?_set_eq_of_lt, h]

theorem getD_append_ltz {A : Type} (l l2 : List A) (i : Nat) (z : A)
    (h : i < l.length) : (l ++ l2).getD i z = l.getD i z := by
  simp [List.getD, List.getElem?_append_left h]

theorem getD_append_selfz {A : Type} (l : List A) (v z : A) :
    (l ++ [v]).getD l.length z = v := by
  simp [List.getD]

mutual
/-- Setting an arena slot that no terminal node of the subtree references
leaves the subtree's entries unchanged. -/
theorem entVT_set_unlive (zero : V) :
    ∀ (n : TrieCNode) (P : List Nat) (vals : List V) (i : Nat) (x : V),
    i ∉ idxT n →
    entVT (vals.set i x) zero n P = entVT vals zero n P
  | ⟨b0, t, cs, vi⟩, P, vals, i, x, hi => by
      rw [idxT_mk] at hi
      rw [entVT_mk, entVT_mk,
        entVTL_set_unlive zero cs P vals i x (fun hm => hi (by
          simp only [List.mem_append]
          exact Or.inr hm))]
      cases t with
      | false => rfl
      | true =>
          have hvi : i ≠ vi := by
            intro h
            exact hi (by simp [h])
          rw [getD_set_nez vals i vi x zero hvi]
theorem entVTL_set_unlive (zero : V) :
    ∀ (cs : List TrieCNode) (P : List Nat) (vals : List V) (i : Nat) (x : V),
    i ∉ idxTL cs →
    entVTL (vals.set i x) zero cs P = entVTL vals zero cs P
  | [], P, vals, i, x, _ => by
      rw [entVTL, entVTL]
  | c :: rest, P, vals, i, x, hi => by
      rw [idxTL_cons] at hi
      rw [entVTL_cons, entVTL_cons,
        entVT_set_unlive zero c (P ++ c.b) vals i x (fun hm => hi (by
          simp only [List.mem_append]
          exact Or.inl hm)),
        entVTL_set_unlive zero rest P vals i x (fun hm => hi (by
          simp only [List.mem_append]
          exact Or.inr hm))]
end

mutual
/-- Appending fresh slots to the arena leaves the entries of a subtree whose
live slots are all in range unchanged. -/
theorem entVT_append_unlive (zero : V) :
    ∀ (n : TrieCNode) (P : List Nat) (vals l2 : List V),
    (∀ j ∈ idxT n, j < vals.length) →
    entVT (vals ++ l2) zero n P = entVT vals zero n P
  | ⟨b0, t, cs, vi⟩, P, vals, l2, hi => by
      rw [idxT_mk] at hi
      rw [entVT_mk, entVT_mk,
        entVTL_append_unlive zero cs P vals l2 (fun j hm => hi j (by
          simp only [List.mem_append]
          exact Or.inr hm))]
      cases t with
      | false => rfl
      | true =>
          have hvi : vi < vals.length := hi vi (by simp)
          rw [getD_append_ltz vals l2 vi zero hvi]
theorem entVTL_append_unlive (zero : V) :
    ∀ (cs : List TrieCNode) (P : List Nat) (vals l2 : List V),
    (∀ j ∈ idxTL cs, j < vals.length) →
    entVTL (vals ++ l2) zero cs P = entVTL vals zero cs P
  | [], P, vals, l2, _ => by
      rw [entVTL, entVTL]
  | c :: rest, P, vals, l2, hi => by
      rw [idxTL_cons] at hi
      rw [entVTL_cons, entVTL_cons,
        entVT_append_unlive zero c (P ++ c.b) vals l2 (fun j hm => hi j (by
          simp only [List.mem_append]
          exact Or.inl hm)),
        entVTL_append_unlive zero rest P vals l2 (fun j hm => hi j (by
          simp only [List.mem_append]
          exact Or.inr hm))]
end

mutual
/-- Values output by an in-order walk of an arena subtree (what the
iterative DFS of kv_cache.go produces; paths do not influence it). -/
def outV (vals : List V) (zero : V) : TrieCNode → List V
  | ⟨_, t, cs, vi⟩ =>
      (if t then [vals.getD vi zero] else []) ++ outVL vals zero cs
def outVL (vals : List V) (zero : V) : List TrieCNode → List V
  | [] => []
  | c :: rest => outV vals zero c ++ outVL vals zero rest
end

theorem outV_mk (vals : List V) (zero : V) (b0 : List Nat) (t : Bool)
    (cs : List TrieCNode) (vi : Nat) :
    outV vals zero (⟨b0, t, cs, vi⟩ : TrieCNode) =
      (if t then [vals.getD vi zero] else []) ++ outVL vals zero cs := by
  rw [outV]

theorem outVL_eq_flatten (vals : List V) (zero : V) :
    ∀ (cs : List TrieCNode),
    outVL vals zero cs = (cs.map (outV vals zero)).flatten
  | [] => by rw [outVL]; rfl
  | c :: rest => by
      rw [outVL, outVL_eq_flatten vals zero rest]
      rfl

/-- The DFS stack loop appends, after the accumulator, the in-order output
of each stacked subtree. -/
theorem dfsCStack_out (vals : List V) (zero : V) :
    ∀ (stack : List (TrieCNode × Nat)) (path : List Nat) (res : List V),
    dfsCStack vals zero stack path res =
      res ++ (stack.map (fun e => outV vals zero e.1)).flatten
  | [], path, res => by
      rw [dfsCStack]
      simp
  | (node, plen) :: stack, path, res => by
      rw [dfsCStack]
      rw [dfsCStack_out vals zero
        (node.children.map
          (fun ch => (ch, (path.take plen ++ node.b).length)) ++ stack)
        (path.take plen ++ node.b)
        (if node.terminal then res ++ [vals.getD node.valueIndex zero]
         else res)]
      rw [List.map_append, List.flatten_append, List.map_map]
      have h1 : ∀ (m : Nat), node.children.map
          ((fun e : TrieCNode × Nat => outV vals zero e.1) ∘
            (fun ch => (ch, m))) = node.children.map (outV vals zero) :=
        fun m => rfl
      rw [h1]
      cases n0 : node with
      | mk b t cs vi =>
          rw [List.map_cons, List.flatten_cons, outV_mk,
            outVL_eq_flatten]
          simp only [TrieCNode.terminalC_mk, TrieCNode.childrenC_mk,
            TrieCNode.valueIndexC_mk]
          cases t <;> simp
termination_by stack _ _ => (stack.map (fun e => sizeOf e.1)).sum
decreasing_by
  simp only [List.map_append, List.sum_append, List.map_map, List.map_cons,
    List.sum_cons]
  have h1 : ∀ (m : Nat), (node.children.map
      ((fun e : TrieCNode × Nat => sizeOf e.1) ∘
        (fun ch => (ch, m)))).sum = (node.children.map sizeOf).sum :=
    fun m => rfl
  rw [h1]
  have h2 : (node.children.map sizeOf).sum < sizeOf node := by
    cases node with
    | mk b t cs vi =>
        have := sizeOfL_bound cs
        simp only [TrieCNode.childrenC_mk, TrieCNode.mk.sizeOf_spec]
        omega
  omega

/-- `KVCache.dfs` produces the in-order values of the subtree. -/
theorem dfsC_out (vals : List V) (zero : V) (n : TrieCNode)
    (currentPath : List Nat) :
    dfsC vals zero n currentPath = outV vals zero n := by
  cases n with
  | mk b t cs vi =>
      rw [dfsC, outV_mk]
      simp only [TrieCNode.terminalC_mk, TrieCNode.childrenC_mk,
        TrieCNode.valueIndexC_mk]
      cases hcs : cs.isEmpty with
      | true =>
          obtain rfl : cs = [] := List.isEmpty_iff.mp hcs
          rw [if_pos rfl, outVL]
          simp
      | false =>
          rw [if_neg (fun h => Bool.noConfusion h)]
          rw [dfsCStack_out]
          rw [List.map_map]
          have h1 : ∀ (m : Nat), cs.map
              ((fun e : TrieCNode × Nat => outV vals zero e.1) ∘
                (fun ch => (ch, m))) = cs.map (outV vals zero) :=
            fun m => rfl
          rw [h1, ← outVL_eq_flatten]

mutual
/-- The stored values of a subtree, projected from its entries, are its
in-order DFS output. -/
theorem entVT_snd (vals : List V) (zero : V) :
    ∀ (n : TrieCNode) (P : List Nat),
    (entVT vals zero n P).map Prod.snd = outV vals zero n
  | ⟨b0, t, cs, vi⟩, P => by
      rw [entVT_mk, outV_mk, List.map_append, entVTL_snd vals zero cs P]
      cases t <;> simp
theorem entVTL_snd (vals : List V) (zero : V) :
    ∀ (cs : List TrieCNode) (P : List Nat),
    (entVTL vals zero cs P).map Prod.snd = outVL vals zero cs
  | [], P => by
      rw [entVTL, outVL]
      rfl
  | c :: rest, P => by
      rw [entVTL_cons, outVL, List.map_append,
        entVT_snd vals zero c (P ++ c.b), entVTL_snd vals zero rest P]
end

/-- `KVCache.dfs` through the entry abstraction: when every stored pair's
value is `g` of its key, the DFS lists `g` over the subtree's keys in trie
order. -/
theorem dfsC_entries (vals : List V) (zero : V) (n : TrieCNode)
    (P currentPath : List Nat) (g : List Nat → V)
    (hg : ∀ p ∈ entVT vals zero n P, p.2 = g p.1) :
    dfsC vals zero n currentPath = (entriesT n.toTrie P).map g := by
  rw [dfsC_out, ← entVT_snd vals zero n P, ← entVT_fst vals zero n P,
    List.map_map]
  exact List.map_congr_left (fun p hp => hg p hp)

theorem entVTL_append (vals : List V) (zero : V) :
    ∀ (l1 l2 : List TrieCNode) (P : List Nat),
    entVTL vals zero (l1 ++ l2) P =
      entVTL vals zero l1 P ++ entVTL vals zero l2 P
  | [], l2, P => by rw [entVTL]; rfl
  | c :: rest, l2, P => by
      rw [List.cons_append, entVTL_cons, entVTL_append vals zero rest l2 P,
        entVTL_cons, List.append_assoc]

theorem idxTL_append : ∀ (l1 l2 : List TrieCNode),
    idxTL (l1 ++ l2) = idxTL l1 ++ idxTL l2
  | [], l2 => by rw [idxTL]; rfl
  | c :: rest, l2 => by
      rw [List.cons_append, idxTL_cons, idxTL_append rest l2, idxTL_cons,
        List.append_assoc]

/-- `entVT` reads only the terminal flag, the children and the value index:
a node's own segment does not appear in its subtree entries. -/
theorem entVT_b_indep (vals : List V) (zero : V) (b1 b2 : List Nat)
    (t : Bool) (cs : List TrieCNode) (vi : Nat) (P : List Nat) :
    entVT vals zero (⟨b1, t, cs, vi⟩ : TrieCNode) P =
      entVT vals zero (⟨b2, t, cs, vi⟩ : TrieCNode) P := by
  rw [entVT_mk, entVT_mk]

theorem idxT_b_indep (b1 b2 : List Nat) (t : Bool) (cs : List TrieCNode)
    (vi : Nat) :
    idxT (⟨b1, t, cs, vi⟩ : TrieCNode) = idxT (⟨b2, t, cs, vi⟩ : TrieCNode)
    := by
  rw [idxT_mk, idxT_mk]

theorem addChildC_nil (x : TrieCNode) : addChildC [] x = [x] := by
  simp [addChildC, addChildAtC, findChildC, childSearchC]

theorem findChildC_single (r : TrieCNode) (c : Nat)
    (h : r.b.headD 0 ≠ c) : (findChildC c [r]).2 = false := by
  simp only [findChildC, childSearchC]
  by_cases hle : c ≤ r.b.headD 0
  · rw [if_pos hle]
    show (r.b.headD 0 == c) = false
    exact beq_eq_false_iff_ne.mpr h
  · rw [if_neg hle]
    rfl

/-- Keys stored under a list of well-formed children strictly extend the
base path. -/
theorem entVTL_ne_base {vals : List V} {zero : V} {cs : List TrieCNode}
    {P : List Nat} (hwfl : wfL (toTrieL cs) = true)
    {p : List Nat × V} (hp : p ∈ entVTL vals zero cs P) : p.1 ≠ P := by
  have hk : p.1 ∈ entriesTL (toTrieL cs) P := by
    rw [← entVTL_fst vals zero cs P]
    exact List.mem_map_of_mem Prod.fst hp
  exact entriesTL_key_ne_base hwfl hk

/-- Splitting a nodup list around a distinguished middle block. -/
theorem nodup_middle {A : Type} {l1 l2 l3 : List A}
    (h : (l1 ++ l2 ++ l3).Nodup) :
    l2.Nodup ∧ ∀ a ∈ l2, a ∉ l1 ∧ a ∉ l3 := by
  rw [List.append_assoc, List.nodup_append] at h
  obtain ⟨h1, h23, hd⟩ := h
  rw [List.nodup_append] at h23
  obtain ⟨h2, h3, hd23⟩ := h23
  refine ⟨h2, fun a ha => ⟨?_, fun hc => hd23 ha hc⟩⟩
  intro hc
  exact hd hc (List.mem_append_left _ ha)

/-- Allocating through `addValue` leaves untouched subtrees' entries
unchanged. -/
theorem entVT_addValue_unlive (zero v : V) (vals : List V) (fl : List Nat)
    (m : TrieCNode) (P : List Nat)
    (hbound : ∀ j ∈ idxT m, j < vals.length)
    (hdisj : ∀ j ∈ fl, j ∉ idxT m) :
    entVT (addValue v vals fl).2.1 zero m P = entVT vals zero m P := by
  rw [addValue]
  cases hl : fl.getLast? with
  | none =>
      exact entVT_append_unlive zero m P vals [v] hbound
  | some idx =>
      refine entVT_set_unlive zero m P vals idx v ?_
      exact hdisj idx (List.mem_of_mem_getLast? hl)

/-- The value written through `addValue` is read back at the returned
index. -/
theorem addValue_getD (zero v : V) (vals : List V) (fl : List Nat)
    (hfl : ∀ j ∈ fl, j < vals.length) :
    ((addValue v vals fl).2.1).getD (addValue v vals fl).1 zero = v := by
  rw [addValue]
  cases hl : fl.getLast? with
  | none =>
      exact getD_append_selfz vals v zero
  | some idx =>
      exact getD_set_selfz vals idx v zero
        (hfl idx (List.mem_of_mem_getLast? hl))

/-- A single stored pair under a fresh terminal leaf. -/
theorem entVT_leaf (vals : List V) (zero : V) (b0 : List Nat) (ni : Nat)
    (P : List Nat) :
    entVT vals zero (⟨b0, true, [], ni⟩ : TrieCNode) P =
      [(P, vals.getD ni zero)] := by
  rw [entVT_mk, entVTL]
  simp

theorem toTrieL_append (l1 l2 : List TrieCNode) :
    toTrieL (l1 ++ l2) = toTrieL l1 ++ toTrieL l2 := by
  rw [toTrieL_eq_map, toTrieL_eq_map, toTrieL_eq_map, List.map_append]

theorem headD_take (l : List Nat) (m : Nat) (hm : 0 < m) :
    (l.take m).headD 0 = l.headD 0 := by
  cases l with
  | nil => simp
  | cons a l2 =>
      obtain ⟨m2, rfl⟩ : ∃ m2, m = m2 + 1 :=
        ⟨m - 1, by omega⟩
      simp [List.take_succ_cons]

theorem entVTL_addValue_unlive (zero v : V) (vals : List V) (fl : List Nat)
    (cs : List TrieCNode) (P : List Nat)
    (hbound : ∀ j ∈ idxTL cs, j < vals.length)
    (hdisj : ∀ j ∈ fl, j ∉ idxTL cs) :
    entVTL (addValue v vals fl).2.1 zero cs P = entVTL vals zero cs P := by
  rw [addValue]
  cases hl : fl.getLast? with
  | none =>
      exact entVTL_append_unlive zero cs P vals [v] hbound
  | some idx =>
      refine entVTL_set_unlive zero cs P vals idx v ?_
      exact hdisj idx (List.mem_of_mem_getLast? hl)

/-- Slots other than the one `addValue` fills keep their value. -/
theorem addValue_getD_other (zero v : V) (vals : List V) (fl : List Nat)
    (j : Nat) (hj : j < vals.length) (hjf : j ∉ fl) :
    ((addValue v vals fl).2.1).getD j zero = vals.getD j zero := by
  rw [addValue]
  cases hl : fl.getLast? with
  | none =>
      exact getD_append_ltz vals [v] j zero hj
  | some idx =>
      refine getD_set_nez vals idx j v zero ?_
      intro h
      rw [h] at hl
      exact hjf (List.mem_of_mem_getLast? hl)

/-- Replacing the child routed for first byte `c` inside a sorted sibling
list: the list's entries change exactly as the child's do, keys of the other
siblings being unreachable for any key starting with `c`. -/
theorem entC_replace (zero : V) (vals1 vals2 : List V)
    (T D : List TrieCNode) (child x : TrieCNode)
    (P : List Nat) (c : Nat) (k' : List Nat) (v : V)
    (hsort : childrenSorted (toTrieL (T ++ child :: D)) = true)
    (hwfl : wfL (toTrieL (T ++ child :: D)) = true)
    (hchb : child.b.headD 0 = c)
    (hT : entVTL vals2 zero T P = entVTL vals1 zero T P)
    (hD : entVTL vals2 zero D P = entVTL vals1 zero D P)
    (hx : ∀ p : List Nat × V, p ∈ entVT vals2 zero x (P ++ x.b) ↔
      p = (P ++ (c :: k'), v) ∨
      (p ∈ entVT vals1 zero child (P ++ child.b) ∧ p.1 ≠ P ++ (c :: k'))) :
    ∀ p : List Nat × V,
      p ∈ entVTL vals2 zero (T ++ x :: D) P ↔
      p = (P ++ (c :: k'), v) ∨
      (p ∈ entVTL vals1 zero (T ++ child :: D) P ∧
        p.1 ≠ P ++ (c :: k')) := by
  have hsp : List.Pairwise (fun a d => hb a < hb d)
      (toTrieL T ++ child.toTrie :: toTrieL D) := by
    have := (childrenSorted_iff _).mp hsort
    rw [toTrieL_append, toTrieL] at this
    exact this
  rw [List.pairwise_append] at hsp
  obtain ⟨hspT, hspCD, hspX⟩ := hsp
  have hwTD : wfL (toTrieL T) = true ∧ wfL (toTrieL D) = true := by
    have hw := hwfl
    rw [toTrieL_append, toTrieL, wfL_append, Bool.and_eq_true, wfL_cons,
      Bool.and_eq_true, Bool.and_eq_true] at hw
    exact ⟨hw.1, hw.2.2⟩
  have hbchild : hb child.toTrie = c := by
    rw [hb, toTrie_b]
    exact hchb
  -- keys living under the other siblings never start with byte c
  have hTne : ∀ p : List Nat × V, p ∈ entVTL vals1 zero T P →
      p.1 ≠ P ++ (c :: k') := by
    intro p hp heq
    have hk : p.1 ∈ entriesTL (toTrieL T) P := by
      rw [← entVTL_fst vals1 zero T P]
      exact List.mem_map_of_mem Prod.fst hp
    obtain ⟨c', hc', hkc'⟩ := entriesTL_pfx (toTrieL T) P p.1 hk
    have hcb' : (!c'.b.isEmpty) = true := (wfL_mem _ c' hc' hwTD.1).1
    rw [heq] at hkc'
    have : hb c' = c := routed_key_hb hcb' hkc'
    have hlt : hb c' < hb child.toTrie :=
      hspX c' hc' child.toTrie (by simp)
    omega
  have hDne : ∀ p : List Nat × V, p ∈ entVTL vals1 zero D P →
      p.1 ≠ P ++ (c :: k') := by
    intro p hp heq
    have hk : p.1 ∈ entriesTL (toTrieL D) P := by
      rw [← entVTL_fst vals1 zero D P]
      exact List.mem_map_of_mem Prod.fst hp
    obtain ⟨c', hc', hkc'⟩ := entriesTL_pfx (toTrieL D) P p.1 hk
    have hcb' : (!c'.b.isEmpty) = true := (wfL_mem _ c' hc' hwTD.2).1
    rw [heq] at hkc'
    have : hb c' = c := routed_key_hb hcb' hkc'
    have hlt : hb child.toTrie < hb c' :=
      List.rel_of_pairwise_cons hspCD hc'
    omega
  intro p
  rw [entVTL_append, entVTL_cons, entVTL_append, entVTL_cons, hT, hD]
  simp only [List.mem_append]
  constructor
  · intro hp
    rcases hp with hp | hp | hp
    · exact Or.inr ⟨Or.inl hp, hTne p hp⟩
    · rcases (hx p).mp hp with h1 | ⟨h1, h2⟩
      · exact Or.inl h1
      · exact Or.inr ⟨Or.inr (Or.inl h1), h2⟩
    · exact Or.inr ⟨Or.inr (Or.inr hp), hDne p hp⟩
  · intro hp
    rcases hp with hp | ⟨hp, hne⟩
    · exact Or.inr (Or.inl ((hx p).mpr (Or.inl hp)))
    · rcases hp with hp | hp | hp
      · exact Or.inl hp
      · exact Or.inr (Or.inl ((hx p).mpr (Or.inr ⟨hp, hne⟩)))
      · exact Or.inr (Or.inr hp)

theorem childSearchC_le (c : Nat) (cs : List TrieCNode) :
    childSearchC c cs ≤ cs.length := by
  rw [childSearchC_toTrie]
  have h := childSearch_le c (toTrieL cs)
  have hlen : (toTrieL cs).length = cs.length := by
    rw [toTrieL_eq_map, List.length_map]
  rw [hlen] at h
  exact h

theorem idxT_leaf (b0 : List Nat) (ni : Nat) :
    idxT (⟨b0, true, [], ni⟩ : TrieCNode) = [ni] := by
  rw [idxT_mk, idxTL]
  simp

/-- Overwriting an existing terminal node (`insert` with the key already
present): the stored pair for that key changes value, everything else stays.
-/
theorem insertC_ow_spec (zero : V) (b0 : List Nat) (cs : List TrieCNode)
    (vi : Nat) (P : List Nat) (v : V) (vals : List V)
    (hwfl : wfL (toTrieL cs) = true)
    (hnd : (vi :: idxTL cs).Nodup)
    (hviB : vi < vals.length) :
    ∀ p : List Nat × V,
      p ∈ entVT (vals.set vi v) zero (⟨b0, true, cs, vi⟩ : TrieCNode) P ↔
      p = (P, v) ∨
      (p ∈ entVT vals zero (⟨b0, true, cs, vi⟩ : TrieCNode) P ∧
        p.1 ≠ P) := by
  have hvi_cs : vi ∉ idxTL cs := (List.nodup_cons.mp hnd).1
  have hset : entVTL (vals.set vi v) zero cs P = entVTL vals zero cs P :=
    entVTL_set_unlive zero cs P vals vi v hvi_cs
  have h1 : entVT (vals.set vi v) zero (⟨b0, true, cs, vi⟩ : TrieCNode) P =
      (P, v) :: entVTL vals zero cs P := by
    rw [entVT_mk, hset, getD_set_selfz vals vi v zero hviB]
    rfl
  have h2 : entVT vals zero (⟨b0, true, cs, vi⟩ : TrieCNode) P =
      (P, vals.getD vi zero) :: entVTL vals zero cs P := by
    rw [entVT_mk]
    rfl
  intro p
  rw [h1, h2]
  constructor
  · intro hp
    rcases List.mem_cons.mp hp with rfl | hp2
    · exact Or.inl rfl
    · exact Or.inr ⟨List.mem_cons_of_mem _ hp2, entVTL_ne_base hwfl hp2⟩
  · intro hp
    rcases hp with rfl | ⟨hp2, hne⟩
    · exact List.mem_cons_self _ _
    · rcases List.mem_cons.mp hp2 with rfl | hp3
      · exact absurd rfl hne
      · exact List.mem_cons_of_mem _ hp3

/-- Marking a non-terminal node terminal (`insert` reaching an interior
node): a fresh slot is allocated for the node's path. -/
theorem insertC_fresh_spec (zero : V) (b0 : List Nat) (cs : List TrieCNode)
    (vi : Nat) (P : List Nat) (v : V) (vals : List V) (fl : List Nat)
    (hwfl : wfL (toTrieL cs) = true)
    (hbound : ∀ j ∈ idxTL cs, j < vals.length)
    (hdisj : ∀ j ∈ fl, j ∉ idxTL cs)
    (hfl : ∀ j ∈ fl, j < vals.length) :
    ∀ p : List Nat × V,
      p ∈ entVT (addValue v vals fl).2.1 zero
        (⟨b0, true, cs, (addValue v vals fl).1⟩ : TrieCNode) P ↔
      p = (P, v) ∨
      (p ∈ entVT vals zero (⟨b0, false, cs, vi⟩ : TrieCNode) P ∧
        p.1 ≠ P) := by
  have hset : entVTL (addValue v vals fl).2.1 zero cs P =
      entVTL vals zero cs P :=
    entVTL_addValue_unlive zero v vals fl cs P hbound hdisj
  have h1 : entVT (addValue v vals fl).2.1 zero
      (⟨b0, true, cs, (addValue v vals fl).1⟩ : TrieCNode) P =
      (P, v) :: entVTL vals zero cs P := by
    rw [entVT_mk, hset, addValue_getD zero v vals fl hfl]
    rfl
  have h2 : entVT vals zero (⟨b0, false, cs, vi⟩ : TrieCNode) P =
      entVTL vals zero cs P := by
    rw [entVT_mk]
    rfl
  intro p
  rw [h1, h2]
  constructor
  · intro hp
    rcases List.mem_cons.mp hp with rfl | hp2
    · exact Or.inl rfl
    · exact Or.inr ⟨hp2, entVTL_ne_base hwfl hp2⟩
  · intro hp
    rcases hp with rfl | ⟨hp2, _⟩
    · exact List.mem_cons_self _ _
    · exact List.mem_cons_of_mem _ hp2

/-- Inserting a fresh leaf when no child matches the key's first byte. -/
theorem insertC_nf_spec (zero : V) (cs : List TrieCNode)
    (P : List Nat) (c : Nat) (k' : List Nat) (v : V)
    (vals : List V) (fl : List Nat)
    (hsort : childrenSorted (toTrieL cs) = true)
    (hwfl : wfL (toTrieL cs) = true)
    (hnf : (findChildC c cs).2 = false)
    (hbound : ∀ j ∈ idxTL cs, j < vals.length)
    (hdisj : ∀ j ∈ fl, j ∉ idxTL cs)
    (hfl : ∀ j ∈ fl, j < vals.length) :
    (∀ p : List Nat × V,
      p ∈ entVTL (addValue v vals fl).2.1 zero
        (addChildAtC cs ⟨c :: k', true, [], (addValue v vals fl).1⟩
          (findChildC c cs).1) P ↔
      p = (P ++ (c :: k'), v) ∨
      (p ∈ entVTL vals zero cs P ∧ p.1 ≠ P ++ (c :: k'))) ∧
    (∃ l1 l2, idxTL cs = l1 ++ l2 ∧
      idxTL (addChildAtC cs ⟨c :: k', true, [], (addValue v vals fl).1⟩
        (findChildC c cs).1) = l1 ++ (addValue v vals fl).1 :: l2) := by
  have hfne : ∀ t ∈ toTrieL cs, hb t ≠ c := by
    refine findChild_not_found (toTrieL cs) c hsort ?_
    rw [← findChildC_snd]
    exact hnf
  obtain ⟨T, D, hTD, hins, _, _⟩ := insertIdx_decomp' cs (childSearchC c cs)
    ⟨c :: k', true, [], (addValue v vals fl).1⟩ (childSearchC_le c cs)
  have hidxL : idxTL cs = idxTL T ++ idxTL D := by
    rw [hTD, idxTL_append]
  have hacs : addChildAtC cs ⟨c :: k', true, [], (addValue v vals fl).1⟩
      (findChildC c cs).1 =
      T ++ (⟨c :: k', true, [], (addValue v vals fl).1⟩ : TrieCNode) :: D
    := by
    rw [addChildAtC, findChildC_fst, hins]
  have hsetT : entVTL (addValue v vals fl).2.1 zero T P =
      entVTL vals zero T P := by
    refine entVTL_addValue_unlive zero v vals fl T P ?_ ?_
    · intro j hj
      exact hbound j (by rw [hidxL]; exact List.mem_append_left _ hj)
    · intro j hj hcon
      exact hdisj j hj (by rw [hidxL]; exact List.mem_append_left _ hcon)
  have hsetD : entVTL (addValue v vals fl).2.1 zero D P =
      entVTL vals zero D P := by
    refine entVTL_addValue_unlive zero v vals fl D P ?_ ?_
    · intro j hj
      exact hbound j (by rw [hidxL]; exact List.mem_append_right _ hj)
    · intro j hj hcon
      exact hdisj j hj (by rw [hidxL]; exact List.mem_append_right _ hcon)
  have hleaf : entVT (addValue v vals fl).2.1 zero
      (⟨c :: k', true, [], (addValue v vals fl).1⟩ : TrieCNode)
      (P ++ (c :: k')) = [(P ++ (c :: k'), v)] := by
    rw [entVT_leaf, addValue_getD zero v vals fl hfl]
  have hne_old : ∀ p : List Nat × V, p ∈ entVTL vals zero cs P →
      p.1 ≠ P ++ (c :: k') := by
    intro p hp heq
    have hk : p.1 ∈ entriesTL (toTrieL cs) P := by
      rw [← entVTL_fst vals zero cs P]
      exact List.mem_map_of_mem Prod.fst hp
    obtain ⟨c', hc', hkc'⟩ := entriesTL_pfx (toTrieL cs) P p.1 hk
    have hcb' : (!c'.b.isEmpty) = true := (wfL_mem _ c' hc' hwfl).1
    rw [heq] at hkc'
    exact hfne c' hc' (routed_key_hb hcb' hkc')
  constructor
  · intro p
    rw [hacs, entVTL_append, entVTL_cons]
    rw [show (⟨c :: k', true, [], (addValue v vals fl).1⟩ :
      TrieCNode).b = c :: k' from rfl]
    rw [hleaf, hsetT, hsetD]
    have hold : entVTL vals zero cs P =
        entVTL vals zero T P ++ entVTL vals zero D P := by
      rw [hTD, entVTL_append]
    simp only [List.mem_append, List.mem_singleton]
    constructor
    · intro hp
      rcases hp with hp | hp | hp
      · refine Or.inr ⟨?_, ?_⟩
        · rw [hold]
          exact List.mem_append_left _ hp
        · exact hne_old p (by rw [hold]; exact List.mem_append_left _ hp)
      · exact Or.inl hp
      · refine Or.inr ⟨?_, ?_⟩
        · rw [hold]
          exact List.mem_append_right _ hp
        · exact hne_old p (by rw [hold]; exact List.mem_append_right _ hp)
    · intro hp
      rcases hp with hp | ⟨hp, hne⟩
      · exact Or.inr (Or.inl hp)
      · rw [hold] at hp
        rcases List.mem_append.mp hp with hp2 | hp2
        · exact Or.inl hp2
        · exact Or.inr (Or.inr hp2)
  · refine ⟨idxTL T, idxTL D, hidxL, ?_⟩
    rw [hacs, idxTL_append, idxTL_cons, idxT_leaf]
    rfl

/-- Splitting a child when the search key ends inside its segment
(`newSuffix` empty): the branch node is terminal at the key with a fresh
slot, and the original child survives below it with its entries intact. -/
theorem insertC_split_empty_spec (zero : V) (cb : List Nat) (ct : Bool)
    (cc : List TrieCNode) (cvi : Nat) (P : List Nat) (c : Nat)
    (k' : List Nat) (v : V) (vals : List V) (fl : List Nat)
    (hlt : commonPrefixLen cb (c :: k') < cb.length)
    (hemp : (c :: k').drop (commonPrefixLen cb (c :: k')) = [])
    (hbound : ∀ j ∈ idxT (⟨cb, ct, cc, cvi⟩ : TrieCNode), j < vals.length)
    (hdisj : ∀ j ∈ fl, j ∉ idxT (⟨cb, ct, cc, cvi⟩ : TrieCNode))
    (hfl : ∀ j ∈ fl, j < vals.length) :
    (∀ p : List Nat × V,
      p ∈ entVT (addValue v vals fl).2.1 zero
        (⟨cb.take (commonPrefixLen cb (c :: k')), true,
          addChildC [] ⟨cb.drop (commonPrefixLen cb (c :: k')), ct, cc, cvi⟩,
          (addValue v vals fl).1⟩ : TrieCNode)
        (P ++ cb.take (commonPrefixLen cb (c :: k'))) ↔
      p = (P ++ (c :: k'), v) ∨
      (p ∈ entVT vals zero (⟨cb, ct, cc, cvi⟩ : TrieCNode) (P ++ cb) ∧
        p.1 ≠ P ++ (c :: k'))) ∧
    idxT (⟨cb.take (commonPrefixLen cb (c :: k')), true,
        addChildC [] ⟨cb.drop (commonPrefixLen cb (c :: k')), ct, cc, cvi⟩,
        (addValue v vals fl).1⟩ : TrieCNode) =
      (addValue v vals fl).1 :: idxT (⟨cb, ct, cc, cvi⟩ : TrieCNode) := by
  have hclen : commonPrefixLen cb (c :: k') = (c :: k').length := by
    have h1 := cpl_le_right cb (c :: k')
    have h2 : (c :: k').length ≤ commonPrefixLen cb (c :: k') := by
      have h3 := congrArg List.length hemp
      rw [List.length_drop] at h3
      simp only [List.length_nil] at h3
      omega
    omega
  have htake : cb.take (commonPrefixLen cb (c :: k')) = c :: k' := by
    rw [cpl_take_eq cb (c :: k'), hclen, List.take_length]
  have hP2 : P ++ cb.take (commonPrefixLen cb (c :: k')) = P ++ (c :: k')
    := by rw [htake]
  have hidxrest : idxT (⟨cb.drop (commonPrefixLen cb (c :: k')), ct, cc,
      cvi⟩ : TrieCNode) = idxT (⟨cb, ct, cc, cvi⟩ : TrieCNode) :=
    idxT_b_indep _ cb ct cc cvi
  have hrest : entVT (addValue v vals fl).2.1 zero
      (⟨cb.drop (commonPrefixLen cb (c :: k')), ct, cc, cvi⟩ : TrieCNode)
      (P ++ cb) = entVT vals zero (⟨cb, ct, cc, cvi⟩ : TrieCNode)
      (P ++ cb) := by
    rw [entVT_b_indep (addValue v vals fl).2.1 zero _ cb ct cc cvi]
    refine entVT_addValue_unlive zero v vals fl _ (P ++ cb) hbound hdisj
  have he1 : entVT (addValue v vals fl).2.1 zero
      (⟨cb.take (commonPrefixLen cb (c :: k')), true,
        addChildC [] ⟨cb.drop (commonPrefixLen cb (c :: k')), ct, cc, cvi⟩,
        (addValue v vals fl).1⟩ : TrieCNode)
      (P ++ cb.take (commonPrefixLen cb (c :: k'))) =
      (P ++ (c :: k'), v) ::
        entVT vals zero (⟨cb, ct, cc, cvi⟩ : TrieCNode) (P ++ cb) := by
    rw [entVT_mk, addChildC_nil, entVTL_cons, entVTL]
    rw [show (⟨cb.drop (commonPrefixLen cb (c :: k')), ct, cc, cvi⟩ :
      TrieCNode).b = cb.drop (commonPrefixLen cb (c :: k')) from rfl]
    rw [List.append_nil, List.append_assoc, List.take_append_drop]
    rw [hrest, hP2, addValue_getD zero v vals fl hfl]
    rfl
  have hne : ∀ p : List Nat × V,
      p ∈ entVT vals zero (⟨cb, ct, cc, cvi⟩ : TrieCNode) (P ++ cb) →
      p.1 ≠ P ++ (c :: k') := by
    intro p hp heq
    have hk : p.1 ∈ entriesT (⟨cb, ct, cc, cvi⟩ : TrieCNode).toTrie
        (P ++ cb) := by
      rw [← entVT_fst vals zero _ (P ++ cb)]
      exact List.mem_map_of_mem Prod.fst hp
    have hpfx := entriesT_pfx _ (P ++ cb) p.1 hk
    rw [heq] at hpfx
    have h2 : cb <+: (c :: k') := (List.prefix_append_right_inj P).mp hpfx
    have := cpl_eq_left_of_pfx cb (c :: k') h2
    omega
  refine ⟨?_, ?_⟩
  · intro p
    rw [he1]
    constructor
    · intro hp
      rcases List.mem_cons.mp hp with rfl | hp2
      · exact Or.inl rfl
      · exact Or.inr ⟨hp2, hne p hp2⟩
    · intro hp
      rcases hp with rfl | ⟨hp2, _⟩
      · exact List.mem_cons_self _ _
      · exact List.mem_cons_of_mem _ hp2
  · rw [idxT_mk, addChildC_nil, idxTL_cons, idxTL, List.append_nil,
      hidxrest]
    rfl

/-- Splitting a child when the search key continues past the split point:
the branch node is non-terminal with the original child's remainder and a
fresh leaf for the key's remainder as its two children. -/
theorem insertC_split_ne_spec (zero : V) (cb : List Nat) (ct : Bool)
    (cc : List TrieCNode) (cvi : Nat) (P : List Nat) (c : Nat)
    (k' : List Nat) (v : V) (vals : List V) (fl : List Nat)
    (hlt : commonPrefixLen cb (c :: k') < cb.length)
    (hnemp : (c :: k').drop (commonPrefixLen cb (c :: k')) ≠ [])
    (hbound : ∀ j ∈ idxT (⟨cb, ct, cc, cvi⟩ : TrieCNode), j < vals.length)
    (hdisj : ∀ j ∈ fl, j ∉ idxT (⟨cb, ct, cc, cvi⟩ : TrieCNode))
    (hfl : ∀ j ∈ fl, j < vals.length) :
    (∀ p : List Nat × V,
      p ∈ entVT (addValue v vals fl).2.1 zero
        (⟨cb.take (commonPrefixLen cb (c :: k')), false,
          addChildC
            (addChildC []
              ⟨cb.drop (commonPrefixLen cb (c :: k')), ct, cc, cvi⟩)
            ⟨(c :: k').drop (commonPrefixLen cb (c :: k')), true, [],
              (addValue v vals fl).1⟩,
          cvi⟩ : TrieCNode)
        (P ++ cb.take (commonPrefixLen cb (c :: k'))) ↔
      p = (P ++ (c :: k'), v) ∨
      (p ∈ entVT vals zero (⟨cb, ct, cc, cvi⟩ : TrieCNode) (P ++ cb) ∧
        p.1 ≠ P ++ (c :: k'))) ∧
    (∃ m1 m2, idxT (⟨cb, ct, cc, cvi⟩ : TrieCNode) = m1 ++ m2 ∧
      idxT (⟨cb.take (commonPrefixLen cb (c :: k')), false,
          addChildC
            (addChildC []
              ⟨cb.drop (commonPrefixLen cb (c :: k')), ct, cc, cvi⟩)
            ⟨(c :: k').drop (commonPrefixLen cb (c :: k')), true, [],
              (addValue v vals fl).1⟩,
          cvi⟩ : TrieCNode) = m1 ++ (addValue v vals fl).1 :: m2) := by
  have hlt2 : commonPrefixLen cb (c :: k') < (c :: k').length := by
    have h1 := cpl_le_right cb (c :: k')
    rcases Nat.lt_or_ge (commonPrefixLen cb (c :: k')) (c :: k').length
      with h | h
    · exact h
    · exact absurd (by rw [List.drop_of_length_le h]) hnemp
  have hmis := cpl_mismatch cb (c :: k') hlt hlt2
  have hnf : (findChildC
      (((c :: k').drop (commonPrefixLen cb (c :: k'))).headD 0)
      [⟨cb.drop (commonPrefixLen cb (c :: k')), ct, cc, cvi⟩]).2 = false :=
    findChildC_single _ _ (by
      rw [show (⟨cb.drop (commonPrefixLen cb (c :: k')), ct, cc, cvi⟩ :
        TrieCNode).b = cb.drop (commonPrefixLen cb (c :: k')) from rfl]
      exact hmis)
  have hform : addChildC
      (addChildC [] ⟨cb.drop (commonPrefixLen cb (c :: k')), ct, cc, cvi⟩)
      ⟨(c :: k').drop (commonPrefixLen cb (c :: k')), true, [],
        (addValue v vals fl).1⟩ =
      List.insertIdx (childSearchC
        (((c :: k').drop (commonPrefixLen cb (c :: k'))).headD 0)
        [⟨cb.drop (commonPrefixLen cb (c :: k')), ct, cc, cvi⟩])
        ⟨(c :: k').drop (commonPrefixLen cb (c :: k')), true, [],
          (addValue v vals fl).1⟩
        [⟨cb.drop (commonPrefixLen cb (c :: k')), ct, cc, cvi⟩] := by
    rw [addChildC_nil, addChildC]
    rw [show (⟨(c :: k').drop (commonPrefixLen cb (c :: k')), true, [],
      (addValue v vals fl).1⟩ : TrieCNode).b =
      (c :: k').drop (commonPrefixLen cb (c :: k')) from rfl]
    rw [if_neg (by rw [hnf]; exact Bool.noConfusion)]
    rw [addChildAtC, findChildC_fst]
  obtain ⟨T2, D2, h12, hins2, _, _⟩ := insertIdx_decomp'
    [(⟨cb.drop (commonPrefixLen cb (c :: k')), ct, cc, cvi⟩ : TrieCNode)]
    (childSearchC (((c :: k').drop (commonPrefixLen cb (c :: k'))).headD 0)
      [⟨cb.drop (commonPrefixLen cb (c :: k')), ct, cc, cvi⟩])
    ⟨(c :: k').drop (commonPrefixLen cb (c :: k')), true, [],
      (addValue v vals fl).1⟩
    (childSearchC_le _ _)
  have hP2 : P ++ cb.take (commonPrefixLen cb (c :: k')) ++
      (c :: k').drop (commonPrefixLen cb (c :: k')) = P ++ (c :: k') := by
    rw [cpl_take_eq cb (c :: k'), List.append_assoc,
      List.take_append_drop]
  have hrest : entVT (addValue v vals fl).2.1 zero
      (⟨cb.drop (commonPrefixLen cb (c :: k')), ct, cc, cvi⟩ : TrieCNode)
      (P ++ cb) = entVT vals zero (⟨cb, ct, cc, cvi⟩ : TrieCNode)
      (P ++ cb) := by
    rw [entVT_b_indep (addValue v vals fl).2.1 zero _ cb ct cc cvi]
    exact entVT_addValue_unlive zero v vals fl _ (P ++ cb) hbound hdisj
  have hTD2 : entVTL (addValue v vals fl).2.1 zero T2
        (P ++ cb.take (commonPrefixLen cb (c :: k'))) ++
      entVTL (addValue v vals fl).2.1 zero D2
        (P ++ cb.take (commonPrefixLen cb (c :: k'))) =
      entVT vals zero (⟨cb, ct, cc, cvi⟩ : TrieCNode) (P ++ cb) := by
    rw [← entVTL_append, ← h12, entVTL_cons, entVTL]
    rw [show (⟨cb.drop (commonPrefixLen cb (c :: k')), ct, cc, cvi⟩ :
      TrieCNode).b = cb.drop (commonPrefixLen cb (c :: k')) from rfl]
    rw [List.append_nil, List.append_assoc, List.take_append_drop, hrest]
  have hnew : entVT (addValue v vals fl).2.1 zero
      (⟨(c :: k').drop (commonPrefixLen cb (c :: k')), true, [],
        (addValue v vals fl).1⟩ : TrieCNode)
      (P ++ cb.take (commonPrefixLen cb (c :: k')) ++
        (c :: k').drop (commonPrefixLen cb (c :: k'))) =
      [(P ++ (c :: k'), v)] := by
    rw [entVT_leaf, addValue_getD zero v vals fl hfl, hP2]
  have hkne : ∀ p : List Nat × V,
      p ∈ entVT vals zero (⟨cb, ct, cc, cvi⟩ : TrieCNode) (P ++ cb) →
      p.1 ≠ P ++ (c :: k') := by
    intro p hp heq
    have hk : p.1 ∈ entriesT (⟨cb, ct, cc, cvi⟩ : TrieCNode).toTrie
        (P ++ cb) := by
      rw [← entVT_fst vals zero _ (P ++ cb)]
      exact List.mem_map_of_mem Prod.fst hp
    have hpfx := entriesT_pfx _ (P ++ cb) p.1 hk
    rw [heq] at hpfx
    have h2 : cb <+: (c :: k') := (List.prefix_append_right_inj P).mp hpfx
    have := cpl_eq_left_of_pfx cb (c :: k') h2
    omega
  have he1 : entVT (addValue v vals fl).2.1 zero
      (⟨cb.take (commonPrefixLen cb (c :: k')), false,
        addChildC
          (addChildC []
            ⟨cb.drop (commonPrefixLen cb (c :: k')), ct, cc, cvi⟩)
          ⟨(c :: k').drop (commonPrefixLen cb (c :: k')), true, [],
            (addValue v vals fl).1⟩,
        cvi⟩ : TrieCNode)
      (P ++ cb.take (commonPrefixLen cb (c :: k'))) =
      entVTL (addValue v vals fl).2.1 zero T2
        (P ++ cb.take (commonPrefixLen cb (c :: k'))) ++
      ([(P ++ (c :: k'), v)] ++
        entVTL (addValue v vals fl).2.1 zero D2
          (P ++ cb.take (commonPrefixLen cb (c :: k')))) := by
    rw [entVT_mk, hform, hins2, entVTL_append, entVTL_cons]
    rw [show (⟨(c :: k').drop (commonPrefixLen cb (c :: k')), true, [],
      (addValue v vals fl).1⟩ : TrieCNode).b =
      (c :: k').drop (commonPrefixLen cb (c :: k')) from rfl]
    rw [hnew]
    rfl
  refine ⟨?_, ?_⟩
  · intro p
    rw [he1]
    simp only [List.mem_append, List.mem_singleton]
    constructor
    · intro hp
      rcases hp with hp | hp | hp
      · have hmem : p ∈ entVT vals zero (⟨cb, ct, cc, cvi⟩ : TrieCNode)
            (P ++ cb) := by
          rw [← hTD2]
          exact List.mem_append_left _ hp
        exact Or.inr ⟨hmem, hkne p hmem⟩
      · exact Or.inl hp
      · have hmem : p ∈ entVT vals zero (⟨cb, ct, cc, cvi⟩ : TrieCNode)
            (P ++ cb) := by
          rw [← hTD2]
          exact List.mem_append_right _ hp
        exact Or.inr ⟨hmem, hkne p hmem⟩
    · intro hp
      rcases hp with hp | ⟨hp, _⟩
      · exact Or.inr (Or.inl hp)
      · rw [← hTD2] at hp
        rcases List.mem_append.mp hp with hp2 | hp2
        · exact Or.inl hp2
        · exact Or.inr (Or.inr hp2)
  · refine ⟨idxTL T2, idxTL D2, ?_, ?_⟩
    · rw [← idxTL_append, ← h12, idxTL_cons, idxTL, List.append_nil]
      exact idxT_b_indep cb _ ct cc cvi
    · rw [idxT_mk, hform, hins2, idxTL_append, idxTL_cons, idxT_leaf]
      rfl

/-- Node-level assembly for `insert`'s found-child cases: replacing the
routed child by any subtree whose entries and arena slots changed as the
child-level step describes yields the node-level entry and arena change. -/
theorem insertC_assemble (zero : V) (b0 : List Nat) (term : Bool)
    (cs : List TrieCNode) (vi : Nat) (idx0 : Nat) (child x : TrieCNode)
    (P : List Nat) (c : Nat) (k' : List Nat) (v : V)
    (vals vals2 : List V) (fl : List Nat) (fl2 : List Nat)
    (hsome : cs[idx0]? = some child)
    (hsort : childrenSorted (toTrieL cs) = true)
    (hwfl : wfL (toTrieL cs) = true)
    (hchb : child.b.headD 0 = c)
    (hnd : (idxT (⟨b0, term, cs, vi⟩ : TrieCNode)).Nodup)
    (hbound : ∀ j ∈ idxT (⟨b0, term, cs, vi⟩ : TrieCNode), j < vals.length)
    (hdisj : ∀ j ∈ fl, j ∉ idxT (⟨b0, term, cs, vi⟩ : TrieCNode))
    (hfl : ∀ j ∈ fl, j < vals.length)
    (hx : ∀ p : List Nat × V, p ∈ entVT vals2 zero x (P ++ x.b) ↔
      p = (P ++ (c :: k'), v) ∨
      (p ∈ entVT vals zero child (P ++ child.b) ∧ p.1 ≠ P ++ (c :: k')))
    (hxarena : (idxT x = idxT child ∧
        (∃ vi0, vi0 ∈ idxT child ∧ vals2 = vals.set vi0 v) ∧ fl2 = fl) ∨
      ((∃ m1 m2, idxT child = m1 ++ m2 ∧
          idxT x = m1 ++ (addValue v vals fl).1 :: m2) ∧
        vals2 = (addValue v vals fl).2.1 ∧
        fl2 = (addValue v vals fl).2.2)) :
    (∀ p : List Nat × V,
      p ∈ entVT vals2 zero (⟨b0, term, cs.set idx0 x, vi⟩ : TrieCNode) P ↔
      p = (P ++ (c :: k'), v) ∨
      (p ∈ entVT vals zero (⟨b0, term, cs, vi⟩ : TrieCNode) P ∧
        p.1 ≠ P ++ (c :: k'))) ∧
    ((idxT (⟨b0, term, cs.set idx0 x, vi⟩ : TrieCNode) =
        idxT (⟨b0, term, cs, vi⟩ : TrieCNode) ∧
        (∃ vi0, vi0 ∈ idxT (⟨b0, term, cs, vi⟩ : TrieCNode) ∧
          vals2 = vals.set vi0 v) ∧ fl2 = fl) ∨
      ((∃ l1 l2, idxT (⟨b0, term, cs, vi⟩ : TrieCNode) = l1 ++ l2 ∧
          idxT (⟨b0, term, cs.set idx0 x, vi⟩ : TrieCNode) =
            l1 ++ (addValue v vals fl).1 :: l2) ∧
        vals2 = (addValue v vals fl).2.1 ∧
        fl2 = (addValue v vals fl).2.2)) := by
  obtain ⟨T, D, hTD, hset, _, _, _⟩ := set_decomp' cs idx0 child x hsome
  have hcsL : idxTL cs = idxTL T ++ (idxT child ++ idxTL D) := by
    rw [hTD, idxTL_append, idxTL_cons]
  have hidxn : idxT (⟨b0, term, cs, vi⟩ : TrieCNode) =
      ((if term then [vi] else []) ++ idxTL T) ++
        idxT child ++ idxTL D := by
    rw [idxT_mk, hcsL, List.append_assoc, List.append_assoc]
  have hmid := nodup_middle (by rw [← hidxn]; exact hnd)
  have hmemn : ∀ a, a ∈ (if term then [vi] else []) ++ idxTL T ∨
      a ∈ idxT child ∨ a ∈ idxTL D →
      a ∈ idxT (⟨b0, term, cs, vi⟩ : TrieCNode) := by
    intro a ha
    rw [hidxn]
    simp only [List.mem_append] at ha ⊢
    tauto
  have hT : entVTL vals2 zero T P = entVTL vals zero T P := by
    rcases hxarena with ⟨_, ⟨vi0, hvi0, hv2⟩, _⟩ | ⟨_, hv2, _⟩
    · rw [hv2]
      refine entVTL_set_unlive zero T P vals vi0 v ?_
      intro hcon
      exact (hmid.2 vi0 hvi0).1 (List.mem_append_right _ hcon)
    · rw [hv2]
      refine entVTL_addValue_unlive zero v vals fl T P ?_ ?_
      · intro j hj
        exact hbound j (hmemn j (Or.inl (List.mem_append_right _ hj)))
      · intro j hj hcon
        exact hdisj j hj (hmemn j (Or.inl (List.mem_append_right _ hcon)))
  have hD : entVTL vals2 zero D P = entVTL vals zero D P := by
    rcases hxarena with ⟨_, ⟨vi0, hvi0, hv2⟩, _⟩ | ⟨_, hv2, _⟩
    · rw [hv2]
      refine entVTL_set_unlive zero D P vals vi0 v ?_
      intro hcon
      exact (hmid.2 vi0 hvi0).2 hcon
    · rw [hv2]
      refine entVTL_addValue_unlive zero v vals fl D P ?_ ?_
      · intro j hj
        exact hbound j (hmemn j (Or.inr (Or.inr hj)))
      · intro j hj hcon
        exact hdisj j hj (hmemn j (Or.inr (Or.inr hcon)))
  have hhead : ∀ (q : List Nat),
      (vals2.getD q.length zero : V) = vals2.getD q.length zero := fun _ =>
    rfl
  have hheadv : term = true → vals2.getD vi zero = vals.getD vi zero := by
    intro hterm
    have hvin : vi ∈ idxT (⟨b0, term, cs, vi⟩ : TrieCNode) := by
      rw [idxT_mk, hterm]
      exact List.mem_append_left _ (by simp)
    rcases hxarena with ⟨_, ⟨vi0, hvi0, hv2⟩, _⟩ | ⟨_, hv2, _⟩
    · rw [hv2]
      refine getD_set_nez vals vi0 vi v zero ?_
      intro hcon
      rw [hcon] at hvi0
      exact (hmid.2 vi hvi0).1
        (by rw [hterm]; exact List.mem_append_left _ (by simp))
    · rw [hv2]
      refine addValue_getD_other zero v vals fl vi (hbound vi hvin) ?_
      intro hcon
      exact hdisj vi hcon hvin
  have hsort2 : childrenSorted (toTrieL (T ++ child :: D)) = true := by
    rw [← hTD]
    exact hsort
  have hwfl2 : wfL (toTrieL (T ++ child :: D)) = true := by
    rw [← hTD]
    exact hwfl
  have htail := entC_replace zero vals vals2 T D child x P c k' v hsort2
    hwfl2 hchb hT hD hx
  have hne_head : ∀ p : List Nat × V,
      p ∈ (if term then [(P, vals.getD vi zero)] else []) →
      p.1 ≠ P ++ (c :: k') := by
    intro p hp heq
    cases term with
    | false => simp at hp
    | true =>
        have : p = (P, vals.getD vi zero) := by simpa using hp
        rw [this] at heq
        have := congrArg List.length heq
        simp at this
  refine ⟨?_, ?_⟩
  · intro p
    have hL : entVT vals2 zero
        (⟨b0, term, cs.set idx0 x, vi⟩ : TrieCNode) P =
        (if term then [(P, vals.getD vi zero)] else []) ++
          entVTL vals2 zero (T ++ x :: D) P := by
      rw [entVT_mk, hset]
      cases term with
      | false => rfl
      | true => rw [hheadv rfl]
    have hR : entVT vals zero (⟨b0, term, cs, vi⟩ : TrieCNode) P =
        (if term then [(P, vals.getD vi zero)] else []) ++
          entVTL vals zero (T ++ child :: D) P := by
      rw [entVT_mk, hTD]
    rw [hL, hR]
    simp only [List.mem_append]
    constructor
    · intro hp
      rcases hp with hp | hp
      · exact Or.inr ⟨Or.inl hp, hne_head p hp⟩
      · rcases (htail p).mp hp with h1 | ⟨h1, h2⟩
        · exact Or.inl h1
        · exact Or.inr ⟨Or.inr h1, h2⟩
    · intro hp
      rcases hp with hp | ⟨hp, hne⟩
      · exact Or.inr ((htail p).mpr (Or.inl hp))
      · rcases hp with hp | hp
        · exact Or.inl hp
        · exact Or.inr ((htail p).mpr (Or.inr ⟨hp, hne⟩))
  · have hidxn2 : idxT (⟨b0, term, cs.set idx0 x, vi⟩ : TrieCNode) =
        ((if term then [vi] else []) ++ idxTL T) ++
          idxT x ++ idxTL D := by
      rw [idxT_mk, hset, idxTL_append, idxTL_cons, List.append_assoc,
        List.append_assoc]
    rcases hxarena with ⟨hxi, ⟨vi0, hvi0, hv2⟩, hf2⟩ | ⟨⟨m1, m2, hm, hxi⟩, hv2, hf2⟩
    · refine Or.inl ⟨?_, ⟨vi0, hmemn vi0 (Or.inr (Or.inl hvi0)), hv2⟩, hf2⟩
      rw [hidxn2, hidxn, hxi]
    · refine Or.inr ⟨⟨(if term then [vi] else []) ++ idxTL T ++ m1,
        m2 ++ idxTL D, ?_, ?_⟩, hv2, hf2⟩
      · rw [hidxn, hm]
        simp [List.append_assoc]
      · rw [hidxn2, hxi]
        simp [List.append_assoc]

/-- The arena hypotheses restrict from a node to any of its children. -/
theorem child_arena_hyps (b0 : List Nat) (term : Bool)
    (cs : List TrieCNode) (vi : Nat) (idx0 : Nat) (child : TrieCNode)
    (vals : List V) (fl : List Nat)
    (hsome : cs[idx0]? = some child)
    (hnd : (idxT (⟨b0, term, cs, vi⟩ : TrieCNode)).Nodup)
    (hbound : ∀ j ∈ idxT (⟨b0, term, cs, vi⟩ : TrieCNode), j < vals.length)
    (hdisj : ∀ j ∈ fl, j ∉ idxT (⟨b0, term, cs, vi⟩ : TrieCNode)) :
    (idxT child).Nodup ∧ (∀ j ∈ idxT child, j < vals.length) ∧
    (∀ j ∈ fl, j ∉ idxT child) := by
  obtain ⟨T, D, hTD, _, _, _, _⟩ := set_decomp' cs idx0 child child hsome
  have hidxn : idxT (⟨b0, term, cs, vi⟩ : TrieCNode) =
      ((if term then [vi] else []) ++ idxTL T) ++
        idxT child ++ idxTL D := by
    rw [idxT_mk, hTD, idxTL_append, idxTL_cons, List.append_assoc,
      List.append_assoc]
  have hmem : ∀ a ∈ idxT child,
      a ∈ idxT (⟨b0, term, cs, vi⟩ : TrieCNode) := by
    intro a ha
    rw [hidxn]
    simp only [List.mem_append]
    tauto
  have hmid := nodup_middle (by rw [← hidxn]; exact hnd)
  exact ⟨hmid.1, fun j hj => hbound j (hmem j hj),
    fun j hj hcon => hdisj j hj (hmem j hcon)⟩

/-- `KVCache.insert` over the entry abstraction: the pair for the inserted
key is stored with the new value, every other stored pair is untouched, and
the arena either overwrites one live slot (key present) or fills the
`addValue` slot (key fresh). -/
theorem insertC_spec (zero : V) : ∀ (n : TrieCNode) (key P : List Nat)
    (v : V) (vals : List V) (fl : List Nat),
    wfN n.toTrie = true →
    (idxT n).Nodup →
    (∀ j ∈ idxT n, j < vals.length) →
    (∀ j ∈ fl, j ∉ idxT n) →
    (∀ j ∈ fl, j < vals.length) →
    (∀ p : List Nat × V,
      p ∈ entVT (insertC n key v vals fl).2.1 zero
        (insertC n key v vals fl).1 P ↔
      p = (P ++ key, v) ∨
      (p ∈ entVT vals zero n P ∧ p.1 ≠ P ++ key)) ∧
    ((idxT (insertC n key v vals fl).1 = idxT n ∧
        (∃ vi0, vi0 ∈ idxT n ∧
          (insertC n key v vals fl).2.1 = vals.set vi0 v) ∧
        (insertC n key v vals fl).2.2 = fl) ∨
      ((∃ l1 l2, idxT n = l1 ++ l2 ∧
          idxT (insertC n key v vals fl).1 =
            l1 ++ (addValue v vals fl).1 :: l2) ∧
        (insertC n key v vals fl).2.1 = (addValue v vals fl).2.1 ∧
        (insertC n key v vals fl).2.2 = (addValue v vals fl).2.2))
  | ⟨b0, term, cs, vi⟩, [], P, v, vals, fl, hwf, hnd, hbound, hdisj, hfl
    => by
      rw [toTrie_mk, wfN_mk, Bool.and_eq_true] at hwf
      obtain ⟨hsort, hwfl⟩ := hwf
      cases term with
      | true =>
          have he : insertC (⟨b0, true, cs, vi⟩ : TrieCNode) [] v vals fl =
              ((⟨b0, true, cs, vi⟩ : TrieCNode), vals.set vi v, fl) := by
            rw [insertC]
            rfl
          rw [he]
          have hnd2 : (vi :: idxTL cs).Nodup := by
            rw [idxT_mk] at hnd
            exact hnd
          have hviB : vi < vals.length :=
            hbound vi (by rw [idxT_mk]; simp)
          refine ⟨?_, ?_⟩
          · intro p
            have h := insertC_ow_spec zero b0 cs vi P v vals hwfl hnd2
              hviB p
            simpa [List.append_nil] using h
          · exact Or.inl ⟨rfl, ⟨vi, by rw [idxT_mk]; simp, rfl⟩, rfl⟩
      | false =>
          have he : insertC (⟨b0, false, cs, vi⟩ : TrieCNode) [] v vals fl =
              ((⟨b0, true, cs, (addValue v vals fl).1⟩ : TrieCNode),
                (addValue v vals fl).2.1, (addValue v vals fl).2.2) := by
            rw [insertC]
            rfl
          rw [he]
          have hidn : idxT (⟨b0, false, cs, vi⟩ : TrieCNode) = idxTL cs
            := by
            rw [idxT_mk]
            rfl
          have hb2 : ∀ j ∈ idxTL cs, j < vals.length := by
            intro j hj
            exact hbound j (by rw [hidn]; exact hj)
          have hd2 : ∀ j ∈ fl, j ∉ idxTL cs := by
            intro j hj hcon
            exact hdisj j hj (by rw [hidn]; exact hcon)
          refine ⟨?_, ?_⟩
          · intro p
            have h := insertC_fresh_spec zero b0 cs vi P v vals fl hwfl
              hb2 hd2 hfl p
            simpa [List.append_nil] using h
          · refine Or.inr ⟨⟨[], idxTL cs, by rw [hidn]; rfl, ?_⟩, rfl, rfl⟩
            rw [idxT_mk]
            rfl
  | ⟨b0, term, cs, vi⟩, c :: k', P, v, vals, fl, hwf, hnd, hbound, hdisj,
    hfl => by
      rw [toTrie_mk, wfN_mk, Bool.and_eq_true] at hwf
      obtain ⟨hsort, hwfl⟩ := hwf
      by_cases hfound : (findChildC c cs).2 = true
      case neg =>
        have he : insertC (⟨b0, term, cs, vi⟩ : TrieCNode) (c :: k') v vals
            fl = ((⟨b0, term,
              addChildAtC cs ⟨c :: k', true, [], (addValue v vals fl).1⟩
                (findChildC c cs).1, vi⟩ : TrieCNode),
              (addValue v vals fl).2.1, (addValue v vals fl).2.2) := by
          rw [insertC]
          simp only []
          rw [if_neg (by simp [hfound])]
        rw [he]
        have hb2 : ∀ j ∈ idxTL cs, j < vals.length := by
          intro j hj
          exact hbound j (by rw [idxT_mk]; exact List.mem_append_right _ hj)
        have hd2 : ∀ j ∈ fl, j ∉ idxTL cs := by
          intro j hj hcon
          exact hdisj j hj
            (by rw [idxT_mk]; exact List.mem_append_right _ hcon)
        obtain ⟨hnfiff, hnfidx⟩ := insertC_nf_spec zero cs P c k' v vals fl
          hsort hwfl (by simpa using hfound) hb2 hd2 hfl
        have hheadv : term = true →
            (addValue v vals fl).2.1.getD vi zero = vals.getD vi zero := by
          intro hterm
          have hvin : vi ∈ idxT (⟨b0, term, cs, vi⟩ : TrieCNode) := by
            rw [idxT_mk, hterm]
            exact List.mem_append_left _ (by simp)
          refine addValue_getD_other zero v vals fl vi (hbound vi hvin) ?_
          intro hcon
          exact hdisj vi hcon hvin
        have hne_head : ∀ p : List Nat × V,
            p ∈ (if term then [(P, vals.getD vi zero)] else []) →
            p.1 ≠ P ++ (c :: k') := by
          intro p hp heq
          cases term with
          | false => simp at hp
          | true =>
              have hp2 : p = (P, vals.getD vi zero) := by simpa using hp
              rw [hp2] at heq
              have := congrArg List.length heq
              simp at this
        refine ⟨?_, ?_⟩
        · intro p
          have hL : entVT (addValue v vals fl).2.1 zero
              (⟨b0, term,
                addChildAtC cs ⟨c :: k', true, [], (addValue v vals fl).1⟩
                  (findChildC c cs).1, vi⟩ : TrieCNode) P =
              (if term then [(P, vals.getD vi zero)] else []) ++
                entVTL (addValue v vals fl).2.1 zero
                  (addChildAtC cs
                    ⟨c :: k', true, [], (addValue v vals fl).1⟩
                    (findChildC c cs).1) P := by
            rw [entVT_mk]
            cases term with
            | false => rfl
            | true => rw [hheadv rfl]
          have hR : entVT vals zero (⟨b0, term, cs, vi⟩ : TrieCNode) P =
              (if term then [(P, vals.getD vi zero)] else []) ++
                entVTL vals zero cs P := by
            rw [entVT_mk]
          rw [hL, hR]
          simp only [List.mem_append]
          constructor
          · intro hp
            rcases hp with hp | hp
            · exact Or.inr ⟨Or.inl hp, hne_head p hp⟩
            · rcases (hnfiff p).mp hp with h1 | ⟨h1, h2⟩
              · exact Or.inl h1
              · exact Or.inr ⟨Or.inr h1, h2⟩
          · intro hp
            rcases hp with hp | ⟨hp, hne⟩
            · exact Or.inr ((hnfiff p).mpr (Or.inl hp))
            · rcases hp with hp | hp
              · exact Or.inl hp
              · exact Or.inr ((hnfiff p).mpr (Or.inr ⟨hp, hne⟩))
        · obtain ⟨l1, l2, hl12, hlI⟩ := hnfidx
          refine Or.inr ⟨⟨(if term then [vi] else []) ++ l1, l2, ?_, ?_⟩,
            rfl, rfl⟩
          · rw [idxT_mk, hl12]
            simp [List.append_assoc]
          · rw [idxT_mk, hlI]
            simp [List.append_assoc]
      case pos =>
        obtain ⟨child, hsome, hhb⟩ := findChildC_found hfound
        have hctT : child.toTrie ∈ toTrieL cs := by
          rw [toTrieL_eq_map]
          exact List.mem_map_of_mem TrieCNode.toTrie (List.getElem?_mem hsome)
        obtain ⟨hcbneT, hcwfT⟩ := wfL_mem (toTrieL cs) child.toTrie hctT hwfl
        obtain ⟨hcnd, hcbound, hcdisj⟩ := child_arena_hyps b0 term cs vi
          (childSearchC c cs) child vals fl hsome hnd hbound hdisj
        by_cases hcl : commonPrefixLen child.b (c :: k') = child.b.length
        · -- the child's whole segment matches: recurse
          have he : insertC (⟨b0, term, cs, vi⟩ : TrieCNode) (c :: k') v
              vals fl = ((⟨b0, term,
                cs.set (childSearchC c cs)
                  (insertC child
                    ((c :: k').drop (commonPrefixLen child.b (c :: k')))
                    v vals fl).1, vi⟩ : TrieCNode),
                (insertC child
                  ((c :: k').drop (commonPrefixLen child.b (c :: k')))
                  v vals fl).2.1,
                (insertC child
                  ((c :: k').drop (commonPrefixLen child.b (c :: k')))
                  v vals fl).2.2) := by
            rw [insertC]
            simp only []
            rw [if_pos hfound, findChildC_fst, hsome]
            simp only []
            rw [if_pos hcl]
          rw [he]
          obtain ⟨hiffC, harC⟩ := insertC_spec zero child
            ((c :: k').drop (commonPrefixLen child.b (c :: k')))
            (P ++ child.b) v vals fl hcwfT hcnd hcbound hcdisj hfl
          have hxb : (insertC child
              ((c :: k').drop (commonPrefixLen child.b (c :: k')))
              v vals fl).1.b = child.b := by
            rw [← toTrie_b, insertC_toTrie,
              (insertKey_spec child.toTrie _ (P ++ child.b) hcwfT).2.1,
              toTrie_b]
          have hkey : P ++ child.b ++
              ((c :: k').drop (commonPrefixLen child.b (c :: k'))) =
              P ++ (c :: k') := by
            obtain ⟨t0, ht0⟩ := cpl_pfx_of_eq_left child.b (c :: k') hcl
            have hdrop : (c :: k').drop
                (commonPrefixLen child.b (c :: k')) = t0 := by
              rw [hcl, ← ht0]
              simp
            rw [hdrop, List.append_assoc, ht0]
          have hx : ∀ p : List Nat × V,
              p ∈ entVT (insertC child
                ((c :: k').drop (commonPrefixLen child.b (c :: k')))
                v vals fl).2.1 zero
                (insertC child
                  ((c :: k').drop (commonPrefixLen child.b (c :: k')))
                  v vals fl).1
                (P ++ (insertC child
                  ((c :: k').drop (commonPrefixLen child.b (c :: k')))
                  v vals fl).1.b) ↔
              p = (P ++ (c :: k'), v) ∨
              (p ∈ entVT vals zero child (P ++ child.b) ∧
                p.1 ≠ P ++ (c :: k')) := by
            intro p
            rw [hxb, ← hkey]
            exact hiffC p
          exact insertC_assemble zero b0 term cs vi (childSearchC c cs)
            child _ P c k' v vals _ fl _ hsome hsort hwfl hhb hnd hbound
            hdisj hfl hx harC
        · -- split inside the child's segment
          have hlt : commonPrefixLen child.b (c :: k') < child.b.length := by
            have := cpl_le_left child.b (c :: k')
            omega
          obtain ⟨cb, cct, ccc, ccvi⟩ := child
          simp only [TrieCNode.bC_mk] at hhb hcl hlt
          by_cases hemp : ((c :: k').drop
              (commonPrefixLen cb (c :: k'))).isEmpty = true
          · have he : insertC (⟨b0, term, cs, vi⟩ : TrieCNode) (c :: k') v
                vals fl = ((⟨b0, term,
                  cs.set (childSearchC c cs)
                    ⟨cb.take (commonPrefixLen cb (c :: k')), true,
                      addChildC []
                        ⟨cb.drop (commonPrefixLen cb (c :: k')), cct, ccc,
                          ccvi⟩,
                      (addValue v vals fl).1⟩, vi⟩ : TrieCNode),
                  (addValue v vals fl).2.1, (addValue v vals fl).2.2) := by
              rw [insertC]
              simp only []
              rw [if_pos hfound, findChildC_fst, hsome]
              simp only []
              simp only [TrieCNode.bC_mk, TrieCNode.terminalC_mk,
                TrieCNode.childrenC_mk, TrieCNode.valueIndexC_mk]
              rw [if_neg hcl, if_pos hemp]
            rw [he]
            obtain ⟨hxiff, hxidx⟩ := insertC_split_empty_spec zero cb cct
              ccc ccvi P c k' v vals fl hlt (List.isEmpty_iff.mp hemp)
              hcbound hcdisj hfl
            refine insertC_assemble zero b0 term cs vi (childSearchC c cs)
              _ _ P c k' v vals _ fl _ hsome hsort hwfl hhb hnd hbound
              hdisj hfl hxiff ?_
            refine Or.inr ⟨⟨[], idxT (⟨cb, cct, ccc, ccvi⟩ : TrieCNode),
              rfl, ?_⟩, rfl, rfl⟩
            rw [hxidx]
            rfl
          · have he : insertC (⟨b0, term, cs, vi⟩ : TrieCNode) (c :: k') v
                vals fl = ((⟨b0, term,
                  cs.set (childSearchC c cs)
                    ⟨cb.take (commonPrefixLen cb (c :: k')), false,
                      addChildC
                        (addChildC []
                          ⟨cb.drop (commonPrefixLen cb (c :: k')), cct,
                            ccc, ccvi⟩)
                        ⟨(c :: k').drop (commonPrefixLen cb (c :: k')),
                          true, [], (addValue v vals fl).1⟩,
                      ccvi⟩, vi⟩ : TrieCNode),
                  (addValue v vals fl).2.1, (addValue v vals fl).2.2) := by
              rw [insertC]
              simp only []
              rw [if_pos hfound, findChildC_fst, hsome]
              simp only []
              simp only [TrieCNode.bC_mk, TrieCNode.terminalC_mk,
                TrieCNode.childrenC_mk, TrieCNode.valueIndexC_mk]
              rw [if_neg hcl, if_neg hemp]
            rw [he]
            obtain ⟨hxiff, hxidx⟩ := insertC_split_ne_spec zero cb cct ccc
              ccvi P c k' v vals fl hlt
              (by intro hcon; rw [hcon] at hemp; simp at hemp)
              hcbound hcdisj hfl
            refine insertC_assemble zero b0 term cs vi (childSearchC c cs)
              _ _ P c k' v vals _ fl _ hsome hsort hwfl hhb hnd hbound
              hdisj hfl hxiff (Or.inr ⟨hxidx, rfl, rfl⟩)
termination_by n _ _ _ _ _ => sizeOf n
decreasing_by
  simp_wf
  have hmem := List.getElem?_mem hsome
  have := List.sizeOf_lt_of_mem hmem
  omega

theorem headD_append_left (a b : List Nat) (ha : a ≠ []) :
    (a ++ b).headD 0 = a.headD 0 := by
  cases a with
  | nil => exact absurd rfl ha
  | cons x l => rfl

/-- Deletion counterpart of `entC_replace`: the routed child loses exactly
the deleted key's pair, the siblings are untouched. -/
theorem entC_replace_del (zero : V) (vals1 vals2 : List V)
    (T D : List TrieCNode) (child x : TrieCNode)
    (P : List Nat) (c : Nat) (k' : List Nat)
    (hsort : childrenSorted (toTrieL (T ++ child :: D)) = true)
    (hwfl : wfL (toTrieL (T ++ child :: D)) = true)
    (hchb : child.b.headD 0 = c)
    (hT : entVTL vals2 zero T P = entVTL vals1 zero T P)
    (hD : entVTL vals2 zero D P = entVTL vals1 zero D P)
    (hx : ∀ p : List Nat × V, p ∈ entVT vals2 zero x (P ++ x.b) ↔
      (p ∈ entVT vals1 zero child (P ++ child.b) ∧
        p.1 ≠ P ++ (c :: k'))) :
    ∀ p : List Nat × V,
      p ∈ entVTL vals2 zero (T ++ x :: D) P ↔
      (p ∈ entVTL vals1 zero (T ++ child :: D) P ∧
        p.1 ≠ P ++ (c :: k')) := by
  have hsp : List.Pairwise (fun a d => hb a < hb d)
      (toTrieL T ++ child.toTrie :: toTrieL D) := by
    have := (childrenSorted_iff _).mp hsort
    rw [toTrieL_append, toTrieL] at this
    exact this
  rw [List.pairwise_append] at hsp
  obtain ⟨hspT, hspCD, hspX⟩ := hsp
  have hwTD : wfL (toTrieL T) = true ∧ wfL (toTrieL D) = true := by
    have hw := hwfl
    rw [toTrieL_append, toTrieL, wfL_append, Bool.and_eq_true, wfL_cons,
      Bool.and_eq_true, Bool.and_eq_true] at hw
    exact ⟨hw.1, hw.2.2⟩
  have hbchild : hb child.toTrie = c := by
    rw [hb, toTrie_b]
    exact hchb
  have hTne : ∀ p : List Nat × V, p ∈ entVTL vals1 zero T P →
      p.1 ≠ P ++ (c :: k') := by
    intro p hp heq
    have hk : p.1 ∈ entriesTL (toTrieL T) P := by
      rw [← entVTL_fst vals1 zero T P]
      exact List.mem_map_of_mem Prod.fst hp
    obtain ⟨c', hc', hkc'⟩ := entriesTL_pfx (toTrieL T) P p.1 hk
    have hcb' : (!c'.b.isEmpty) = true := (wfL_mem _ c' hc' hwTD.1).1
    rw [heq] at hkc'
    have : hb c' = c := routed_key_hb hcb' hkc'
    have hlt : hb c' < hb child.toTrie :=
      hspX c' hc' child.toTrie (by simp)
    omega
  have hDne : ∀ p : List Nat × V, p ∈ entVTL vals1 zero D P →
      p.1 ≠ P ++ (c :: k') := by
    intro p hp heq
    have hk : p.1 ∈ entriesTL (toTrieL D) P := by
      rw [← entVTL_fst vals1 zero D P]
      exact List.mem_map_of_mem Prod.fst hp
    obtain ⟨c', hc', hkc'⟩ := entriesTL_pfx (toTrieL D) P p.1 hk
    have hcb' : (!c'.b.isEmpty) = true := (wfL_mem _ c' hc' hwTD.2).1
    rw [heq] at hkc'
    have : hb c' = c := routed_key_hb hcb' hkc'
    have hlt : hb child.toTrie < hb c' :=
      List.rel_of_pairwise_cons hspCD hc'
    omega
  intro p
  rw [entVTL_append, entVTL_cons, entVTL_append, entVTL_cons, hT, hD]
  simp only [List.mem_append]
  constructor
  · intro hp
    rcases hp with hp | hp | hp
    · exact ⟨Or.inl hp, hTne p hp⟩
    · obtain ⟨h1, h2⟩ := (hx p).mp hp
      exact ⟨Or.inr (Or.inl h1), h2⟩
    · exact ⟨Or.inr (Or.inr hp), hDne p hp⟩
  · intro ⟨hp, hne⟩
    rcases hp with hp | hp | hp
    · exact Or.inl hp
    · exact Or.inr (Or.inl ((hx p).mpr ⟨hp, hne⟩))
    · exact Or.inr (Or.inr hp)

/-- Deletion counterpart for removing a child whose entries were exactly
the deleted key. -/
theorem entC_erase_del (zero : V) (vals1 vals2 : List V)
    (T D : List TrieCNode) (child : TrieCNode)
    (P : List Nat) (c : Nat) (k' : List Nat)
    (hsort : childrenSorted (toTrieL (T ++ child :: D)) = true)
    (hwfl : wfL (toTrieL (T ++ child :: D)) = true)
    (hchb : child.b.headD 0 = c)
    (hT : entVTL vals2 zero T P = entVTL vals1 zero T P)
    (hD : entVTL vals2 zero D P = entVTL vals1 zero D P)
    (hsub : ∀ p : List Nat × V,
      p ∈ entVT vals1 zero child (P ++ child.b) →
      p.1 = P ++ (c :: k')) :
    ∀ p : List Nat × V,
      p ∈ entVTL vals2 zero (T ++ D) P ↔
      (p ∈ entVTL vals1 zero (T ++ child :: D) P ∧
        p.1 ≠ P ++ (c :: k')) := by
  have hsp : List.Pairwise (fun a d => hb a < hb d)
      (toTrieL T ++ child.toTrie :: toTrieL D) := by
    have := (childrenSorted_iff _).mp hsort
    rw [toTrieL_append, toTrieL] at this
    exact this
  rw [List.pairwise_append] at hsp
  obtain ⟨hspT, hspCD, hspX⟩ := hsp
  have hwTD : wfL (toTrieL T) = true ∧ wfL (toTrieL D) = true := by
    have hw := hwfl
    rw [toTrieL_append, toTrieL, wfL_append, Bool.and_eq_true, wfL_cons,
      Bool.and_eq_true, Bool.and_eq_true] at hw
    exact ⟨hw.1, hw.2.2⟩
  have hbchild : hb child.toTrie = c := by
    rw [hb, toTrie_b]
    exact hchb
  have hTne : ∀ p : List Nat × V, p ∈ entVTL vals1 zero T P →
      p.1 ≠ P ++ (c :: k') := by
    intro p hp heq
    have hk : p.1 ∈ entriesTL (toTrieL T) P := by
      rw [← entVTL_fst vals1 zero T P]
      exact List.mem_map_of_mem Prod.fst hp
    obtain ⟨c', hc', hkc'⟩ := entriesTL_pfx (toTrieL T) P p.1 hk
    have hcb' : (!c'.b.isEmpty) = true := (wfL_mem _ c' hc' hwTD.1).1
    rw [heq] at hkc'
    have : hb c' = c := routed_key_hb hcb' hkc'
    have hlt : hb c' < hb child.toTrie :=
      hspX c' hc' child.toTrie (by simp)
    omega
  have hDne : ∀ p : List Nat × V, p ∈ entVTL vals1 zero D P →
      p.1 ≠ P ++ (c :: k') := by
    intro p hp heq
    have hk : p.1 ∈ entriesTL (toTrieL D) P := by
      rw [← entVTL_fst vals1 zero D P]
      exact List.mem_map_of_mem Prod.fst hp
    obtain ⟨c', hc', hkc'⟩ := entriesTL_pfx (toTrieL D) P p.1 hk
    have hcb' : (!c'.b.isEmpty) = true := (wfL_mem _ c' hc' hwTD.2).1
    rw [heq] at hkc'
    have : hb c' = c := routed_key_hb hcb' hkc'
    have hlt : hb child.toTrie < hb c' :=
      List.rel_of_pairwise_cons hspCD hc'
    omega
  intro p
  rw [entVTL_append, entVTL_append, entVTL_cons, hT, hD]
  simp only [List.mem_append]
  constructor
  · intro hp
    rcases hp with hp | hp
    · exact ⟨Or.inl hp, hTne p hp⟩
    · exact ⟨Or.inr (Or.inr hp), hDne p hp⟩
  · intro ⟨hp, hne⟩
    rcases hp with hp | hp | hp
    · exact Or.inl hp
    · exact absurd (hsub p hp) hne
    · exact Or.inr hp

/-- Node-level assembly for `delete`'s replace outcomes (plain update of the
routed child, or the merge cleanup step, both of which keep one child in the
slot). -/
theorem delC_assemble (zero : V) (b0 : List Nat) (term : Bool)
    (cs : List TrieCNode) (vi idx0 : Nat) (child x : TrieCNode)
    (P : List Nat) (c : Nat) (k' : List Nat)
    (vals : List V) (vi0 : Nat)
    (hsome : cs[idx0]? = some child)
    (hsort : childrenSorted (toTrieL cs) = true)
    (hwfl : wfL (toTrieL cs) = true)
    (hchb : child.b.headD 0 = c)
    (hnd : (idxT (⟨b0, term, cs, vi⟩ : TrieCNode)).Nodup)
    (hvi0 : vi0 ∈ idxT child)
    (hx : ∀ p : List Nat × V,
      p ∈ entVT (vals.set vi0 zero) zero x (P ++ x.b) ↔
      (p ∈ entVT vals zero child (P ++ child.b) ∧
        p.1 ≠ P ++ (c :: k')))
    (hxidx : ∃ m1 m2, idxT child = m1 ++ vi0 :: m2 ∧ idxT x = m1 ++ m2) :
    (∀ p : List Nat × V,
      p ∈ entVT (vals.set vi0 zero) zero
        (⟨b0, term, cs.set idx0 x, vi⟩ : TrieCNode) P ↔
      (p ∈ entVT vals zero (⟨b0, term, cs, vi⟩ : TrieCNode) P ∧
        p.1 ≠ P ++ (c :: k'))) ∧
    (∃ l1 l2, idxT (⟨b0, term, cs, vi⟩ : TrieCNode) = l1 ++ vi0 :: l2 ∧
      idxT (⟨b0, term, cs.set idx0 x, vi⟩ : TrieCNode) = l1 ++ l2) := by
  obtain ⟨T, D, hTD, hset, _, _, _⟩ := set_decomp' cs idx0 child x hsome
  have hidxn : idxT (⟨b0, term, cs, vi⟩ : TrieCNode) =
      ((if term then [vi] else []) ++ idxTL T) ++
        idxT child ++ idxTL D := by
    rw [idxT_mk, hTD, idxTL_append, idxTL_cons, List.append_assoc,
      List.append_assoc]
  have hmid := nodup_middle (by rw [← hidxn]; exact hnd)
  have hT : entVTL (vals.set vi0 zero) zero T P = entVTL vals zero T P := by
    refine entVTL_set_unlive zero T P vals vi0 zero ?_
    intro hcon
    exact (hmid.2 vi0 hvi0).1 (List.mem_append_right _ hcon)
  have hD : entVTL (vals.set vi0 zero) zero D P = entVTL vals zero D P := by
    refine entVTL_set_unlive zero D P vals vi0 zero ?_
    intro hcon
    exact (hmid.2 vi0 hvi0).2 hcon
  have hheadv : term = true →
      (vals.set vi0 zero).getD vi zero = vals.getD vi zero := by
    intro hterm
    refine getD_set_nez vals vi0 vi zero zero ?_
    intro hcon
    rw [hcon] at hvi0
    exact (hmid.2 vi hvi0).1
      (by rw [hterm]; exact List.mem_append_left _ (by simp))
  have hsort2 : childrenSorted (toTrieL (T ++ child :: D)) = true := by
    rw [← hTD]
    exact hsort
  have hwfl2 : wfL (toTrieL (T ++ child :: D)) = true := by
    rw [← hTD]
    exact hwfl
  have htail := entC_replace_del zero vals (vals.set vi0 zero) T D child x
    P c k' hsort2 hwfl2 hchb hT hD hx
  have hne_head : ∀ p : List Nat × V,
      p ∈ (if term then [(P, vals.getD vi zero)] else []) →
      p.1 ≠ P ++ (c :: k') := by
    intro p hp heq
    cases term with
    | false => simp at hp
    | true =>
        have hp2 : p = (P, vals.getD vi zero) := by simpa using hp
        rw [hp2] at heq
        have := congrArg List.length heq
        simp at this
  refine ⟨?_, ?_⟩
  · intro p
    have hL : entVT (vals.set vi0 zero) zero
        (⟨b0, term, cs.set idx0 x, vi⟩ : TrieCNode) P =
        (if term then [(P, vals.getD vi zero)] else []) ++
          entVTL (vals.set vi0 zero) zero (T ++ x :: D) P := by
      rw [entVT_mk, hset]
      cases term with
      | false => rfl
      | true => rw [hheadv rfl]
    have hR : entVT vals zero (⟨b0, term, cs, vi⟩ : TrieCNode) P =
        (if term then [(P, vals.getD vi zero)] else []) ++
          entVTL vals zero (T ++ child :: D) P := by
      rw [entVT_mk, hTD]
    rw [hL, hR]
    simp only [List.mem_append]
    constructor
    · intro hp
      rcases hp with hp | hp
      · exact ⟨Or.inl hp, hne_head p hp⟩
      · obtain ⟨h1, h2⟩ := (htail p).mp hp
        exact ⟨Or.inr h1, h2⟩
    · intro ⟨hp, hne⟩
      rcases hp with hp | hp
      · exact Or.inl hp
      · exact Or.inr ((htail p).mpr ⟨hp, hne⟩)
  · obtain ⟨m1, m2, hm, hxi⟩ := hxidx
    refine ⟨(if term then [vi] else []) ++ idxTL T ++ m1, m2 ++ idxTL D,
      ?_, ?_⟩
    · rw [hidxn, hm]
      simp [List.append_assoc]
    · rw [idxT_mk, hset, idxTL_append, idxTL_cons, hxi]
      simp [List.append_assoc]

/-- Node-level assembly for `delete`'s remove outcome (the cleanup deletes a
now-childless non-terminal child from the slot). -/
theorem delC_assemble_erase (zero : V) (b0 : List Nat) (term : Bool)
    (cs : List TrieCNode) (vi idx0 : Nat) (child : TrieCNode)
    (P : List Nat) (c : Nat) (k' : List Nat)
    (vals : List V) (vi0 : Nat)
    (hsome : cs[idx0]? = some child)
    (hsort : childrenSorted (toTrieL cs) = true)
    (hwfl : wfL (toTrieL cs) = true)
    (hchb : child.b.headD 0 = c)
    (hnd : (idxT (⟨b0, term, cs, vi⟩ : TrieCNode)).Nodup)
    (hvi0 : vi0 ∈ idxT child)
    (hsub : ∀ p : List Nat × V,
      p ∈ entVT vals zero child (P ++ child.b) →
      p.1 = P ++ (c :: k'))
    (hxidx : idxT child = [vi0]) :
    (∀ p : List Nat × V,
      p ∈ entVT (vals.set vi0 zero) zero
        (⟨b0, term, cs.eraseIdx idx0, vi⟩ : TrieCNode) P ↔
      (p ∈ entVT vals zero (⟨b0, term, cs, vi⟩ : TrieCNode) P ∧
        p.1 ≠ P ++ (c :: k'))) ∧
    (∃ l1 l2, idxT (⟨b0, term, cs, vi⟩ : TrieCNode) = l1 ++ vi0 :: l2 ∧
      idxT (⟨b0, term, cs.eraseIdx idx0, vi⟩ : TrieCNode) = l1 ++ l2) := by
  obtain ⟨T, D, hTD, _, herase, _, _⟩ := set_decomp' cs idx0 child child
    hsome
  have hidxn : idxT (⟨b0, term, cs, vi⟩ : TrieCNode) =
      ((if term then [vi] else []) ++ idxTL T) ++
        idxT child ++ idxTL D := by
    rw [idxT_mk, hTD, idxTL_append, idxTL_cons, List.append_assoc,
      List.append_assoc]
  have hmid := nodup_middle (by rw [← hidxn]; exact hnd)
  have hT : entVTL (vals.set vi0 zero) zero T P = entVTL vals zero T P := by
    refine entVTL_set_unlive zero T P vals vi0 zero ?_
    intro hcon
    exact (hmid.2 vi0 hvi0).1 (List.mem_append_right _ hcon)
  have hD : entVTL (vals.set vi0 zero) zero D P = entVTL vals zero D P := by
    refine entVTL_set_unlive zero D P vals vi0 zero ?_
    intro hcon
    exact (hmid.2 vi0 hvi0).2 hcon
  have hheadv : term = true →
      (vals.set vi0 zero).getD vi zero = vals.getD vi zero := by
    intro hterm
    refine getD_set_nez vals vi0 vi zero zero ?_
    intro hcon
    rw [hcon] at hvi0
    exact (hmid.2 vi hvi0).1
      (by rw [hterm]; exact List.mem_append_left _ (by simp))
  have hsort2 : childrenSorted (toTrieL (T ++ child :: D)) = true := by
    rw [← hTD]
    exact hsort
  have hwfl2 : wfL (toTrieL (T ++ child :: D)) = true := by
    rw [← hTD]
    exact hwfl
  have htail := entC_erase_del zero vals (vals.set vi0 zero) T D child
    P c k' hsort2 hwfl2 hchb hT hD hsub
  have hne_head : ∀ p : List Nat × V,
      p ∈ (if term then [(P, vals.getD vi zero)] else []) →
      p.1 ≠ P ++ (c :: k') := by
    intro p hp heq
    cases term with
    | false => simp at hp
    | true =>
        have hp2 : p = (P, vals.getD vi zero) := by simpa using hp
        rw [hp2] at heq
        have := congrArg List.length heq
        simp at this
  refine ⟨?_, ?_⟩
  · intro p
    have hL : entVT (vals.set vi0 zero) zero
        (⟨b0, term, cs.eraseIdx idx0, vi⟩ : TrieCNode) P =
        (if term then [(P, vals.getD vi zero)] else []) ++
          entVTL (vals.set vi0 zero) zero (T ++ D) P := by
      rw [entVT_mk, herase]
      cases term with
      | false => rfl
      | true => rw [hheadv rfl]
    have hR : entVT vals zero (⟨b0, term, cs, vi⟩ : TrieCNode) P =
        (if term then [(P, vals.getD vi zero)] else []) ++
          entVTL vals zero (T ++ child :: D) P := by
      rw [entVT_mk, hTD]
    rw [hL, hR]
    simp only [List.mem_append]
    constructor
    · intro hp
      rcases hp with hp | hp
      · exact ⟨Or.inl hp, hne_head p hp⟩
      · obtain ⟨h1, h2⟩ := (htail p).mp hp
        exact ⟨Or.inr h1, h2⟩
    · intro ⟨hp, hne⟩
      rcases hp with hp | hp
      · exact Or.inl hp
      · exact Or.inr ((htail p).mpr ⟨hp, hne⟩)
  · refine ⟨(if term then [vi] else []) ++ idxTL T, idxTL D, ?_, ?_⟩
    · rw [hidxn, hxidx]
      simp [List.append_assoc]
    · rw [idxT_mk, herase, idxTL_append]
      simp [List.append_assoc]

/-- Replacing a child by a well-formed subtree with the same first byte
keeps the node well-formed. -/
theorem wfN_set_child (b0 : List Nat) (cs : List TrieNode) (term : Bool)
    (idx : Nat) (child x : TrieNode)
    (hsome : cs[idx]? = some child)
    (hsort : childrenSorted cs = true) (hwfl : wfL cs = true)
    (hxwf : wfN x = true) (hxb : (!x.b.isEmpty) = true)
    (hxhb : hb x = hb child) :
    wfN (⟨b0, cs.set idx x, term⟩ : TrieNode) = true := by
  obtain ⟨T, D, hTD, hset, _, _, _⟩ := set_decomp' cs idx child x hsome
  rw [hset, wfN_mk, Bool.and_eq_true]
  constructor
  · refine (childrenSorted_iff _).mpr (pairwise_hb_replace ?_ hxhb)
    rw [← hTD]
    exact (childrenSorted_iff cs).mp hsort
  · have hw : wfL (T ++ child :: D) = true := by
      rw [← hTD]
      exact hwfl
    rw [wfL_append, Bool.and_eq_true, wfL_cons, Bool.and_eq_true,
      Bool.and_eq_true] at hw
    rw [wfL_append, Bool.and_eq_true, wfL_cons, Bool.and_eq_true,
      Bool.and_eq_true]
    exact ⟨hw.1, ⟨hxb, hxwf⟩, hw.2.2⟩

/-- Removing a child keeps the node well-formed. -/
theorem wfN_erase_child (b0 : List Nat) (cs : List TrieNode) (term : Bool)
    (idx : Nat) (child : TrieNode)
    (hsome : cs[idx]? = some child)
    (hsort : childrenSorted cs = true) (hwfl : wfL cs = true) :
    wfN (⟨b0, cs.eraseIdx idx, term⟩ : TrieNode) = true := by
  obtain ⟨T, D, hTD, _, herase, _, _⟩ := set_decomp' cs idx child child
    hsome
  rw [herase, wfN_mk, Bool.and_eq_true]
  have hsub : List.Sublist (T ++ D) (T ++ child :: D) :=
    List.Sublist.append (List.Sublist.refl T) (List.sublist_cons_self _ _)
  constructor
  · refine (childrenSorted_iff _).mpr ?_
    refine List.Pairwise.sublist hsub ?_
    rw [← hTD]
    exact (childrenSorted_iff cs).mp hsort
  · have hw : wfL (T ++ child :: D) = true := by
      rw [← hTD]
      exact hwfl
    rw [wfL_append, Bool.and_eq_true, wfL_cons, Bool.and_eq_true,
      Bool.and_eq_true] at hw
    rw [wfL_append, Bool.and_eq_true]
    exact ⟨hw.1, hw.2.2⟩

/-- If the deleted key is absent from the erased trie, no stored pair has
it as key. -/
theorem entVT_key_absent (zero : V) (vals : List V) (n : TrieCNode)
    (P key : List Nat)
    (habs : P ++ key ∉ entriesT n.toTrie P) :
    ∀ p : List Nat × V, p ∈ entVT vals zero n P → p.1 ≠ P ++ key := by
  intro p hp heq
  refine habs ?_
  rw [← heq, ← entVT_fst vals zero n P]
  exact List.mem_map_of_mem Prod.fst hp

/-- When the routed child itself stores no pair with the searched key, no
pair of the whole node does. -/
theorem entC_key_unique_route (zero : V) (vals : List V) (b0 : List Nat)
    (term : Bool) (cs : List TrieCNode) (vi idx0 : Nat)
    (child : TrieCNode) (P : List Nat) (c : Nat) (k' : List Nat)
    (hsome : cs[idx0]? = some child)
    (hsort : childrenSorted (toTrieL cs) = true)
    (hwfl : wfL (toTrieL cs) = true)
    (hchb : child.b.headD 0 = c)
    (hchild_ne : ∀ p : List Nat × V,
      p ∈ entVT vals zero child (P ++ child.b) →
      p.1 ≠ P ++ (c :: k')) :
    ∀ p : List Nat × V,
      p ∈ entVT vals zero (⟨b0, term, cs, vi⟩ : TrieCNode) P →
      p.1 ≠ P ++ (c :: k') := by
  obtain ⟨T, D, hTD, _, _, _, _⟩ := set_decomp' cs idx0 child child hsome
  have hsort2 : childrenSorted (toTrieL (T ++ child :: D)) = true := by
    rw [← hTD]
    exact hsort
  have hwfl2 : wfL (toTrieL (T ++ child :: D)) = true := by
    rw [← hTD]
    exact hwfl
  have htail := entC_replace_del zero vals vals T D child child P c k'
    hsort2 hwfl2 hchb rfl rfl
    (fun p => ⟨fun hp => ⟨hp, hchild_ne p hp⟩, And.left⟩)
  intro p hp heq
  rw [entVT_mk, hTD, List.mem_append] at hp
  rcases hp with hp | hp
  · cases term with
    | false => simp at hp
    | true =>
        have hp2 : p = (P, vals.getD vi zero) := by simpa using hp
        rw [hp2] at heq
        have := congrArg List.length heq
        simp at this
  · exact ((htail p).mp hp).2 heq

@[simp] theorem DelCRes.node_mk (n : TrieCNode) (d co : Bool)
    (va : List V) (f : List Nat) :
    (⟨n, d, co, va, f⟩ : DelCRes V).node = n := rfl

@[simp] theorem DelCRes.deleted_mk (n : TrieCNode) (d co : Bool)
    (va : List V) (f : List Nat) :
    (⟨n, d, co, va, f⟩ : DelCRes V).deleted = d := rfl

@[simp] theorem DelCRes.cont_mk (n : TrieCNode) (d co : Bool)
    (va : List V) (f : List Nat) :
    (⟨n, d, co, va, f⟩ : DelCRes V).cont = co := rfl

@[simp] theorem DelCRes.values_mk (n : TrieCNode) (d co : Bool)
    (va : List V) (f : List Nat) :
    (⟨n, d, co, va, f⟩ : DelCRes V).values = va := rfl

@[simp] theorem DelCRes.freelist_mk (n : TrieCNode) (d co : Bool)
    (va : List V) (f : List Nat) :
    (⟨n, d, co, va, f⟩ : DelCRes V).freelist = f := rfl

theorem set_set_idx {A : Type} :
    ∀ (l : List A) (i : Nat) (a b : A),
    (l.set i a).set i b = l.set i b
  | [], _, _, _ => rfl
  | x :: l, 0, a, b => rfl
  | x :: l, i + 1, a, b => by
      rw [List.set_cons_succ, List.set_cons_succ, List.set_cons_succ,
        set_set_idx l i a b]

theorem child_idx_nodup (b0 : List Nat) (term : Bool)
    (cs : List TrieCNode) (vi idx0 : Nat) (child : TrieCNode)
    (hsome : cs[idx0]? = some child)
    (hnd : (idxT (⟨b0, term, cs, vi⟩ : TrieCNode)).Nodup) :
    (idxT child).Nodup := by
  obtain ⟨T, D, hTD, _, _, _, _⟩ := set_decomp' cs idx0 child child hsome
  have hidxn : idxT (⟨b0, term, cs, vi⟩ : TrieCNode) =
      ((if term then [vi] else []) ++ idxTL T) ++
        idxT child ++ idxTL D := by
    rw [idxT_mk, hTD, idxTL_append, idxTL_cons, List.append_assoc,
      List.append_assoc]
  exact (nodup_middle (by rw [← hidxn]; exact hnd)).1

theorem eraseIdx_set {A : Type} :
    ∀ (l : List A) (i : Nat) (a : A),
    (l.set i a).eraseIdx i = l.eraseIdx i
  | [], _, _ => rfl
  | x :: l, 0, a => by simp [List.eraseIdx]
  | x :: l, i + 1, a => by
      rw [List.set_cons_succ, List.eraseIdx_cons_succ,
        List.eraseIdx_cons_succ, eraseIdx_set l i a]

/-- `KVCache.delete` over the entry abstraction: the result is well formed,
keeps the node's segment, stores exactly the old pairs except the deleted
key's, and either leaves the state untouched (key absent) or frees exactly
the deleted key's slot. -/
theorem delC_spec (zero : V) : ∀ (n : TrieCNode) (key P : List Nat)
    (vals : List V) (fl : List Nat),
    wfN n.toTrie = true →
    (idxT n).Nodup →
    wfN (delC zero n key vals fl).node.toTrie = true ∧
    (delC zero n key vals fl).node.b = n.b ∧
    (∀ p : List Nat × V,
      p ∈ entVT (delC zero n key vals fl).values zero
        (delC zero n key vals fl).node P ↔
      (p ∈ entVT vals zero n P ∧ p.1 ≠ P ++ key)) ∧
    ((delC zero n key vals fl).deleted = false →
      (delC zero n key vals fl).node = n ∧
      (delC zero n key vals fl).values = vals ∧
      (delC zero n key vals fl).freelist = fl) ∧
    ((delC zero n key vals fl).deleted = true →
      ∃ vi0 l1 l2, idxT n = l1 ++ vi0 :: l2 ∧
        idxT (delC zero n key vals fl).node = l1 ++ l2 ∧
        (delC zero n key vals fl).values = vals.set vi0 zero ∧
        (delC zero n key vals fl).freelist = fl ++ [vi0])
  | ⟨b0, term, cs, vi⟩, [], P, vals, fl, hwf, hnd => by
      rw [toTrie_mk, wfN_mk, Bool.and_eq_true] at hwf
      obtain ⟨hsort, hwfl⟩ := hwf
      cases term with
      | true =>
          have he : delC zero (⟨b0, true, cs, vi⟩ : TrieCNode) [] vals fl =
              ⟨⟨b0, false, cs, vi⟩, true, true, vals.set vi zero,
                fl ++ [vi]⟩ := by
            rw [delC]
            rfl
          rw [he]
          have hnd2 : (vi :: idxTL cs).Nodup := by
            rw [idxT_mk] at hnd
            exact hnd
          have hvi_cs : vi ∉ idxTL cs := (List.nodup_cons.mp hnd2).1
          refine ⟨?_, rfl, ?_, fun h => Bool.noConfusion h, ?_⟩
          · rw [toTrie_mk, wfN_mk, Bool.and_eq_true]
            exact ⟨hsort, hwfl⟩
          · intro p
            have hL : entVT (vals.set vi zero) zero
                (⟨b0, false, cs, vi⟩ : TrieCNode) P =
                entVTL vals zero cs P := by
              rw [entVT_mk,
                entVTL_set_unlive zero cs P vals vi zero hvi_cs]
              rfl
            have hR : entVT vals zero (⟨b0, true, cs, vi⟩ : TrieCNode) P =
                (P, vals.getD vi zero) :: entVTL vals zero cs P := by
              rw [entVT_mk]
              rfl
            rw [hL, hR]
            simp only [List.append_nil]
            constructor
            · intro hp
              exact ⟨List.mem_cons_of_mem _ hp, entVTL_ne_base hwfl hp⟩
            · intro ⟨hp, hne⟩
              rcases List.mem_cons.mp hp with rfl | hp2
              · exact absurd rfl hne
              · exact hp2
          · intro _
            refine ⟨vi, [], idxTL cs, ?_, ?_, rfl, rfl⟩
            · rw [idxT_mk]
              rfl
            · rw [idxT_mk]
              rfl
      | false =>
          have he : delC zero (⟨b0, false, cs, vi⟩ : TrieCNode) [] vals fl =
              ⟨⟨b0, false, cs, vi⟩, false, false, vals, fl⟩ := by
            rw [delC]
            rfl
          rw [he]
          refine ⟨?_, rfl, ?_, fun _ => ⟨rfl, rfl, rfl⟩,
            fun h => Bool.noConfusion h⟩
          · rw [toTrie_mk, wfN_mk, Bool.and_eq_true]
            exact ⟨hsort, hwfl⟩
          · intro p
            simp only [List.append_nil]
            constructor
            · intro hp
              refine ⟨hp, ?_⟩
              have hp2 : p ∈ entVTL vals zero cs P := by
                rw [entVT_mk] at hp
                simpa using hp
              exact entVTL_ne_base hwfl hp2
            · exact And.left
  | ⟨b0, term, cs, vi⟩, c :: k', P, vals, fl, hwf, hnd => by
      rw [toTrie_mk, wfN_mk, Bool.and_eq_true] at hwf
      obtain ⟨hsort, hwfl⟩ := hwf
      have hwfn : wfN (⟨b0, toTrieL cs, term⟩ : TrieNode) = true := by
        rw [wfN_mk, Bool.and_eq_true]
        exact ⟨hsort, hwfl⟩
      by_cases hfound : (findChildC c cs).2 = true
      case neg =>
        have he : delC zero (⟨b0, term, cs, vi⟩ : TrieCNode) (c :: k') vals
            fl = ⟨⟨b0, term, cs, vi⟩, false, false, vals, fl⟩ := by
          rw [delC]
          simp only []
          rw [if_neg (by simp [hfound])]
        rw [he]
        have hfne : ∀ t ∈ toTrieL cs, hb t ≠ c := by
          refine findChild_not_found (toTrieL cs) c hsort ?_
          rw [← findChildC_snd]
          simpa using hfound
        have habs : P ++ (c :: k') ∉
            entriesT (⟨b0, term, cs, vi⟩ : TrieCNode).toTrie P := by
          rw [toTrie_mk]
          exact key_not_in_unrouted hsort hwfl
            (fun t ht hhbt => absurd hhbt (hfne t ht))
        refine ⟨by rw [toTrie_mk]; exact hwfn, rfl, ?_,
          fun _ => ⟨rfl, rfl, rfl⟩, fun h => Bool.noConfusion h⟩
        intro p
        exact ⟨fun hp => ⟨hp, entVT_key_absent zero vals _ P (c :: k')
          habs p hp⟩, And.left⟩
      case pos =>
        obtain ⟨child, hsome, hhb⟩ := findChildC_found hfound
        have hctT : child.toTrie ∈ toTrieL cs := by
          rw [toTrieL_eq_map]
          exact List.mem_map_of_mem TrieCNode.toTrie
            (List.getElem?_mem hsome)
        obtain ⟨hcbneT, hcwfT⟩ := wfL_mem (toTrieL cs) child.toTrie hctT
          hwfl
        have hcbne : child.b ≠ [] := by
          rw [toTrie_b] at hcbneT
          intro hcon
          rw [hcon] at hcbneT
          simp at hcbneT

        have hcnd : (idxT child).Nodup := child_idx_nodup b0 term cs vi
          (childSearchC c cs) child hsome hnd
        have hsomeT : (toTrieL cs)[childSearchC c cs]? = some child.toTrie
          := by
          rw [toTrieL_getElem, hsome]
          rfl
        have hcbe : (!child.b.isEmpty) = true := by
          rw [← toTrie_b child]
          exact hcbneT
        by_cases hcl : commonPrefixLen child.b (c :: k') = child.b.length
        case neg =>
          have he : delC zero (⟨b0, term, cs, vi⟩ : TrieCNode) (c :: k')
              vals fl = ⟨⟨b0, term, cs, vi⟩, false, false, vals, fl⟩ := by
            rw [delC]
            simp only []
            rw [if_pos hfound, findChildC_fst, hsome]
            simp only []
            rw [if_neg hcl]
          rw [he]
          have habs : P ++ (c :: k') ∉
              entriesT (⟨b0, term, cs, vi⟩ : TrieCNode).toTrie P := by
            rw [toTrie_mk]
            refine key_not_in_unrouted hsort hwfl ?_
            intro t ht hhbt hpre
            have hteq : t = child.toTrie :=
              sorted_hb_unique (toTrieL cs) hsort t ht child.toTrie hctT
                (by rw [hhbt, hb, toTrie_b, hhb])
            rw [hteq, toTrie_b] at hpre
            exact hcl (cpl_eq_left_of_pfx child.b (c :: k') hpre)
          refine ⟨by rw [toTrie_mk]; exact hwfn, rfl, ?_,
            fun _ => ⟨rfl, rfl, rfl⟩, fun h => Bool.noConfusion h⟩
          intro p
          exact ⟨fun hp => ⟨hp, entVT_key_absent zero vals _ P (c :: k')
            habs p hp⟩, And.left⟩
        case pos =>
          rcases hres : delC zero child
            ((c :: k').drop (commonPrefixLen child.b (c :: k'))) vals fl
            with ⟨node', del', cont', vals', fl'⟩
          have hIH := delC_spec zero child
            ((c :: k').drop (commonPrefixLen child.b (c :: k')))
            (P ++ child.b) vals fl hcwfT hcnd
          rw [hres] at hIH
          have ihwf : wfN node'.toTrie = true := hIH.1
          have ihb : node'.b = child.b := hIH.2.1
          have ihiff : ∀ p : List Nat × V,
              p ∈ entVT vals' zero node' (P ++ child.b) ↔
              (p ∈ entVT vals zero child (P ++ child.b) ∧
                p.1 ≠ (P ++ child.b) ++
                  ((c :: k').drop (commonPrefixLen child.b (c :: k')))) :=
            hIH.2.2.1
          have ihnotdel : del' = false →
              node' = child ∧ vals' = vals ∧ fl' = fl := hIH.2.2.2.1
          have ihdel : del' = true →
              ∃ vi0 l1 l2, idxT child = l1 ++ vi0 :: l2 ∧
                idxT node' = l1 ++ l2 ∧ vals' = vals.set vi0 zero ∧
                fl' = fl ++ [vi0] := hIH.2.2.2.2
          have hkey : P ++ child.b ++
              ((c :: k').drop (commonPrefixLen child.b (c :: k'))) =
              P ++ (c :: k') := by
            obtain ⟨t0, ht0⟩ := cpl_pfx_of_eq_left child.b (c :: k') hcl
            have hdrop : (c :: k').drop
                (commonPrefixLen child.b (c :: k')) = t0 := by
              rw [hcl, ← ht0]
              simp
            rw [hdrop, List.append_assoc, ht0]
          cases del' with
          | false =>
              obtain ⟨hn', hv', hf'⟩ := ihnotdel rfl
              have he : delC zero (⟨b0, term, cs, vi⟩ : TrieCNode)
                  (c :: k') vals fl =
                  ⟨⟨b0, term, cs, vi⟩, false, false, vals, fl⟩ := by
                rw [delC]
                simp only []
                rw [if_pos hfound, findChildC_fst, hsome]
                simp only []
                rw [if_pos hcl, hres]
                simp
              rw [he]
              have hchild_ne : ∀ p : List Nat × V,
                  p ∈ entVT vals zero child (P ++ child.b) →
                  p.1 ≠ P ++ (c :: k') := by
                intro p hp
                rw [← hkey]
                rw [hn', hv'] at ihiff
                exact ((ihiff p).mp hp).2
              refine ⟨by rw [toTrie_mk]; exact hwfn, rfl, ?_,
                fun _ => ⟨rfl, rfl, rfl⟩, fun h => Bool.noConfusion h⟩
              intro p
              exact ⟨fun hp => ⟨hp, entC_key_unique_route zero vals b0 term
                cs vi (childSearchC c cs) child P c k' hsome hsort hwfl
                hhb hchild_ne p hp⟩, And.left⟩
          | true =>
              obtain ⟨vi0, m1, m2, hm, hmI, hval', hfl'⟩ := ihdel rfl
              subst hval' hfl'
              have hvi0mem : vi0 ∈ idxT child := by
                rw [hm]
                simp
              have hx : ∀ p : List Nat × V,
                  p ∈ entVT (vals.set vi0 zero) zero node'
                    (P ++ node'.b) ↔
                  (p ∈ entVT vals zero child (P ++ child.b) ∧
                    p.1 ≠ P ++ (c :: k')) := by
                intro p
                rw [ihb, ← hkey]
                exact ihiff p
              have hwf_set : wfN (⟨b0, term,
                  cs.set (childSearchC c cs) node', vi⟩ :
                  TrieCNode).toTrie = true := by
                rw [toTrie_mk, toTrieL_set]
                refine wfN_set_child b0 (toTrieL cs) term
                  (childSearchC c cs) child.toTrie node'.toTrie hsomeT
                  hsort hwfl ihwf ?_ ?_
                · rw [toTrie_b, ihb]
                  exact hcbe
                · rw [hb, hb, toTrie_b, toTrie_b, ihb]
              cases cont' with
              | false =>
                  have he : delC zero (⟨b0, term, cs, vi⟩ : TrieCNode)
                      (c :: k') vals fl =
                      ⟨⟨b0, term, cs.set (childSearchC c cs) node', vi⟩,
                        true, false, vals.set vi0 zero, fl ++ [vi0]⟩ := by
                    rw [delC]
                    simp only []
                    rw [if_pos hfound, findChildC_fst, hsome]
                    simp only []
                    rw [if_pos hcl, hres]
                    simp
                  rw [he]
                  obtain ⟨haiff, hal⟩ := delC_assemble zero b0 term cs vi
                    (childSearchC c cs) child node' P c k' vals vi0 hsome
                    hsort hwfl hhb hnd hvi0mem hx ⟨m1, m2, hm, hmI⟩
                  refine ⟨hwf_set, rfl, haiff,
                    fun h => Bool.noConfusion h, ?_⟩
                  intro _
                  obtain ⟨l1, l2, ha1, ha2⟩ := hal
                  exact ⟨vi0, l1, l2, ha1, ha2, rfl, rfl⟩
              | true =>
                  obtain ⟨xb, xt, xcs, xvi⟩ := node'
                  simp only [TrieCNode.bC_mk] at ihb
                  by_cases hc1 : (xcs.isEmpty && !xt) = true
                  · -- cleanup removes the childless non-terminal child
                    rw [Bool.and_eq_true] at hc1
                    obtain rfl : xcs = [] := List.isEmpty_iff.mp hc1.1
                    obtain rfl : xt = false := by
                      have := hc1.2
                      cases xt with
                      | false => rfl
                      | true => simp at this
                    have hvempty : ∀ Q, entVT (vals.set vi0 zero) zero
                        (⟨xb, false, [], xvi⟩ : TrieCNode) Q = [] := by
                      intro Q
                      rw [entVT_mk, entVTL]
                      rfl
                    have hiempty : idxT (⟨xb, false, [], xvi⟩ :
                        TrieCNode) = [] := by
                      rw [idxT_mk, idxTL]
                      rfl
                    have hsub : ∀ p : List Nat × V,
                        p ∈ entVT vals zero child (P ++ child.b) →
                        p.1 = P ++ (c :: k') := by
                      intro p hp
                      by_contra hne
                      have h2 := (hx p).mpr ⟨hp, hne⟩
                      rw [hvempty] at h2
                      simp at h2
                    have hchi : idxT child = [vi0] := by
                      rw [hiempty] at hmI
                      obtain ⟨rfl, rfl⟩ := List.append_eq_nil.mp hmI.symm
                      simpa using hm
                    have he : delC zero (⟨b0, term, cs, vi⟩ : TrieCNode)
                        (c :: k') vals fl =
                        ⟨⟨b0, term,
                          (cs.set (childSearchC c cs)
                            ⟨xb, false, [], xvi⟩).eraseIdx
                              (childSearchC c cs), vi⟩,
                          true, true, vals.set vi0 zero, fl ++ [vi0]⟩ := by
                      rw [delC]
                      simp only []
                      rw [if_pos hfound, findChildC_fst, hsome]
                      simp only []
                      rw [if_pos hcl, hres]
                      simp
                    rw [he, eraseIdx_set]
                    obtain ⟨haiff, hal⟩ := delC_assemble_erase zero b0
                      term cs vi (childSearchC c cs) child P c k' vals
                      vi0 hsome hsort hwfl hhb hnd hvi0mem hsub hchi
                    refine ⟨?_, rfl, haiff, fun h => Bool.noConfusion h,
                      ?_⟩
                    · rw [toTrie_mk, toTrieL_eraseIdx]
                      exact wfN_erase_child b0 (toTrieL cs) term
                        (childSearchC c cs) child.toTrie hsomeT hsort
                        hwfl
                    · intro _
                      obtain ⟨l1, l2, ha1, ha2⟩ := hal
                      exact ⟨vi0, l1, l2, ha1, ha2, rfl, rfl⟩
                  · by_cases hc2 : (xcs.length == 1 && !xt) = true
                    · -- cleanup merges the single-child non-terminal child
                      rw [Bool.and_eq_true] at hc2
                      obtain rfl : xt = false := by
                        have := hc2.2
                        cases xt with
                        | false => rfl
                        | true => simp at this
                      obtain ⟨c0, rfl⟩ : ∃ c0, xcs = [c0] := by
                        have hlen : xcs.length = 1 := by
                          simpa using hc2.1
                        cases xcs with
                        | nil => simp at hlen
                        | cons a l =>
                            cases l with
                            | nil => exact ⟨a, rfl⟩
                            | cons b2 l2 => simp at hlen
                      obtain ⟨c0b, c0t, c0c, c0vi⟩ := c0
                      have hxbne : xb ≠ [] := by
                        rw [ihb]
                        intro hcon
                        rw [hcon] at hcbe
                        simp at hcbe
                      have he : delC zero (⟨b0, term, cs, vi⟩ : TrieCNode)
                          (c :: k') vals fl =
                          ⟨⟨b0, term,
                            (cs.set (childSearchC c cs)
                              ⟨xb, false, [⟨c0b, c0t, c0c, c0vi⟩],
                                xvi⟩).set (childSearchC c cs)
                              ⟨xb ++ c0b, c0t, c0c, c0vi⟩, vi⟩,
                            true, true, vals.set vi0 zero, fl ++ [vi0]⟩
                          := by
                        rw [delC]
                        simp only []
                        rw [if_pos hfound, findChildC_fst, hsome]
                        simp only []
                        rw [if_pos hcl, hres]
                        simp
                      rw [he, set_set_idx]
                      have hx2 : ∀ p : List Nat × V,
                          p ∈ entVT (vals.set vi0 zero) zero
                            (⟨xb ++ c0b, c0t, c0c, c0vi⟩ : TrieCNode)
                            (P ++ (⟨xb ++ c0b, c0t, c0c, c0vi⟩ :
                              TrieCNode).b) ↔
                          (p ∈ entVT vals zero child (P ++ child.b) ∧
                            p.1 ≠ P ++ (c :: k')) := by
                        intro p
                        rw [show (⟨xb ++ c0b, c0t, c0c, c0vi⟩ :
                          TrieCNode).b = xb ++ c0b from rfl]
                        rw [entVT_b_indep (vals.set vi0 zero) zero
                          (xb ++ c0b) c0b c0t c0c c0vi]
                        have hold : entVT (vals.set vi0 zero) zero
                            (⟨xb, false, [⟨c0b, c0t, c0c, c0vi⟩], xvi⟩ :
                              TrieCNode) (P ++ xb) =
                            entVT (vals.set vi0 zero) zero
                              (⟨c0b, c0t, c0c, c0vi⟩ : TrieCNode)
                              ((P ++ xb) ++ c0b) := by
                          rw [entVT_mk, entVTL_cons, entVTL]
                          simp
                        have hpath : P ++ (xb ++ c0b) = (P ++ xb) ++ c0b
                          := by rw [List.append_assoc]
                        rw [hpath, ← hold]
                        exact hx p
                      have hxi2 : idxT (⟨xb ++ c0b, c0t, c0c, c0vi⟩ :
                          TrieCNode) = m1 ++ m2 := by
                        rw [idxT_b_indep (xb ++ c0b) c0b c0t c0c c0vi]
                        have : idxT (⟨xb, false,
                            [⟨c0b, c0t, c0c, c0vi⟩], xvi⟩ : TrieCNode) =
                            idxT (⟨c0b, c0t, c0c, c0vi⟩ : TrieCNode) := by
                          rw [idxT_mk, idxTL_cons, idxTL]
                          simp
                        rw [← this]
                        exact hmI
                      obtain ⟨haiff, hal⟩ := delC_assemble zero b0 term
                        cs vi (childSearchC c cs) child
                        ⟨xb ++ c0b, c0t, c0c, c0vi⟩ P c k' vals vi0
                        hsome hsort hwfl hhb hnd hvi0mem hx2
                        ⟨m1, m2, hm, hxi2⟩
                      refine ⟨?_, rfl, haiff, fun h => Bool.noConfusion h,
                        ?_⟩
                      · rw [toTrie_mk, toTrieL_set]
                        refine wfN_set_child b0 (toTrieL cs) term
                          (childSearchC c cs) child.toTrie _ hsomeT hsort
                          hwfl ?_ ?_ ?_
                        · rw [toTrie_mk, wfN_mk, Bool.and_eq_true]
                          have h0 := ihwf
                          rw [toTrie_mk, wfN_mk, Bool.and_eq_true] at h0
                          obtain ⟨_, h0w⟩ := h0
                          rw [toTrieL, toTrieL, wfL_cons,
                            Bool.and_eq_true, Bool.and_eq_true] at h0w
                          have h0c := h0w.1.2
                          rw [toTrie_mk, wfN_mk, Bool.and_eq_true] at h0c
                          exact h0c
                        · rw [toTrie_b]
                          cases hxbe : xb with
                          | nil => exact absurd hxbe hxbne
                          | cons a l => simp
                        · rw [hb, hb, toTrie_b, toTrie_b]
                          rw [show (⟨xb ++ c0b, c0t, c0c, c0vi⟩ :
                            TrieCNode).b = xb ++ c0b from rfl]
                          rw [headD_append_left xb c0b hxbne, ihb]
                      · intro _
                        obtain ⟨l1, l2, ha1, ha2⟩ := hal
                        exact ⟨vi0, l1, l2, ha1, ha2, rfl, rfl⟩
                    · -- the child is stable: cleanup stops here
                      have he : delC zero (⟨b0, term, cs, vi⟩ :
                          TrieCNode) (c :: k') vals fl =
                          ⟨⟨b0, term, cs.set (childSearchC c cs)
                            ⟨xb, xt, xcs, xvi⟩, vi⟩,
                            true, false, vals.set vi0 zero, fl ++ [vi0]⟩
                          := by
                        rw [delC]
                        simp only []
                        rw [if_pos hfound, findChildC_fst, hsome]
                        simp only []
                        rw [if_pos hcl, hres]
                        simp only [DelCRes.deleted_mk, DelCRes.cont_mk,
                          DelCRes.node_mk, DelCRes.values_mk,
                          DelCRes.freelist_mk]
                        simp only [TrieCNode.childrenC_mk,
                          TrieCNode.terminalC_mk]
                        rw [if_neg (show ¬((xcs.isEmpty && !xt) = true)
                          from hc1)]
                        rw [if_neg (show ¬((xcs.length == 1 && !xt) = true)
                          from hc2)]
                        simp
                      rw [he]
                      obtain ⟨haiff, hal⟩ := delC_assemble zero b0 term
                        cs vi (childSearchC c cs) child
                        ⟨xb, xt, xcs, xvi⟩ P c k' vals vi0 hsome hsort
                        hwfl hhb hnd hvi0mem hx ⟨m1, m2, hm, hmI⟩
                      refine ⟨hwf_set, rfl, haiff,
                        fun h => Bool.noConfusion h, ?_⟩
                      intro _
                      obtain ⟨l1, l2, ha1, ha2⟩ := hal
                      exact ⟨vi0, l1, l2, ha1, ha2, rfl, rfl⟩
termination_by n _ _ _ _ => sizeOf n
decreasing_by
  simp_wf
  have hmem := List.getElem?_mem hsome
  have := List.sizeOf_lt_of_mem hmem
  omega

theorem entVTL_mem_pair (vals : List V) (zero : V) :
    ∀ (cs : List TrieCNode) (P : List Nat) (child : TrieCNode),
    child ∈ cs → ∀ p : List Nat × V,
    p ∈ entVT vals zero child (P ++ child.b) → p ∈ entVTL vals zero cs P
  | [], _, _, hc, _, _ => absurd hc (by simp)
  | c0 :: rest, P, child, hc, p, hp => by
      rw [entVTL_cons]
      rcases List.mem_cons.mp hc with rfl | hc2
      · exact List.mem_append_left _ hp
      · exact List.mem_append_right _
          (entVTL_mem_pair vals zero rest P child hc2 p hp)

/-- The descent loop of `KVCache.ListByPrefix`: with a coherent arena it
returns the values of exactly the keys extending `P ++ (c :: sk')`, in
stored (ascending) order. -/
theorem listLoopC_spec (zero : V) (g : List Nat → V) :
    ∀ (node : TrieCNode) (c : Nat) (sk' P : List Nat)
    (vals : List V) (root : TrieCNode),
    wfN node.toTrie = true →
    (∀ p : List Nat × V, p ∈ entVT vals zero node P → p.2 = g p.1) →
    listLoopC vals zero root node (c :: sk') P =
      ((entriesT node.toTrie P).filter
        (fun k => decide ((P ++ (c :: sk')) <+: k))).map g
  | ⟨b0, term, cs, vi⟩, c, sk', P, vals, root, hwf, hcoh => by
      rw [toTrie_mk] at hwf ⊢
      rw [wfN_mk, Bool.and_eq_true] at hwf
      obtain ⟨hsort, hwfl⟩ := hwf
      by_cases hfound : (findChildC c cs).2 = true
      case neg =>
        have he : listLoopC vals zero root (⟨b0, term, cs, vi⟩ :
            TrieCNode) (c :: sk') P = [] := by
          rw [listLoopC]
          simp only [TrieCNode.childrenC_mk]
          rw [if_neg (by simp [hfound])]
        rw [he]
        have hfne := findChild_not_found (toTrieL cs) c hsort
          (by rw [← findChildC_snd]; simpa using hfound)
        have hflt : (entriesT (⟨b0, toTrieL cs, term⟩ : TrieNode) P).filter
            (fun k => decide ((P ++ (c :: sk')) <+: k)) = [] := by
          refine List.filter_eq_nil_iff.mpr ?_
          intro k hk hpred
          simp only [decide_eq_true_eq] at hpred
          rw [entriesT_mk, List.mem_append] at hk
          rcases hk with h | h
          · have hkP : k = P := by cases term <;> simpa using h
            rw [hkP] at hpred
            have := hpred.length_le
            simp at this
          · obtain ⟨c', hc', hkc'⟩ := entriesTL_pfx (toTrieL cs) P k h
            have hcb' : (!c'.b.isEmpty) = true :=
              (wfL_mem (toTrieL cs) c' hc' hwfl).1
            exact hfne c' hc' (routed_key_hb2 hcb' hkc' hpred)
        rw [hflt]
        rfl
      case pos =>
        obtain ⟨child, hsome, hhb⟩ := findChildC_found hfound
        have hmemc := List.getElem?_mem hsome
        have hctT : child.toTrie ∈ toTrieL cs := by
          rw [toTrieL_eq_map]
          exact List.mem_map_of_mem TrieCNode.toTrie hmemc
        obtain ⟨hcbneT, hcwfT⟩ := wfL_mem (toTrieL cs) child.toTrie hctT
          hwfl
        have hsomeT : (toTrieL cs)[childSearchC c cs]? =
            some child.toTrie := by
          rw [toTrieL_getElem, hsome]
          rfl
        have hsomeT2 : (toTrieL cs)[childSearch c (toTrieL cs)]? =
            some child.toTrie := by
          rw [← childSearchC_toTrie]
          exact hsomeT
        have hhbT : hb child.toTrie = c := by
          rw [hb, toTrie_b]
          exact hhb
        have hroute : (entriesT (⟨b0, toTrieL cs, term⟩ : TrieNode)
              P).filter (fun k0 => decide ((P ++ (c :: sk')) <+: k0)) =
            (entriesT child.toTrie (P ++ child.toTrie.b)).filter
              (fun k0 => decide ((P ++ (c :: sk')) <+: k0)) :=
          entries_filter_route P sk' hsort hwfl hsomeT2 hhbT
        have hcsub : ∀ p : List Nat × V,
            p ∈ entVT vals zero child (P ++ child.b) → p.2 = g p.1 := by
          intro p hp
          refine hcoh p ?_
          rw [entVT_mk]
          exact List.mem_append_right _
            (entVTL_mem_pair vals zero cs P child hmemc p hp)
        by_cases hlt : commonPrefixLen child.b (c :: sk') <
            (c :: sk').length
        · by_cases hlt2 : commonPrefixLen child.b (c :: sk') <
              child.b.length
          · -- divergence inside the child's segment
            have he : listLoopC vals zero root (⟨b0, term, cs, vi⟩ :
                TrieCNode) (c :: sk') P = [] := by
              rw [listLoopC]
              simp only [TrieCNode.childrenC_mk]
              rw [if_pos hfound, findChildC_fst, hsome]
              simp only []
              rw [if_pos hlt, if_pos hlt2]
            rw [he, hroute]
            have hflt : (entriesT child.toTrie (P ++ child.toTrie.b)).filter
                (fun k => decide ((P ++ (c :: sk')) <+: k)) = [] := by
              refine List.filter_eq_nil_iff.mpr ?_
              intro k hk hpred
              simp only [decide_eq_true_eq] at hpred
              have hkc : (P ++ child.toTrie.b) <+: k :=
                entriesT_pfx child.toTrie (P ++ child.toTrie.b) k hk
              rw [toTrie_b] at hkc
              rcases List.prefix_or_prefix_of_prefix hkc hpred with h | h
              · have h2 : child.b <+: (c :: sk') :=
                  (List.prefix_append_right_inj P).mp h
                have := cpl_eq_left_of_pfx child.b (c :: sk') h2
                omega
              · have h2 : (c :: sk') <+: child.b :=
                  (List.prefix_append_right_inj P).mp h
                have h3 := cpl_eq_left_of_pfx (c :: sk') child.b h2
                rw [cpl_comm] at h3
                omega
            rw [hflt]
            rfl
          · -- the whole child segment is consumed: descend
            have hclen : commonPrefixLen child.b (c :: sk') =
                child.b.length := by
              have := cpl_le_left child.b (c :: sk')
              omega
            have hpfx : child.b <+: (c :: sk') :=
              cpl_pfx_of_eq_left child.b (c :: sk') hclen
            obtain ⟨t0, ht0⟩ := hpfx
            have hdrop : (c :: sk').drop
                (commonPrefixLen child.b (c :: sk')) = t0 := by
              rw [hclen, ← ht0]
              simp
            have ht0ne : t0 ≠ [] := by
              intro h0
              rw [h0, List.append_nil] at ht0
              have hlen : child.b.length = (c :: sk').length := by
                rw [ht0]
              omega
            obtain ⟨c2v, t0v, rfl⟩ : ∃ c2v t0v, t0 = c2v :: t0v := by
              cases t0 with
              | nil => exact absurd rfl ht0ne
              | cons a l => exact ⟨a, l, rfl⟩
            have htake : child.b.take
                (commonPrefixLen child.b (c :: sk')) = child.b := by
              rw [hclen]
              simp
            have he : listLoopC vals zero root (⟨b0, term, cs, vi⟩ :
                TrieCNode) (c :: sk') P =
                listLoopC vals zero root child (c2v :: t0v)
                  (P ++ child.b) := by
              rw [listLoopC]
              simp only [TrieCNode.childrenC_mk]
              rw [if_pos hfound, findChildC_fst, hsome]
              simp only []
              rw [if_pos hlt, if_neg (by omega), hdrop, htake]
            rw [he]
            rw [listLoopC_spec zero g child c2v t0v (P ++ child.b) vals
              root hcwfT hcsub]
            rw [hroute, toTrie_b]
            have hkey : P ++ child.b ++ (c2v :: t0v) = P ++ (c :: sk')
              := by
              rw [List.append_assoc, ht0]
            rw [hkey]
        · -- the search key is consumed: list the whole child subtree
          have hclen : commonPrefixLen child.b (c :: sk') =
              (c :: sk').length := by
            have := cpl_le_right child.b (c :: sk')
            omega
          have hpfx : (c :: sk') <+: child.b := by
            refine cpl_pfx_of_eq_left (c :: sk') child.b ?_
            rw [cpl_comm]
            exact hclen
          have he : listLoopC vals zero root (⟨b0, term, cs, vi⟩ :
              TrieCNode) (c :: sk') P =
              dfsC vals zero child
                (P ++ child.b.take (commonPrefixLen child.b (c :: sk')) ++
                  child.b.drop (commonPrefixLen child.b (c :: sk'))) := by
            rw [listLoopC]
            simp only [TrieCNode.childrenC_mk]
            rw [if_pos hfound, findChildC_fst, hsome]
            simp only []
            rw [if_neg hlt]
          rw [he]
          rw [dfsC_entries vals zero child (P ++ child.b) _ g hcsub]
          rw [hroute, toTrie_b]
          have hall : (entriesT child.toTrie (P ++ child.b)).filter
              (fun k => decide ((P ++ (c :: sk')) <+: k)) =
              entriesT child.toTrie (P ++ child.b) := by
            refine List.filter_eq_self.mpr ?_
            intro k hk
            simp only [decide_eq_true_eq]
            have hkc : (P ++ child.b) <+: k := by
              have hk2 : k ∈ entriesT child.toTrie (P ++ child.toTrie.b)
                := by rw [toTrie_b]; exact hk
              have := entriesT_pfx child.toTrie (P ++ child.toTrie.b) k hk2
              rw [toTrie_b] at this
              exact this
            refine List.IsPrefix.trans ?_ hkc
            exact (List.prefix_append_right_inj P).mpr hpfx
          rw [hall]
termination_by n _ _ _ _ _ => sizeOf n
decreasing_by
  simp_wf
  have := List.sizeOf_lt_of_mem (List.getElem?_mem hsome)
  omega

/-- `KVCache.ListByPrefix` (kv_cache.go) as a whole: with a well-formed
trie whose arena is coherent with `g`, it lists the values of exactly the
keys extending `pfx`, in trie (ascending) order. -/
theorem KVC_ListByPrefix_entries (kvc : KVC V) (pfx : List Nat)
    (g : List Nat → V) (hwf : wfN kvc.trie.toTrie = true)
    (hcoh : ∀ p : List Nat × V,
      p ∈ entVT kvc.values (default : V) kvc.trie [] → p.2 = g p.1) :
    kvc.ListByPrefix pfx =
      ((entriesT kvc.trie.toTrie []).filter
        (fun k => decide (pfx <+: k))).map g := by
  cases pfx with
  | nil =>
      rw [KVC.ListByPrefix, listLoopC]
      rw [dfsC_entries kvc.values (default : V) kvc.trie [] [] g hcoh]
      have hall : (entriesT kvc.trie.toTrie []).filter
          (fun k => decide (([] : List Nat) <+: k)) =
          entriesT kvc.trie.toTrie [] := by
        refine List.filter_eq_self.mpr ?_
        intro k _
        simp only [decide_eq_true_eq]
        exact List.nil_prefix
      rw [hall]
  | cons c sk' =>
      rw [KVC.ListByPrefix]
      rw [listLoopC_spec (default : V) g kvc.trie c sk' [] kvc.values
        kvc.trie hwf hcoh]
      simp

def applyKVCOp (kvc : KVC V) : KVOp V → KVC V
  | .set k v => kvc.Set k v
  | .del k => kvc.Del k

def applyKVCOps (kvc : KVC V) (ops : List (KVOp V)) : KVC V :=
  ops.foldl applyKVCOp kvc

/-- The sequence of operations replayed on a plain association list. -/
def applyModelOp (m : List (List Nat × V)) : KVOp V → List (List Nat × V)
  | .set k v => insertK m k v
  | .del k => eraseK m k

def applyModelOps (m : List (List Nat × V)) (ops : List (KVOp V)) :
    List (List Nat × V) :=
  ops.foldl applyModelOp m

theorem applyKVOps_data : ∀ (ops : List (KVOp V)) (kv : KVW V),
    (applyKVOps kv ops).data = applyModelOps kv.data ops
  | [], _ => rfl
  | op :: rest, kv => by
      rw [show applyKVOps kv (op :: rest) =
        applyKVOps (applyKVOp kv op) rest from rfl]
      rw [show applyModelOps kv.data (op :: rest) =
        applyModelOps (applyModelOp kv.data op) rest from rfl]
      rw [applyKVOps_data rest (applyKVOp kv op)]
      have h : (applyKVOp kv op).data = applyModelOp kv.data op := by
        cases op <;> rfl
      rw [h]

theorem nodup_insert_middle {A : Type} {l1 l2 : List A} {a : A}
    (h : (l1 ++ l2).Nodup) (ha : a ∉ l1 ++ l2) : (l1 ++ a :: l2).Nodup := by
  rw [List.nodup_append] at h ⊢
  rw [List.mem_append] at ha
  obtain ⟨h1, h2, hd⟩ := h
  refine ⟨h1, ?_, ?_⟩
  · rw [List.nodup_cons]
    exact ⟨fun hc => ha (Or.inr hc), h2⟩
  · intro x hx hmem
    rw [List.mem_cons] at hmem
    rcases hmem with rfl | hc
    · exact ha (Or.inl hx)
    · exact hd hx hc

/-- Coherence invariant of the KV engine: a well-formed trie, sound arena
bookkeeping (live value indices distinct, in bounds and disjoint from the
freelist), and stored entries agreeing with the model association list. -/
def KVCInv (kvc : KVC V) (model : List (List Nat × V)) : Prop :=
  wfN kvc.trie.toTrie = true ∧
  (idxT kvc.trie).Nodup ∧
  (∀ j ∈ idxT kvc.trie, j < kvc.values.length) ∧
  (∀ j ∈ kvc.freelist, j ∉ idxT kvc.trie) ∧
  (∀ j ∈ kvc.freelist, j < kvc.values.length) ∧
  kvc.freelist.Nodup ∧
  (∀ p : List Nat × V, p ∈ entVT kvc.values (default : V) kvc.trie [] ↔
    lookupK model p.1 = some p.2)

theorem idxTL_nil : idxTL [] = [] := by
  rw [idxTL]

theorem KVCInv_init : KVCInv (KVC.init (V := V)) [] := by
  refine ⟨rfl, by simp [KVC.init, idxT_mk, idxTL_nil], ?_, ?_, ?_, ?_, ?_⟩
  · intro j hj
    simp [KVC.init, idxT_mk, idxTL_nil] at hj
  · intro j hj
    simp [KVC.init] at hj
  · intro j hj
    simp [KVC.init] at hj
  · simp [KVC.init]
  · intro p
    rw [KVC.init]
    simp only [entVT_mk]
    constructor
    · intro h
      simp [entVTL] at h
    · intro h
      simp [lookupK] at h

theorem KVCInv_set (kvc : KVC V) (model : List (List Nat × V))
    (k : List Nat) (v : V) (h : KVCInv kvc model) :
    KVCInv (kvc.Set k v) (insertK model k v) := by
  obtain ⟨hwf, hnd, hbound, hdisj, hflb, hflnd, hiff⟩ := h
  obtain ⟨hins, harena⟩ := insertC_spec (default : V) kvc.trie k [] v
    kvc.values kvc.freelist hwf hnd hbound hdisj hflb
  have htrie : (kvc.Set k v).trie =
      (insertC kvc.trie k v kvc.values kvc.freelist).1 := rfl
  have hvals : (kvc.Set k v).values =
      (insertC kvc.trie k v kvc.values kvc.freelist).2.1 := rfl
  have hflq : (kvc.Set k v).freelist =
      (insertC kvc.trie k v kvc.values kvc.freelist).2.2 := rfl
  have hwf2 : wfN (kvc.Set k v).trie.toTrie = true := by
    rw [htrie, insertC_toTrie]
    exact (insertKey_spec kvc.trie.toTrie k [] hwf).1
  have hiff2 : ∀ p : List Nat × V,
      p ∈ entVT (kvc.Set k v).values (default : V) (kvc.Set k v).trie [] ↔
      lookupK (insertK model k v) p.1 = some p.2 := by
    intro p
    rw [htrie, hvals, hins p]
    constructor
    · rintro (rfl | ⟨hp, hne⟩)
      · exact lookupK_insertK_self model k v
      · have hne' : p.1 ≠ k := by simpa using hne
        rw [lookupK_insertK_ne model k p.1 v hne']
        exact (hiff p).mp hp
    · intro hl
      by_cases hk : p.1 = k
      · left
        rw [hk, lookupK_insertK_self] at hl
        have hv2 : p.2 = v := by
          injection hl with h2
          exact h2.symm
        have : p = (p.1, p.2) := rfl
        rw [this, hk, hv2]
        rfl
      · right
        rw [lookupK_insertK_ne model k p.1 v hk] at hl
        exact ⟨(hiff p).mpr hl, by simpa using hk⟩
  rcases harena with ⟨hidx, ⟨vi0, hvi0, hv'⟩, hf'⟩ |
    ⟨⟨l1, l2, hsplit, hidx⟩, hv', hf'⟩
  · refine ⟨hwf2, ?_, ?_, ?_, ?_, ?_, hiff2⟩
    · rw [htrie, hidx]
      exact hnd
    · intro j hj
      rw [htrie, hidx] at hj
      rw [hvals, hv', List.length_set]
      exact hbound j hj
    · intro j hj
      rw [hflq, hf'] at hj
      rw [htrie, hidx]
      exact hdisj j hj
    · intro j hj
      rw [hflq, hf'] at hj
      rw [hvals, hv', List.length_set]
      exact hflb j hj
    · rw [hflq, hf']
      exact hflnd
  · rcases List.eq_nil_or_concat kvc.freelist with hnil | ⟨l0, x, hcat⟩
    · have hav : addValue v kvc.values kvc.freelist =
          (kvc.values.length, kvc.values ++ [v], kvc.freelist) := by
        rw [hnil]
        rfl
      have hnotin : kvc.values.length ∉ l1 ++ l2 := by
        rw [← hsplit]
        intro hc
        exact absurd (hbound _ hc) (by omega)
      refine ⟨hwf2, ?_, ?_, ?_, ?_, ?_, hiff2⟩
      · rw [htrie, hidx, hav]
        rw [hsplit] at hnd
        exact nodup_insert_middle hnd hnotin
      · intro j hj
        rw [htrie, hidx, hav] at hj
        rw [hvals, hv', hav]
        simp only [List.length_append, List.length_cons, List.length_nil]
        rw [List.mem_append, List.mem_cons] at hj
        rcases hj with hj | hj | hj
        · have := hbound j (by rw [hsplit]; exact List.mem_append_left _ hj)
          omega
        · omega
        · have := hbound j (by rw [hsplit]; exact List.mem_append_right _ hj)
          omega
      · intro j hj
        rw [hflq, hf', hav, hnil] at hj
        simp at hj
      · intro j hj
        rw [hflq, hf', hav, hnil] at hj
        simp at hj
      · rw [hflq, hf', hav, hnil]
        exact List.nodup_nil
    · have hcat2 : kvc.freelist = l0 ++ [x] := by
        rw [hcat, List.concat_eq_append]
      have hgl : kvc.freelist.getLast? = some x := by
        rw [hcat2]
        exact List.getLast?_concat l0
      have hav : addValue v kvc.values kvc.freelist =
          (x, kvc.values.set x v, l0) := by
        rw [addValue, hgl]
        rw [hcat2, List.dropLast_concat]
      have hxfl : x ∈ kvc.freelist := by
        rw [hcat2]
        exact List.mem_append_right _ (List.mem_singleton_self x)
      have hxlive : x ∉ idxT kvc.trie := hdisj x hxfl
      have hxbound : x < kvc.values.length := hflb x hxfl
      have hxl0 : x ∉ l0 := by
        intro hc
        have := hflnd
        rw [hcat2, List.nodup_append] at this
        exact this.2.2 hc (List.mem_singleton_self x)
      have hidx2 : idxT (kvc.Set k v).trie = l1 ++ x :: l2 := by
        rw [htrie, hidx]
        simp only [hav]
      have hv2 : (kvc.Set k v).values = kvc.values.set x v := by
        rw [hvals, hv']
        simp only [hav]
      have hf2 : (kvc.Set k v).freelist = l0 := by
        rw [hflq, hf']
        simp only [hav]
      refine ⟨hwf2, ?_, ?_, ?_, ?_, ?_, hiff2⟩
      · rw [hidx2]
        rw [hsplit] at hnd hxlive
        exact nodup_insert_middle hnd hxlive
      · intro j hj
        rw [hidx2] at hj
        rw [hv2, List.length_set]
        rw [List.mem_append, List.mem_cons] at hj
        rcases hj with hj | hj | hj
        · exact hbound j (by rw [hsplit]; exact List.mem_append_left _ hj)
        · omega
        · exact hbound j (by rw [hsplit]; exact List.mem_append_right _ hj)
      · intro j hj
        rw [hf2] at hj
        rw [hidx2]
        have hjfl : j ∈ kvc.freelist := by
          rw [hcat2]
          exact List.mem_append_left _ hj
        have hjlive := hdisj j hjfl
        rw [hsplit, List.mem_append] at hjlive
        rw [List.mem_append, List.mem_cons]
        rintro (hc | hc | hc)
        · exact hjlive (Or.inl hc)
        · rw [hc] at hj
          exact hxl0 hj
        · exact hjlive (Or.inr hc)
      · intro j hj
        rw [hf2] at hj
        rw [hv2, List.length_set]
        exact hflb j (by rw [hcat2]; exact List.mem_append_left _ hj)
      · rw [hf2]
        have := hflnd
        rw [hcat2, List.nodup_append] at this
        exact this.1
